import Mathlib

/-!
# Verification development for the peercode graph containers

Shallow embeddings of `hw2/Graph_2236.hpp` (an undirected graph container with
handle objects, uid-to-index maps and a nested adjacency map; namespace
`Graph2236`), of `hw2/Graph_2056.hpp` (uid-indexed value vectors with
index-to-uid and uid-to-index vectors and a nested `std::map`; namespace
`Graph2056`), of `hw2/Graph_982.hpp` (edges stored as pairs of node handles;
namespace `Graph982`), of `hw1/Graph_1983.hpp` (edge numbers in a nested
adjacency map; namespace `Graph1983`), of `hw3/Graph_2460.hpp` (index handles,
removal by swap-and-pop; namespace `Graph2460`), of `hw3/Graph_2362.hpp`
(uid handles, index-to-uid vectors, removal by `erase`; namespace
`Graph2362`), of `hw1/Graph_1193.hpp` (edges as ordered pairs of node
indices next to a nested `std::map`; namespace `Graph1193`) and of
`hw0/Graph_2543.hpp` (nodes and edges in `std::map`s; namespace `Graph2543`),
and proofs of their contracts. The definitions of all models come first, the
theorems follow.

Modelling conventions.
* `size_type` is `unsigned`: arithmetic on it is arithmetic modulo `2 ^ 32`.
* A `Graph*` is a natural number (the address of the graph); the graph state
  records its own address in the field `addr` (the `this` pointer).
* `std::vector` is `List`; `std::unordered_map` is an association list with at
  most one entry per key; the order of the list is the iteration order of the
  container. A `std::map` is such a list kept in key order.
* A call that throws `std::out_of_range` (a failed `.at`), that fails an
  `assert`, or that has undefined behaviour (`back()`/`pop_back()` on an empty
  vector, `operator[]` past the end of a vector, a dangling or invalidated
  iterator) evaluates to `none`.
* For `hw3/Graph_2460.hpp` the removal methods are modelled a second time, as
  the compiled program runs them (`remove_edge_compiled`,
  `remove_node_compiled`, ...): the one read of `edges_` at `edges_.size()`,
  right after a `pop_back`, finds the element just popped. The reachable
  states of that container are those of the compiled methods.
* The uid counters `next_node_uid_` and `next_edge_uid_` are 32-bit and wrap
  around in the model; `Reachable` collects the states in which they have not
  wrapped yet.
* Overloads are told apart by name: `remove_edge` takes an `Edge`,
  `remove_edge_nodes` two nodes; `has_edge` takes two nodes, `has_edge_handle`
  an `Edge`; `remove_node_iterator` takes a node iterator. The bodies of
  `remove_edge` and `remove_node` are cut into their consecutive steps
  (`remove_edge_disconnect`, `remove_edge_storage`, ...).
* A vector iterator is the position it designates in its vector.
* A default-constructed handle (`Node()`, `Edge()`) has indeterminate members:
  it is the inner `none` of a result, and a comparison that reads it
  evaluates to `none`.
-/

namespace Graph2236

/-! ## Machine integers -/

/-- Number of values of the 32-bit type `unsigned` (`size_type`). -/
def size_type_mod : Nat := 4294967296

/-- Conversion of a `std::size_t` to `size_type`. -/
def to_size_type (n : Nat) : Nat := n % size_type_mod

/-- Subtraction `a - b` on `size_type`. -/
def size_type_sub (a b : Nat) : Nat := (size_type_mod + a - b % size_type_mod) % size_type_mod

/-- Post-increment target `x + 1` on `size_type`. -/
def size_type_succ (x : Nat) : Nat := (x + 1) % size_type_mod

/-! ## `std::unordered_map` -/

/-- The call `m.at(k)`: the value stored under `k`, `none` when it throws. -/
def umap_at {K V : Type} [DecidableEq K] : List (K × V) → K → Option V
  | [], _ => none
  | (k1, v) :: m, k => if k1 = k then some v else umap_at m k

/-- The call `m.count(k)`. -/
def umap_count {K V : Type} [DecidableEq K] (m : List (K × V)) (k : K) : Nat :=
  if (umap_at m k).isSome then 1 else 0

/-- The call `m.insert({k, v})`: nothing happens when the key is present. -/
def umap_insert {K V : Type} [DecidableEq K] (m : List (K × V)) (k : K) (v : V) : List (K × V) :=
  if (umap_at m k).isSome then m else m ++ [(k, v)]

/-- The call `m.erase(k)`; the order of the remaining elements is preserved. -/
def umap_erase {K V : Type} [DecidableEq K] (m : List (K × V)) (k : K) : List (K × V) :=
  m.filter (fun p => decide (p.1 ≠ k))

/-- The assignment `m.at(k) = v` for a key that is present. -/
def umap_assign {K V : Type} [DecidableEq K] (m : List (K × V)) (k : K) (v : V) : List (K × V) :=
  m.map (fun p => if p.1 = k then (p.1, v) else p)

/-- The assignment `m.at(k) = v`, `none` when `.at` throws. -/
def umap_set {K V : Type} [DecidableEq K] (m : List (K × V)) (k : K) (v : V) :
    Option (List (K × V)) :=
  match umap_at m k with
  | none => none
  | some _ => some (umap_assign m k v)

/-! ## `std::vector` -/

/-- The call `std::swap(v.at(i), v.back())`. -/
def swap_with_back {α : Type} (v : List α) (i : Nat) : Option (List α) :=
  match v[i]?, v.getLast? with
  | some x, some l => some ((v.set i l).set (v.length - 1) x)
  | _, _ => none

/-- The call `v.pop_back()`. -/
def pop_back {α : Type} (v : List α) : Option (List α) :=
  if v.isEmpty then none else some v.dropLast

/-! ## Handles and storage -/

/-- The class `Graph::Node`: a graph pointer and a uid. -/
structure Node where
  graph_ : Nat
  uid_ : Nat
deriving DecidableEq, Repr

/-- The class `Graph::Edge`: a graph pointer, a uid and the orientation of the view. -/
structure Edge where
  graph_ : Nat
  uid_ : Nat
  smaller_node_first_ : Bool
deriving DecidableEq, Repr

/-- The struct `Graph::internal_node`. -/
structure internal_node (P V : Type) where
  point : P
  value : V
deriving DecidableEq, Repr

/-- The struct `Graph::internal_edge`. -/
structure internal_edge (E : Type) where
  smaller_node : Node
  larger_node : Node
  value : E
deriving DecidableEq, Repr

/-- The type `adjacency_map_type`: neighbour to edge index. -/
abbrev adjacency_map_type := List (Node × Nat)

/-- The type `node_to_adjacency_map_map_type`. -/
abbrev node_to_adjacency_map_map_type := List (Node × adjacency_map_type)

/-- The data members of `Graph<V, E>`, with `addr` the address of the object.
`P` is the type `Point` of `CME212/Point.hpp`. -/
structure Graph (P V E : Type) where
  addr : Nat
  next_node_uid_ : Nat
  next_edge_uid_ : Nat
  nodes_vector_ : List Node
  internal_nodes_vector_ : List (internal_node P V)
  node_uid_to_vector_index_map_ : List (Nat × Nat)
  edges_vector_ : List Edge
  internal_edges_vector_ : List (internal_edge E)
  edge_uid_to_vector_index_map_ : List (Nat × Nat)
  node_to_adjacency_map_map_ : node_to_adjacency_map_map_type
deriving DecidableEq, Repr

variable {P V E : Type}

/-- The constructor `Graph()` of a graph object at address `addr`. -/
def Graph.empty (addr : Nat) : Graph P V E :=
  { addr := addr, next_node_uid_ := 0, next_edge_uid_ := 0, nodes_vector_ := [],
    internal_nodes_vector_ := [], node_uid_to_vector_index_map_ := [], edges_vector_ := [],
    internal_edges_vector_ := [], edge_uid_to_vector_index_map_ := [],
    node_to_adjacency_map_map_ := [] }

/-! ## Node comparison -/

/-- The operator `Node::operator<`. -/
def Node.lt (x n : Node) : Bool :=
  if x.graph_ ≠ n.graph_ ∧ x.uid_ = n.uid_ then decide (x.graph_ < n.graph_)
  else decide (x.uid_ < n.uid_)

/-- Modelled from the spec: `CME212/Util.hpp` is not part of the sources; its
`totally_ordered` mixin injects the comparison operators the class does not
define, `a <= b` being `!(b < a)`. -/
def Node.le (a b : Node) : Bool := !(Node.lt b a)

/-! ## Private helpers of `Graph` -/

/-- The method `get_node_index_by_uid`. -/
def get_node_index_by_uid (g : Graph P V E) (uid : Nat) : Option Nat :=
  umap_at g.node_uid_to_vector_index_map_ uid

/-- The method `get_internal_node_by_uid`. -/
def get_internal_node_by_uid (g : Graph P V E) (uid : Nat) : Option (internal_node P V) :=
  match get_node_index_by_uid g uid with
  | none => none
  | some i => g.internal_nodes_vector_[i]?

/-- The method `get_edge_index_by_uid`. -/
def get_edge_index_by_uid (g : Graph P V E) (uid : Nat) : Option Nat :=
  umap_at g.edge_uid_to_vector_index_map_ uid

/-- The method `get_internal_edge_by_uid`. -/
def get_internal_edge_by_uid (g : Graph P V E) (uid : Nat) : Option (internal_edge E) :=
  match get_edge_index_by_uid g uid with
  | none => none
  | some i => g.internal_edges_vector_[i]?

/-- The method `build_and_track_public_edge`. -/
def build_and_track_public_edge (g : Graph P V E) (index : Nat) (smaller_node_first : Bool) :
    Edge × Graph P V E :=
  let new_uid := g.next_edge_uid_
  (⟨g.addr, new_uid, smaller_node_first⟩,
   { g with next_edge_uid_ := size_type_succ g.next_edge_uid_,
            edge_uid_to_vector_index_map_ :=
              umap_insert g.edge_uid_to_vector_index_map_ new_uid index })

/-- The method `insert_or_get_adjacency_map_for_node`: the graph after the call
and the adjacency map the returned reference designates. -/
def insert_or_get_adjacency_map_for_node (g : Graph P V E) (n : Node) :
    Graph P V E × adjacency_map_type :=
  let g1 : Graph P V E :=
    if umap_count g.node_to_adjacency_map_map_ n = 0 then
      { g with node_to_adjacency_map_map_ := umap_insert g.node_to_adjacency_map_map_ n [] }
    else g
  (g1, (umap_at g1.node_to_adjacency_map_map_ n).getD [])

/-! ## Nodes -/

/-- The method `Graph::size`. -/
def size (g : Graph P V E) : Nat := to_size_type g.nodes_vector_.length

/-- The method `Graph::num_nodes`. -/
def num_nodes (g : Graph P V E) : Nat := size g

/-- The method `Graph::has_node`. -/
def has_node (g : Graph P V E) (n : Node) : Bool :=
  decide (n.graph_ = g.addr) && decide (umap_count g.node_uid_to_vector_index_map_ n.uid_ = 1)

/-- The method `Graph::node`. -/
def node (g : Graph P V E) (i : Nat) : Option Node := g.nodes_vector_[i]?

/-- The method `Node::index` of a node handle of graph `g`. -/
def Node.index (g : Graph P V E) (n : Node) : Option Nat := get_node_index_by_uid g n.uid_

/-- The method `Node::position` of a node handle of graph `g`. -/
def Node.position (g : Graph P V E) (n : Node) : Option P :=
  (get_internal_node_by_uid g n.uid_).map (fun s => s.point)

/-- The method `Node::value` of a node handle of graph `g`. -/
def Node.value (g : Graph P V E) (n : Node) : Option V :=
  (get_internal_node_by_uid g n.uid_).map (fun s => s.value)

/-- The method `Node::degree` of a node handle of graph `g`: the result and the
graph after the call (the adjacency map of the node is created when missing). -/
def Node.degree (g : Graph P V E) (n : Node) : Nat × Graph P V E :=
  let r := insert_or_get_adjacency_map_for_node g n
  (to_size_type r.2.length, r.1)

/-- The method `Graph::add_node`. -/
def add_node (g : Graph P V E) (position : P) (value : V) : Node × Graph P V E :=
  let new_index := num_nodes g
  let new_uid := g.next_node_uid_
  let new_node : Node := ⟨g.addr, new_uid⟩
  (new_node,
   { g with next_node_uid_ := size_type_succ g.next_node_uid_,
            internal_nodes_vector_ := g.internal_nodes_vector_ ++ [⟨position, value⟩],
            nodes_vector_ := g.nodes_vector_ ++ [new_node],
            node_uid_to_vector_index_map_ :=
              umap_insert g.node_uid_to_vector_index_map_ new_uid new_index })

/-! ## Edges -/

/-- The method `Edge::get_internal_edge` of an edge handle of graph `g`. -/
def Edge.get_internal_edge (g : Graph P V E) (e : Edge) : Option (internal_edge E) :=
  get_internal_edge_by_uid g e.uid_

/-- The method `Edge::node1`. -/
def Edge.node1 (g : Graph P V E) (e : Edge) : Option Node :=
  (Edge.get_internal_edge g e).map
    (fun s => if e.smaller_node_first_ then s.smaller_node else s.larger_node)

/-- The method `Edge::node2`. -/
def Edge.node2 (g : Graph P V E) (e : Edge) : Option Node :=
  (Edge.get_internal_edge g e).map
    (fun s => if e.smaller_node_first_ then s.larger_node else s.smaller_node)

/-- The method `Edge::value`. -/
def Edge.value (g : Graph P V E) (e : Edge) : Option E :=
  (Edge.get_internal_edge g e).map (fun s => s.value)

/-- The method `Edge::get_inverted_copy`. -/
def Edge.get_inverted_copy (e : Edge) : Edge :=
  ⟨e.graph_, e.uid_, !e.smaller_node_first_⟩

/-- The method `Graph::num_edges`. -/
def num_edges (g : Graph P V E) : Nat := to_size_type g.edges_vector_.length

/-- The method `Graph::edge`. -/
def edge (g : Graph P V E) (i : Nat) : Option Edge := g.edges_vector_[i]?

/-- The method `Graph::has_edge(const Node&, const Node&)`. -/
def has_edge (g : Graph P V E) (a b : Node) : Bool :=
  has_node g a && has_node g b
    && decide (umap_count g.node_to_adjacency_map_map_ a = 1)
    && decide (umap_count ((umap_at g.node_to_adjacency_map_map_ a).getD []) b = 1)

/-- The method `Graph::has_edge(const Edge&)`. -/
def has_edge_handle (g : Graph P V E) (e : Edge) : Bool :=
  decide (e.graph_ = g.addr) && decide (umap_count g.edge_uid_to_vector_index_map_ e.uid_ = 1)

/-- The statement `node_to_adjacency_map_map_.at(a).erase(b)`. -/
def adjacency_erase (adj : node_to_adjacency_map_map_type) (a b : Node) :
    Option node_to_adjacency_map_map_type :=
  match umap_at adj a with
  | none => none
  | some m => some (umap_assign adj a (umap_erase m b))

/-- The statement `node_to_adjacency_map_map_.at(a).at(b) = index`. -/
def adjacency_assign (adj : node_to_adjacency_map_map_type) (a b : Node) (index : Nat) :
    Option node_to_adjacency_map_map_type :=
  match umap_at adj a with
  | none => none
  | some m =>
    match umap_set m b index with
    | none => none
    | some m1 => some (umap_assign adj a m1)

/-- The statement `insert_or_get_adjacency_map_for_node(a).insert({b, index})`. -/
def adjacency_insert (g : Graph P V E) (a b : Node) (index : Nat) : Graph P V E :=
  let r := insert_or_get_adjacency_map_for_node g a
  { r.1 with node_to_adjacency_map_map_ :=
      umap_assign r.1.node_to_adjacency_map_map_ a (umap_insert r.2 b index) }

/-- The method `Graph::add_edge` with the preconditions of its contract
(`a` and `b` distinct valid nodes of this graph) left to the caller. -/
def add_edge (g : Graph P V E) (a b : Node) (value : E) : Option (Edge × Graph P V E) :=
  let smaller_node_first_for_desired_edge := Node.le a b
  if has_edge g a b then
    match umap_at g.node_to_adjacency_map_map_ a with
    | none => none
    | some m =>
      match umap_at m b with
      | none => none
      | some existing_index =>
        match g.edges_vector_[existing_index]? with
        | none => none
        | some existing_edge =>
          if existing_edge.smaller_node_first_ = smaller_node_first_for_desired_edge then
            some (existing_edge, g)
          else
            let r := build_and_track_public_edge g existing_index
              smaller_node_first_for_desired_edge
            some (r.1, { r.2 with edges_vector_ := r.2.edges_vector_.set existing_index r.1 })
  else
    let new_index := num_edges g
    let smaller_node := if smaller_node_first_for_desired_edge then a else b
    let larger_node := if smaller_node_first_for_desired_edge then b else a
    let g1 : Graph P V E :=
      { g with internal_edges_vector_ :=
          g.internal_edges_vector_ ++ [⟨smaller_node, larger_node, value⟩] }
    let g2 := adjacency_insert g1 a b new_index
    let g3 := adjacency_insert g2 b a new_index
    let r := build_and_track_public_edge g3 new_index smaller_node_first_for_desired_edge
    some (r.1, { r.2 with edges_vector_ := r.2.edges_vector_ ++ [r.1] })

/-- The swap branch of `Graph::remove_edge(const Edge&)`: the edge stored last
moves to `index` and its uid entry and adjacency entries are redirected. -/
def remove_edge_move_last (g : Graph P V E) (index : Nat) : Option (Graph P V E) :=
  match swap_with_back g.edges_vector_ index, swap_with_back g.internal_edges_vector_ index with
  | some ev, some iv =>
    let g1 : Graph P V E := { g with edges_vector_ := ev, internal_edges_vector_ := iv }
    match g1.edges_vector_[index]? with
    | none => none
    | some moved_edge =>
      match umap_set g1.edge_uid_to_vector_index_map_ moved_edge.uid_ index with
      | none => none
      | some em =>
        let g2 : Graph P V E := { g1 with edge_uid_to_vector_index_map_ := em }
        match Edge.node1 g2 moved_edge, Edge.node2 g2 moved_edge with
        | some n1, some n2 =>
          match adjacency_assign g2.node_to_adjacency_map_map_ n1 n2 index with
          | none => none
          | some adj1 =>
            match adjacency_assign adj1 n2 n1 index with
            | none => none
            | some adj2 => some { g2 with node_to_adjacency_map_map_ := adj2 }
        | _, _ => none
  | _, _ => none

/-- The first step of `Graph::remove_edge(const Edge&)`: the references to the
edge are erased from both adjacency maps. -/
def remove_edge_disconnect (g : Graph P V E) (node1_of_deleted_edge node2_of_deleted_edge : Node) :
    Option (Graph P V E) :=
  match adjacency_erase g.node_to_adjacency_map_map_ node1_of_deleted_edge
      node2_of_deleted_edge with
  | none => none
  | some adj1 =>
    match adjacency_erase adj1 node2_of_deleted_edge node1_of_deleted_edge with
    | none => none
    | some adj2 => some { g with node_to_adjacency_map_map_ := adj2 }

/-- The last step of `Graph::remove_edge(const Edge&)`: both edge vectors are
popped and 1 is returned. -/
def remove_edge_pop (g : Graph P V E) : Option (Nat × Graph P V E) :=
  match pop_back g.edges_vector_, pop_back g.internal_edges_vector_ with
  | some ev, some iv => some (1, { g with edges_vector_ := ev, internal_edges_vector_ := iv })
  | _, _ => none

/-- The second step of `Graph::remove_edge(const Edge&)`: the uid of the handle
is dropped from the uid map and the edge is removed from the vectors by swap
and pop. -/
def remove_edge_storage (g : Graph P V E) (uid : Nat) : Option (Nat × Graph P V E) :=
  match get_edge_index_by_uid g uid with
  | none => none
  | some index_of_deleted_edge =>
    let g2 : Graph P V E :=
      { g with edge_uid_to_vector_index_map_ := umap_erase g.edge_uid_to_vector_index_map_ uid }
    match (if index_of_deleted_edge < size_type_sub (num_edges g2) 1 then
        remove_edge_move_last g2 index_of_deleted_edge
      else some g2) with
    | none => none
    | some g3 => remove_edge_pop g3

/-- The method `Graph::remove_edge(const Edge&)`. -/
def remove_edge (g : Graph P V E) (edge_to_delete : Edge) : Option (Nat × Graph P V E) :=
  if !has_edge_handle g edge_to_delete then some (0, g) else
  match Edge.node1 g edge_to_delete, Edge.node2 g edge_to_delete with
  | some node1_of_deleted_edge, some node2_of_deleted_edge =>
    match remove_edge_disconnect g node1_of_deleted_edge node2_of_deleted_edge with
    | none => none
    | some g1 => remove_edge_storage g1 edge_to_delete.uid_
  | _, _ => none

/-- The method `Graph::remove_edge(const Node&, const Node&)`. -/
def remove_edge_nodes (g : Graph P V E) (node1 node2 : Node) : Option (Nat × Graph P V E) :=
  if !has_edge g node1 node2 then some (0, g) else
  let r := insert_or_get_adjacency_map_for_node g node1
  match umap_at r.2 node2 with
  | none => none
  | some index_of_edge_to_delete =>
    match r.1.edges_vector_[index_of_edge_to_delete]? with
    | none => none
    | some e => remove_edge r.1 e

/-! ## Incident iteration -/

/-- The operator `IncidentIterator::operator*` of an iterator of graph `g`
positioned at the entry `(first, second)` of an adjacency map. -/
def IncidentIterator.deref (g : Graph P V E) (first : Node) (second : Nat) : Option Edge :=
  match g.edges_vector_[second]? with
  | none => none
  | some edge =>
    match Edge.node1 g edge with
    | none => none
    | some n1 => some (if n1 = first then Edge.get_inverted_copy edge else edge)

/-- The loop `while (it != node.edge_end()) remove_edge(*(it++));` of
`Graph::remove_node`. The iterator is advanced before the element it pointed to
is erased, and `erase` keeps the order of the other elements, so the loop
visits the keys that follow `it` in the adjacency map of `node`; `keys` are
those keys. Each entry is read from the current graph when it is
dereferenced; a key that is no longer there is a dangling iterator. Every
evaluation of the loop condition calls `node.edge_end()`. -/
def remove_node_loop (node : Node) : List Node → Graph P V E → Option (Graph P V E)
  | [], g => some (insert_or_get_adjacency_map_for_node g node).1
  | k :: keys, g =>
    let r := insert_or_get_adjacency_map_for_node g node
    match umap_at r.2 k with
    | none => none
    | some second =>
      match IncidentIterator.deref r.1 k second with
      | none => none
      | some e =>
        match remove_edge r.1 e with
        | none => none
        | some r1 => remove_node_loop node keys r1.2

/-- The swap branch of `Graph::remove_node(const Node&)`: the node stored last
moves to `index` and its uid entry is redirected. -/
def remove_node_move_last (g : Graph P V E) (index : Nat) : Option (Graph P V E) :=
  match swap_with_back g.nodes_vector_ index, swap_with_back g.internal_nodes_vector_ index with
  | some nv, some iv =>
    match nv[index]? with
    | none => none
    | some moved_node =>
      match umap_set g.node_uid_to_vector_index_map_ moved_node.uid_ index with
      | none => none
      | some nm =>
        some { g with nodes_vector_ := nv, internal_nodes_vector_ := iv,
                      node_uid_to_vector_index_map_ := nm }
  | _, _ => none

/-- The last step of `Graph::remove_node(const Node&)`: both node vectors are
popped and 1 is returned. -/
def remove_node_pop (g : Graph P V E) : Option (Nat × Graph P V E) :=
  match pop_back g.nodes_vector_, pop_back g.internal_nodes_vector_ with
  | some nv, some iv => some (1, { g with nodes_vector_ := nv, internal_nodes_vector_ := iv })
  | _, _ => none

/-- The second half of `Graph::remove_node(const Node&)`: the uid is dropped
from the uid map and the node is removed from the vectors by swap and pop. -/
def remove_node_storage (g : Graph P V E) (uid : Nat) : Option (Nat × Graph P V E) :=
  match get_node_index_by_uid g uid with
  | none => none
  | some index_of_deleted_node =>
    let g3 : Graph P V E :=
      { g with node_uid_to_vector_index_map_ := umap_erase g.node_uid_to_vector_index_map_ uid }
    match (if index_of_deleted_node < size_type_sub (num_nodes g3) 1 then
        remove_node_move_last g3 index_of_deleted_node
      else some g3) with
    | none => none
    | some g5 => remove_node_pop g5

/-- The method `Graph::remove_node(const Node&)`. -/
def remove_node (g : Graph P V E) (node : Node) : Option (Nat × Graph P V E) :=
  if !has_node g node then some (0, g) else
  let r := insert_or_get_adjacency_map_for_node g node
  match remove_node_loop node (r.2.map Prod.fst) r.1 with
  | none => none
  | some g1 =>
    remove_node_storage
      { g1 with node_to_adjacency_map_map_ := umap_erase g1.node_to_adjacency_map_map_ node }
      node.uid_

/-! ## Specification vocabulary -/

/-- The edge index the adjacency map stores for the ordered pair `(a, b)`:
the value of `node_to_adjacency_map_map_.at(a).at(b)`. -/
def adj_lookup (adj : node_to_adjacency_map_map_type) (a b : Node) : Option Nat :=
  match umap_at adj a with
  | none => none
  | some m => umap_at m b

/-- Representation invariant of the container: the node vectors and the node
uid map are in bijection, every stored `Edge` is tracked by the edge uid map at
its own index (older handles may linger in that map), and the adjacency map
agrees with the internal edge storage in both directions. -/
structure Inv (g : Graph P V E) : Prop where
  nodes_len : g.internal_nodes_vector_.length = g.nodes_vector_.length
  nodes_bound : g.nodes_vector_.length ≤ g.next_node_uid_
  node_uid_bound : g.next_node_uid_ < size_type_mod
  node_at : ∀ i n, g.nodes_vector_[i]? = some n →
    n.graph_ = g.addr ∧ umap_at g.node_uid_to_vector_index_map_ n.uid_ = some i
  node_map : ∀ u i, umap_at g.node_uid_to_vector_index_map_ u = some i →
    u < g.next_node_uid_ ∧ g.nodes_vector_[i]? = some ⟨g.addr, u⟩
  edges_len : g.internal_edges_vector_.length = g.edges_vector_.length
  edges_bound : g.edges_vector_.length ≤ g.next_edge_uid_
  edge_uid_bound : g.next_edge_uid_ < size_type_mod
  edge_at : ∀ i e, g.edges_vector_[i]? = some e →
    e.graph_ = g.addr ∧ umap_at g.edge_uid_to_vector_index_map_ e.uid_ = some i
  edge_map : ∀ u i, umap_at g.edge_uid_to_vector_index_map_ u = some i →
    u < g.next_edge_uid_
  internal_at : ∀ i s, g.internal_edges_vector_[i]? = some s →
    has_node g s.smaller_node = true ∧ has_node g s.larger_node = true ∧
    s.smaller_node.uid_ < s.larger_node.uid_ ∧
    adj_lookup g.node_to_adjacency_map_map_ s.smaller_node s.larger_node = some i ∧
    adj_lookup g.node_to_adjacency_map_map_ s.larger_node s.smaller_node = some i
  adj_at : ∀ a b i, adj_lookup g.node_to_adjacency_map_map_ a b = some i →
    ∃ s, g.internal_edges_vector_[i]? = some s ∧
      ((s.smaller_node = a ∧ s.larger_node = b) ∨ (s.smaller_node = b ∧ s.larger_node = a))
  adj_keys : ∀ a m, umap_at g.node_to_adjacency_map_map_ a = some m → (m.map Prod.fst).Nodup

/-- Graph states reachable from an empty graph by calls of the public
interface: `add_node`, `add_edge` on two distinct valid nodes, the two
`remove_edge` overloads and `remove_node` on arbitrary handles, and the
accessors `degree`, `edge_begin` and `edge_end` of a node handle of the graph
(which create the adjacency map of the node when it is missing). A call that
throws leaves no successor state. The uid counters are 32-bit; the states
considered are those in which they have not wrapped around. -/
inductive Reachable : Graph P V E → Prop
  | empty (addr : Nat) : Reachable (Graph.empty addr)
  | add_node {g : Graph P V E} (p : P) (v : V) :
      Reachable g → g.next_node_uid_ + 1 < size_type_mod → Reachable (add_node g p v).2
  | add_edge {g g1 : Graph P V E} (a b : Node) (v : E) (e : Edge) :
      Reachable g → g.next_edge_uid_ + 1 < size_type_mod → a ≠ b →
      has_node g a = true → has_node g b = true →
      add_edge g a b v = some (e, g1) → Reachable g1
  | remove_node {g g1 : Graph P V E} (n : Node) (r : Nat) :
      Reachable g → remove_node g n = some (r, g1) → Reachable g1
  | remove_edge {g g1 : Graph P V E} (e : Edge) (r : Nat) :
      Reachable g → remove_edge g e = some (r, g1) → Reachable g1
  | remove_edge_nodes {g g1 : Graph P V E} (a b : Node) (r : Nat) :
      Reachable g → remove_edge_nodes g a b = some (r, g1) → Reachable g1
  | touch {g : Graph P V E} (n : Node) :
      Reachable g → n.graph_ = g.addr →
      Reachable (insert_or_get_adjacency_map_for_node g n).1

/-- The keys of the adjacency map of `x`, in iteration order; `none` when `x` has no
adjacency map. -/
def adj_keys (adj : node_to_adjacency_map_map_type) (x : Node) : Option (List Node) :=
  (umap_at adj x).map (fun m => m.map Prod.fst)

/-- The internal edge `s` joins the nodes `x` and `y`, in either order. -/
def joins (s : internal_edge E) (x y : Node) : Prop :=
  (s.smaller_node = x ∧ s.larger_node = y) ∨ (s.smaller_node = y ∧ s.larger_node = x)

/-- Whether an internal edge joins two nodes is decidable. -/
instance (s : internal_edge E) (x y : Node) : Decidable (joins s x y) := by
  unfold joins; infer_instance

/-- Example state: three nodes with uids 0, 1, 2 in a graph at address 0. -/
def ex_nodes : Graph Unit Nat Nat :=
  (add_node (add_node (add_node (Graph.empty 0) () 10).2 () 11).2 () 12).2

/-- Example node handle of `ex_nodes`. -/
def ex_n0 : Node := ⟨0, 0⟩

/-- Example node handle of `ex_nodes`. -/
def ex_n1 : Node := ⟨0, 1⟩

/-- Example node handle of `ex_nodes`. -/
def ex_n2 : Node := ⟨0, 2⟩

/-- The graph after a call whose result is `r`, `g` when the call threw. -/
def state_after {α : Type} (g : Graph P V E) (r : Option (α × Graph P V E)) : Graph P V E :=
  match r with
  | some x => x.2
  | none => g

/-- Example state: `ex_nodes` after `add_edge(n0, n1, 5)`. -/
def ex_one_edge : Graph Unit Nat Nat := state_after ex_nodes (add_edge ex_nodes ex_n0 ex_n1 5)

/-- Example state: `ex_one_edge` after `add_edge(n1, n2, 6)`: the path n0 - n1 - n2. -/
def ex_path : Graph Unit Nat Nat := state_after ex_one_edge (add_edge ex_one_edge ex_n1 ex_n2 6)

/-- Example state: `ex_path` after `remove_node(n1)`. -/
def ex_removed : Graph Unit Nat Nat := state_after ex_path (remove_node ex_path ex_n1)

/-- Example state: `ex_one_edge` after `add_edge(n1, n0, 6)`, which hands out a second
handle (uid 1) of the edge created by `add_edge(n0, n1, 5)` (uid 0). -/
def ex_flipped : Graph Unit Nat Nat :=
  state_after ex_one_edge (add_edge ex_one_edge ex_n1 ex_n0 6)

/-- Example state: `ex_flipped` after `add_edge(n1, n2, 7)`. -/
def ex_two_handles : Graph Unit Nat Nat :=
  state_after ex_flipped (add_edge ex_flipped ex_n1 ex_n2 7)

/-- Example state: `ex_two_handles` after `remove_edge` of the handle with uid 0. -/
def ex_stale : Graph Unit Nat Nat :=
  state_after ex_two_handles (remove_edge ex_two_handles ⟨0, 0, true⟩)

/-- Example state: `ex_path` after `add_edge(n2, n1, 7)`, which hands out a second handle
(uid 2) of the edge created by `add_edge(n1, n2, 6)` (uid 1). -/
def ex_path_flipped : Graph Unit Nat Nat :=
  state_after ex_path (add_edge ex_path ex_n2 ex_n1 7)

/-- Example state: `ex_path_flipped` after `remove_edge` of the edge between n0 and n1. -/
def ex_moved : Graph Unit Nat Nat :=
  state_after ex_path_flipped (remove_edge ex_path_flipped ⟨0, 0, true⟩)

/-! ## Handle comparison, `clear` and the vector iterators -/

/-- The operator `Node::operator==`. -/
def Node.eq (x n : Node) : Bool :=
  decide (x.graph_ = n.graph_) && decide (x.uid_ = n.uid_)

/-- The method `Edge::get_ordered_node_pair` of an edge handle of graph `g`. -/
def Edge.get_ordered_node_pair (g : Graph P V E) (e : Edge) : Option (Node × Node) :=
  match Edge.node1 g e, Edge.node2 g e with
  | some n1, some n2 => some (if e.smaller_node_first_ then (n1, n2) else (n2, n1))
  | _, _ => none

/-- The operator `Edge::operator==` applied to a handle `e` of the graph in
state `g` and a handle `f` of the graph in state `gf`; the pairs are compared
componentwise with `Node::operator==`. -/
def Edge.eq (g gf : Graph P V E) (e f : Edge) : Option Bool :=
  match Edge.get_ordered_node_pair g e, Edge.get_ordered_node_pair gf f with
  | some p, some q => some (Node.eq p.1 q.1 && Node.eq p.2 q.2)
  | _, _ => none

/-- The method `Graph::clear`; the uid counters are not members it resets. -/
def clear (g : Graph P V E) : Graph P V E :=
  { g with nodes_vector_ := [], internal_nodes_vector_ := [],
           node_uid_to_vector_index_map_ := [], edges_vector_ := [],
           internal_edges_vector_ := [], node_to_adjacency_map_map_ := [],
           edge_uid_to_vector_index_map_ := [] }

/-- The operator `NodeIterator::operator*`; undefined at and past the end. -/
def NodeIterator.deref (g : Graph P V E) (it : Nat) : Option Node := g.nodes_vector_[it]?

/-- The method `Graph::edge_begin`; an edge iterator is the position of its
vector iterator in `edges_vector_`. -/
def edge_begin (_g : Graph P V E) : Nat := 0

/-- The method `Graph::edge_end`. -/
def edge_end (g : Graph P V E) : Nat := g.edges_vector_.length

/-- The operator `EdgeIterator::operator*`; undefined at and past the end. -/
def EdgeIterator.deref (g : Graph P V E) (it : Nat) : Option Edge := g.edges_vector_[it]?

end Graph2236

namespace Graph2056

/-! # `hw2/Graph_2056.hpp`

Nodes and edges carry uids that index the value vectors; `node_i2u_` and `node_u2i_`
(`edge_i2u_` and `edge_u2i_`) translate between indices and uids. A failed `assert`, an
out-of-range `operator[]` on a vector, `back()` on an empty vector and a step of an
invalidated iterator evaluate to `none`. -/

/-! ## `std::map` -/

/-- The insertion of `(k, w)` into a `std::map` stored in key order; nothing happens when
the key is present. -/
def map_insert {W : Type} : List (Nat × W) → Nat → W → List (Nat × W)
  | [], k, w => [(k, w)]
  | (k1, w1) :: m, k, w =>
    if k < k1 then (k, w) :: (k1, w1) :: m
    else if k = k1 then (k1, w1) :: m
    else (k1, w1) :: map_insert m k w

/-- The type of `node_to_node_to_edge_`: node uid to neighbour uid to edge uid. -/
abbrev adjacency_type := List (Nat × List (Nat × Nat))

/-- The expression `node_to_node_to_edge_[a]`: the map after the access, which creates an
empty entry when `a` is missing. -/
def adjacency_touch (adj : adjacency_type) (a : Nat) : adjacency_type := map_insert adj a []

/-- The expression `node_to_node_to_edge_[a][b]` read as a value: the map after the two
accesses, which create missing entries, and the value found. -/
def adjacency_index (adj : adjacency_type) (a b : Nat) : adjacency_type × Nat :=
  let adj1 := adjacency_touch adj a
  let inner := map_insert ((Graph2236.umap_at adj1 a).getD []) b 0
  (Graph2236.umap_assign adj1 a inner, (Graph2236.umap_at inner b).getD 0)

/-- The statement `node_to_node_to_edge_[a][b] = edge_uid`. -/
def adjacency_set (adj : adjacency_type) (a b edge_uid : Nat) : adjacency_type :=
  let adj1 := adjacency_touch adj a
  let inner := map_insert ((Graph2236.umap_at adj1 a).getD []) b 0
  Graph2236.umap_assign adj1 a (Graph2236.umap_assign inner b edge_uid)

/-- The statement `node_to_node_to_edge_[a].erase(b)`. -/
def adjacency_erase (adj : adjacency_type) (a b : Nat) : adjacency_type :=
  let adj1 := adjacency_touch adj a
  Graph2236.umap_assign adj1 a (Graph2236.umap_erase ((Graph2236.umap_at adj1 a).getD []) b)

/-! ## Handles and storage -/

/-- The class `Graph::Node`: a graph pointer and the uid of the node. -/
structure Node where
  g_ : Nat
  index_ : Nat
deriving DecidableEq, Repr

/-- The class `Graph::Edge`: a graph pointer, the uid of the edge and the uids of its
endpoints in the order of this view. -/
structure Edge where
  gr_ : Nat
  idx_ : Nat
  nd1_ : Nat
  nd2_ : Nat
deriving DecidableEq, Repr

/-- The data members of `Graph<V, E>`, with `addr` the address of the object. `P` is the
type `Point` of `CME212/Point.hpp`. -/
structure Graph (P V E : Type) where
  addr : Nat
  points_ : List P
  v_ : List V
  num_nodes_ : Nat
  num_edges_ : Nat
  edge_to_nodes_ : List (Nat × Nat)
  ev_ : List E
  node_to_node_to_edge_ : adjacency_type
  node_i2u_ : List Nat
  node_u2i_ : List Nat
  edge_i2u_ : List Nat
  edge_u2i_ : List Nat
deriving DecidableEq, Repr


variable {P V E : Type}

/-- The constructor `Graph()` of a graph object at address `addr`. -/
def Graph.empty (addr : Nat) : Graph P V E :=
  { addr := addr, points_ := [], v_ := [], num_nodes_ := 0, num_edges_ := 0,
    edge_to_nodes_ := [], ev_ := [], node_to_node_to_edge_ := [], node_i2u_ := [],
    node_u2i_ := [], edge_i2u_ := [], edge_u2i_ := [] }

/-! ## Nodes -/

/-- The method `Node::valid` of a node handle of graph `g`. -/
def Node.valid (g : Graph P V E) (n : Node) : Option Bool :=
  if n.index_ < g.points_.length then
    match g.node_u2i_[n.index_]? with
    | none => none
    | some i =>
      if i < g.node_i2u_.length then
        match g.node_i2u_[i]? with
        | none => none
        | some u => some (decide (u = n.index_))
      else some false
  else some false

/-- The method `Node::index` of a node handle of graph `g`. -/
def Node.index (g : Graph P V E) (n : Node) : Option Nat := g.node_u2i_[n.index_]?

/-- The method `Graph::size`. -/
def size (g : Graph P V E) : Nat := g.num_nodes_

/-- The method `Graph::num_nodes`. -/
def num_nodes (g : Graph P V E) : Nat := size g

/-- The method `Graph::add_node`. -/
def add_node (g : Graph P V E) (position : P) (v : V) : Node × Graph P V E :=
  let points := g.points_ ++ [position]
  let vs := g.v_ ++ [v]
  let uid := vs.length - 1
  let u2i := g.node_u2i_ ++ [Graph2236.to_size_type g.node_i2u_.length]
  let i2u := g.node_i2u_ ++ [Graph2236.to_size_type uid]
  (⟨g.addr, Graph2236.to_size_type uid⟩,
   { g with points_ := points, v_ := vs, node_u2i_ := u2i, node_i2u_ := i2u,
            num_nodes_ := Graph2236.to_size_type i2u.length })

/-- The method `Graph::has_node`. -/
def has_node (g : Graph P V E) (n : Node) : Option Bool :=
  if n.g_ = g.addr then Node.valid g n else some false

/-- The method `Graph::node`. -/
def node (g : Graph P V E) (i : Nat) : Option Node :=
  if i < num_nodes g then
    match g.node_i2u_[i]? with
    | none => none
    | some u => some ⟨g.addr, u⟩
  else none

/-! ## Edges -/

/-- The method `Edge::evalid` of an edge handle of graph `g`. -/
def Edge.evalid (g : Graph P V E) (e : Edge) : Option Bool :=
  if e.idx_ < g.ev_.length then
    match g.edge_u2i_[e.idx_]? with
    | none => none
    | some i =>
      if i < g.edge_i2u_.length then
        match g.edge_i2u_[i]? with
        | none => none
        | some u => some (decide (u = e.idx_))
      else some false
  else some false

/-- The method `Edge::node1` of an edge handle of graph `g`. -/
def Edge.node1 (g : Graph P V E) (e : Edge) : Option Node :=
  match Edge.evalid g e with
  | some true =>
    match g.node_u2i_[e.nd1_]? with
    | none => none
    | some i => node g i
  | _ => none

/-- The method `Edge::node2` of an edge handle of graph `g`. -/
def Edge.node2 (g : Graph P V E) (e : Edge) : Option Node :=
  match Edge.evalid g e with
  | some true =>
    match g.node_u2i_[e.nd2_]? with
    | none => none
    | some i => node g i
  | _ => none

/-- The method `Graph::num_edges`. -/
def num_edges (g : Graph P V E) : Nat := g.num_edges_

/-- The method `Graph::edge`. -/
def edge (g : Graph P V E) (i : Nat) : Option Edge :=
  if i < g.num_edges_ then
    match g.edge_i2u_[i]? with
    | none => none
    | some u =>
      match g.edge_to_nodes_[u]? with
      | none => none
      | some p => some ⟨g.addr, u, p.1, p.2⟩
  else none

/-- The method `Graph::has_edge`. -/
def has_edge (g : Graph P V E) (a b : Node) : Option Bool :=
  match has_node g a with
  | some true =>
    match has_node g b with
    | some true =>
      some (decide (Graph2236.umap_count g.node_to_node_to_edge_ a.index_ ≠ 0) &&
        decide (Graph2236.umap_count
          ((Graph2236.umap_at g.node_to_node_to_edge_ a.index_).getD []) b.index_ ≠ 0))
    | _ => none
  | _ => none

/-- The statement `return edge(edge_u2i_[edge_uid]);` of `Graph::add_edge`. -/
def add_edge_return (g : Graph P V E) (edge_uid : Nat) : Option (Edge × Graph P V E) :=
  match g.edge_u2i_[edge_uid]? with
  | none => none
  | some i =>
    match edge g i with
    | none => none
    | some e => some (e, g)

/-- The method `Graph::add_edge`. -/
def add_edge (g : Graph P V E) (a b : Node) (ev : E) : Option (Edge × Graph P V E) :=
  match has_node g a, has_node g b with
  | some true, some true =>
    if a.index_ = b.index_ then none else
    match has_edge g a b with
    | none => none
    | some true =>
      let r := adjacency_index g.node_to_node_to_edge_ a.index_ b.index_
      add_edge_return { g with node_to_node_to_edge_ := r.1 } r.2
    | some false =>
      let edge_uid := Graph2236.to_size_type g.ev_.length
      add_edge_return
        { g with
            edge_to_nodes_ := g.edge_to_nodes_ ++ [(a.index_, b.index_)],
            ev_ := g.ev_ ++ [ev],
            edge_u2i_ := g.edge_u2i_ ++ [Graph2236.to_size_type g.edge_i2u_.length],
            edge_i2u_ := g.edge_i2u_ ++ [edge_uid],
            node_to_node_to_edge_ :=
              adjacency_set (adjacency_set g.node_to_node_to_edge_ a.index_ b.index_ edge_uid)
                b.index_ a.index_ edge_uid,
            num_edges_ := Graph2236.size_type_succ g.num_edges_ }
        edge_uid
  | _, _ => none

/-- The body of the `if` of `Graph::remove_edge(const Node&, const Node&)`. -/
def remove_edge_body (g : Graph P V E) (a_uid b_uid : Nat) : Option (Nat × Graph P V E) :=
  let r := adjacency_index g.node_to_node_to_edge_ a_uid b_uid
  let edge_uid := r.2
  let adj := adjacency_erase (adjacency_erase r.1 a_uid b_uid) b_uid a_uid
  match g.edge_i2u_.getLast? with
  | none => none
  | some back_edge_uid =>
    match g.edge_u2i_[edge_uid]? with
    | none => none
    | some i =>
      if i < g.edge_i2u_.length ∧ back_edge_uid < g.edge_u2i_.length then
        some (1, { g with
          node_to_node_to_edge_ := adj,
          edge_i2u_ := (g.edge_i2u_.set i back_edge_uid).dropLast,
          edge_u2i_ := g.edge_u2i_.set back_edge_uid i,
          num_edges_ := Graph2236.size_type_sub g.num_edges_ 1 })
      else none

/-- The method `Graph::remove_edge(const Node&, const Node&)`. -/
def remove_edge_nodes (g : Graph P V E) (a b : Node) : Option (Nat × Graph P V E) :=
  match has_edge g a b with
  | none => none
  | some false => some (0, g)
  | some true =>
    match has_edge g b a with
    | none => none
    | some false => some (0, g)
    | some true => remove_edge_body g a.index_ b.index_

/-- The method `Graph::remove_edge(const Edge&)`. -/
def remove_edge (g : Graph P V E) (e : Edge) : Option (Nat × Graph P V E) :=
  match Edge.node1 g e with
  | none => none
  | some a =>
    match Edge.node2 g e with
    | none => none
    | some b => remove_edge_nodes g a b

/-! ## Incident iteration and `remove_node` -/

/-- The operator `IncidentIterator::operator*` of an iterator of graph `g` positioned at
the entry `(first, second)` of an adjacency map. -/
def IncidentIterator.deref (g : Graph P V E) (first second : Nat) : Option Edge :=
  match g.edge_to_nodes_[second]? with
  | none => none
  | some p => some ⟨g.addr, second, if p.1 ≠ first then p.1 else p.2, first⟩

/-- The methods `Node::edge_begin` and `Node::edge_end` of a node handle of graph `g`:
the graph after the call (`operator[]` creates the adjacency map of the node when it is
missing). -/
def Node.edge_end (g : Graph P V E) (n : Node) : Option (Graph P V E) :=
  match Node.valid g n with
  | some true =>
    some { g with node_to_node_to_edge_ := adjacency_touch g.node_to_node_to_edge_ n.index_ }
  | _ => none

/-- The loop `for (init = n.edge_begin(); init != n.edge_end(); ++init)` of
`Graph::remove_node` with the body `remove_edge(*init)`. `keys` are the keys of the
adjacency map of `n` from the position of `init` on, in the order of the map. The entry is
read from the current graph when the iterator is dereferenced. After the body the iterator
is incremented: when `remove_edge` has erased the entry it points to, the iterator is
invalidated and the increment is undefined. -/
def remove_node_loop (n : Node) : List Nat → Graph P V E → Option (Graph P V E)
  | [], g => Node.edge_end g n
  | k :: keys, g =>
    match Node.edge_end g n with
    | none => none
    | some g0 =>
      match Graph2236.umap_at
          ((Graph2236.umap_at g0.node_to_node_to_edge_ n.index_).getD []) k with
      | none => none
      | some second =>
        match IncidentIterator.deref g0 k second with
        | none => none
        | some e =>
          match remove_edge g0 e with
          | none => none
          | some r =>
            match Graph2236.umap_at
                ((Graph2236.umap_at r.2.node_to_node_to_edge_ n.index_).getD []) k with
            | none => none
            | some _ => remove_node_loop n keys r.2

/-- The statements of `Graph::remove_node(const Node&)` after the loop. -/
def remove_node_storage (g : Graph P V E) (node_uid : Nat) : Option (Nat × Graph P V E) :=
  let adj := Graph2236.umap_erase g.node_to_node_to_edge_ node_uid
  match g.node_i2u_.getLast? with
  | none => none
  | some back_node_uid =>
    match g.node_u2i_[node_uid]? with
    | none => none
    | some i =>
      if i < g.node_i2u_.length ∧ back_node_uid < g.node_u2i_.length then
        some (1, { g with
          node_to_node_to_edge_ := adj,
          node_i2u_ := (g.node_i2u_.set i back_node_uid).dropLast,
          node_u2i_ := g.node_u2i_.set back_node_uid i,
          num_nodes_ := Graph2236.to_size_type
            ((g.node_i2u_.set i back_node_uid).dropLast).length })
      else none

/-- The method `Graph::remove_node(const Node&)`. -/
def remove_node (g : Graph P V E) (n : Node) : Option (Nat × Graph P V E) :=
  match has_node g n with
  | none => none
  | some false => some (0, g)
  | some true =>
    match Node.edge_end g n with
    | none => none
    | some g0 =>
      match remove_node_loop n
          (((Graph2236.umap_at g0.node_to_node_to_edge_ n.index_).getD []).map Prod.fst) g0 with
      | none => none
      | some g1 => remove_node_storage g1 n.index_

/-- Example state: three nodes with uids 0, 1, 2 in a graph at address 0. -/
def ex_nodes : Graph Unit Nat Nat :=
  (add_node (add_node (add_node (Graph.empty 0) () 10).2 () 11).2 () 12).2

/-- Example node handle of `ex_nodes`. -/
def ex_n0 : Node := ⟨0, 0⟩

/-- Example node handle of `ex_nodes`. -/
def ex_n1 : Node := ⟨0, 1⟩

/-- Example node handle of `ex_nodes`. -/
def ex_n2 : Node := ⟨0, 2⟩

/-- The graph after a call whose result is `r`, `g` when the call failed. -/
def state_after {α : Type} {P V E : Type} (g : Graph P V E) (r : Option (α × Graph P V E)) :
    Graph P V E :=
  match r with
  | some x => x.2
  | none => g

/-- Example state: `ex_nodes` after `add_edge(n1, n0, 5)`. -/
def ex_reversed : Graph Unit Nat Nat := state_after ex_nodes (add_edge ex_nodes ex_n1 ex_n0 5)

/-- Example state: `ex_nodes` after `remove_node(n0)`; node 2 moves to index 0. -/
def ex_removed : Graph Unit Nat Nat := state_after ex_nodes (remove_node ex_nodes ex_n0)





/-! ## Specification vocabulary -/

/-- Representation invariant of the node storage: the value vectors and `node_u2i_` are
indexed by uid, `num_nodes_` is the number of live nodes, and `node_u2i_` sends the uid
stored at index `i` of `node_i2u_` back to `i`. -/
structure NodesInv (g : Graph P V E) : Prop where
  len_v : g.v_.length = g.points_.length
  len_u2i : g.node_u2i_.length = g.points_.length
  bound : g.points_.length < Graph2236.size_type_mod
  len_i2u : g.node_i2u_.length ≤ g.points_.length
  num : g.num_nodes_ = g.node_i2u_.length
  i2u : ∀ (i u : Nat), g.node_i2u_[i]? = some u → g.node_u2i_[u]? = some i

/-- The states `g` and `g1` have the same address and the same node storage. -/
structure SameNodes (g g1 : Graph P V E) : Prop where
  addr : g1.addr = g.addr
  points : g1.points_ = g.points_
  v : g1.v_ = g.v_
  num : g1.num_nodes_ = g.num_nodes_
  i2u : g1.node_i2u_ = g.node_i2u_
  u2i : g1.node_u2i_ = g.node_u2i_

/-- Graph states reachable from an empty graph by calls of `add_node`, `add_edge`,
`remove_node`, the two `remove_edge` overloads and the accessors `edge_begin` and
`edge_end` of a node handle. A call that fails an assertion or has undefined behaviour
leaves no successor state. The uids are 32-bit; the states considered are those with fewer
than `2 ^ 32` node uids handed out. -/
inductive Reachable : Graph P V E → Prop
  | empty (addr : Nat) : Reachable (Graph.empty addr)
  | add_node {g : Graph P V E} (p : P) (v : V) :
      Reachable g → g.points_.length + 1 < Graph2236.size_type_mod →
      Reachable (add_node g p v).2
  | add_edge {g g1 : Graph P V E} (a b : Node) (v : E) (e : Edge) :
      Reachable g → add_edge g a b v = some (e, g1) → Reachable g1
  | remove_node {g g1 : Graph P V E} (n : Node) (r : Nat) :
      Reachable g → remove_node g n = some (r, g1) → Reachable g1
  | remove_edge {g g1 : Graph P V E} (e : Edge) (r : Nat) :
      Reachable g → remove_edge g e = some (r, g1) → Reachable g1
  | remove_edge_nodes {g g1 : Graph P V E} (a b : Node) (r : Nat) :
      Reachable g → remove_edge_nodes g a b = some (r, g1) → Reachable g1
  | edge_end {g g1 : Graph P V E} (n : Node) :
      Reachable g → Node.edge_end g n = some g1 → Reachable g1

/-- Graph states reached from `g0` by further calls of `add_node`, `add_edge`,
`remove_node`, the two `remove_edge` overloads and the accessors `edge_begin` and
`edge_end`, with the provisos of `Reachable`. -/
inductive ReachableFrom (g0 : Graph P V E) : Graph P V E → Prop
  | start : ReachableFrom g0 g0
  | add_node {g : Graph P V E} (p : P) (v : V) :
      ReachableFrom g0 g → g.points_.length + 1 < Graph2236.size_type_mod →
      ReachableFrom g0 (add_node g p v).2
  | add_edge {g g1 : Graph P V E} (a b : Node) (v : E) (e : Edge) :
      ReachableFrom g0 g → add_edge g a b v = some (e, g1) → ReachableFrom g0 g1
  | remove_node {g g1 : Graph P V E} (n : Node) (r : Nat) :
      ReachableFrom g0 g → remove_node g n = some (r, g1) → ReachableFrom g0 g1
  | remove_edge {g g1 : Graph P V E} (e : Edge) (r : Nat) :
      ReachableFrom g0 g → remove_edge g e = some (r, g1) → ReachableFrom g0 g1
  | remove_edge_nodes {g g1 : Graph P V E} (a b : Node) (r : Nat) :
      ReachableFrom g0 g → remove_edge_nodes g a b = some (r, g1) → ReachableFrom g0 g1
  | edge_end {g g1 : Graph P V E} (n : Node) :
      ReachableFrom g0 g → Node.edge_end g n = some g1 → ReachableFrom g0 g1

/-! ## Node payloads, `clear` and a further example state -/

/-- The method `Node::position` (through `get_point`) of a node handle of graph `g`. -/
def Node.position (g : Graph P V E) (n : Node) : Option P :=
  match Node.valid g n with
  | some true => g.points_[n.index_]?
  | _ => none

/-- The method `Node::value` (through `get_value`) of a node handle of graph `g`. -/
def Node.value (g : Graph P V E) (n : Node) : Option V :=
  match Node.valid g n with
  | some true => g.v_[n.index_]?
  | _ => none

/-- The method `Graph::clear`. -/
def clear (g : Graph P V E) : Graph P V E :=
  { g with points_ := [], v_ := [], num_nodes_ := 0, num_edges_ := 0, edge_to_nodes_ := [],
           ev_ := [], node_to_node_to_edge_ := [], node_i2u_ := [], node_u2i_ := [],
           edge_i2u_ := [], edge_u2i_ := [] }

/-- Example state: `ex_reversed` after `add_node` (uid 3) and `add_edge(n2, n3, 6)`: the
edges n1 - n0 and n2 - n3. -/
def ex_two_edges : Graph Unit Nat Nat :=
  state_after ex_reversed (add_edge (add_node ex_reversed () 13).2 ⟨0, 2⟩ ⟨0, 3⟩ 6)

/-- The graph after the calls `add_node(p, v)` for the pairs `(p, v)` of `ps`, in
order. -/
def add_nodes (g : Graph P V E) : List (P × V) → Graph P V E
  | [] => g
  | pv :: ps => add_nodes (add_node g pv.1 pv.2).2 ps

end Graph2056

namespace Graph982

/-! # `hw2/Graph_982.hpp`

Nodes are `(graph, id)` pairs kept in `nodes_`; an edge stores the pair of its endpoint
handles. A failed `assert` and an out-of-range `operator[]` evaluate to `none`. -/

/-- The class `Graph::Node`: a graph pointer and an id. -/
structure Node where
  graph_ : Nat
  node_id_ : Nat
deriving DecidableEq, Repr

/-- The class `Graph::Edge`: the pair of endpoint handles. -/
structure Edge where
  node_pair_ : Node × Node
deriving DecidableEq, Repr

/-- The data members of `Graph`, with `addr` the address of the object. `P` is the type
`Point` of `CME212/Point.hpp`. -/
structure Graph (P : Type) where
  addr : Nat
  nodes_ : List Node
  node_coods_ : List P
  edges_ : List Edge
deriving DecidableEq, Repr

variable {P : Type}

/-- The constructor `Graph()` of a graph object at address `addr`. -/
def Graph.empty (addr : Nat) : Graph P :=
  { addr := addr, nodes_ := [], node_coods_ := [], edges_ := [] }

/-- The operator `Node::operator==`. -/
def Node.eq (x n : Node) : Bool :=
  decide (x.graph_ = n.graph_) && decide (x.node_id_ = n.node_id_)

/-- The operator `Node::operator<`. -/
def Node.lt (x n : Node) : Bool := decide (x.node_id_ < n.node_id_)

/-- The method `Edge::node1`. -/
def Edge.node1 (e : Edge) : Node := e.node_pair_.1

/-- The method `Edge::node2`. -/
def Edge.node2 (e : Edge) : Node := e.node_pair_.2

/-- The operator `Edge::operator==`. -/
def Edge.eq (x e : Edge) : Bool :=
  Node.eq x.node_pair_.1 e.node_pair_.1 && Node.eq x.node_pair_.2 e.node_pair_.2

/-- The method `Graph::size`. -/
def size (g : Graph P) : Nat := Graph2236.to_size_type g.nodes_.length

/-- The method `Graph::num_nodes`. -/
def num_nodes (g : Graph P) : Nat := size g

/-- The method `Graph::add_node`. -/
def add_node (g : Graph P) (position : P) : Node × Graph P :=
  let nodes := g.nodes_ ++ [⟨g.addr, Graph2236.to_size_type g.nodes_.length⟩]
  (⟨g.addr, Graph2236.to_size_type (nodes.length - 1)⟩,
   { g with nodes_ := nodes, node_coods_ := g.node_coods_ ++ [position] })

/-- The method `Graph::has_node`. -/
def has_node (g : Graph P) (n : Node) : Option Bool :=
  match g.nodes_[n.node_id_]? with
  | none => none
  | some m => some (Node.eq m n)

/-- The method `Graph::node`. -/
def node (g : Graph P) (i : Nat) : Option Node :=
  if i < num_nodes g then some ⟨g.addr, i⟩ else none

/-- The method `Graph::num_edges`. -/
def num_edges (g : Graph P) : Nat := Graph2236.to_size_type g.edges_.length

/-- The method `Graph::edge`. -/
def edge (g : Graph P) (i : Nat) : Option Edge :=
  if i < num_edges g then
    match g.edges_[i]? with
    | none => none
    | some e => some ⟨(e.node_pair_.1, e.node_pair_.2)⟩
  else none

/-- The statement `assert(has_node(a) && has_node(b));`: whether it passes. -/
def assert_has_nodes (g : Graph P) (a b : Node) : Bool :=
  match has_node g a with
  | some true =>
    match has_node g b with
    | some true => true
    | _ => false
  | _ => false

/-- The method `Graph::has_edge`. -/
def has_edge (g : Graph P) (a b : Node) : Option Bool :=
  if assert_has_nodes g a b then
    let tempE : Edge := ⟨(a, b)⟩
    some (g.edges_.any (fun e => Edge.eq e tempE))
  else none

/-- The method `Graph::add_edge`. -/
def add_edge (g : Graph P) (a b : Node) : Option (Edge × Graph P) :=
  if assert_has_nodes g a b then
    if Node.lt a b then
      match has_edge g a b with
      | none => none
      | some false => some (⟨(a, b)⟩, { g with edges_ := g.edges_ ++ [⟨(a, b)⟩] })
      | some true => some (⟨(a, b)⟩, g)
    else
      match has_edge g b a with
      | none => none
      | some false => some (⟨(b, a)⟩, { g with edges_ := g.edges_ ++ [⟨(b, a)⟩] })
      | some true => some (⟨(b, a)⟩, g)
  else none

/-- The graph after a call whose result is `r`, `g` when the call failed. -/
def state_after {α : Type} (g : Graph P) (r : Option (α × Graph P)) : Graph P :=
  match r with
  | some x => x.2
  | none => g

/-- Example state: two nodes (ids 0 and 1) in a graph at address 0. -/
def ex_nodes : Graph Unit := (add_node (add_node (Graph.empty 0) ()).2 ()).2

/-- Example state: `ex_nodes` after `add_edge(node(0), node(1))`. -/
def ex_edge : Graph Unit := state_after ex_nodes (add_edge ex_nodes ⟨0, 0⟩ ⟨0, 1⟩)

end Graph982

namespace Graph1983

/-! # `hw1/Graph_1983.hpp`

Nodes and edges are `(graph, index)` handles; `internal_adj_` maps, per node, the
neighbour index to the number stored for the edge. A failed `assert` and an
out-of-range `operator[]` on a vector evaluate to `none`. -/

/-- The class `Graph::Node`: a graph pointer and an index. -/
structure Node where
  graph_ : Nat
  index_ : Nat
deriving DecidableEq, Repr

/-- The class `Graph::Edge`: a graph pointer, an index and the indices of the endpoints. -/
structure Edge where
  graph_ : Nat
  index_ : Nat
  node1_ : Nat
  node2_ : Nat
deriving DecidableEq, Repr

/-- The struct `Graph::node_info`. -/
structure node_info (P V : Type) where
  node_loc : P
  node_val : V
deriving DecidableEq, Repr

/-- The data members of `Graph<V>`, with `addr` the address of the object. `P` is the type
`Point` of `CME212/Point.hpp`. -/
structure Graph (P V : Type) where
  addr : Nat
  num_nodes_ : Nat
  internal_edges_ : List (Nat × Nat)
  num_edges_ : Nat
  internal_adj_ : List (List (Nat × Nat))
  internal_nodes_ : List (node_info P V)
deriving DecidableEq, Repr

variable {P V : Type}

/-- The constructor `Graph()` of a graph object at address `addr`. -/
def Graph.empty (addr : Nat) : Graph P V :=
  { addr := addr, num_nodes_ := 0, internal_edges_ := [], num_edges_ := 0,
    internal_adj_ := [], internal_nodes_ := [] }

/-- The operator `Node::operator==`. -/
def Node.eq (x n : Node) : Bool :=
  if x.graph_ ≠ n.graph_ ∨ x.index_ ≠ n.index_ then false else true

/-- The method `Edge::node1`. -/
def Edge.node1 (e : Edge) : Node := ⟨e.graph_, e.node1_⟩

/-- The method `Edge::node2`. -/
def Edge.node2 (e : Edge) : Node := ⟨e.graph_, e.node2_⟩

/-- The operator `Edge::operator==`. -/
def Edge.eq (x e : Edge) : Bool :=
  if x.graph_ ≠ e.graph_ ∨ x.index_ ≠ e.index_ then false else true

/-- The method `Graph::size`. -/
def size (g : Graph P V) : Nat := g.num_nodes_

/-- The method `Graph::num_nodes`. -/
def num_nodes (g : Graph P V) : Nat := size g

/-- The method `Graph::add_node`. -/
def add_node (g : Graph P V) (position : P) (val : V) : Node × Graph P V :=
  let n := Graph2236.size_type_succ g.num_nodes_
  (⟨g.addr, Graph2236.size_type_sub n 1⟩,
   { g with internal_nodes_ := g.internal_nodes_ ++ [⟨position, val⟩], num_nodes_ := n,
            internal_adj_ := g.internal_adj_ ++ [[]] })

/-- The method `Graph::has_node`. -/
def has_node (g : Graph P V) (n : Node) : Bool :=
  decide (g.addr = n.graph_) && decide (n.index_ < g.num_nodes_)

/-- The method `Graph::node`. -/
def node (g : Graph P V) (i : Nat) : Option Node :=
  if i < g.num_nodes_ then some ⟨g.addr, i⟩ else none

/-- The method `Graph::num_edges`. -/
def num_edges (g : Graph P V) : Nat := g.num_edges_

/-- The method `Graph::edge`. -/
def edge (g : Graph P V) (i : Nat) : Option Edge :=
  if i < g.num_edges_ then
    match g.internal_edges_[i]? with
    | none => none
    | some t => some ⟨g.addr, i, t.1, t.2⟩
  else none

/-- The method `Graph::has_edge`. -/
def has_edge (g : Graph P V) (a b : Node) : Option Bool :=
  match g.internal_adj_[a.index_]? with
  | none => none
  | some m => some (Graph2236.umap_at m b.index_).isSome

/-- The statement `internal_adj_[inda][indb] = value;`. -/
def adj_set (adj : List (List (Nat × Nat))) (inda indb value : Nat) :
    Option (List (List (Nat × Nat))) :=
  match adj[inda]? with
  | none => none
  | some m =>
    some (adj.set inda (Graph2236.umap_assign (Graph2236.umap_insert m indb 0) indb value))

/-- The expression `internal_adj_[inda][indb]` read as a value: the adjacency after the
access, which creates a missing entry, and the value found. -/
def adj_index (adj : List (List (Nat × Nat))) (inda indb : Nat) :
    Option (List (List (Nat × Nat)) × Nat) :=
  match adj[inda]? with
  | none => none
  | some m =>
    let m1 := Graph2236.umap_insert m indb 0
    some (adj.set inda m1, (Graph2236.umap_at m1 indb).getD 0)

/-- The method `Graph::add_edge`. -/
def add_edge (g : Graph P V) (a b : Node) : Option (Edge × Graph P V) :=
  match has_edge g a b with
  | none => none
  | some exists_ =>
    let inda := a.index_
    let indb := b.index_
    if exists_ then
      match adj_index g.internal_adj_ inda indb with
      | none => none
      | some r => some (⟨g.addr, r.2, inda, indb⟩, { g with internal_adj_ := r.1 })
    else
      let n := Graph2236.size_type_succ g.num_edges_
      match adj_set g.internal_adj_ inda indb n with
      | none => none
      | some adj1 =>
        match adj_set adj1 indb inda n with
        | none => none
        | some adj2 =>
          some (⟨g.addr, Graph2236.size_type_sub n 1, inda, indb⟩,
            { g with num_edges_ := n, internal_edges_ := g.internal_edges_ ++ [(inda, indb)],
                     internal_adj_ := adj2 })

/-- The graph after a call whose result is `r`, `g` when the call failed. -/
def state_after {α : Type} (g : Graph P V) (r : Option (α × Graph P V)) : Graph P V :=
  match r with
  | some x => x.2
  | none => g

/-- Example state: two nodes (indices 0 and 1) in a graph at address 0. -/
def ex_nodes : Graph Unit Nat := (add_node (add_node (Graph.empty 0) () 10).2 () 11).2

/-- Example state: `ex_nodes` after `add_edge(node(0), node(1))`. -/
def ex_edge : Graph Unit Nat := state_after ex_nodes (add_edge ex_nodes ⟨0, 0⟩ ⟨0, 1⟩)

end Graph1983

namespace Graph2460

/-! # `hw3/Graph_2460.hpp`

Nodes and edges are `(graph, index)` handles into `nodes_` and `edges_`; `adjacency_`
holds, per node index, the pairs `(neighbour index, edge index)`. An out-of-range
`operator[]`, `back()` or `erase` on a vector, the read of an uninitialised variable and a
step of an invalidated iterator evaluate to `none`. -/

/-- The class `Graph::Node`: a graph pointer and an index. -/
structure Node where
  graph_ : Nat
  index_ : Nat
deriving DecidableEq, Repr

/-- The class `Graph::Edge`: a graph pointer, the index of the edge and the indices of its
endpoints in the order of this view. -/
structure Edge where
  graph_ : Nat
  eidx_ : Nat
  n1idx_ : Nat
  n2idx_ : Nat
deriving DecidableEq, Repr

/-- The struct `Graph::internal_node`. -/
structure internal_node (P V : Type) where
  position : P
  value : V
deriving DecidableEq, Repr

/-- The struct `Graph::internal_edge`. -/
structure internal_edge (E : Type) where
  idx1 : Nat
  idx2 : Nat
  value : E
deriving DecidableEq, Repr

/-- The data members of `Graph<V, E>`, with `addr` the address of the object. `P` is the
type `Point` of `CME212/Point.hpp`. -/
structure Graph (P V E : Type) where
  addr : Nat
  nodes_ : List (internal_node P V)
  edges_ : List (internal_edge E)
  adjacency_ : List (List (Nat × Nat))
deriving DecidableEq, Repr

variable {P V E : Type}

/-- The constructor `Graph()` of a graph object at address `addr`. -/
def Graph.empty (addr : Nat) : Graph P V E :=
  { addr := addr, nodes_ := [], edges_ := [], adjacency_ := [] }

/-! ## Nodes -/

/-- The method `Node::index`. -/
def Node.index (n : Node) : Nat := n.index_

/-- The method `Node::position` of a node handle of graph `g`. -/
def Node.position (g : Graph P V E) (n : Node) : Option P :=
  (g.nodes_[n.index_]?).map (fun s => s.position)

/-- The method `Node::value` of a node handle of graph `g`. -/
def Node.value (g : Graph P V E) (n : Node) : Option V :=
  (g.nodes_[n.index_]?).map (fun s => s.value)

/-- The method `Node::degree` of a node handle of graph `g`. -/
def Node.degree (g : Graph P V E) (n : Node) : Option Nat :=
  (g.adjacency_[n.index_]?).map (fun l => Graph2236.to_size_type l.length)

/-- The operator `Node::operator==`. -/
def Node.eq (x n : Node) : Bool :=
  decide (x.graph_ = n.graph_) && decide (x.index_ = n.index_)

/-- The method `Graph::size`. -/
def size (g : Graph P V E) : Nat := Graph2236.to_size_type g.nodes_.length

/-- The method `Graph::num_nodes`. -/
def num_nodes (g : Graph P V E) : Nat := size g

/-- The method `Graph::add_node`. -/
def add_node (g : Graph P V E) (position : P) (value : V) : Node × Graph P V E :=
  let new_nidx := num_nodes g
  (⟨g.addr, new_nidx⟩,
   { g with nodes_ := g.nodes_ ++ [⟨position, value⟩], adjacency_ := g.adjacency_ ++ [[]] })

/-- The method `Graph::has_node`. -/
def has_node (g : Graph P V E) (n : Node) : Bool :=
  if n.graph_ = g.addr then true else false

/-- The method `Graph::node`. -/
def node (g : Graph P V E) (i : Nat) : Node := ⟨g.addr, i⟩

/-! ## Edges -/

/-- The method `Edge::node1`. -/
def Edge.node1 (e : Edge) : Node := ⟨e.graph_, e.n1idx_⟩

/-- The method `Edge::node2`. -/
def Edge.node2 (e : Edge) : Node := ⟨e.graph_, e.n2idx_⟩

/-- The method `Edge::value` of an edge handle of graph `g`. -/
def Edge.value (g : Graph P V E) (e : Edge) : Option E :=
  (g.edges_[e.eidx_]?).map (fun s => s.value)

/-- The operator `Edge::operator==`. -/
def Edge.eq (x e : Edge) : Bool :=
  if x.graph_ = e.graph_ ∧ x.n1idx_ = e.n1idx_ ∧ x.n2idx_ = e.n2idx_ then true
  else if x.graph_ = e.graph_ ∧ x.n1idx_ = e.n2idx_ ∧ x.n2idx_ = e.n1idx_ then true
  else false

/-- The method `Graph::num_edges`. -/
def num_edges (g : Graph P V E) : Nat := Graph2236.to_size_type g.edges_.length

/-- The method `Graph::edge`. -/
def edge (g : Graph P V E) (i : Nat) : Option Edge :=
  (g.edges_[i]?).map (fun s => ⟨g.addr, i, s.idx1, s.idx2⟩)

/-- The method `Graph::has_edge`. -/
def has_edge (g : Graph P V E) (a b : Node) : Option Bool :=
  match g.adjacency_[a.index_]? with
  | none => none
  | some l => some (l.any (fun p => decide (p.1 = b.index_)))

/-- The search loop of the existing-edge branch of `Graph::add_edge`: the value of
`existe_idx` after the edges from position `i` on were visited, `none` while it is
uninitialised. -/
def find_existing (a_idx b_idx : Nat) : List (internal_edge E) → Nat → Option Nat → Option Nat
  | [], _, existe_idx => existe_idx
  | s :: rest, i, existe_idx =>
    let r1 := if s.idx1 = a_idx ∧ s.idx2 = b_idx then some i else existe_idx
    let r2 := if s.idx1 = b_idx ∧ s.idx2 = a_idx then some i else r1
    find_existing a_idx b_idx rest (i + 1) r2

/-- The statement `adjacency_[a].push_back(std::make_pair(b, e));`. -/
def adjacency_push (adj : List (List (Nat × Nat))) (a b e : Nat) :
    Option (List (List (Nat × Nat))) :=
  match adj[a]? with
  | none => none
  | some l => some (adj.set a (l ++ [(b, e)]))

/-- The method `Graph::add_edge`. -/
def add_edge (g : Graph P V E) (a b : Node) (value : E) : Option (Edge × Graph P V E) :=
  let a_idx := Node.index a
  let b_idx := Node.index b
  match has_edge g a b with
  | none => none
  | some true =>
    match find_existing a_idx b_idx g.edges_ 0 none with
    | none => none
    | some existe_idx => some (⟨g.addr, existe_idx, a_idx, b_idx⟩, g)
  | some false =>
    let newe_idx := num_edges g
    match adjacency_push g.adjacency_ a_idx b_idx newe_idx with
    | none => none
    | some adj1 =>
      match adjacency_push adj1 b_idx a_idx newe_idx with
      | none => none
      | some adj2 =>
        some (⟨g.addr, newe_idx, a_idx, b_idx⟩,
          { g with edges_ := g.edges_ ++ [⟨a_idx, b_idx, value⟩], adjacency_ := adj2 })

/-- The loops `for (it = l.begin(); it != l.end(); ++it) if (it->first == k)
{ l.erase(it); break; }`: the first pair with first component `k` is erased. -/
def erase_first (l : List (Nat × Nat)) (k : Nat) : List (Nat × Nat) :=
  match l with
  | [] => []
  | p :: rest => if p.1 = k then rest else p :: erase_first rest k

/-- The loops `for (it = l.begin(); it != l.end(); ++it) if (it->first == k)
{ it->second = e; break; }`: the first pair with first component `k` gets the edge
index `e`. -/
def update_first (l : List (Nat × Nat)) (k e : Nat) : List (Nat × Nat) :=
  match l with
  | [] => []
  | p :: rest => if p.1 = k then (p.1, e) :: rest else p :: update_first rest k e

/-- One of the erase loops of `Graph::remove_edge(const Edge&)` and
`Graph::remove_node` applied to `adjacency_[n]`. -/
def adjacency_erase (adj : List (List (Nat × Nat))) (n k : Nat) :
    Option (List (List (Nat × Nat))) :=
  match adj[n]? with
  | none => none
  | some l => some (adj.set n (erase_first l k))

/-- One of the update loops of `Graph::remove_edge(const Edge&)` applied to
`adjacency_[n]`. -/
def adjacency_update (adj : List (List (Nat × Nat))) (n k e : Nat) :
    Option (List (List (Nat × Nat))) :=
  match adj[n]? with
  | none => none
  | some l => some (adj.set n (update_first l k e))

/-- The second half of `Graph::remove_edge(const Edge&)`: the edge stored last is copied
to `eidx`, the vector is popped, and the adjacency entries of the edge now read at
`edges_[eidx]` are given the index `eidx`. The read happens after the `pop_back`. -/
def remove_edge_move_last (g : Graph P V E) (eidx : Nat) : Option (Nat × Graph P V E) :=
  match g.edges_[eidx]?, g.edges_.getLast? with
  | some _, some l =>
    let edges := (g.edges_.set eidx l).dropLast
    match edges[eidx]? with
    | none => none
    | some moved =>
      let new_n1_idx := moved.idx1
      let new_n2_idx := moved.idx2
      match adjacency_update g.adjacency_ new_n1_idx new_n2_idx eidx with
      | none => none
      | some adj1 =>
        match adjacency_update adj1 new_n2_idx new_n1_idx eidx with
        | none => none
        | some adj2 => some (1, { g with edges_ := edges, adjacency_ := adj2 })
  | _, _ => none

/-- The method `Graph::remove_edge(const Edge&)`. -/
def remove_edge (g : Graph P V E) (e : Edge) : Option (Nat × Graph P V E) :=
  let eidx := e.eidx_
  let n1_idx := (Edge.node1 e).index_
  let n2_idx := (Edge.node2 e).index_
  match has_edge g (Edge.node1 e) (Edge.node2 e) with
  | none => none
  | some false => some (0, g)
  | some true =>
    match adjacency_erase g.adjacency_ n1_idx n2_idx with
    | none => none
    | some adj1 =>
      match adjacency_erase adj1 n2_idx n1_idx with
      | none => none
      | some adj2 => remove_edge_move_last { g with adjacency_ := adj2 } eidx

/-- The method `Graph::remove_edge(const Node&, const Node&)`. -/
def remove_edge_nodes (g : Graph P V E) (n1 n2 : Node) : Option (Nat × Graph P V E) :=
  match g.adjacency_[n1.index_]? with
  | none => none
  | some l =>
    match l.find? (fun p => decide (p.1 = n2.index_)) with
    | none => some (0, g)
    | some p => remove_edge g ⟨g.addr, p.2, n1.index_, n2.index_⟩

/-! ## Incident iteration and `remove_node` -/

/-- The operator `IncidentIterator::operator*` of an iterator of graph `g` over the node
index `index` at position `curr`. -/
def IncidentIterator.deref (g : Graph P V E) (index curr : Nat) : Option Edge :=
  match g.adjacency_[index]? with
  | none => none
  | some l =>
    match l[curr]? with
    | none => none
    | some p => some ⟨g.addr, p.2, index, p.1⟩

/-- The loop `for (e_it = n.edge_begin(); e_it != n.edge_end();)
{ remove_edge(*e_it); e_it = n.edge_begin(); }` of `Graph::remove_node`, run for at most
`fuel` iterations: the graph at exit, `none` when a call fails or the fuel runs out. No
call of the loop adds an entry to `adjacency_[n.index_]`, so the loop either ends within
as many iterations as the node has entries at its start or does not end. -/
def remove_node_loop (n : Node) : Nat → Graph P V E → Option (Graph P V E)
  | 0, g =>
    match Node.degree g n with
    | none => none
    | some d => if d = 0 then some g else none
  | fuel + 1, g =>
    match Node.degree g n with
    | none => none
    | some d =>
      if d = 0 then some g else
      match IncidentIterator.deref g n.index_ 0 with
      | none => none
      | some e =>
        match remove_edge g e with
        | none => none
        | some r => remove_node_loop n fuel r.2

/-- One iteration of the relabelling loop of `Graph::remove_node` for the entry
`(n2idx, eidx)` of `adjacency_[pre_idx]`. The loop iterates over `adjacency_[pre_idx]`
while it erases from `adjacency_[n2idx]` and appends to `adjacency_[nidx]` and
`adjacency_[n2idx]`; a change of the vector it iterates over invalidates its iterator. -/
def relabel_step (g : Graph P V E) (nidx pre_idx n2idx eidx : Nat) : Option (Graph P V E) :=
  if n2idx = pre_idx ∨ nidx = pre_idx then none else
  match g.edges_[eidx]? with
  | none => none
  | some s =>
    let s1 : internal_edge E :=
      if s.idx1 = pre_idx then { s with idx1 := nidx } else { s with idx2 := nidx }
    match adjacency_erase g.adjacency_ n2idx pre_idx with
    | none => none
    | some adj1 =>
      match adjacency_push adj1 nidx n2idx eidx with
      | none => none
      | some adj2 =>
        match adjacency_push adj2 n2idx nidx eidx with
        | none => none
        | some adj3 => some { g with edges_ := g.edges_.set eidx s1, adjacency_ := adj3 }

/-- The relabelling loop of `Graph::remove_node` over the entries of
`adjacency_[pre_idx]`. -/
def relabel_loop (nidx pre_idx : Nat) : List (Nat × Nat) → Graph P V E → Option (Graph P V E)
  | [], g => some g
  | p :: rest, g =>
    match relabel_step g nidx pre_idx p.1 p.2 with
    | none => none
    | some g1 => relabel_loop nidx pre_idx rest g1

/-- The statements of `Graph::remove_node(const Node&)` after the edges of the node were
removed. -/
def remove_node_storage (g : Graph P V E) (nidx : Nat) : Option (Nat × Graph P V E) :=
  let pre_idx := Graph2236.size_type_sub (size g) 1
  match g.nodes_[nidx]?, g.nodes_.getLast? with
  | some _, some l =>
    let g1 : Graph P V E := { g with nodes_ := (g.nodes_.set nidx l).dropLast }
    match g1.adjacency_[pre_idx]? with
    | none => none
    | some entries =>
      match relabel_loop nidx pre_idx entries g1 with
      | none => none
      | some g2 => some (1, { g2 with adjacency_ := g2.adjacency_.eraseIdx pre_idx })
  | _, _ => none

/-- The method `Graph::remove_node(const Node&)`. -/
def remove_node (g : Graph P V E) (n : Node) : Option (Nat × Graph P V E) :=
  let nidx := Node.index n
  if !has_node g n then some (0, g) else
  match Node.degree g n with
  | none => none
  | some d =>
    match remove_node_loop n d g with
    | none => none
    | some g1 => remove_node_storage g1 nidx

/-- The graph after a call whose result is `r`, `g` when the call failed. -/
def state_after {α : Type} (g : Graph P V E) (r : Option (α × Graph P V E)) : Graph P V E :=
  match r with
  | some x => x.2
  | none => g

/-! ## Example states -/

/-- Example state: four nodes with indices 0 to 3 in a graph at address 0. -/
def ex_nodes : Graph Unit Nat Nat :=
  (add_node (add_node (add_node (add_node (Graph.empty 0) () 10).2 () 11).2 () 12).2 () 13).2

/-- Example state: three nodes with the edges n0 - n1 and n1 - n2 (the three-node
scenario). -/
def ex_path : Graph Unit Nat Nat :=
  let g0 : Graph Unit Nat Nat :=
    (add_node (add_node (add_node (Graph.empty 0) () 10).2 () 11).2 () 12).2
  let g1 := state_after g0 (add_edge g0 ⟨0, 0⟩ ⟨0, 1⟩ 5)
  state_after g1 (add_edge g1 ⟨0, 1⟩ ⟨0, 2⟩ 6)

/-- Example state: `ex_nodes` with the edges n0 - n1 and n2 - n3. -/
def ex_two_edges : Graph Unit Nat Nat :=
  let g1 := state_after ex_nodes (add_edge ex_nodes ⟨0, 0⟩ ⟨0, 1⟩ 5)
  state_after g1 (add_edge g1 ⟨0, 2⟩ ⟨0, 3⟩ 6)

/-! ## Specification vocabulary -/

/-- The adjacency list of node index `u` holds the pair `(v, k)`. -/
def adj_mem (adj : List (List (Nat × Nat))) (u v k : Nat) : Prop :=
  ∃ l, adj[u]? = some l ∧ (v, k) ∈ l

/-- No adjacency list names a neighbour twice. -/
def keys_nodup (adj : List (List (Nat × Nat))) : Prop :=
  ∀ (u : Nat) (l : List (Nat × Nat)), adj[u]? = some l → (l.map Prod.fst).Nodup

/-- The internal edge `s` joins the node indices `u` and `v`, in either order. -/
def joins (s : internal_edge E) (u v : Nat) : Prop :=
  (s.idx1 = u ∧ s.idx2 = v) ∨ (s.idx1 = v ∧ s.idx2 = u)

/-- Whether an internal edge joins two node indices is decidable. -/
instance (s : internal_edge E) (u v : Nat) : Decidable (joins s u v) := by
  unfold joins; infer_instance

/-- Representation invariant of the container: there is one adjacency list per node, the
two end nodes of every stored edge are distinct and list each other with the index of the
edge, every adjacency entry names a stored edge between the two nodes, and no adjacency
list names a neighbour twice. -/
structure Inv (g : Graph P V E) : Prop where
  adj_len : g.adjacency_.length = g.nodes_.length
  nodes_bound : g.nodes_.length < Graph2236.size_type_mod
  edges_bound : g.edges_.length < Graph2236.size_type_mod
  edge_at : ∀ (k : Nat) (s : internal_edge E), g.edges_[k]? = some s →
    s.idx1 ≠ s.idx2 ∧ adj_mem g.adjacency_ s.idx1 s.idx2 k ∧ adj_mem g.adjacency_ s.idx2 s.idx1 k
  adj_at : ∀ (u v k : Nat), adj_mem g.adjacency_ u v k →
    ∃ s, g.edges_[k]? = some s ∧ joins s u v
  nodup : keys_nodup g.adjacency_

/-- A node handle obtained from the graph in its current state (from `add_node`,
`node(i)` with `i < num_nodes()`, a node iterator or the end of a stored edge): it points
to the graph and its index is in range. -/
def Node.fresh (g : Graph P V E) (n : Node) : Prop :=
  n.graph_ = g.addr ∧ n.index_ < g.nodes_.length

/-- An edge handle obtained from the graph in its current state (from `add_edge`,
`edge(i)`, an edge iterator or an incident iterator): it points to the graph and the edge
stored at its index joins its two node indices. -/
def Edge.fresh (g : Graph P V E) (e : Edge) : Prop :=
  e.graph_ = g.addr ∧ ∃ s, g.edges_[e.eidx_]? = some s ∧ joins s e.n1idx_ e.n2idx_

/-! ## The removal methods as compiled

`std::vector::pop_back` shrinks the vector and leaves its storage as it is, and
`operator[]` does not check its argument. When `remove_edge(e)` is called on the edge
stored last, the statement `edges_[eidx] = edges_.back()` assigns the element to itself,
and the read of `edges_[eidx]` after the `pop_back` is a read at `edges_.size()`: the
compiled program finds there the element just popped. The definitions of this section
follow the compiled program in this one place; `remove_edge_move_last`, `remove_edge`,
`remove_edge_nodes`, `remove_node_loop` and `remove_node` above stop at the read, and
wherever they have a result, the definitions of this section have the same result. -/

/-- The second half of `Graph::remove_edge(const Edge&)` as compiled: the edge stored last
is copied to `eidx`, the vector is popped, and the adjacency entries of the edge read at
`edges_[eidx]` are given the index `eidx`. When `eidx` was the last index the read finds
the element just popped in the storage of the vector. -/
def remove_edge_move_last_compiled (g : Graph P V E) (eidx : Nat) :
    Option (Nat × Graph P V E) :=
  match g.edges_[eidx]?, g.edges_.getLast? with
  | some _, some l =>
    let edges := (g.edges_.set eidx l).dropLast
    let moved : internal_edge E :=
      match edges[eidx]? with
      | some s => s
      | none => l
    let new_n1_idx := moved.idx1
    let new_n2_idx := moved.idx2
    match adjacency_update g.adjacency_ new_n1_idx new_n2_idx eidx with
    | none => none
    | some adj1 =>
      match adjacency_update adj1 new_n2_idx new_n1_idx eidx with
      | none => none
      | some adj2 => some (1, { g with edges_ := edges, adjacency_ := adj2 })
  | _, _ => none

/-- The method `Graph::remove_edge(const Edge&)` as compiled. -/
def remove_edge_compiled (g : Graph P V E) (e : Edge) : Option (Nat × Graph P V E) :=
  let eidx := e.eidx_
  let n1_idx := (Edge.node1 e).index_
  let n2_idx := (Edge.node2 e).index_
  match has_edge g (Edge.node1 e) (Edge.node2 e) with
  | none => none
  | some false => some (0, g)
  | some true =>
    match adjacency_erase g.adjacency_ n1_idx n2_idx with
    | none => none
    | some adj1 =>
      match adjacency_erase adj1 n2_idx n1_idx with
      | none => none
      | some adj2 => remove_edge_move_last_compiled { g with adjacency_ := adj2 } eidx

/-- The method `Graph::remove_edge(const Node&, const Node&)` as compiled. -/
def remove_edge_nodes_compiled (g : Graph P V E) (n1 n2 : Node) :
    Option (Nat × Graph P V E) :=
  match g.adjacency_[n1.index_]? with
  | none => none
  | some l =>
    match l.find? (fun p => decide (p.1 = n2.index_)) with
    | none => some (0, g)
    | some p => remove_edge_compiled g ⟨g.addr, p.2, n1.index_, n2.index_⟩

/-- The loop `for (e_it = n.edge_begin(); e_it != n.edge_end();)
{ remove_edge(*e_it); e_it = n.edge_begin(); }` of `Graph::remove_node` as compiled, run
for at most `fuel` iterations: the graph at exit, `none` when a call fails or the fuel
runs out. -/
def remove_node_loop_compiled (n : Node) : Nat → Graph P V E → Option (Graph P V E)
  | 0, g =>
    match Node.degree g n with
    | none => none
    | some d => if d = 0 then some g else none
  | fuel + 1, g =>
    match Node.degree g n with
    | none => none
    | some d =>
      if d = 0 then some g else
      match IncidentIterator.deref g n.index_ 0 with
      | none => none
      | some e =>
        match remove_edge_compiled g e with
        | none => none
        | some r => remove_node_loop_compiled n fuel r.2

/-- The method `Graph::remove_node(const Node&)` as compiled. -/
def remove_node_compiled (g : Graph P V E) (n : Node) : Option (Nat × Graph P V E) :=
  let nidx := Node.index n
  if !has_node g n then some (0, g) else
  match Node.degree g n with
  | none => none
  | some d =>
    match remove_node_loop_compiled n d g with
    | none => none
    | some g1 => remove_node_storage g1 nidx

/-- Graph states reachable from an empty graph by calls of `add_node`, of `add_edge` on
two distinct nodes, of the two `remove_edge` overloads and of `remove_node`, each called
with freshly obtained handles; the removal methods run as compiled. The states
considered hold fewer than `2 ^ 32` nodes and edges. -/
inductive Reachable : Graph P V E → Prop
  | empty (addr : Nat) : Reachable (Graph.empty addr)
  | add_node {g : Graph P V E} (p : P) (v : V) :
      Reachable g → g.nodes_.length + 1 < Graph2236.size_type_mod →
      Reachable (add_node g p v).2
  | add_edge {g g1 : Graph P V E} (a b : Node) (v : E) (e : Edge) :
      Reachable g → g.edges_.length + 1 < Graph2236.size_type_mod →
      Node.fresh g a → Node.fresh g b → a ≠ b →
      add_edge g a b v = some (e, g1) → Reachable g1
  | remove_edge {g g1 : Graph P V E} (e : Edge) (r : Nat) :
      Reachable g → Edge.fresh g e → remove_edge_compiled g e = some (r, g1) → Reachable g1
  | remove_edge_nodes {g g1 : Graph P V E} (a b : Node) (r : Nat) :
      Reachable g → Node.fresh g a → Node.fresh g b →
      remove_edge_nodes_compiled g a b = some (r, g1) → Reachable g1
  | remove_node {g g1 : Graph P V E} (n : Node) (r : Nat) :
      Reachable g → Node.fresh g n → remove_node_compiled g n = some (r, g1) → Reachable g1

/-- The state of the relabelling loop of `remove_node` for the removed index `nidx` and
the old last index `pre_idx`, when the entries `done` of `adjacency_[pre_idx]` have been
handled and the entries `rest` are still to come: `adjacency_[nidx]` holds the entries
handled, the stored edges that end at `pre_idx` are those of the entries to come, and
everything else is as in `Inv`. -/
structure RelabelInv (g : Graph P V E) (nidx pre_idx : Nat) (done rest : List (Nat × Nat)) :
    Prop where
  adj_len : g.adjacency_.length = pre_idx + 1
  nidx_lt : nidx < pre_idx
  pre_list : g.adjacency_[pre_idx]? = some (done ++ rest)
  nidx_list : g.adjacency_[nidx]? = some done
  keys_ok : ∀ (v k : Nat), (v, k) ∈ done ++ rest → v ≠ pre_idx ∧ v ≠ nidx
  edge_at : ∀ (k : Nat) (s : internal_edge E), g.edges_[k]? = some s →
    s.idx1 ≠ s.idx2 ∧ adj_mem g.adjacency_ s.idx1 s.idx2 k ∧ adj_mem g.adjacency_ s.idx2 s.idx1 k
  adj_at : ∀ (u v k : Nat), adj_mem g.adjacency_ u v k → (u = pre_idx → (v, k) ∈ rest) →
    ∃ s, g.edges_[k]? = some s ∧ joins s u v
  pre_at : ∀ (k : Nat) (s : internal_edge E) (v : Nat), g.edges_[k]? = some s →
    joins s pre_idx v → (v, k) ∈ rest
  nodup : keys_nodup g.adjacency_

/-- Example state: two nodes and the edge n0 - n1. -/
def ex_one_edge : Graph Unit Nat Nat :=
  let g0 : Graph Unit Nat Nat := (add_node (add_node (Graph.empty 0) () 10).2 () 11).2
  state_after g0 (add_edge g0 ⟨0, 0⟩ ⟨0, 1⟩ 5)

/-- Example state: `ex_two_edges` after `remove_node(n0)`. -/
def ex_removed : Graph Unit Nat Nat :=
  state_after ex_two_edges (remove_node ex_two_edges ⟨0, 0⟩)

/-- Example state: `ex_one_edge` after `remove_edge(edge(0))` as compiled, the removal of
the edge stored last. -/
def ex_edge_removed : Graph Unit Nat Nat :=
  state_after ex_one_edge (remove_edge_compiled ex_one_edge ⟨0, 0, 0, 1⟩)

/-- Example state: `ex_path` after `remove_node(n1)` as compiled (the three-node
scenario). -/
def ex_middle_removed : Graph Unit Nat Nat :=
  state_after ex_path (remove_node_compiled ex_path ⟨0, 1⟩)

/-- Example state: four nodes with the edges n0 - n1, n1 - n2 and n2 - n3. -/
def ex_chain : Graph Unit Nat Nat :=
  let g1 := state_after ex_nodes (add_edge ex_nodes ⟨0, 0⟩ ⟨0, 1⟩ 5)
  let g2 := state_after g1 (add_edge g1 ⟨0, 1⟩ ⟨0, 2⟩ 6)
  state_after g2 (add_edge g2 ⟨0, 2⟩ ⟨0, 3⟩ 7)

end Graph2460

namespace Graph2362

/-! # `hw3/Graph_2362.hpp`

Node and edge handles carry uids that index `nodes_` and `edges_`, which never shrink; the
field `uid` of an internal node or edge holds its current index, and `node_i2u`,
`edge_i2u` map indices to uids. An out-of-range `operator[]` or `erase` on a vector, a
failed `assert` and a comparison with a default-constructed (uninitialised) handle
evaluate to `none`. The loops of `has_edge` and `remove_edge` over an incident list are
traversals of the list: their counters are `unsigned` or wider, and an incident list
holds at most one entry per edge uid handed out, fewer than `2 ^ 32` in the states
considered. -/

/-- The struct `Graph::incident_edge`. -/
structure incident_edge where
  edge_uid : Nat
  id2 : Nat
deriving DecidableEq, Repr

/-- The struct `Graph::internal_node`; the field `uid` holds the index of the node. -/
structure internal_node (P V : Type) where
  p : P
  uid : Nat
  node_val : V
  inc_edges : List incident_edge
deriving DecidableEq, Repr

/-- The struct `Graph::internal_edge`; the field `uid` holds the index of the edge. -/
structure internal_edge (E : Type) where
  n1_uid : Nat
  n2_uid : Nat
  uid : Nat
  edge_val : E
deriving DecidableEq, Repr

/-- The class `Graph::Node`: a graph pointer and a uid. -/
structure Node where
  graph_ : Nat
  uid_ : Nat
deriving DecidableEq, Repr

/-- The class `Graph::Edge`: a graph pointer, the uids of the endpoints and the uid of the
edge. -/
structure Edge where
  graph_ : Nat
  node1_uid_ : Nat
  node2_uid_ : Nat
  edge_uid_ : Nat
deriving DecidableEq, Repr

/-- The data members of `Graph<V, E>`, with `addr` the address of the object. `P` is the
type `Point` of `CME212/Point.hpp`. -/
structure Graph (P V E : Type) where
  addr : Nat
  nodes_ : List (internal_node P V)
  edges_ : List (internal_edge E)
  node_i2u : List Nat
  edge_i2u : List Nat
  size_ : Nat
  num_edges_ : Nat
deriving DecidableEq, Repr

variable {P V E : Type}

/-- The constructor `Graph()` of a graph object at address `addr`. -/
def Graph.empty (addr : Nat) : Graph P V E :=
  { addr := addr, nodes_ := [], edges_ := [], node_i2u := [], edge_i2u := [], size_ := 0,
    num_edges_ := 0 }

/-! ## Nodes -/

/-- The method `Node::index` of a node handle of graph `g`. -/
def Node.index (g : Graph P V E) (n : Node) : Option Nat :=
  (g.nodes_[n.uid_]?).map (fun s => s.uid)

/-- The method `Node::position` of a node handle of graph `g`. -/
def Node.position (g : Graph P V E) (n : Node) : Option P :=
  (g.nodes_[n.uid_]?).map (fun s => s.p)

/-- The method `Node::value` of a node handle of graph `g`. -/
def Node.value (g : Graph P V E) (n : Node) : Option V :=
  (g.nodes_[n.uid_]?).map (fun s => s.node_val)

/-- The method `Node::degree` of a node handle of graph `g`. -/
def Node.degree (g : Graph P V E) (n : Node) : Option Nat :=
  (g.nodes_[n.uid_]?).map (fun s => Graph2236.to_size_type s.inc_edges.length)

/-- The operator `Node::operator==`. -/
def Node.eq (x n : Node) : Bool :=
  decide (x.graph_ = n.graph_) && decide (x.uid_ = n.uid_)

/-- The operator `Node::operator<`. -/
def Node.lt (x n : Node) : Bool := decide (x.uid_ < n.uid_)

/-- The method `Graph::size`. -/
def size (g : Graph P V E) : Nat := g.size_

/-- The method `Graph::num_nodes`. -/
def num_nodes (g : Graph P V E) : Nat := g.size_

/-- The method `Graph::add_node`. -/
def add_node (g : Graph P V E) (position : P) (node_val : V) : Node × Graph P V E :=
  let nodes := g.nodes_ ++ [⟨position, g.size_, node_val, []⟩]
  (⟨g.addr, Graph2236.to_size_type (nodes.length - 1)⟩,
   { g with nodes_ := nodes,
            node_i2u := g.node_i2u ++ [Graph2236.to_size_type (nodes.length - 1)],
            size_ := Graph2236.size_type_succ g.size_ })

/-- The method `Graph::node`; the inner `none` is the invalid node `Node()` returned for
an index that is not below `size_`. -/
def node (g : Graph P V E) (i : Nat) : Option (Option Node) :=
  if i < g.size_ then
    match g.node_i2u[i]? with
    | none => none
    | some u =>
      match Node.index g ⟨g.addr, u⟩ with
      | none => none
      | some j => if j = i then some (some ⟨g.addr, u⟩) else none
  else some none

/-- The method `Graph::has_node`. -/
def has_node (g : Graph P V E) (n : Node) : Option Bool :=
  match Node.index g n with
  | none => none
  | some i =>
    match node g i with
    | some (some m) => some (Node.eq m n)
    | _ => none

/-! ## Edges -/

/-- The method `Edge::node1`. -/
def Edge.node1 (e : Edge) : Node := ⟨e.graph_, e.node1_uid_⟩

/-- The method `Edge::node2`. -/
def Edge.node2 (e : Edge) : Node := ⟨e.graph_, e.node2_uid_⟩

/-- The operator `Edge::operator==`. -/
def Edge.eq (x e : Edge) : Bool :=
  (Node.eq (Edge.node1 x) (Edge.node1 e) && Node.eq (Edge.node2 x) (Edge.node2 e)) ||
  (Node.eq (Edge.node1 x) (Edge.node2 e) && Node.eq (Edge.node2 x) (Edge.node1 e))

/-- The operator `Edge::operator<`. -/
def Edge.lt (x e : Edge) : Bool :=
  if x.edge_uid_ < e.edge_uid_ ∨ x.graph_ ≠ e.graph_ then true else false

/-- The method `Edge::value` of an edge handle of graph `g`. -/
def Edge.value (g : Graph P V E) (e : Edge) : Option E :=
  (g.edges_[e.edge_uid_]?).map (fun s => s.edge_val)

/-- The method `Graph::num_edges`. -/
def num_edges (g : Graph P V E) : Nat := g.num_edges_

/-- The method `Graph::edge`; the inner `none` is the invalid edge `Edge()` returned for
an index that is not below `num_edges_`. -/
def edge (g : Graph P V E) (i : Nat) : Option (Option Edge) :=
  if i < g.num_edges_ then
    match g.edge_i2u[i]? with
    | none => none
    | some uid =>
      match g.edges_[uid]? with
      | none => none
      | some s => some (some ⟨g.addr, s.n1_uid, s.n2_uid, uid⟩)
  else some none

/-- The method `Graph::has_edge`. -/
def has_edge (g : Graph P V E) (a b : Node) : Option Bool :=
  match g.nodes_[a.uid_]? with
  | none => none
  | some s => some (s.inc_edges.any (fun x => decide (x.id2 = b.uid_)))

/-- The statement `nodes_[u].inc_edges.push_back(x);`. -/
def push_incident (nodes : List (internal_node P V)) (u : Nat) (x : incident_edge) :
    Option (List (internal_node P V)) :=
  match nodes[u]? with
  | none => none
  | some s => some (nodes.set u { s with inc_edges := s.inc_edges ++ [x] })

/-- The method `Graph::add_edge`; the handle is `none` for the invalid edge `Edge()`
returned when `a == b`. -/
def add_edge (g : Graph P V E) (a b : Node) (val : E) :
    Option (Option Edge × Graph P V E) :=
  if !(Node.eq a b) then
    match has_edge g a b with
    | none => none
    | some false =>
      let edges := g.edges_ ++ [⟨a.uid_, b.uid_, g.num_edges_, val⟩]
      let last := Graph2236.size_type_sub edges.length 1
      match push_incident g.nodes_ a.uid_ ⟨last, b.uid_⟩ with
      | none => none
      | some nodes1 =>
        match push_incident nodes1 b.uid_ ⟨last, a.uid_⟩ with
        | none => none
        | some nodes2 =>
          some (some ⟨g.addr, a.uid_, b.uid_, last⟩,
            { g with edges_ := edges, nodes_ := nodes2, edge_i2u := g.edge_i2u ++ [last],
                     num_edges_ := Graph2236.size_type_succ g.num_edges_ })
    | some true =>
      some (some ⟨g.addr, a.uid_, b.uid_, Graph2236.size_type_sub g.edges_.length 1⟩, g)
  else some (none, g)

/-- The loop `for (j = 0; j < n2.degree(); ++j) if (inc_edges[j].id2 == n1_uid)
inc_edges.erase(inc_edges.begin() + j);` of `Graph::remove_edge`, from position `j` on:
after an erase the index still advances, so the entry that moved into position `j` is
not examined. -/
def erase_matching (n1_uid : Nat) : List incident_edge → List incident_edge
  | [] => []
  | [x] => if x.id2 = n1_uid then [] else [x]
  | x :: y :: rest =>
    if x.id2 = n1_uid then y :: erase_matching n1_uid rest
    else x :: erase_matching n1_uid (y :: rest)

/-- The loops `for (k = first; k < i2u.size(); ++k) edges_[i2u[k]].uid = k;` of
`Graph::remove_edge`, over the entries of `edge_i2u` from position `k` on. -/
def relabel_edges : List (internal_edge E) → List Nat → Nat → Option (List (internal_edge E))
  | edges, [], _ => some edges
  | edges, u :: rest, k =>
    match edges[u]? with
    | none => none
    | some s => relabel_edges (edges.set u { s with uid := k }) rest (k + 1)

/-- The loop `for (i = first; i < node_i2u.size(); ++i) nodes_[node_i2u[i]].uid = i;` of
`Graph::remove_node`, over the entries of `node_i2u` from position `k` on. -/
def relabel_nodes : List (internal_node P V) → List Nat → Nat → Option (List (internal_node P V))
  | nodes, [], _ => some nodes
  | nodes, u :: rest, k =>
    match nodes[u]? with
    | none => none
    | some s => relabel_nodes (nodes.set u { s with uid := k }) rest (k + 1)

/-- The body of the `if (e.id2 == n2.uid_)` of `Graph::remove_edge(const Node&, const
Node&)`, entered at position `i` of the incident edges of `n1` for the entry `e`. -/
def remove_edge_at (g : Graph P V E) (n1 n2 : Node) (i : Nat) (e : incident_edge) :
    Option (Nat × Graph P V E) :=
  match g.edges_[e.edge_uid]? with
  | none => none
  | some s =>
    let edge_id := s.uid
    match g.nodes_[n1.uid_]? with
    | none => none
    | some s1 =>
      let nodes1 := g.nodes_.set n1.uid_ { s1 with inc_edges := s1.inc_edges.eraseIdx i }
      match nodes1[n2.uid_]? with
      | none => none
      | some s2 =>
        let nodes2 :=
          nodes1.set n2.uid_ { s2 with inc_edges := erase_matching n1.uid_ s2.inc_edges }
        if edge_id < g.edge_i2u.length then
          let i2u := g.edge_i2u.eraseIdx edge_id
          match relabel_edges g.edges_ (i2u.drop edge_id) edge_id with
          | none => none
          | some edges =>
            some (1, { g with nodes_ := nodes2, edge_i2u := i2u, edges_ := edges,
                              num_edges_ := Graph2236.size_type_sub g.num_edges_ 1 })
        else none

/-- The method `Graph::remove_edge(const Node&, const Node&)`. -/
def remove_edge_nodes (g : Graph P V E) (n1 n2 : Node) : Option (Nat × Graph P V E) :=
  match has_edge g n1 n2 with
  | none => none
  | some false => some (0, g)
  | some true =>
    match g.nodes_[n1.uid_]? with
    | none => none
    | some s1 =>
      match s1.inc_edges.findIdx? (fun x => decide (x.id2 = n2.uid_)) with
      | none => some (0, g)
      | some i =>
        match s1.inc_edges[i]? with
        | none => none
        | some e => remove_edge_at g n1 n2 i e

/-- The method `Graph::remove_edge(const Edge&)`. -/
def remove_edge (g : Graph P V E) (e : Edge) : Option (Nat × Graph P V E) :=
  remove_edge_nodes g (Edge.node1 e) (Edge.node2 e)

/-! ## Incident iteration and `remove_node` -/

/-- The operator `IncidentIterator::operator*` of an iterator of graph `g` over the node
handle `n` at position `iter_idx`. -/
def IncidentIterator.deref (g : Graph P V E) (n : Node) (iter_idx : Nat) : Option Edge :=
  match g.nodes_[n.uid_]? with
  | none => none
  | some s =>
    match s.inc_edges[iter_idx]? with
    | none => none
    | some x => some ⟨n.graph_, n.uid_, x.id2, x.edge_uid⟩

/-- The loop `while (n.degree() > 0) remove_edge(*n.edge_begin());` of
`Graph::remove_node`, run for at most `fuel` iterations: the graph at exit, `none` when a
call fails or the fuel runs out. No call of the loop adds an incident edge to `n`, so the
loop either ends within as many iterations as `n` has incident edges at its start or does
not end. -/
def remove_node_loop (n : Node) : Nat → Graph P V E → Option (Graph P V E)
  | 0, g =>
    match Node.degree g n with
    | none => none
    | some d => if d > 0 then none else some g
  | fuel + 1, g =>
    match Node.degree g n with
    | none => none
    | some d =>
      if d > 0 then
        match IncidentIterator.deref g n 0 with
        | none => none
        | some e =>
          match remove_edge g e with
          | none => none
          | some r => remove_node_loop n fuel r.2
      else some g

/-- The statements of `Graph::remove_node(const Node&)` after its loop. -/
def remove_node_storage (g : Graph P V E) (n : Node) : Option (Nat × Graph P V E) :=
  match Node.index g n with
  | none => none
  | some i =>
    if i < g.node_i2u.length then
      let i2u := g.node_i2u.eraseIdx i
      match relabel_nodes g.nodes_ (i2u.drop i) i with
      | none => none
      | some nodes =>
        some (1, { g with node_i2u := i2u, nodes_ := nodes,
                          size_ := Graph2236.size_type_sub g.size_ 1 })
    else none

/-- The method `Graph::remove_node(const Node&)`. -/
def remove_node (g : Graph P V E) (n : Node) : Option (Nat × Graph P V E) :=
  match has_node g n with
  | none => none
  | some false => some (0, g)
  | some true =>
    match Node.degree g n with
    | none => none
    | some d =>
      match remove_node_loop n d g with
      | none => none
      | some g1 => remove_node_storage g1 n

/-- The graph after a call whose result is `r`, `g` when the call failed. -/
def state_after {α : Type} (g : Graph P V E) (r : Option (α × Graph P V E)) : Graph P V E :=
  match r with
  | some x => x.2
  | none => g

/-! ## Example states -/

/-- Example state: three nodes with uids 0, 1, 2 in a graph at address 0. -/
def ex_nodes : Graph Unit Nat Nat :=
  (add_node (add_node (add_node (Graph.empty 0) () 10).2 () 11).2 () 12).2

/-- Example state: `ex_nodes` after `add_edge(n0, n1, 7)`. -/
def ex_one_edge : Graph Unit Nat Nat :=
  state_after ex_nodes (add_edge ex_nodes ⟨0, 0⟩ ⟨0, 1⟩ 7)

/-- Example state: `ex_one_edge` after `add_edge(n1, n2, 8)`: the path n0 - n1 - n2. -/
def ex_path : Graph Unit Nat Nat :=
  state_after ex_one_edge (add_edge ex_one_edge ⟨0, 1⟩ ⟨0, 2⟩ 8)

/-- Example state: `ex_path` after `remove_node(n0)`. -/
def ex_removed : Graph Unit Nat Nat := state_after ex_path (remove_node ex_path ⟨0, 0⟩)

/-- Example state: one edge between two nodes in a graph at address 1. -/
def ex_other : Graph Unit Nat Nat :=
  let g0 : Graph Unit Nat Nat := (add_node (add_node (Graph.empty 1) () 10).2 () 11).2
  state_after g0 (add_edge g0 ⟨1, 0⟩ ⟨1, 1⟩ 7)

/-! ## Specification vocabulary -/

/-- The index fields of the internal nodes, by uid. -/
def node_index_fields (g : Graph P V E) : List Nat := g.nodes_.map (fun s => s.uid)

/-- The incident edge lists of the internal nodes, by uid. -/
def incident_lists (g : Graph P V E) : List (List incident_edge) :=
  g.nodes_.map (fun s => s.inc_edges)

/-- The index fields of the internal edges, by uid. -/
def edge_index_fields (g : Graph P V E) : List Nat := g.edges_.map (fun t => t.uid)

/-- The endpoint uids of the internal edges, by uid. -/
def edge_endpoints (g : Graph P V E) : List (Nat × Nat) :=
  g.edges_.map (fun t => (t.n1_uid, t.n2_uid))

/-- The neighbour uids listed in an incident edge list. -/
def neighbours (l : List incident_edge) : List Nat := l.map (fun x => x.id2)

/-- Representation invariant of the node storage: `size_` counts the live nodes and the
internal node of the uid stored at index `i` of `node_i2u` has index field `i`. -/
structure NodesInv (g : Graph P V E) : Prop where
  size_eq : g.size_ = g.node_i2u.length
  nodes_bound : g.nodes_.length < Graph2236.size_type_mod
  i2u_len : g.node_i2u.length ≤ g.nodes_.length
  node_at : ∀ (i u : Nat), g.node_i2u[i]? = some u → (node_index_fields g)[u]? = some i

/-- The states `g` and `g1` have the same address, the same index-to-uid map of the
nodes, the same node count and the same index fields of the internal nodes. -/
structure SameNodeIndex (g g1 : Graph P V E) : Prop where
  addr : g1.addr = g.addr
  i2u : g1.node_i2u = g.node_i2u
  size : g1.size_ = g.size_
  fields : node_index_fields g1 = node_index_fields g

/-- Representation invariant of the edge storage and the incident lists: `num_edges_`
counts the live edges, the internal edge of the uid stored at index `k` of `edge_i2u` has
index field `k`, every incident entry of a node names a live edge between that node and a
different node, no neighbour is listed twice, and the incident lists are symmetric. -/
structure EdgesInv (g : Graph P V E) : Prop where
  num_eq : g.num_edges_ = g.edge_i2u.length
  edges_bound : g.edges_.length < Graph2236.size_type_mod
  i2u_len : g.edge_i2u.length ≤ g.edges_.length
  edge_at : ∀ (k u : Nat), g.edge_i2u[k]? = some u → (edge_index_fields g)[u]? = some k
  inc_at : ∀ (u : Nat) (l : List incident_edge) (x : incident_edge),
    (incident_lists g)[u]? = some l → x ∈ l →
    x.id2 < g.nodes_.length ∧ x.id2 ≠ u ∧
    ∃ k, (edge_index_fields g)[x.edge_uid]? = some k ∧ g.edge_i2u[k]? = some x.edge_uid ∧
      ((edge_endpoints g)[x.edge_uid]? = some (u, x.id2) ∨
       (edge_endpoints g)[x.edge_uid]? = some (x.id2, u))
  inc_nodup : ∀ (u : Nat) (l : List incident_edge),
    (incident_lists g)[u]? = some l → (neighbours l).Nodup
  inc_symm : ∀ (u v : Nat) (l m : List incident_edge),
    (incident_lists g)[u]? = some l → (incident_lists g)[v]? = some m →
    (v ∈ neighbours l ↔ u ∈ neighbours m)

/-- Graph states reachable from an empty graph by calls of `add_node`, `add_edge` on two
valid nodes of the graph, `remove_node` and the two `remove_edge` overloads. A call that
has undefined behaviour leaves no successor state. The uids are 32-bit; the states
considered are those with fewer than `2 ^ 32` node uids and edge uids handed out. -/
inductive Reachable : Graph P V E → Prop
  | empty (addr : Nat) : Reachable (Graph.empty addr)
  | add_node {g : Graph P V E} (p : P) (v : V) :
      Reachable g → g.nodes_.length + 1 < Graph2236.size_type_mod →
      Reachable (add_node g p v).2
  | add_edge {g g1 : Graph P V E} (a b : Node) (v : E) (e : Option Edge) :
      Reachable g → g.edges_.length + 1 < Graph2236.size_type_mod →
      has_node g a = some true → has_node g b = some true →
      add_edge g a b v = some (e, g1) → Reachable g1
  | remove_node {g g1 : Graph P V E} (n : Node) (r : Nat) :
      Reachable g → remove_node g n = some (r, g1) → Reachable g1
  | remove_edge {g g1 : Graph P V E} (e : Edge) (r : Nat) :
      Reachable g → remove_edge g e = some (r, g1) → Reachable g1
  | remove_edge_nodes {g g1 : Graph P V E} (a b : Node) (r : Nat) :
      Reachable g → remove_edge_nodes g a b = some (r, g1) → Reachable g1

/-- The relabelling loops of `remove_node` and `remove_edge` seen on the index fields
alone: the field of the uid at position `j` of `us` becomes `k + j`. -/
def relabel_fields : List Nat → List Nat → Nat → Option (List Nat)
  | fields, [], _ => some fields
  | fields, u :: rest, k =>
    if u < fields.length then relabel_fields (fields.set u k) rest (k + 1) else none

/-! ## The edge loop of `remove_node`, iteration by iteration -/

/-- One iteration of the loop `while (n.degree() > 0) remove_edge(*n.edge_begin());` of
`Graph::remove_node`: the graph after the body, `none` when the call fails. -/
def remove_node_loop_body (n : Node) (g : Graph P V E) : Option (Graph P V E) :=
  match IncidentIterator.deref g n 0 with
  | none => none
  | some e =>
    match remove_edge g e with
    | none => none
    | some r => some r.2

/-- The graph after `k` consecutive executions of the body of the loop of
`Graph::remove_node`. -/
def remove_node_loop_iterate (n : Node) : Nat → Graph P V E → Option (Graph P V E)
  | 0, g => some g
  | k + 1, g =>
    match remove_node_loop_body n g with
    | none => none
    | some g1 => remove_node_loop_iterate n k g1

end Graph2362

namespace Graph1193

/-! # `hw1/Graph_1193.hpp`

Nodes are `(graph, index)` handles into `node_list` and `node_value`; the edge with index
`i` has the endpoints `edge_small[i]` and `edge_big[i]` in the order of its `add_edge`
call, and `edges_` maps a node index to the map from neighbour index to edge index. A
failed `assert` and an out-of-range `operator[]` on a vector evaluate to `none`. -/

/-- The class `Graph::Node`: a graph pointer and an index. -/
structure Node where
  graph_ : Nat
  idx_ : Nat
deriving DecidableEq, Repr

/-- The class `Graph::Edge`: a graph pointer, the two node indices and the edge index. -/
structure Edge where
  edgegraph_ : Nat
  small_node : Nat
  big_node : Nat
  edgeidx_ : Nat
deriving DecidableEq, Repr

/-- The class `Graph::IncidentIterator`: a graph pointer, the index of the node and the
position of `mapit` in the map `edges_[selfidx]`. -/
structure IncidentIterator where
  graph_ : Nat
  selfidx : Nat
  mapit : Nat
deriving DecidableEq, Repr

/-- The data members of `Graph<V>`, with `addr` the address of the object. `P` is the type
`Point` of `CME212/Point.hpp`. -/
structure Graph (P V : Type) where
  addr : Nat
  node_list : List P
  node_value : List V
  edge_small : List Nat
  edge_big : List Nat
  edges_ : Graph2056.adjacency_type
deriving DecidableEq, Repr

variable {P V : Type}

/-- The constructor `Graph()` of a graph object at address `addr`. -/
def Graph.empty (addr : Nat) : Graph P V :=
  { addr := addr, node_list := [], node_value := [], edge_small := [], edge_big := [],
    edges_ := [] }

/-- The method `Node::index`. -/
def Node.index (n : Node) : Nat := n.idx_

/-- The operator `Node::operator==`. -/
def Node.eq (x n : Node) : Bool :=
  if x.graph_ = n.graph_ ∧ x.idx_ = n.idx_ then true else false

/-- The method `Graph::size`. -/
def size (g : Graph P V) : Nat := Graph2236.to_size_type g.node_list.length

/-- The method `Graph::num_nodes`. -/
def num_nodes (g : Graph P V) : Nat := size g

/-- The method `Graph::node`. -/
def node (g : Graph P V) (i : Nat) : Option Node :=
  if i < num_nodes g then some ⟨g.addr, i⟩ else none

/-- The method `Graph::add_node`. -/
def add_node (g : Graph P V) (position : P) (val : V) : Option (Node × Graph P V) :=
  let g1 : Graph P V :=
    { g with node_list := g.node_list ++ [position], node_value := g.node_value ++ [val] }
  match node g1 (Graph2236.to_size_type (g1.node_list.length - 1)) with
  | none => none
  | some n => some (n, g1)

/-- The method `Graph::has_node`. -/
def has_node (g : Graph P V) (n : Node) : Bool :=
  if n.graph_ ≠ g.addr ∨ Node.index n ≥ size g then false else true

/-- The method `Edge::node1` of an edge handle of graph `g`. -/
def Edge.node1 (g : Graph P V) (e : Edge) : Option Node := node g e.small_node

/-- The method `Edge::node2` of an edge handle of graph `g`. -/
def Edge.node2 (g : Graph P V) (e : Edge) : Option Node := node g e.big_node

/-- The operator `Edge::operator==`. -/
def Edge.eq (x e : Edge) : Bool :=
  if x.edgegraph_ ≠ e.edgegraph_ then false
  else if x.small_node = e.small_node ∧ x.big_node = e.big_node then true
  else false

/-- The method `Graph::num_edges`. -/
def num_edges (g : Graph P V) : Nat := Graph2236.to_size_type g.edge_small.length

/-- The method `Graph::edge`. -/
def edge (g : Graph P V) (i : Nat) : Option Edge :=
  match g.edge_small[i]?, g.edge_big[i]? with
  | some s, some b => some ⟨g.addr, s, b, i⟩
  | _, _ => none

/-- The lookup `search->second.find(b.index()) != search->second.end()` behind
`search = edges_.find(a.index())`: the edge index stored for the ordered pair. -/
def find_edge (g : Graph P V) (a b : Node) : Option Nat :=
  match Graph2236.umap_at g.edges_ (Node.index a) with
  | none => none
  | some m => Graph2236.umap_at m (Node.index b)

/-- The method `Graph::has_edge`. -/
def has_edge (g : Graph P V) (a b : Node) : Option Bool :=
  if has_node g a && has_node g b then some (find_edge g a b).isSome else none

/-- The method `Graph::add_edge`. -/
def add_edge (g : Graph P V) (a b : Node) : Option (Edge × Graph P V) :=
  if has_node g a && has_node g b && !(Node.eq a b) then
    match find_edge g a b with
    | some i =>
      match edge g i with
      | none => none
      | some e => some (e, g)
    | none =>
      let g1 : Graph P V :=
        { g with edge_small := g.edge_small ++ [Node.index a],
                 edge_big := g.edge_big ++ [Node.index b] }
      let last := Graph2236.size_type_sub (num_edges g1) 1
      let edges1 := Graph2056.adjacency_set g1.edges_ (Node.index a) (Node.index b) last
      let edges2 := Graph2056.adjacency_set edges1 (Node.index b) (Node.index a) last
      let g2 : Graph P V := { g1 with edges_ := edges2 }
      match edge g2 last with
      | none => none
      | some e => some (e, g2)
  else none

/-- The method `Node::edge_begin` of a node handle of graph `g`: the iterator and the
graph after the call (`edges_[idx_]` creates the map of the node when it is missing). -/
def Node.edge_begin (g : Graph P V) (n : Node) : IncidentIterator × Graph P V :=
  (⟨n.graph_, n.idx_, 0⟩, { g with edges_ := Graph2056.adjacency_touch g.edges_ n.idx_ })

/-- The operator `IncidentIterator::operator*` of an iterator of graph `g`; an iterator
at or past the end of its map cannot be dereferenced. -/
def IncidentIterator.deref (g : Graph P V) (it : IncidentIterator) : Option Edge :=
  match Graph2236.umap_at g.edges_ it.selfidx with
  | none => none
  | some m =>
    match m[it.mapit]? with
    | none => none
    | some p => some ⟨it.graph_, it.selfidx, p.1, p.2⟩

/-- The graph after a call whose result is `r`, `g` when the call failed. -/
def state_after {α : Type} (g : Graph P V) (r : Option (α × Graph P V)) : Graph P V :=
  match r with
  | some x => x.2
  | none => g

/-- Graph states reachable from an empty graph by calls of `add_node` and of `add_edge`
that return, while fewer than `2 ^ 32` nodes and edges are stored. -/
inductive Reachable : Graph P V → Prop
  | empty (addr : Nat) : Reachable (Graph.empty addr)
  | add_node {g g1 : Graph P V} (p : P) (v : V) (n : Node) :
      Reachable g → g.node_list.length + 1 < Graph2236.size_type_mod →
      add_node g p v = some (n, g1) → Reachable g1
  | add_edge {g g1 : Graph P V} (a b : Node) (e : Edge) :
      Reachable g → g.edge_small.length + 1 < Graph2236.size_type_mod →
      add_edge g a b = some (e, g1) → Reachable g1

/-- Example state: one node with index 0 in a graph at address 0. -/
def ex_node : Graph Unit Nat :=
  state_after (Graph.empty 0) (add_node (Graph.empty 0) () 10)

/-- Example state: two nodes with indices 0 and 1 in a graph at address 0. -/
def ex_nodes : Graph Unit Nat := state_after ex_node (add_node ex_node () 11)

/-- Example state: `ex_nodes` after `add_edge(n0, n1)`. -/
def ex_edge : Graph Unit Nat := state_after ex_nodes (add_edge ex_nodes ⟨0, 0⟩ ⟨0, 1⟩)

end Graph1193

namespace Graph2543

/-! # `hw0/Graph_2543.hpp`

Nodes are `(graph, index)` handles; `nodes_` maps an index to a position and `edges_` an
edge index to the pair of its end nodes. An `Edge` object holds pointers to two `Node`
objects; it is modelled with the nodes the pointers designate. The keys of `nodes_` are
`int`; the states considered hold fewer than `2 ^ 31` nodes. A call that throws
`std::out_of_range` (a failed `.at`) or fails an `assert` evaluates to `none`. -/

/-- The class `Graph::Node`: an index and a graph pointer. -/
structure Node where
  index_ : Nat
  graph_ : Nat
deriving DecidableEq, Repr

/-- The class `Graph::Edge`: the two nodes its pointers designate and an index. -/
structure Edge where
  node1_ : Node
  node2_ : Node
  index_ : Nat
deriving DecidableEq, Repr

/-- The data members of `Graph`, with `addr` the address of the object. `P` is the type
`Point` of `CME212/Point.hpp`. -/
structure Graph (P : Type) where
  addr : Nat
  nodes_ : List (Nat × P)
  size_ : Nat
  edges_ : List (Nat × (Node × Node))
deriving DecidableEq, Repr

variable {P : Type}

/-- The constructor `Graph()` of a graph object at address `addr`. -/
def Graph.empty (addr : Nat) : Graph P := { addr := addr, nodes_ := [], size_ := 0, edges_ := [] }

/-- The method `Node::index`. -/
def Node.index (n : Node) : Nat := n.index_

/-- The method `Node::graph`. -/
def Node.graph (n : Node) : Nat := n.graph_

/-- The operator `Node::operator==`. -/
def Node.eq (x n : Node) : Bool :=
  if Node.graph n = Node.graph x ∧ Node.index n = Node.index x then true else false

/-- The method `Graph::size`. -/
def size (g : Graph P) : Nat := g.size_

/-- The method `Graph::num_nodes`. -/
def num_nodes (g : Graph P) : Nat := size g

/-- The method `Graph::add_node`. -/
def add_node (g : Graph P) (position : P) : Node × Graph P :=
  let size1 := Graph2236.size_type_succ g.size_
  (⟨Graph2236.size_type_sub size1 1, g.addr⟩,
   { g with nodes_ := Graph2056.map_insert g.nodes_ (num_nodes g) position, size_ := size1 })

/-- The method `Graph::has_node`. -/
def has_node (g : Graph P) (n : Node) : Bool :=
  if Node.graph n = g.addr then true else false

/-- The method `Edge::node1`. -/
def Edge.node1 (e : Edge) : Node := e.node1_

/-- The method `Edge::node2`. -/
def Edge.node2 (e : Edge) : Node := e.node2_

/-- The operator `Edge::operator==`. -/
def Edge.eq (x e : Edge) : Bool :=
  if Node.eq (Edge.node1 e) x.node1_ && Node.eq (Edge.node2 e) x.node2_ then true
  else if Node.eq (Edge.node1 e) x.node2_ && Node.eq (Edge.node2 e) x.node1_ then true
  else false

/-- The method `Graph::num_edges`. -/
def num_edges (g : Graph P) : Nat := Graph2236.to_size_type g.edges_.length

/-- The loop `for (i = first; i < num_edges(); i++) if (Edge(&a, &b) ==
Edge(&(edges_.at(i).first), &(edges_.at(i).second)))` of `has_edge` and `add_edge`, with
`count` iterations left from `i` on: the index at which it stops, the inner `none` when
it runs to its end. -/
def find_edge (g : Graph P) (a b : Node) : Nat → Nat → Option (Option Nat)
  | 0, _ => some none
  | count + 1, i =>
    match Graph2236.umap_at g.edges_ i with
    | none => none
    | some p =>
      if Edge.eq ⟨a, b, 0⟩ ⟨p.1, p.2, 0⟩ then some (some i) else find_edge g a b count (i + 1)

/-- The method `Graph::has_edge`. -/
def has_edge (g : Graph P) (a b : Node) : Option Bool :=
  (find_edge g a b (num_edges g) 0).map (fun r => r.isSome)

/-- The method `Graph::add_edge`. -/
def add_edge (g : Graph P) (a b : Node) : Option (Edge × Graph P) :=
  if has_node g a && has_node g b then
    match find_edge g a b (num_edges g) 0 with
    | none => none
    | some (some i) => some (⟨a, b, i⟩, g)
    | some none =>
      let ind := num_edges g
      let edges :=
        Graph2236.umap_assign (Graph2056.map_insert g.edges_ ind (⟨0, 0⟩, ⟨0, 0⟩)) ind (a, b)
      some (⟨a, b, ind⟩, { g with edges_ := edges })
  else none

/-- The method `Graph::clear`: its body is empty. -/
def clear (g : Graph P) : Graph P := g

/-- The graph after a call whose result is `r`, `g` when the call failed. -/
def state_after {α : Type} (g : Graph P) (r : Option (α × Graph P)) : Graph P :=
  match r with
  | some x => x.2
  | none => g

/-- Graph states reachable from an empty graph by calls of `add_node` and of `add_edge`
that return. -/
inductive Reachable : Graph P → Prop
  | empty (addr : Nat) : Reachable (Graph.empty addr)
  | add_node {g : Graph P} (p : P) : Reachable g → Reachable (add_node g p).2
  | add_edge {g g1 : Graph P} (a b : Node) (e : Edge) :
      Reachable g → add_edge g a b = some (e, g1) → Reachable g1

/-- Example state: two nodes with indices 0 and 1 in a graph at address 0. -/
def ex_nodes : Graph Unit := (add_node (add_node (Graph.empty 0) ()).2 ()).2

/-- Example state: `ex_nodes` after `add_edge(n0, n1)`. -/
def ex_edge : Graph Unit := state_after ex_nodes (add_edge ex_nodes ⟨0, 0⟩ ⟨1, 0⟩)

end Graph2543

namespace Graph2236

variable {P V E : Type}

/-! ## Lemmas on association lists and vectors -/

section umap
variable {K W : Type} [DecidableEq K]

theorem umap_at_isSome_iff (m : List (K × W)) (k : K) :
    (umap_at m k).isSome = true ↔ k ∈ m.map Prod.fst := by
  induction m with
  | nil => simp [umap_at]
  | cons p m ih =>
    obtain ⟨k1, w⟩ := p
    by_cases h : k1 = k
    · subst h; simp [umap_at]
    · have h3 : ¬ k = k1 := fun e => h e.symm
      simp [umap_at, h, h3, ih]

theorem umap_at_eq_none_iff (m : List (K × W)) (k : K) :
    umap_at m k = none ↔ k ∉ m.map Prod.fst := by
  rw [← umap_at_isSome_iff]
  cases umap_at m k <;> simp

theorem umap_length_assign (m : List (K × W)) (k : K) (v : W) :
    (umap_assign m k v).length = m.length := by
  simp [umap_assign]

theorem umap_at_mem (m : List (K × W)) (k : K) (v : W) (h : umap_at m k = some v) :
    (k, v) ∈ m := by
  induction m with
  | nil => simp [umap_at] at h
  | cons p m ih =>
    obtain ⟨k1, w⟩ := p
    by_cases h1 : k1 = k
    · subst h1; simp [umap_at] at h; simp [h]
    · simp [umap_at, h1] at h; simp [ih h]

end umap

section vec
variable {α : Type}

end vec

/-! ## The representation invariant and the operations -/

theorem to_size_type_of_lt (n : Nat) (h : n < size_type_mod) : to_size_type n = n :=
  Nat.mod_eq_of_lt h

theorem size_type_succ_of_lt (n : Nat) (h : n + 1 < size_type_mod) : size_type_succ n = n + 1 :=
  Nat.mod_eq_of_lt h

theorem size_type_sub_one (n : Nat) (h0 : 0 < n) (h : n < size_type_mod) :
    size_type_sub n 1 = n - 1 := by
  unfold size_type_sub size_type_mod at *
  omega

theorem lookup_joins (g : Graph P V E) (h : Inv g) (i : Nat) (s : internal_edge E)
    (hs : g.internal_edges_vector_[i]? = some s) (x y : Node)
    (hl : adj_lookup g.node_to_adjacency_map_map_ x y = some i) : joins s x y := by
  obtain ⟨s1, h1, h2⟩ := h.adj_at x y i hl
  rw [hs] at h1
  cases h1
  exact h2

theorem remove_node_absent (g : Graph P V E) (node : Node) (hn : has_node g node = false) :
    remove_node g node = some (0, g) := by
  unfold remove_node
  rw [hn]; rfl

/-- C7: for every graph and every node handle `n` for which `has_node(n)` is false (a handle
of another graph, or of a node that was already removed), `remove_node(n)` returns 0 and
leaves the graph as it was: `num_nodes()`, `num_edges()`, every `node(i)` and every `edge(i)`
are unchanged. -/
theorem C7_remove_absent_node (g : Graph P V E) (n : Node) (hn : has_node g n = false) :
    ∃ g1, remove_node g n = some (0, g1) ∧ g1 = g ∧ num_nodes g1 = num_nodes g ∧
      num_edges g1 = num_edges g ∧ (∀ i, node g1 i = node g i) ∧
      (∀ i, edge g1 i = edge g i) :=
  ⟨g, remove_node_absent g n hn, rfl, rfl, rfl, fun _ => rfl, fun _ => rfl⟩

theorem C7_remove_absent_node_witness :
    has_node ex_removed ex_n1 = false ∧
    ∃ g1, remove_node ex_removed ex_n1 = some (0, g1) ∧ g1 = ex_removed ∧
      num_nodes g1 = num_nodes ex_removed ∧ num_edges g1 = num_edges ex_removed ∧
      (∀ i, node g1 i = node ex_removed i) ∧ (∀ i, edge g1 i = edge ex_removed i) :=
  ⟨by decide, C7_remove_absent_node ex_removed ex_n1 (by decide)⟩

/-- C8 (the code departs from the claim): in a graph with nodes n0, n1, n2, let
`e0 = add_edge(n0, n1)`, `e1 = add_edge(n1, n0)`, then `add_edge(n1, n2)` and
`remove_edge(e0)`. The edge between n0 and n1 is gone, yet `has_edge(e1)` is still true and
`remove_edge(e1)` returns 1 and removes the edge between n1 and n2. -/
theorem C8_stale_handle_removes_other_edge :
    add_edge ex_nodes ex_n0 ex_n1 5 = some (⟨0, 0, true⟩, ex_one_edge) ∧
    add_edge ex_one_edge ex_n1 ex_n0 6 = some (⟨0, 1, false⟩, ex_flipped) ∧
    add_edge ex_flipped ex_n1 ex_n2 7 = some (⟨0, 2, true⟩, ex_two_handles) ∧
    remove_edge ex_two_handles ⟨0, 0, true⟩ = some (1, ex_stale) ∧
    has_edge ex_stale ex_n0 ex_n1 = false ∧
    has_edge ex_stale ex_n1 ex_n2 = true ∧
    num_edges ex_stale = 1 ∧
    has_edge_handle ex_stale ⟨0, 1, false⟩ = true ∧
    (remove_edge ex_stale ⟨0, 1, false⟩).map Prod.fst = some 1 ∧
    (remove_edge ex_stale ⟨0, 1, false⟩).map (fun r => num_edges r.2) = some 0 ∧
    (remove_edge ex_stale ⟨0, 1, false⟩).map (fun r => has_edge r.2 ex_n1 ex_n2) = some false := by
  decide

/-- C9 (the code departs from the claim): in a graph with nodes n0, n1, n2, let
`e = add_edge(n0, n1)`, `f = add_edge(n1, n2)`, then `add_edge(n2, n1)`. Before
`remove_edge(e)` the handle `f` reads n1, n2 and its value; afterwards the edge between n1
and n2 is still in the graph and `has_edge(f)` is true, but `f.node1()`, `f.node2()` and
`f.value()` throw. -/
theorem C9_remove_edge_breaks_other_handle :
    add_edge ex_one_edge ex_n1 ex_n2 6 = some (⟨0, 1, true⟩, ex_path) ∧
    add_edge ex_path ex_n2 ex_n1 7 = some (⟨0, 2, false⟩, ex_path_flipped) ∧
    has_edge_handle ex_path_flipped ⟨0, 0, true⟩ = true ∧
    Edge.node1 ex_path_flipped ⟨0, 0, true⟩ = some ex_n0 ∧
    Edge.node2 ex_path_flipped ⟨0, 0, true⟩ = some ex_n1 ∧
    has_edge_handle ex_path_flipped ⟨0, 1, true⟩ = true ∧
    Edge.node1 ex_path_flipped ⟨0, 1, true⟩ = some ex_n1 ∧
    Edge.node2 ex_path_flipped ⟨0, 1, true⟩ = some ex_n2 ∧
    Edge.value ex_path_flipped ⟨0, 1, true⟩ = some 6 ∧
    remove_edge ex_path_flipped ⟨0, 0, true⟩ = some (1, ex_moved) ∧
    has_edge ex_moved ex_n1 ex_n2 = true ∧
    has_edge_handle ex_moved ⟨0, 1, true⟩ = true ∧
    Edge.node1 ex_moved ⟨0, 1, true⟩ = none ∧
    Edge.node2 ex_moved ⟨0, 1, true⟩ = none ∧
    Edge.value ex_moved ⟨0, 1, true⟩ = none := by
  decide

theorem node_eq_iff (x y : Node) : Node.eq x y = true ↔ x = y := by
  cases x; cases y; simp [Node.eq]

theorem node_lt_iff (x y : Node) :
    Node.lt x y = true ↔ x.uid_ < y.uid_ ∨ (x.uid_ = y.uid_ ∧ x.graph_ < y.graph_) := by
  unfold Node.lt
  by_cases hu : x.uid_ = y.uid_
  · by_cases hg : x.graph_ = y.graph_
    · simp [hu, hg]
    · simp [hu, hg]
  · have : ¬ (x.graph_ ≠ y.graph_ ∧ x.uid_ = y.uid_) := fun h => hu h.2
    simp [this, hu]

theorem node_lt_eq_false_iff (x y : Node) :
    Node.lt x y = false ↔ ¬ (x.uid_ < y.uid_ ∨ (x.uid_ = y.uid_ ∧ x.graph_ < y.graph_)) := by
  rw [← node_lt_iff]; simp

/-- C13: `Node::operator<` is a strict total order consistent with
`Node::operator==`: of `x == y`, `x < y` and `y < x` exactly one holds (and
`x == y` holds exactly for equal handles), and `x < y` with `y < z` gives
`x < z`. -/
theorem C13_node_lt_strict_total_order (x y z : Node) :
    (Node.eq x y = true ↔ x = y) ∧
    ((Node.eq x y = true ∧ Node.lt x y = false ∧ Node.lt y x = false) ∨
     (Node.eq x y = false ∧ Node.lt x y = true ∧ Node.lt y x = false) ∨
     (Node.eq x y = false ∧ Node.lt x y = false ∧ Node.lt y x = true)) ∧
    (Node.lt x y = true → Node.lt y z = true → Node.lt x z = true) := by
  refine ⟨node_eq_iff x y, ?_, ?_⟩
  · have he : Node.eq x y = false ↔ x ≠ y := by
      have h := node_eq_iff x y
      cases hxy : Node.eq x y <;> simp_all
    rw [node_eq_iff, he, node_lt_iff, node_lt_iff, node_lt_eq_false_iff, node_lt_eq_false_iff]
    have hxy : x = y ↔ x.graph_ = y.graph_ ∧ x.uid_ = y.uid_ := by
      cases x; cases y; simp
    rw [Ne, hxy]
    omega
  · rw [node_lt_iff, node_lt_iff, node_lt_iff]
    omega

end Graph2236

namespace Graph2056

variable {P V E : Type}

/-! ## `hw2/Graph_2056.hpp`: the node storage -/

theorem same_nodes_refl (g : Graph P V E) : SameNodes g g := ⟨rfl, rfl, rfl, rfl, rfl, rfl⟩

theorem same_nodes_trans (g g1 g2 : Graph P V E) (h1 : SameNodes g g1) (h2 : SameNodes g1 g2) :
    SameNodes g g2 :=
  ⟨h2.addr.trans h1.addr, h2.points.trans h1.points, h2.v.trans h1.v, h2.num.trans h1.num,
    h2.i2u.trans h1.i2u, h2.u2i.trans h1.u2i⟩

theorem nodes_inv_of_same (g g1 : Graph P V E) (hs : SameNodes g g1) (h : NodesInv g) :
    NodesInv g1 := by
  constructor
  · rw [hs.v, hs.points]; exact h.len_v
  · rw [hs.u2i, hs.points]; exact h.len_u2i
  · rw [hs.points]; exact h.bound
  · rw [hs.i2u, hs.points]; exact h.len_i2u
  · rw [hs.num, hs.i2u]; exact h.num
  · rw [hs.i2u, hs.u2i]; exact h.i2u

theorem has_node_of_same (g g1 : Graph P V E) (hs : SameNodes g g1) (n : Node) :
    has_node g1 n = has_node g n := by
  unfold has_node Node.valid
  rw [hs.addr, hs.points, hs.u2i, hs.i2u]

theorem add_edge_return_same (g g1 : Graph P V E) (u : Nat) (e : Edge)
    (hr : add_edge_return g u = some (e, g1)) : g1 = g := by
  unfold add_edge_return at hr
  cases h1 : g.edge_u2i_[u]? with
  | none => rw [h1] at hr; cases hr
  | some i =>
    rw [h1] at hr
    dsimp only at hr
    cases h2 : edge g i with
    | none => rw [h2] at hr; cases hr
    | some e2 =>
      rw [h2] at hr
      simp only [Option.some.injEq, Prod.mk.injEq] at hr
      exact hr.2.symm

theorem add_edge_same_nodes (g g1 : Graph P V E) (a b : Node) (v : E) (e : Edge)
    (hr : add_edge g a b v = some (e, g1)) : SameNodes g g1 := by
  unfold add_edge at hr
  split at hr
  · split at hr
    · cases hr
    · split at hr
      · cases hr
      · have := add_edge_return_same _ _ _ _ hr
        rw [this]
        exact ⟨rfl, rfl, rfl, rfl, rfl, rfl⟩
      · have := add_edge_return_same _ _ _ _ hr
        rw [this]
        exact ⟨rfl, rfl, rfl, rfl, rfl, rfl⟩
  · cases hr

theorem remove_edge_body_same_nodes (g g1 : Graph P V E) (a b r : Nat)
    (hr : remove_edge_body g a b = some (r, g1)) : SameNodes g g1 := by
  unfold remove_edge_body at hr
  dsimp only at hr
  split at hr
  · cases hr
  · split at hr
    · cases hr
    · split at hr
      · simp only [Option.some.injEq, Prod.mk.injEq] at hr
        rw [← hr.2]
        exact ⟨rfl, rfl, rfl, rfl, rfl, rfl⟩
      · cases hr

theorem remove_edge_nodes_same_nodes (g g1 : Graph P V E) (a b : Node) (r : Nat)
    (hr : remove_edge_nodes g a b = some (r, g1)) : SameNodes g g1 := by
  unfold remove_edge_nodes at hr
  split at hr
  · cases hr
  · simp only [Option.some.injEq, Prod.mk.injEq] at hr
    rw [← hr.2]; exact same_nodes_refl g
  · split at hr
    · cases hr
    · simp only [Option.some.injEq, Prod.mk.injEq] at hr
      rw [← hr.2]; exact same_nodes_refl g
    · exact remove_edge_body_same_nodes _ _ _ _ _ hr

theorem remove_edge_same_nodes (g g1 : Graph P V E) (e : Edge) (r : Nat)
    (hr : remove_edge g e = some (r, g1)) : SameNodes g g1 := by
  unfold remove_edge at hr
  split at hr
  · cases hr
  · split at hr
    · cases hr
    · exact remove_edge_nodes_same_nodes _ _ _ _ _ hr

theorem edge_end_same_nodes (g g1 : Graph P V E) (n : Node)
    (hr : Node.edge_end g n = some g1) : SameNodes g g1 := by
  unfold Node.edge_end at hr
  split at hr
  · simp only [Option.some.injEq] at hr
    rw [← hr]
    exact ⟨rfl, rfl, rfl, rfl, rfl, rfl⟩
  · cases hr

theorem remove_node_loop_same_nodes (n : Node) :
    ∀ (keys : List Nat) (g g1 : Graph P V E), remove_node_loop n keys g = some g1 →
      SameNodes g g1 := by
  intro keys
  induction keys with
  | nil =>
    intro g g1 hr
    unfold remove_node_loop at hr
    exact edge_end_same_nodes g g1 n hr
  | cons k keys ih =>
    intro g g1 hr
    unfold remove_node_loop at hr
    split at hr
    · cases hr
    · rename_i g0 h0
      split at hr
      · cases hr
      · split at hr
        · cases hr
        · split at hr
          · cases hr
          · rename_i e he r hre
            split at hr
            · cases hr
            · have s1 := edge_end_same_nodes g g0 n h0
              have s2 := remove_edge_same_nodes g0 r.2 _ r.1 hre
              exact same_nodes_trans _ _ _ (same_nodes_trans _ _ _ s1 s2) (ih _ _ hr)

theorem nodes_inv_empty (addr : Nat) : NodesInv (Graph.empty addr : Graph P V E) := by
  constructor <;> simp [Graph.empty, Graph2236.size_type_mod]

theorem add_node_fields (g : Graph P V E) (h : NodesInv g) (p : P) (v : V)
    (hb : g.points_.length + 1 < Graph2236.size_type_mod) :
    (add_node g p v).1 = ⟨g.addr, g.points_.length⟩ ∧
    (add_node g p v).2.addr = g.addr ∧
    (add_node g p v).2.points_ = g.points_ ++ [p] ∧
    (add_node g p v).2.v_ = g.v_ ++ [v] ∧
    (add_node g p v).2.node_i2u_ = g.node_i2u_ ++ [g.points_.length] ∧
    (add_node g p v).2.node_u2i_ = g.node_u2i_ ++ [g.node_i2u_.length] ∧
    (add_node g p v).2.num_nodes_ = g.node_i2u_.length + 1 := by
  have h1 : (g.v_ ++ [v]).length - 1 = g.points_.length := by
    rw [List.length_append, h.len_v]; rfl
  have h2 : Graph2236.to_size_type g.points_.length = g.points_.length :=
    Graph2236.to_size_type_of_lt _ h.bound
  have h3 : Graph2236.to_size_type g.node_i2u_.length = g.node_i2u_.length :=
    Graph2236.to_size_type_of_lt _ (Nat.lt_of_le_of_lt h.len_i2u h.bound)
  have h4 : Graph2236.to_size_type (g.node_i2u_.length + 1) = g.node_i2u_.length + 1 :=
    Graph2236.to_size_type_of_lt _ (by have := h.len_i2u; omega)
  refine ⟨?_, rfl, rfl, rfl, ?_, ?_, ?_⟩
  · show (⟨g.addr, Graph2236.to_size_type ((g.v_ ++ [v]).length - 1)⟩ : Node) = _
    rw [h1, h2]
  · show g.node_i2u_ ++ [Graph2236.to_size_type ((g.v_ ++ [v]).length - 1)] = _
    rw [h1, h2]
  · show g.node_u2i_ ++ [Graph2236.to_size_type g.node_i2u_.length] = _
    rw [h3]
  · show Graph2236.to_size_type
      (g.node_i2u_ ++ [Graph2236.to_size_type ((g.v_ ++ [v]).length - 1)]).length = _
    rw [List.length_append]
    exact h4

theorem nodes_inv_add_node (g : Graph P V E) (h : NodesInv g) (p : P) (v : V)
    (hb : g.points_.length + 1 < Graph2236.size_type_mod) : NodesInv (add_node g p v).2 := by
  obtain ⟨-, -, f3, f4, f5, f6, f7⟩ := add_node_fields g h p v hb
  constructor
  · rw [f4, f3, List.length_append, List.length_append, h.len_v]; rfl
  · rw [f6, f3, List.length_append, List.length_append, h.len_u2i]; rfl
  · rw [f3, List.length_append]; exact hb
  · rw [f5, f3, List.length_append, List.length_append]; have := h.len_i2u; simp; omega
  · rw [f7, f5, List.length_append]; rfl
  · intro i u hi
    rw [f5] at hi
    rw [f6]
    by_cases hc : i < g.node_i2u_.length
    · rw [List.getElem?_append_left hc] at hi
      have := h.i2u i u hi
      rw [List.getElem?_append_left (List.getElem?_eq_some_iff.1 this).1]
      exact this
    · have hlt := (List.getElem?_eq_some_iff.1 hi).1
      rw [List.length_append] at hlt
      have hie : i = g.node_i2u_.length := by simp at hlt; omega
      subst hie
      rw [List.getElem?_append_right (Nat.le_refl _)] at hi
      simp at hi
      subst hi
      rw [← h.len_u2i, List.getElem?_append_right (Nat.le_refl _)]
      simp

theorem remove_node_storage_fields (g g1 : Graph P V E) (h : NodesInv g) (uid r : Nat)
    (hr : remove_node_storage g uid = some (r, g1)) :
    ∃ back i, g.node_i2u_[g.node_i2u_.length - 1]? = some back ∧ g.node_u2i_[uid]? = some i ∧
      i < g.node_i2u_.length ∧ back < g.node_u2i_.length ∧ r = 1 ∧
      g1.addr = g.addr ∧ g1.points_ = g.points_ ∧ g1.v_ = g.v_ ∧
      g1.node_i2u_ = (g.node_i2u_.set i back).dropLast ∧
      g1.node_u2i_ = g.node_u2i_.set back i ∧
      g1.num_nodes_ = g.node_i2u_.length - 1 := by
  unfold remove_node_storage at hr
  dsimp only at hr
  split at hr
  · cases hr
  · rename_i back hback
    split at hr
    · cases hr
    · rename_i i hi
      split at hr
      · rename_i hc
        simp only [Option.some.injEq, Prod.mk.injEq] at hr
        obtain ⟨hr1, hr2⟩ := hr
        subst hr2
        refine ⟨back, i, ?_, hi, hc.1, hc.2, hr1.symm, rfl, rfl, rfl, rfl, rfl, ?_⟩
        · rw [List.getLast?_eq_getElem?] at hback; exact hback
        · show Graph2236.to_size_type ((g.node_i2u_.set i back).dropLast).length = _
          rw [List.length_dropLast, List.length_set]
          apply Graph2236.to_size_type_of_lt
          have := h.len_i2u; have := h.bound; omega
      · cases hr

theorem getElem?_set_dropLast (v : List Nat) (i j x : Nat) :
    ((v.set i x).dropLast)[j]? =
      if j < v.length - 1 then (if j = i then some x else v[j]?) else none := by
  rw [List.getElem?_dropLast, List.length_set]
  by_cases hj : j < v.length - 1
  · rw [if_pos hj, if_pos hj]
    by_cases hji : j = i
    · subst hji
      rw [if_pos rfl, List.getElem?_set_self (by omega)]
    · rw [if_neg hji, List.getElem?_set_ne (fun e => hji e.symm)]
  · rw [if_neg hj, if_neg hj]

theorem nodes_inv_remove_node_storage (g g1 : Graph P V E) (h : NodesInv g) (uid r : Nat)
    (hr : remove_node_storage g uid = some (r, g1)) : NodesInv g1 := by
  obtain ⟨back, i, hback, hi, hilt, hblt, -, f1, f2, f3, f4, f5, f6⟩ :=
    remove_node_storage_fields g g1 h uid r hr
  have hlen : (g.node_i2u_.set i back).dropLast.length = g.node_i2u_.length - 1 := by
    rw [List.length_dropLast, List.length_set]
  constructor
  · rw [f3, f2]; exact h.len_v
  · rw [f5, f2, List.length_set]; exact h.len_u2i
  · rw [f2]; exact h.bound
  · rw [f4, f2, hlen]; have := h.len_i2u; omega
  · rw [f6, f4, hlen]
  · intro j u hj
    rw [f4, getElem?_set_dropLast] at hj
    rw [f5]
    by_cases hjl : j < g.node_i2u_.length - 1
    · rw [if_pos hjl] at hj
      by_cases hji : j = i
      · rw [if_pos hji] at hj
        simp only [Option.some.injEq] at hj
        subst hj; subst hji
        exact List.getElem?_set_self hblt
      · rw [if_neg hji] at hj
        have h1 := h.i2u j u hj
        have h2 := h.i2u _ back hback
        have hne : ¬ back = u := by
          intro hc; rw [hc, h1] at h2
          simp only [Option.some.injEq] at h2
          omega
        rw [List.getElem?_set_ne hne]
        exact h1
    · rw [if_neg hjl] at hj; cases hj

theorem remove_node_unfold (g g1 : Graph P V E) (n : Node) (r : Nat)
    (hr : remove_node g n = some (r, g1)) :
    (has_node g n = some false ∧ r = 0 ∧ g1 = g) ∨
    (has_node g n = some true ∧
      ∃ g0, SameNodes g g0 ∧ remove_node_storage g0 n.index_ = some (r, g1)) := by
  unfold remove_node at hr
  split at hr
  · cases hr
  · rename_i hn
    simp only [Option.some.injEq, Prod.mk.injEq] at hr
    exact Or.inl ⟨hn, hr.1.symm, hr.2.symm⟩
  · rename_i hn
    split at hr
    · cases hr
    · rename_i g0 h0
      split at hr
      · cases hr
      · rename_i g2 h2
        exact Or.inr ⟨hn, g2, same_nodes_trans _ _ _ (edge_end_same_nodes g g0 n h0)
          (remove_node_loop_same_nodes n _ g0 g2 h2), hr⟩

theorem nodes_inv_remove_node (g g1 : Graph P V E) (h : NodesInv g) (n : Node) (r : Nat)
    (hr : remove_node g n = some (r, g1)) : NodesInv g1 := by
  rcases remove_node_unfold g g1 n r hr with ⟨-, -, h3⟩ | ⟨-, g0, hs, h3⟩
  · rw [h3]; exact h
  · exact nodes_inv_remove_node_storage g0 g1 (nodes_inv_of_same g g0 hs h) _ r h3

theorem nodes_inv_of_reachable (g : Graph P V E) (h : Reachable g) : NodesInv g := by
  induction h with
  | empty addr => exact nodes_inv_empty addr
  | add_node p v _ hb ih => exact nodes_inv_add_node _ ih p v hb
  | add_edge a b v e _ hr ih => exact nodes_inv_of_same _ _ (add_edge_same_nodes _ _ a b v e hr) ih
  | remove_node n r _ hr ih => exact nodes_inv_remove_node _ _ ih n r hr
  | remove_edge e r _ hr ih =>
    exact nodes_inv_of_same _ _ (remove_edge_same_nodes _ _ e r hr) ih
  | remove_edge_nodes a b r _ hr ih =>
    exact nodes_inv_of_same _ _ (remove_edge_nodes_same_nodes _ _ a b r hr) ih
  | edge_end n _ hr ih => exact nodes_inv_of_same _ _ (edge_end_same_nodes _ _ n hr) ih

theorem has_node_spec (g : Graph P V E) (h : NodesInv g) (n : Node) :
    has_node g n = some (decide (n.g_ = g.addr ∧ ∃ i, g.node_u2i_[n.index_]? = some i ∧
      g.node_i2u_[i]? = some n.index_)) := by
  unfold has_node
  by_cases hg : n.g_ = g.addr
  · rw [if_pos hg]
    unfold Node.valid
    by_cases hp : n.index_ < g.points_.length
    · rw [if_pos hp]
      have hlt : n.index_ < g.node_u2i_.length := by rw [h.len_u2i]; exact hp
      rw [List.getElem?_eq_getElem hlt]
      dsimp only
      by_cases hi : g.node_u2i_[n.index_] < g.node_i2u_.length
      · rw [if_pos hi, List.getElem?_eq_getElem hi]
        dsimp only
        congr 1
        by_cases hu : g.node_i2u_[g.node_u2i_[n.index_]] = n.index_
        · simp [hg, hu, List.getElem?_eq_getElem hi]
        · simp [hg, hu, List.getElem?_eq_getElem hi]
      · rw [if_neg hi]
        congr 1
        symm
        rw [decide_eq_false_iff_not]
        rintro ⟨-, i, h1, h2⟩
        simp only [Option.some.injEq] at h1
        have := (List.getElem?_eq_some_iff.1 h2).1
        omega
    · rw [if_neg hp]
      congr 1
      symm
      rw [decide_eq_false_iff_not]
      rintro ⟨-, i, h1, -⟩
      have := (List.getElem?_eq_some_iff.1 h1).1
      rw [h.len_u2i] at this
      exact hp this
  · rw [if_neg hg]
    congr 1
    symm
    rw [decide_eq_false_iff_not]
    exact fun hc => hg hc.1

theorem nodes_reachable_2056 : Reachable ex_nodes :=
  Reachable.add_node () 12 (Reachable.add_node () 11 (Reachable.add_node () 10
    (Reachable.empty 0) (by decide)) (by decide)) (by decide)

theorem reversed_reachable_2056 : Reachable ex_reversed :=
  Reachable.add_edge ex_n1 ex_n0 5 ⟨0, 0, 1, 0⟩ nodes_reachable_2056 (by decide)

theorem removed_reachable_2056 : Reachable ex_removed :=
  Reachable.remove_node ex_n0 1 nodes_reachable_2056 (by decide)

/-- C18: in `hw2/Graph_2056.hpp` the edge returned by `add_edge(a, b)` does not have
`node1() == a` when the edge exists and was first added as `add_edge(b, a)`: in the
reachable state with nodes 0, 1, 2 and the edge added as `add_edge(n1, n0)`, the call
`add_edge(n0, n1)` on the two live nodes returns a handle with `node1() == n1` and
`node2() == n0`. -/
theorem C18_add_edge_returns_stored_order :
    Reachable ex_reversed ∧ ex_n0 ≠ ex_n1 ∧ has_node ex_reversed ex_n0 = some true ∧
    has_node ex_reversed ex_n1 = some true ∧
    ∃ e g1, add_edge ex_reversed ex_n0 ex_n1 6 = some (e, g1) ∧
      Edge.node1 g1 e = some ex_n1 ∧ Edge.node2 g1 e = some ex_n0 ∧
      Edge.node1 g1 e ≠ some ex_n0 ∧ Edge.node2 g1 e ≠ some ex_n1 :=
  ⟨reversed_reachable_2056, by decide, by decide, by decide,
    ⟨0, 0, 1, 0⟩, state_after ex_reversed (add_edge ex_reversed ex_n0 ex_n1 6),
    by decide, by decide, by decide, by decide, by decide⟩

/-- C19: in `hw2/Graph_2056.hpp` `remove_node(n)` does not reach its postcondition
`has_node(n) == false` for a node with an incident edge: in the reachable state with the
edge between `n1` and `n0`, the loop of `remove_node(n0)` dereferences its iterator at the
entry for `n1`, `remove_edge` of that edge returns 1 and erases the entry, and the loop then
increments the iterator of the erased entry, so the call has no result. -/
theorem C19_remove_node_with_edge_undefined :
    Reachable ex_reversed ∧ has_node ex_reversed ex_n0 = some true ∧
    (∃ g0 e g1, Node.edge_end ex_reversed ex_n0 = some g0 ∧
      Graph2236.umap_at g0.node_to_node_to_edge_ ex_n0.index_ = some [(1, 0)] ∧
      IncidentIterator.deref g0 1 0 = some e ∧ remove_edge g0 e = some (1, g1) ∧
      Graph2236.umap_at g1.node_to_node_to_edge_ ex_n0.index_ = some []) ∧
    remove_node ex_reversed ex_n0 = none :=
  ⟨reversed_reachable_2056, by decide,
    ⟨ex_reversed, ⟨0, 0, 0, 1⟩, state_after ex_reversed (remove_edge ex_reversed ⟨0, 0, 0, 1⟩),
      by decide, by decide, by decide, by decide, by decide⟩,
    by decide⟩

/-- C20: in every reachable state `node_i2u_` and `node_u2i_` are mutually inverse on the
live nodes: `node(i).index() == i` for every `i < num_nodes()`, and every node `n` with
`has_node(n)` has `n.index() < num_nodes()` and `node(n.index()) == n`. -/
theorem C20_index_uid_inverse (g : Graph P V E) (h : Reachable g) :
    (∀ i, i < num_nodes g → ∃ n, node g i = some n ∧ Node.index g n = some i) ∧
    (∀ n, has_node g n = some true →
      ∃ i, Node.index g n = some i ∧ i < num_nodes g ∧ node g i = some n) := by
  have hI := nodes_inv_of_reachable g h
  have hnum : num_nodes g = g.node_i2u_.length := hI.num
  constructor
  · intro i hi
    have hil : i < g.node_i2u_.length := by rw [← hnum]; exact hi
    refine ⟨⟨g.addr, g.node_i2u_[i]⟩, ?_, ?_⟩
    · unfold node
      rw [if_pos hi, List.getElem?_eq_getElem hil]
    · exact hI.i2u i _ (List.getElem?_eq_getElem hil)
  · intro n hn
    rw [has_node_spec g hI n] at hn
    simp only [Option.some.injEq, decide_eq_true_eq] at hn
    obtain ⟨hg, i, h1, h2⟩ := hn
    have hil : i < g.node_i2u_.length := (List.getElem?_eq_some_iff.1 h2).1
    refine ⟨i, h1, by rw [hnum]; exact hil, ?_⟩
    unfold node
    rw [if_pos (by rw [hnum]; exact hil), h2]
    cases n
    simp only at hg
    simp [hg]

theorem C20_index_uid_inverse_witness :
    Reachable ex_removed ∧
    ((∀ i, i < num_nodes ex_removed →
      ∃ n, node ex_removed i = some n ∧ Node.index ex_removed n = some i) ∧
    (∀ n, has_node ex_removed n = some true →
      ∃ i, Node.index ex_removed n = some i ∧ i < num_nodes ex_removed ∧
        node ex_removed i = some n)) :=
  ⟨removed_reachable_2056, C20_index_uid_inverse ex_removed removed_reachable_2056⟩

theorem has_node_false_of_absent (g : Graph P V E) (h : NodesInv g) (n : Node)
    (ha : ∀ (i : Nat), g.node_i2u_[i]? ≠ some n.index_) : has_node g n = some false := by
  rw [has_node_spec g h n]
  congr 1
  rw [decide_eq_false_iff_not]
  rintro ⟨-, i, -, h2⟩
  exact ha i h2

theorem absent_after_storage (g g1 : Graph P V E) (h : NodesInv g) (uid r : Nat)
    (hr : remove_node_storage g uid = some (r, g1)) (u : Nat)
    (hu : (∀ (i : Nat), g.node_i2u_[i]? ≠ some u) ∨
      ∃ i, g.node_u2i_[uid]? = some i ∧ g.node_i2u_[i]? = some u) :
    ∀ (j : Nat), g1.node_i2u_[j]? ≠ some u := by
  obtain ⟨back, i, hback, hi, hilt, hblt, -, f1, f2, f3, f4, f5, f6⟩ :=
    remove_node_storage_fields g g1 h uid r hr
  intro j hj
  rw [f4, getElem?_set_dropLast] at hj
  by_cases hjl : j < g.node_i2u_.length - 1
  · rw [if_pos hjl] at hj
    rcases hu with hu | ⟨i2, hi2, hu2⟩
    · by_cases hji : j = i
      · rw [if_pos hji] at hj
        simp only [Option.some.injEq] at hj
        rw [hj] at hback
        exact hu _ hback
      · rw [if_neg hji] at hj
        exact hu _ hj
    · rw [hi] at hi2
      simp only [Option.some.injEq] at hi2
      subst hi2
      by_cases hji : j = i
      · rw [if_pos hji] at hj
        simp only [Option.some.injEq] at hj
        rw [hj] at hback
        have h1 := h.i2u _ _ hback
        have h2 := h.i2u _ _ hu2
        rw [h1] at h2
        simp only [Option.some.injEq] at h2
        omega
      · rw [if_neg hji] at hj
        have h1 := h.i2u _ _ hj
        have h2 := h.i2u _ _ hu2
        rw [h1] at h2
        simp only [Option.some.injEq] at h2
        exact hji h2
  · rw [if_neg hjl] at hj; cases hj

theorem absent_preserved (g0 g2 : Graph P V E) (h0 : NodesInv g0) (u : Nat)
    (hu : u < g0.points_.length) (ha : ∀ (i : Nat), g0.node_i2u_[i]? ≠ some u)
    (hl : ReachableFrom g0 g2) :
    NodesInv g2 ∧ u < g2.points_.length ∧ ∀ (i : Nat), g2.node_i2u_[i]? ≠ some u := by
  induction hl with
  | start => exact ⟨h0, hu, ha⟩
  | @add_node g p v _ hb ih =>
    obtain ⟨i1, i2, i3⟩ := ih
    obtain ⟨-, -, f3, -, f5, -, -⟩ := add_node_fields g i1 p v hb
    refine ⟨nodes_inv_add_node g i1 p v hb, ?_, ?_⟩
    · rw [f3, List.length_append]; omega
    · intro j hj
      rw [f5] at hj
      by_cases hc : j < g.node_i2u_.length
      · rw [List.getElem?_append_left hc] at hj
        exact i3 j hj
      · rw [List.getElem?_append_right (by omega)] at hj
        have hmem := List.getElem?_mem hj
        simp only [List.mem_singleton] at hmem
        omega
  | @add_edge g g1 a b v e _ hr ih =>
    obtain ⟨i1, i2, i3⟩ := ih
    have hs := add_edge_same_nodes g g1 a b v e hr
    exact ⟨nodes_inv_of_same g g1 hs i1, by rw [hs.points]; exact i2, by rw [hs.i2u]; exact i3⟩
  | @remove_node g g1 n r _ hr ih =>
    obtain ⟨i1, i2, i3⟩ := ih
    refine ⟨nodes_inv_remove_node g g1 i1 n r hr, ?_, ?_⟩
    · rcases remove_node_unfold g g1 n r hr with ⟨-, -, h3⟩ | ⟨-, g3, hs, h3⟩
      · rw [h3]; exact i2
      · obtain ⟨_, _, -, -, -, -, -, -, f2, -⟩ :=
          remove_node_storage_fields g3 g1 (nodes_inv_of_same g g3 hs i1) _ r h3
        rw [f2, hs.points]; exact i2
    · rcases remove_node_unfold g g1 n r hr with ⟨-, -, h3⟩ | ⟨-, g3, hs, h3⟩
      · rw [h3]; exact i3
      · exact absent_after_storage g3 g1 (nodes_inv_of_same g g3 hs i1) _ r h3 u
          (Or.inl (by rw [hs.i2u]; exact i3))
  | @remove_edge g g1 e r _ hr ih =>
    obtain ⟨i1, i2, i3⟩ := ih
    have hs := remove_edge_same_nodes g g1 e r hr
    exact ⟨nodes_inv_of_same g g1 hs i1, by rw [hs.points]; exact i2, by rw [hs.i2u]; exact i3⟩
  | @remove_edge_nodes g g1 a b r _ hr ih =>
    obtain ⟨i1, i2, i3⟩ := ih
    have hs := remove_edge_nodes_same_nodes g g1 a b r hr
    exact ⟨nodes_inv_of_same g g1 hs i1, by rw [hs.points]; exact i2, by rw [hs.i2u]; exact i3⟩
  | @edge_end g g1 n _ hr ih =>
    obtain ⟨i1, i2, i3⟩ := ih
    have hs := edge_end_same_nodes g g1 n hr
    exact ⟨nodes_inv_of_same g g1 hs i1, by rw [hs.points]; exact i2, by rw [hs.i2u]; exact i3⟩

/-- Whenever `remove_node(n)` on a live node returns, `has_node(n)` is false in the state
it leaves and in every state reached from it by further calls. -/
theorem removed_node_stays_absent (g g1 g2 : Graph P V E) (h : Reachable g) (n : Node)
    (r : Nat) (hn : has_node g n = some true) (hr : remove_node g n = some (r, g1))
    (hl : ReachableFrom g1 g2) :
    r = 1 ∧ has_node g1 n = some false ∧ has_node g2 n = some false := by
  have hI := nodes_inv_of_reachable g h
  rcases remove_node_unfold g g1 n r hr with ⟨h1, -, -⟩ | ⟨-, g3, hs, h3⟩
  · rw [hn] at h1; cases h1
  · have hI3 := nodes_inv_of_same g g3 hs hI
    have hn3 : has_node g3 n = some true := by rw [has_node_of_same g g3 hs]; exact hn
    rw [has_node_spec g3 hI3 n] at hn3
    simp only [Option.some.injEq, decide_eq_true_eq] at hn3
    obtain ⟨-, i, k1, k2⟩ := hn3
    have hI1 := nodes_inv_remove_node_storage g3 g1 hI3 _ r h3
    have habs := absent_after_storage g3 g1 hI3 _ r h3 n.index_ (Or.inr ⟨i, k1, k2⟩)
    obtain ⟨_, _, -, -, -, -, hr1, -, f2, -⟩ := remove_node_storage_fields g3 g1 hI3 _ r h3
    have hlt : n.index_ < g1.points_.length := by
      rw [f2, ← hI3.len_u2i]; exact (List.getElem?_eq_some_iff.1 k1).1
    obtain ⟨j1, -, j3⟩ := absent_preserved g1 g2 hI1 n.index_ hlt habs hl
    exact ⟨hr1, has_node_false_of_absent g1 hI1 n habs, has_node_false_of_absent g2 j1 n j3⟩

end Graph2056

namespace Graph2056

variable {P V E : Type}

/-! ## `hw2/Graph_2056.hpp`: `remove_node` and `clear` against the other handles -/

theorem two_edges_reachable_2056 : Reachable ex_two_edges :=
  Reachable.add_edge ⟨0, 2⟩ ⟨0, 3⟩ 6 ⟨0, 1, 2, 3⟩
    (Reachable.add_node () 13 reversed_reachable_2056 (by decide)) (by decide)

theorem valid_of_has_node (g : Graph P V E) (n : Node) (hn : has_node g n = some true) :
    n.g_ = g.addr ∧ Node.valid g n = some true := by
  unfold has_node at hn
  by_cases hg : n.g_ = g.addr
  · rw [if_pos hg] at hn; exact ⟨hg, hn⟩
  · rw [if_neg hg] at hn; cases hn

theorem has_node_true_iff (g : Graph P V E) (h : NodesInv g) (n : Node) :
    has_node g n = some true ↔
      (n.g_ = g.addr ∧ ∃ i, g.node_u2i_[n.index_]? = some i ∧
        g.node_i2u_[i]? = some n.index_) := by
  rw [has_node_spec g h n]
  simp only [Option.some.injEq, decide_eq_true_eq]

/-- Whenever `remove_node(n)` returns, every other node of the graph is still a node of
the graph, with its position and its value. -/
theorem remove_node_keeps_other_nodes (g g1 : Graph P V E) (h : NodesInv g) (n m : Node)
    (r : Nat) (hr : remove_node g n = some (r, g1)) (hm : has_node g m = some true)
    (hne : m ≠ n) :
    has_node g1 m = some true ∧ Node.position g1 m = Node.position g m ∧
      Node.value g1 m = Node.value g m := by
  have hkey : has_node g1 m = some true ∧ g1.points_ = g.points_ ∧ g1.v_ = g.v_ := by
    rcases remove_node_unfold g g1 n r hr with ⟨-, -, h3⟩ | ⟨hn, g0, hs, h3⟩
    · rw [h3]; exact ⟨hm, rfl, rfl⟩
    · have h0 := nodes_inv_of_same g g0 hs h
      have h1 := nodes_inv_remove_node_storage g0 g1 h0 _ r h3
      obtain ⟨back, i, hback, hi, hilt, hblt, -, f1, f2, f3, f4, f5, -⟩ :=
        remove_node_storage_fields g0 g1 h0 _ r h3
      refine ⟨?_, f2.trans hs.points, f3.trans hs.v⟩
      rw [← has_node_of_same g g0 hs] at hm hn
      obtain ⟨hmg, j, hj1, hj2⟩ := (has_node_true_iff g0 h0 m).1 hm
      obtain ⟨hng, i2, hi1, hi2⟩ := (has_node_true_iff g0 h0 n).1 hn
      rw [hi] at hi1
      simp only [Option.some.injEq] at hi1
      subst hi1
      have huid : m.index_ ≠ n.index_ := by
        intro hc
        apply hne
        cases m; cases n
        simp only at hc hmg hng
        simp [hc, hmg, hng]
      have hji : j ≠ i := by
        intro hc
        rw [hc, hi2] at hj2
        simp only [Option.some.injEq] at hj2
        exact huid hj2.symm
      have hjlt : j < g0.node_i2u_.length := (List.getElem?_eq_some_iff.1 hj2).1
      have hmlt : m.index_ < g0.node_u2i_.length := (List.getElem?_eq_some_iff.1 hj1).1
      have hlast := h0.i2u _ _ hback
      rw [has_node_true_iff g1 h1 m]
      refine ⟨hmg.trans f1.symm, ?_⟩
      rw [f4, f5]
      by_cases hmb : back = m.index_
      · refine ⟨i, ?_, ?_⟩
        · rw [← hmb]; exact List.getElem?_set_self hblt
        · rw [getElem?_set_dropLast]
          rw [← hmb, hlast] at hj1
          simp only [Option.some.injEq] at hj1
          rw [if_pos (by omega), if_pos rfl, hmb]
      · refine ⟨j, ?_, ?_⟩
        · rw [List.getElem?_set_ne hmb]; exact hj1
        · rw [getElem?_set_dropLast]
          have hjl : j ≠ g0.node_i2u_.length - 1 := by
            intro hc
            rw [hc, hback] at hj2
            simp only [Option.some.injEq] at hj2
            exact hmb hj2
          rw [if_pos (by omega), if_neg hji]
          exact hj2
  obtain ⟨hk1, hk2, hk3⟩ := hkey
  have hv1 := (valid_of_has_node g1 m hk1).2
  have hv := (valid_of_has_node g m hm).2
  refine ⟨hk1, ?_, ?_⟩
  · unfold Node.position
    rw [hv1, hv, hk2]
  · unfold Node.value
    rw [hv1, hv, hk3]

/-- C21: in `hw2/Graph_2056.hpp` `remove_node(n)` on a node with an incident edge does not
leave the other handles valid, because it does not complete: in the reachable state with the
edges n1 - n0 and n2 - n3, where `n2` is another live node and the handle of the edge
n2 - n3 (not incident to `n0`) is valid with `node1() == n2` and `node2() == n3`,
`remove_node(n0)` has no result (the loop increments the iterator of an erased entry). -/
theorem C21_remove_node_with_edge_no_result :
    Reachable ex_two_edges ∧ has_node ex_two_edges ex_n0 = some true ∧
    has_node ex_two_edges ex_n2 = some true ∧ ex_n2 ≠ ex_n0 ∧
    Edge.evalid ex_two_edges ⟨0, 1, 2, 3⟩ = some true ∧
    Edge.node1 ex_two_edges ⟨0, 1, 2, 3⟩ = some ⟨0, 2⟩ ∧
    Edge.node2 ex_two_edges ⟨0, 1, 2, 3⟩ = some ⟨0, 3⟩ ∧
    remove_node ex_two_edges ex_n0 = none :=
  ⟨two_edges_reachable_2056, by decide, by decide, by decide, by decide, by decide, by decide,
    by decide⟩

/-- C22: in `hw2/Graph_2056.hpp` a `Node` handle obtained before `clear()` is reported
present again after a later `add_node`: in the reachable state with three nodes,
`has_node(n0)` is true, it is false after `clear()`, and it is true again after
`clear()` followed by one `add_node`, which hands out uid 0 a second time. -/
theorem C22_clear_then_add_node_revives_handle :
    Reachable ex_nodes ∧ has_node ex_nodes ex_n0 = some true ∧
    has_node (clear ex_nodes) ex_n0 = some false ∧
    (add_node (clear ex_nodes) () 20).1 = ex_n0 ∧
    has_node (add_node (clear ex_nodes) () 20).2 ex_n0 = some true :=
  ⟨nodes_reachable_2056, by decide, by decide, by decide, by decide⟩

/-- The node storage after `add_node` calls on a graph in which the `m` uids handed out so
far are the live nodes in order, as after `clear()` with `m = 0`: the uids `0` to
`m + k - 1` are the live nodes in order, and the next `add_node` returns the uid
`m + k`. -/
theorem add_nodes_shape : ∀ (ps : List (P × V)) (g : Graph P V E) (m : Nat),
    g.points_.length = m → g.v_.length = m → g.node_u2i_ = List.range m →
    g.node_i2u_ = List.range m → g.num_nodes_ = m →
    m + ps.length < Graph2236.size_type_mod →
    (add_nodes g ps).addr = g.addr ∧ (add_nodes g ps).points_.length = m + ps.length ∧
    (add_nodes g ps).v_.length = m + ps.length ∧
    (add_nodes g ps).node_u2i_ = List.range (m + ps.length) ∧
    (add_nodes g ps).node_i2u_ = List.range (m + ps.length) ∧
    (add_nodes g ps).num_nodes_ = m + ps.length := by
  intro ps
  induction ps with
  | nil =>
    intro g m h1 h2 h3 h4 h5 _
    exact ⟨rfl, h1, h2, h3, h4, h5⟩
  | cons pv ps ih =>
    intro g m h1 h2 h3 h4 h5 hb
    simp only [List.length_cons] at hb
    have hm : Graph2236.to_size_type m = m := Graph2236.to_size_type_of_lt _ (by omega)
    have hm1 : Graph2236.to_size_type (m + 1) = m + 1 :=
      Graph2236.to_size_type_of_lt _ (by omega)
    obtain ⟨g1, hg1⟩ : ∃ g1 : Graph P V E, g1 = (add_node g pv.1 pv.2).2 := ⟨_, rfl⟩
    have f0 : g1.addr = g.addr := by rw [hg1]; rfl
    have f1 : g1.points_.length = m + 1 := by
      rw [hg1]
      show (g.points_ ++ [pv.1]).length = m + 1
      rw [List.length_append, h1]; rfl
    have f2 : g1.v_.length = m + 1 := by
      rw [hg1]
      show (g.v_ ++ [pv.2]).length = m + 1
      rw [List.length_append, h2]; rfl
    have f3 : g1.node_u2i_ = List.range (m + 1) := by
      rw [hg1]
      show g.node_u2i_ ++ [Graph2236.to_size_type g.node_i2u_.length] = List.range (m + 1)
      rw [h3, h4, List.length_range, hm, List.range_succ]
    have f4 : g1.node_i2u_ = List.range (m + 1) := by
      rw [hg1]
      show g.node_i2u_ ++ [Graph2236.to_size_type ((g.v_ ++ [pv.2]).length - 1)] =
        List.range (m + 1)
      rw [h4, List.length_append, h2, List.length_singleton, Nat.add_sub_cancel, hm,
        List.range_succ]
    have f5 : g1.num_nodes_ = m + 1 := by
      rw [hg1]
      show Graph2236.to_size_type
        (g.node_i2u_ ++ [Graph2236.to_size_type ((g.v_ ++ [pv.2]).length - 1)]).length = m + 1
      rw [h4, List.length_append, List.length_range, List.length_singleton, hm1]
    obtain ⟨k0, k1, k2, k3, k4, k5⟩ := ih g1 (m + 1) f1 f2 f3 f4 f5 (by omega)
    have hadd : add_nodes g (pv :: ps) = add_nodes g1 ps := by rw [hg1]; rfl
    have hlen : m + (pv :: ps).length = m + 1 + ps.length := by
      simp only [List.length_cons]; omega
    rw [hadd, hlen]
    exact ⟨k0.trans f0, k1, k2, k3, k4, k5⟩

/-- C22 (amended): in `hw2/Graph_2056.hpp` `clear()` invalidates the outstanding `Node`
objects until their uids are handed out again. For every graph and every node handle
`n`, `has_node(n)` is false after `clear()`; after `clear()` and `k` calls of `add_node`
it is true exactly when `n` is a handle of the graph with a uid below `k`, in which case
`n` is the node with the index equal to its uid; and the next `add_node` returns the
handle with the uid `k`. -/
theorem C22_clear_restarts_uids (g : Graph P V E) (n : Node) (ps : List (P × V))
    (hlen : ps.length + 1 < Graph2236.size_type_mod) :
    has_node (clear g) n = some false ∧
    has_node (add_nodes (clear g) ps) n =
      some (decide (n.g_ = g.addr ∧ n.index_ < ps.length)) ∧
    (n.g_ = g.addr → n.index_ < ps.length →
      Node.index (add_nodes (clear g) ps) n = some n.index_ ∧
      node (add_nodes (clear g) ps) n.index_ = some n) ∧
    (∀ p v, (add_node (add_nodes (clear g) ps) p v).1 = ⟨g.addr, ps.length⟩) := by
  obtain ⟨k0, k1, k2, k3, k4, k5⟩ := add_nodes_shape ps (clear g) 0 rfl rfl rfl rfl rfl
    (by omega)
  rw [Nat.zero_add] at k1 k2 k3 k4 k5
  have haddr : (add_nodes (clear g) ps).addr = g.addr := k0
  refine ⟨?_, ?_, ?_, ?_⟩
  · unfold has_node Node.valid
    have hp : (clear g).points_ = [] := rfl
    rw [hp]
    simp
  · unfold has_node
    rw [haddr]
    by_cases hg : n.g_ = g.addr
    · rw [if_pos hg]
      unfold Node.valid
      rw [k1, k3, k4, List.length_range]
      by_cases hi : n.index_ < ps.length
      · rw [if_pos hi, List.getElem?_range hi]
        dsimp only
        rw [if_pos hi, List.getElem?_range hi]
        simp [hg, hi]
      · rw [if_neg hi]
        simp [hi]
    · rw [if_neg hg]
      simp [hg]
  · intro hg hi
    constructor
    · unfold Node.index
      rw [k3, List.getElem?_range hi]
    · unfold node num_nodes size
      rw [k5, if_pos hi, k4, List.getElem?_range hi]
      dsimp only
      rw [haddr, ← hg]
  · intro p v
    unfold add_node
    dsimp only
    rw [haddr, List.length_append, k2, List.length_singleton, Nat.add_sub_cancel,
      Graph2236.to_size_type_of_lt _ (by omega)]

theorem C22_clear_restarts_uids_witness :
    (([((), 20)] : List (Unit × Nat)).length + 1 < Graph2236.size_type_mod) ∧
    (has_node (clear ex_nodes) ex_n0 = some false ∧
    has_node (add_nodes (clear ex_nodes) [((), 20)]) ex_n0 =
      some (decide (ex_n0.g_ = ex_nodes.addr ∧
        ex_n0.index_ < ([((), 20)] : List (Unit × Nat)).length)) ∧
    (ex_n0.g_ = ex_nodes.addr → ex_n0.index_ < ([((), 20)] : List (Unit × Nat)).length →
      Node.index (add_nodes (clear ex_nodes) [((), 20)]) ex_n0 = some ex_n0.index_ ∧
      node (add_nodes (clear ex_nodes) [((), 20)]) ex_n0.index_ = some ex_n0) ∧
    (∀ p v, (add_node (add_nodes (clear ex_nodes) [((), 20)]) p v).1 =
      ⟨ex_nodes.addr, ([((), 20)] : List (Unit × Nat)).length⟩)) :=
  ⟨by decide, C22_clear_restarts_uids ex_nodes ex_n0 [((), 20)] (by decide)⟩

end Graph2056

namespace Graph982

/-! ## `hw2/Graph_982.hpp`: `has_edge` -/

/-- C29: in `hw2/Graph_982.hpp` `has_edge` is not symmetric: after two `add_node` calls
and `add_edge(node(0), node(1))`, `has_edge(node(0), node(1))` is true and
`has_edge(node(1), node(0))` is false, although `edge(0)` connects the two nodes. -/
theorem C29_has_edge_not_symmetric :
    add_edge ex_nodes ⟨0, 0⟩ ⟨0, 1⟩ = some (⟨(⟨0, 0⟩, ⟨0, 1⟩)⟩, ex_edge) ∧
    has_node ex_edge ⟨0, 0⟩ = some true ∧ has_node ex_edge ⟨0, 1⟩ = some true ∧
    edge ex_edge 0 = some ⟨(⟨0, 0⟩, ⟨0, 1⟩)⟩ ∧
    has_edge ex_edge ⟨0, 0⟩ ⟨0, 1⟩ = some true ∧
    has_edge ex_edge ⟨0, 1⟩ ⟨0, 0⟩ = some false := by
  decide

end Graph982

namespace Graph1983

/-! ## `hw1/Graph_1983.hpp`: `add_edge` -/

/-- C30: in `hw1/Graph_1983.hpp` the second `add_edge(a, b)` does not return the current
edge: with `e = add_edge(node(0), node(1))` on two fresh nodes and then
`f = add_edge(node(0), node(1))`, `e` has index 0 and equals `edge(0)`, but `f` carries the
number stored in the adjacency map, 1, so `f == e` and `f == edge(0)` are false. -/
theorem C30_second_add_edge_off_by_one :
    has_node ex_nodes ⟨0, 0⟩ = true ∧ has_node ex_nodes ⟨0, 1⟩ = true ∧
    has_edge ex_nodes ⟨0, 0⟩ ⟨0, 1⟩ = some false ∧
    ∃ e f g2, add_edge ex_nodes ⟨0, 0⟩ ⟨0, 1⟩ = some (e, ex_edge) ∧
      add_edge ex_edge ⟨0, 0⟩ ⟨0, 1⟩ = some (f, g2) ∧
      edge g2 0 = some e ∧ e.index_ = 0 ∧ f.index_ = 1 ∧
      Edge.eq f e = false ∧ Edge.eq e f = false ∧
      (edge g2 0).map (fun x => Edge.eq f x) = some false :=
  ⟨by decide, by decide, by decide, ⟨0, 0, 0, 1⟩, ⟨0, 1, 0, 1⟩,
    state_after ex_edge (add_edge ex_edge ⟨0, 0⟩ ⟨0, 1⟩),
    by decide, by decide, by decide, by decide, by decide, by decide, by decide, by decide⟩

end Graph1983

namespace Graph2460

variable {P V E : Type}

/-! ## `hw3/Graph_2460.hpp`: `remove_node` -/

/-! ## `hw3/Graph_2460.hpp`: `remove_node` -/

theorem remove_edge_move_last_frame (g g1 : Graph P V E) (eidx r : Nat)
    (hr : remove_edge_move_last g eidx = some (r, g1)) :
    g1.addr = g.addr ∧ g1.nodes_ = g.nodes_ := by
  unfold remove_edge_move_last at hr
  split at hr
  · dsimp only at hr
    split at hr
    · cases hr
    · split at hr
      · cases hr
      · split at hr
        · cases hr
        · simp only [Option.some.injEq, Prod.mk.injEq] at hr
          rw [← hr.2]
          exact ⟨rfl, rfl⟩
  · cases hr

theorem remove_edge_frame (g g1 : Graph P V E) (e : Edge) (r : Nat)
    (hr : remove_edge g e = some (r, g1)) : g1.addr = g.addr ∧ g1.nodes_ = g.nodes_ := by
  unfold remove_edge at hr
  dsimp only at hr
  split at hr
  · cases hr
  · simp only [Option.some.injEq, Prod.mk.injEq] at hr
    rw [← hr.2]
    exact ⟨rfl, rfl⟩
  · split at hr
    · cases hr
    · split at hr
      · cases hr
      · have h := remove_edge_move_last_frame _ _ _ _ hr
        exact h

theorem remove_node_loop_frame (n : Node) :
    ∀ (fuel : Nat) (g g1 : Graph P V E), remove_node_loop n fuel g = some g1 →
      g1.addr = g.addr ∧ g1.nodes_ = g.nodes_ := by
  intro fuel
  induction fuel with
  | zero =>
    intro g g1 hr
    unfold remove_node_loop at hr
    split at hr
    · cases hr
    · split at hr
      · simp only [Option.some.injEq] at hr
        rw [← hr]
        exact ⟨rfl, rfl⟩
      · cases hr
  | succ f ih =>
    intro g g1 hr
    unfold remove_node_loop at hr
    split at hr
    · cases hr
    · split at hr
      · simp only [Option.some.injEq] at hr
        rw [← hr]
        exact ⟨rfl, rfl⟩
      · split at hr
        · cases hr
        · split at hr
          · cases hr
          · rename_i e _ _ r hre
            obtain ⟨h1, h2⟩ := remove_edge_frame g r.2 e r.1 hre
            obtain ⟨h3, h4⟩ := ih _ _ hr
            exact ⟨h3.trans h1, h4.trans h2⟩

theorem relabel_step_frame (g g1 : Graph P V E) (nidx pre_idx n2idx eidx : Nat)
    (hr : relabel_step g nidx pre_idx n2idx eidx = some g1) :
    g1.addr = g.addr ∧ g1.nodes_ = g.nodes_ := by
  unfold relabel_step at hr
  split at hr
  · cases hr
  · split at hr
    · cases hr
    · dsimp only at hr
      split at hr
      · cases hr
      · split at hr
        · cases hr
        · split at hr
          · cases hr
          · simp only [Option.some.injEq] at hr
            rw [← hr]
            exact ⟨rfl, rfl⟩

theorem relabel_loop_frame (nidx pre_idx : Nat) :
    ∀ (entries : List (Nat × Nat)) (g g1 : Graph P V E),
      relabel_loop nidx pre_idx entries g = some g1 →
      g1.addr = g.addr ∧ g1.nodes_ = g.nodes_ := by
  intro entries
  induction entries with
  | nil =>
    intro g g1 hr
    unfold relabel_loop at hr
    simp only [Option.some.injEq] at hr
    rw [← hr]
    exact ⟨rfl, rfl⟩
  | cons p rest ih =>
    intro g g1 hr
    unfold relabel_loop at hr
    split at hr
    · cases hr
    · rename_i g2 h2
      obtain ⟨h1, h3⟩ := relabel_step_frame _ _ _ _ _ _ h2
      obtain ⟨h4, h5⟩ := ih _ _ hr
      exact ⟨h4.trans h1, h5.trans h3⟩

theorem remove_node_storage_frame (g g1 : Graph P V E) (nidx r : Nat)
    (hr : remove_node_storage g nidx = some (r, g1)) :
    r = 1 ∧ g1.addr = g.addr ∧ g1.nodes_.length + 1 = g.nodes_.length := by
  unfold remove_node_storage at hr
  dsimp only at hr
  split at hr
  · rename_i x l hx hl
    split at hr
    · cases hr
    · split at hr
      · cases hr
      · rename_i g2 h2
        simp only [Option.some.injEq, Prod.mk.injEq] at hr
        obtain ⟨h3, h4⟩ := relabel_loop_frame _ _ _ _ _ h2
        refine ⟨hr.1.symm, ?_, ?_⟩
        · rw [← hr.2]; exact h3
        · rw [← hr.2]
          show g2.nodes_.length + 1 = _
          rw [h4]
          show ((g.nodes_.set nidx l).dropLast).length + 1 = _
          rw [List.length_dropLast, List.length_set]
          have := (List.getElem?_eq_some_iff.1 hx).1
          omega
  · cases hr

theorem remove_node_frame (g g1 : Graph P V E) (n : Node) (r : Nat)
    (hn : has_node g n = true) (hr : remove_node g n = some (r, g1)) :
    r = 1 ∧ g1.addr = g.addr ∧ g1.nodes_.length + 1 = g.nodes_.length := by
  unfold remove_node at hr
  dsimp only at hr
  rw [hn] at hr
  simp only [Bool.not_true, Bool.false_eq_true, if_false] at hr
  split at hr
  · cases hr
  · split at hr
    · cases hr
    · rename_i d hd g2 h2
      obtain ⟨h3, h4⟩ := remove_node_loop_frame n _ _ _ h2
      obtain ⟨h5, h6, h7⟩ := remove_node_storage_frame _ _ _ _ hr
      exact ⟨h5, h6.trans h3, by rw [h7, h4]⟩

/-- Whenever `remove_node(n)` on a node handle of the graph returns, it returns 1, the
number of nodes went down by one and `has_node(n)` is still true. -/
theorem remove_node_keeps_has_node (g g1 : Graph P V E) (n : Node) (r : Nat)
    (hlen : g.nodes_.length < Graph2236.size_type_mod)
    (hn : has_node g n = true) (hr : remove_node g n = some (r, g1)) :
    r = 1 ∧ num_nodes g1 + 1 = num_nodes g ∧ has_node g1 n = true := by
  obtain ⟨h1, h2, h3⟩ := remove_node_frame g g1 n r hn hr
  refine ⟨h1, ?_, ?_⟩
  · unfold num_nodes size
    rw [Graph2236.to_size_type_of_lt _ hlen, Graph2236.to_size_type_of_lt _ (by omega)]
    exact h3
  · unfold has_node at hn ⊢
    rw [h2]
    exact hn

/-- C23: in `hw3/Graph_2460.hpp` `has_node(n)` is still true after `remove_node(n)` has
returned 1. With four nodes and no edge, `remove_node(n3)` returns 1 and leaves three
nodes, and `has_node(n3)` is true although the index 3 of `n3` is not below
`num_nodes()`. With four nodes and the edges n0 - n1 and n2 - n3, `remove_node(n0)`
returns 1 and leaves three nodes and one edge, and `has_node(n0)` is true. -/
theorem C23_has_node_true_after_remove_node :
    (has_node ex_nodes ⟨0, 3⟩ = true ∧
      ∃ g1, remove_node ex_nodes ⟨0, 3⟩ = some (1, g1) ∧ num_nodes g1 = 3 ∧
        ¬ (Node.index ⟨0, 3⟩ < num_nodes g1) ∧ has_node g1 ⟨0, 3⟩ = true) ∧
    (has_node ex_two_edges ⟨0, 0⟩ = true ∧
      ∃ g1, remove_node ex_two_edges ⟨0, 0⟩ = some (1, g1) ∧ num_nodes g1 = 3 ∧
        num_edges g1 = 1 ∧ has_node g1 ⟨0, 0⟩ = true) :=
  ⟨⟨by decide, state_after ex_nodes (remove_node ex_nodes ⟨0, 3⟩), by decide, by decide,
      by decide, by decide⟩,
    ⟨by decide, state_after ex_two_edges (remove_node ex_two_edges ⟨0, 0⟩), by decide,
      by decide, by decide, by decide⟩⟩

end Graph2460

namespace Graph2362

variable {P V E : Type}

/-! ## `hw3/Graph_2362.hpp`: the node storage -/

theorem relabel_fields_spec :
    ∀ (us : List Nat) (fields f1 : List Nat) (k : Nat),
      relabel_fields fields us k = some f1 → us.Nodup →
      f1.length = fields.length ∧
      (∀ (j u : Nat), us[j]? = some u → f1[u]? = some (k + j)) ∧
      (∀ (u : Nat), u ∉ us → f1[u]? = fields[u]?) := by
  intro us
  induction us with
  | nil =>
    intro fields f1 k hr _
    unfold relabel_fields at hr
    simp only [Option.some.injEq] at hr
    subst hr
    refine ⟨rfl, ?_, fun _ _ => rfl⟩
    intro j u hj
    simp at hj
  | cons u0 rest ih =>
    intro fields f1 k hr hnd
    unfold relabel_fields at hr
    rw [List.nodup_cons] at hnd
    by_cases hu : u0 < fields.length
    · rw [if_pos hu] at hr
      obtain ⟨h1, h2, h3⟩ := ih _ _ _ hr hnd.2
      rw [List.length_set] at h1
      refine ⟨h1, ?_, ?_⟩
      · intro j u hj
        cases j with
        | zero =>
          simp only [List.getElem?_cons_zero, Option.some.injEq] at hj
          subst hj
          rw [h3 _ hnd.1, List.getElem?_set_self hu]
          rfl
        | succ j =>
          simp only [List.getElem?_cons_succ] at hj
          rw [h2 j u hj]
          congr 1
          omega
      · intro u hu2
        simp only [List.mem_cons, not_or] at hu2
        rw [h3 u hu2.2, List.getElem?_set_ne (fun e => hu2.1 e.symm)]
    · rw [if_neg hu] at hr
      cases hr

theorem relabel_nodes_spec :
    ∀ (us : List Nat) (nodes n1 : List (internal_node P V)) (k : Nat),
      relabel_nodes nodes us k = some n1 →
      relabel_fields (nodes.map (fun s => s.uid)) us k = some (n1.map (fun s => s.uid)) ∧
      n1.map (fun s => s.inc_edges) = nodes.map (fun s => s.inc_edges) ∧
      n1.map (fun s => (s.p, s.node_val)) = nodes.map (fun s => (s.p, s.node_val)) := by
  intro us
  induction us with
  | nil =>
    intro nodes n1 k hr
    unfold relabel_nodes at hr
    simp only [Option.some.injEq] at hr
    subst hr
    exact ⟨rfl, rfl, rfl⟩
  | cons u0 rest ih =>
    intro nodes n1 k hr
    unfold relabel_nodes at hr
    cases hs : nodes[u0]? with
    | none => rw [hs] at hr; cases hr
    | some s =>
      rw [hs] at hr
      dsimp only at hr
      obtain ⟨h1, h2, h3⟩ := ih _ _ _ hr
      have hlt : u0 < nodes.length := (List.getElem?_eq_some_iff.1 hs).1
      have hself : nodes.set u0 s = nodes := by
        apply List.ext_getElem?
        intro j
        by_cases hj : u0 = j
        · subst hj; rw [List.getElem?_set_self hlt, hs]
        · rw [List.getElem?_set_ne hj]
      refine ⟨?_, ?_, ?_⟩
      · unfold relabel_fields
        rw [List.length_map, if_pos hlt]
        rw [List.map_set] at h1
        exact h1
      · rw [h2, List.map_set]
        show (List.map (fun s => s.inc_edges) nodes).set u0 s.inc_edges = _
        rw [← List.map_set, hself]
      · rw [h3, List.map_set]
        show (List.map (fun s => (s.p, s.node_val)) nodes).set u0 (s.p, s.node_val) = _
        rw [← List.map_set, hself]

theorem relabel_edges_spec :
    ∀ (us : List Nat) (edges e1 : List (internal_edge E)) (k : Nat),
      relabel_edges edges us k = some e1 →
      relabel_fields (edges.map (fun t => t.uid)) us k = some (e1.map (fun t => t.uid)) ∧
      e1.map (fun t => (t.n1_uid, t.n2_uid)) = edges.map (fun t => (t.n1_uid, t.n2_uid)) ∧
      e1.map (fun t => t.edge_val) = edges.map (fun t => t.edge_val) := by
  intro us
  induction us with
  | nil =>
    intro edges e1 k hr
    unfold relabel_edges at hr
    simp only [Option.some.injEq] at hr
    subst hr
    exact ⟨rfl, rfl, rfl⟩
  | cons u0 rest ih =>
    intro edges e1 k hr
    unfold relabel_edges at hr
    cases hs : edges[u0]? with
    | none => rw [hs] at hr; cases hr
    | some s =>
      rw [hs] at hr
      dsimp only at hr
      obtain ⟨h1, h2, h3⟩ := ih _ _ _ hr
      have hlt : u0 < edges.length := (List.getElem?_eq_some_iff.1 hs).1
      have hself : edges.set u0 s = edges := by
        apply List.ext_getElem?
        intro j
        by_cases hj : u0 = j
        · subst hj; rw [List.getElem?_set_self hlt, hs]
        · rw [List.getElem?_set_ne hj]
      refine ⟨?_, ?_, ?_⟩
      · unfold relabel_fields
        rw [List.length_map, if_pos hlt]
        rw [List.map_set] at h1
        exact h1
      · rw [h2, List.map_set]
        show (List.map (fun t => (t.n1_uid, t.n2_uid)) edges).set u0 (s.n1_uid, s.n2_uid) = _
        rw [← List.map_set, hself]
      · rw [h3, List.map_set]
        show (List.map (fun t => t.edge_val) edges).set u0 s.edge_val = _
        rw [← List.map_set, hself]

/-- An index-to-uid list whose entries are sent back to their positions has no repeated
entry. -/
theorem nodup_of_inverse (i2u fields : List Nat)
    (h : ∀ (i u : Nat), i2u[i]? = some u → fields[u]? = some i) : i2u.Nodup := by
  rw [List.nodup_iff_injective_getElem]
  intro a b hab
  have ha := h a.1 _ (List.getElem?_eq_getElem a.2)
  have hb := h b.1 _ (List.getElem?_eq_getElem b.2)
  have hab2 : i2u[a.1] = i2u[b.1] := hab
  rw [hab2, hb] at ha
  exact Fin.ext (Option.some.inj ha).symm

theorem same_node_index_refl (g : Graph P V E) : SameNodeIndex g g := ⟨rfl, rfl, rfl, rfl⟩

theorem same_node_index_trans (g g1 g2 : Graph P V E) (h1 : SameNodeIndex g g1)
    (h2 : SameNodeIndex g1 g2) : SameNodeIndex g g2 :=
  ⟨h2.addr.trans h1.addr, h2.i2u.trans h1.i2u, h2.size.trans h1.size,
    h2.fields.trans h1.fields⟩

theorem nodes_length_of_fields (g g1 : Graph P V E)
    (h : node_index_fields g1 = node_index_fields g) : g1.nodes_.length = g.nodes_.length := by
  have := congrArg List.length h
  simpa [node_index_fields] using this

theorem nodes_inv_of_same_index (g g1 : Graph P V E) (hs : SameNodeIndex g g1)
    (h : NodesInv g) : NodesInv g1 := by
  have hl := nodes_length_of_fields g g1 hs.fields
  constructor
  · rw [hs.size, hs.i2u]; exact h.size_eq
  · rw [hl]; exact h.nodes_bound
  · rw [hs.i2u, hl]; exact h.i2u_len
  · rw [hs.i2u, hs.fields]; exact h.node_at

theorem map_set_same {α β : Type} (f : α → β) (l : List α) (u : Nat) (s s1 : α)
    (hs : l[u]? = some s) (hf : f s1 = f s) : (l.set u s1).map f = l.map f := by
  apply List.ext_getElem?
  intro j
  rw [List.map_set]
  by_cases hj : u = j
  · subst hj
    have hlt : u < (l.map f).length := by
      rw [List.length_map]; exact (List.getElem?_eq_some_iff.1 hs).1
    rw [List.getElem?_set_self hlt, List.getElem?_map, hs, hf]
    rfl
  · rw [List.getElem?_set_ne hj]

theorem set_inc_fields (nodes : List (internal_node P V)) (u : Nat) (s : internal_node P V)
    (l : List incident_edge) (hs : nodes[u]? = some s) :
    (nodes.set u { s with inc_edges := l }).map (fun s => s.uid) =
      nodes.map (fun s => s.uid) :=
  map_set_same _ nodes u s _ hs rfl

theorem push_incident_fields (nodes n1 : List (internal_node P V)) (u : Nat)
    (x : incident_edge) (hr : push_incident nodes u x = some n1) :
    n1.map (fun s => s.uid) = nodes.map (fun s => s.uid) := by
  unfold push_incident at hr
  cases hs : nodes[u]? with
  | none => rw [hs] at hr; cases hr
  | some s =>
    rw [hs] at hr
    simp only [Option.some.injEq] at hr
    rw [← hr]
    exact map_set_same _ nodes u s _ hs rfl

theorem add_edge_same_index (g g1 : Graph P V E) (a b : Node) (v : E) (e : Option Edge)
    (hr : add_edge g a b v = some (e, g1)) : SameNodeIndex g g1 := by
  unfold add_edge at hr
  split at hr
  · split at hr
    · cases hr
    · dsimp only at hr
      split at hr
      · cases hr
      · rename_i nodes1 h1
        split at hr
        · cases hr
        · rename_i nodes2 h2
          simp only [Option.some.injEq, Prod.mk.injEq] at hr
          rw [← hr.2]
          refine ⟨rfl, rfl, rfl, ?_⟩
          show nodes2.map (fun s => s.uid) = g.nodes_.map (fun s => s.uid)
          rw [push_incident_fields _ _ _ _ h2, push_incident_fields _ _ _ _ h1]
    · simp only [Option.some.injEq, Prod.mk.injEq] at hr
      rw [← hr.2]
      exact same_node_index_refl g
  · simp only [Option.some.injEq, Prod.mk.injEq] at hr
    rw [← hr.2]
    exact same_node_index_refl g

theorem remove_edge_at_same_index (g g1 : Graph P V E) (n1 n2 : Node) (i r : Nat)
    (e : incident_edge) (hr : remove_edge_at g n1 n2 i e = some (r, g1)) :
    SameNodeIndex g g1 := by
  unfold remove_edge_at at hr
  split at hr
  · cases hr
  · dsimp only at hr
    split at hr
    · cases hr
    · rename_i s1 hs1
      split at hr
      · cases hr
      · rename_i s2 hs2
        split at hr
        · split at hr
          · cases hr
          · simp only [Option.some.injEq, Prod.mk.injEq] at hr
            rw [← hr.2]
            refine ⟨rfl, rfl, rfl, ?_⟩
            unfold node_index_fields
            dsimp only
            exact (set_inc_fields _ n2.uid_ s2 _ hs2).trans (set_inc_fields _ n1.uid_ s1 _ hs1)
        · cases hr

theorem remove_edge_nodes_same_index (g g1 : Graph P V E) (n1 n2 : Node) (r : Nat)
    (hr : remove_edge_nodes g n1 n2 = some (r, g1)) : SameNodeIndex g g1 := by
  unfold remove_edge_nodes at hr
  split at hr
  · cases hr
  · simp only [Option.some.injEq, Prod.mk.injEq] at hr
    rw [← hr.2]; exact same_node_index_refl g
  · split at hr
    · cases hr
    · split at hr
      · simp only [Option.some.injEq, Prod.mk.injEq] at hr
        rw [← hr.2]; exact same_node_index_refl g
      · split at hr
        · cases hr
        · exact remove_edge_at_same_index _ _ _ _ _ _ _ hr

theorem remove_edge_same_index (g g1 : Graph P V E) (e : Edge) (r : Nat)
    (hr : remove_edge g e = some (r, g1)) : SameNodeIndex g g1 :=
  remove_edge_nodes_same_index g g1 _ _ r hr

theorem remove_node_loop_same_index (n : Node) :
    ∀ (fuel : Nat) (g g1 : Graph P V E), remove_node_loop n fuel g = some g1 →
      SameNodeIndex g g1 := by
  intro fuel
  induction fuel with
  | zero =>
    intro g g1 hr
    unfold remove_node_loop at hr
    split at hr
    · cases hr
    · split at hr
      · cases hr
      · simp only [Option.some.injEq] at hr
        rw [← hr]; exact same_node_index_refl g
  | succ f ih =>
    intro g g1 hr
    unfold remove_node_loop at hr
    split at hr
    · cases hr
    · split at hr
      · split at hr
        · cases hr
        · split at hr
          · cases hr
          · rename_i e _ _ r hre
            exact same_node_index_trans _ _ _ (remove_edge_same_index g r.2 e r.1 hre)
              (ih _ _ hr)
      · simp only [Option.some.injEq] at hr
        rw [← hr]; exact same_node_index_refl g

theorem nodes_inv_empty_2362 (addr : Nat) : NodesInv (Graph.empty addr : Graph P V E) := by
  constructor <;> simp [Graph.empty, Graph2236.size_type_mod]

theorem add_node_fields_2362 (g : Graph P V E) (h : NodesInv g) (p : P) (v : V)
    (hb : g.nodes_.length + 1 < Graph2236.size_type_mod) :
    (add_node g p v).1 = ⟨g.addr, g.nodes_.length⟩ ∧
    (add_node g p v).2.addr = g.addr ∧
    (add_node g p v).2.nodes_ = g.nodes_ ++ [⟨p, g.size_, v, []⟩] ∧
    (add_node g p v).2.node_i2u = g.node_i2u ++ [g.nodes_.length] ∧
    (add_node g p v).2.size_ = g.size_ + 1 ∧
    (add_node g p v).2.edges_ = g.edges_ ∧ (add_node g p v).2.edge_i2u = g.edge_i2u ∧
    (add_node g p v).2.num_edges_ = g.num_edges_ := by
  have h1 : (g.nodes_ ++ [(⟨p, g.size_, v, []⟩ : internal_node P V)]).length - 1
      = g.nodes_.length := by
    rw [List.length_append]; rfl
  have h2 : Graph2236.to_size_type g.nodes_.length = g.nodes_.length :=
    Graph2236.to_size_type_of_lt _ h.nodes_bound
  have h3 : Graph2236.size_type_succ g.size_ = g.size_ + 1 :=
    Graph2236.size_type_succ_of_lt _ (by have := h.size_eq; have := h.i2u_len; omega)
  refine ⟨?_, rfl, rfl, ?_, h3, rfl, rfl, rfl⟩
  · show (⟨g.addr, Graph2236.to_size_type
      ((g.nodes_ ++ [(⟨p, g.size_, v, []⟩ : internal_node P V)]).length - 1)⟩ : Node) = _
    rw [h1, h2]
  · show g.node_i2u ++ [Graph2236.to_size_type
      ((g.nodes_ ++ [(⟨p, g.size_, v, []⟩ : internal_node P V)]).length - 1)] = _
    rw [h1, h2]

theorem nodes_inv_add_node_2362 (g : Graph P V E) (h : NodesInv g) (p : P) (v : V)
    (hb : g.nodes_.length + 1 < Graph2236.size_type_mod) : NodesInv (add_node g p v).2 := by
  obtain ⟨-, -, f3, f4, f5, -⟩ := add_node_fields_2362 g h p v hb
  constructor
  · rw [f5, f4, List.length_append, h.size_eq]; rfl
  · rw [f3, List.length_append]; exact hb
  · rw [f4, f3, List.length_append, List.length_append]
    have := h.i2u_len
    simp only [List.length_singleton]
    omega
  · intro i u hi
    rw [f4] at hi
    unfold node_index_fields
    rw [f3, List.map_append]
    by_cases hc : i < g.node_i2u.length
    · rw [List.getElem?_append_left hc] at hi
      have := h.node_at i u hi
      unfold node_index_fields at this
      rw [List.getElem?_append_left (List.getElem?_eq_some_iff.1 this).1]
      exact this
    · have hlt := (List.getElem?_eq_some_iff.1 hi).1
      rw [List.length_append] at hlt
      have hie : i = g.node_i2u.length := by simp at hlt; omega
      subst hie
      rw [List.getElem?_append_right (Nat.le_refl _)] at hi
      simp at hi
      subst hi
      have hl : (List.map (fun s => s.uid) g.nodes_).length = g.nodes_.length :=
        List.length_map _ _
      rw [← hl, List.getElem?_append_right (Nat.le_refl _)]
      simp [h.size_eq]

theorem getElem?_eraseIdx_drop (l : List Nat) (i j : Nat) :
    ((l.eraseIdx i).drop i)[j]? = l[i + j + 1]? := by
  rw [List.getElem?_drop, List.getElem?_eraseIdx]
  rw [if_neg (by omega)]

theorem remove_node_storage_spec_2362 (g g1 : Graph P V E) (h : NodesInv g) (n : Node)
    (r : Nat) (hr : remove_node_storage g n = some (r, g1)) :
    ∃ i, Node.index g n = some i ∧ i < g.node_i2u.length ∧ r = 1 ∧
      g1.addr = g.addr ∧ g1.node_i2u = g.node_i2u.eraseIdx i ∧
      g1.size_ + 1 = g.size_ ∧ g1.edges_ = g.edges_ ∧ g1.edge_i2u = g.edge_i2u ∧
      g1.num_edges_ = g.num_edges_ ∧ incident_lists g1 = incident_lists g ∧
      g1.nodes_.length = g.nodes_.length ∧
      g1.nodes_.map (fun s => (s.p, s.node_val)) = g.nodes_.map (fun s => (s.p, s.node_val)) ∧
      (∀ (j u : Nat), g1.node_i2u[j]? = some u → (node_index_fields g1)[u]? = some j) := by
  unfold remove_node_storage at hr
  split at hr
  · cases hr
  · rename_i i hi
    split at hr
    · rename_i hlt
      dsimp only at hr
      split at hr
      · cases hr
      · rename_i nodes hn
        simp only [Option.some.injEq, Prod.mk.injEq] at hr
        obtain ⟨hr1, hr2⟩ := hr
        subst hr2
        obtain ⟨k1, k2, k3⟩ := relabel_nodes_spec _ _ _ _ hn
        have hnd : g.node_i2u.Nodup := nodup_of_inverse _ _ h.node_at
        have hnd1 : (g.node_i2u.eraseIdx i).Nodup :=
          List.Nodup.sublist (List.eraseIdx_sublist _ _) hnd
        have hnd2 : ((g.node_i2u.eraseIdx i).drop i).Nodup :=
          List.Nodup.sublist (List.drop_sublist _ _) hnd1
        obtain ⟨m1, m2, m3⟩ := relabel_fields_spec _ _ _ _ k1 hnd2
        refine ⟨i, hi, hlt, hr1.symm, rfl, rfl, ?_, rfl, rfl, rfl, k2, ?_, k3, ?_⟩
        · show Graph2236.size_type_sub g.size_ 1 + 1 = g.size_
          have hs := h.size_eq
          have := h.i2u_len
          have := h.nodes_bound
          rw [Graph2236.size_type_sub_one _ (by omega) (by omega)]
          omega
        · have := congrArg List.length k2
          simpa using this
        · intro j u hj
          show (nodes.map (fun s => s.uid))[u]? = some j
          change (g.node_i2u.eraseIdx i)[j]? = some u at hj
          by_cases hji : j < i
          · have hnot : u ∉ (g.node_i2u.eraseIdx i).drop i := by
              intro hmem
              obtain ⟨k, hk⟩ := List.getElem?_of_mem hmem
              rw [List.getElem?_drop] at hk
              have := (List.nodup_iff_getElem?_ne_getElem?.1 hnd1) j (i + k) (by omega)
                ((List.getElem?_eq_some_iff.1 hk).1)
              rw [hj, hk] at this
              exact this rfl
            rw [m3 u hnot]
            rw [List.getElem?_eraseIdx, if_pos hji] at hj
            exact h.node_at j u hj
          · have hk : ((g.node_i2u.eraseIdx i).drop i)[j - i]? = some u := by
              rw [List.getElem?_drop]
              have : i + (j - i) = j := by omega
              rw [this]; exact hj
            rw [m2 _ _ hk]
            congr 1
            omega
    · cases hr

theorem remove_node_unfold_2362 (g g1 : Graph P V E) (n : Node) (r : Nat)
    (hr : remove_node g n = some (r, g1)) :
    (has_node g n = some false ∧ r = 0 ∧ g1 = g) ∨
    (has_node g n = some true ∧
      ∃ d g0, Node.degree g n = some d ∧ remove_node_loop n d g = some g0 ∧
        remove_node_storage g0 n = some (r, g1)) := by
  unfold remove_node at hr
  split at hr
  · cases hr
  · rename_i hn
    simp only [Option.some.injEq, Prod.mk.injEq] at hr
    exact Or.inl ⟨hn, hr.1.symm, hr.2.symm⟩
  · rename_i hn
    split at hr
    · cases hr
    · rename_i d hd
      split at hr
      · cases hr
      · rename_i g0 h0
        exact Or.inr ⟨hn, d, g0, hd, h0, hr⟩

theorem nodes_inv_remove_node_storage_2362 (g g1 : Graph P V E) (h : NodesInv g) (n : Node)
    (r : Nat) (hr : remove_node_storage g n = some (r, g1)) : NodesInv g1 := by
  obtain ⟨i, -, hlt, -, -, f2, f3, -, -, -, -, f8, -, f10⟩ :=
    remove_node_storage_spec_2362 g g1 h n r hr
  have hlen : g1.node_i2u.length + 1 = g.node_i2u.length := by
    rw [f2, List.length_eraseIdx, if_pos hlt]; omega
  constructor
  · have := h.size_eq; omega
  · rw [f8]; exact h.nodes_bound
  · rw [f8]; have := h.i2u_len; omega
  · exact f10

theorem nodes_inv_remove_node_2362 (g g1 : Graph P V E) (h : NodesInv g) (n : Node) (r : Nat)
    (hr : remove_node g n = some (r, g1)) : NodesInv g1 := by
  rcases remove_node_unfold_2362 g g1 n r hr with ⟨-, -, h3⟩ | ⟨-, d, g0, -, h0, h3⟩
  · rw [h3]; exact h
  · exact nodes_inv_remove_node_storage_2362 g0 g1
      (nodes_inv_of_same_index g g0 (remove_node_loop_same_index n d g g0 h0) h) n r h3

theorem nodes_inv_of_reachable_2362 (g : Graph P V E) (h : Reachable g) : NodesInv g := by
  induction h with
  | empty addr => exact nodes_inv_empty_2362 addr
  | add_node p v _ hb ih => exact nodes_inv_add_node_2362 _ ih p v hb
  | add_edge a b v e _ _ _ _ hr ih =>
    exact nodes_inv_of_same_index _ _ (add_edge_same_index _ _ a b v e hr) ih
  | remove_node n r _ hr ih => exact nodes_inv_remove_node_2362 _ _ ih n r hr
  | remove_edge e r _ hr ih =>
    exact nodes_inv_of_same_index _ _ (remove_edge_same_index _ _ e r hr) ih
  | remove_edge_nodes a b r _ hr ih =>
    exact nodes_inv_of_same_index _ _ (remove_edge_nodes_same_index _ _ a b r hr) ih

theorem node_index_eq (g : Graph P V E) (n : Node) :
    Node.index g n = (node_index_fields g)[n.uid_]? := by
  unfold Node.index node_index_fields
  rw [List.getElem?_map]

theorem node_spec_2362 (g : Graph P V E) (h : NodesInv g) (i : Nat) (hi : i < g.size_) :
    ∃ u, g.node_i2u[i]? = some u ∧ node g i = some (some ⟨g.addr, u⟩) ∧
      Node.index g ⟨g.addr, u⟩ = some i := by
  have hil : i < g.node_i2u.length := by rw [← h.size_eq]; exact hi
  have hu : g.node_i2u[i]? = some g.node_i2u[i] := List.getElem?_eq_getElem hil
  have hx := h.node_at i _ hu
  have hidx : Node.index g ⟨g.addr, g.node_i2u[i]⟩ = some i := by
    rw [node_index_eq]; exact hx
  refine ⟨_, hu, ?_, hidx⟩
  unfold node
  rw [if_pos hi, hu]
  dsimp only
  rw [hidx]
  dsimp only
  rw [if_pos rfl]

theorem has_node_iff_2362 (g : Graph P V E) (h : NodesInv g) (n : Node) :
    has_node g n = some true ↔
      n.graph_ = g.addr ∧ ∃ i, Node.index g n = some i ∧ g.node_i2u[i]? = some n.uid_ := by
  unfold has_node
  cases hi : Node.index g n with
  | none => simp
  | some i =>
    dsimp only
    by_cases hlt : i < g.size_
    · obtain ⟨u, hu, hnode, -⟩ := node_spec_2362 g h i hlt
      rw [hnode]
      dsimp only
      constructor
      · intro hc
        simp only [Option.some.injEq] at hc
        unfold Node.eq at hc
        simp only [Bool.and_eq_true, decide_eq_true_eq] at hc
        exact ⟨hc.1.symm, i, rfl, by rw [hu, hc.2]⟩
      · rintro ⟨hg, j, hj, hj2⟩
        simp only [Option.some.injEq] at hj
        subst hj
        rw [hu] at hj2
        simp only [Option.some.injEq] at hj2
        simp [Node.eq, hg, hj2]
    · have hnode : node g i = some none := by
        unfold node; rw [if_neg hlt]
      rw [hnode]
      constructor
      · intro hc; cases hc
      · rintro ⟨-, j, hj, hj2⟩
        simp only [Option.some.injEq] at hj
        subst hj
        have := (List.getElem?_eq_some_iff.1 hj2).1
        rw [← h.size_eq] at this
        exact absurd this hlt

/-- C27: in every reachable state, `node(i).index() == i` for every `i < num_nodes()`
(the assertion inside `node()` holds and a valid node is returned), and every node `n`
with `has_node(n)` satisfies `node(n.index()) == n`. -/
theorem C27_node_index_bijection (g : Graph P V E) (h : Reachable g) :
    (∀ i, i < num_nodes g → ∃ n, node g i = some (some n) ∧ Node.index g n = some i) ∧
    (∀ n, has_node g n = some true →
      ∃ i m, Node.index g n = some i ∧ i < num_nodes g ∧ node g i = some (some m) ∧
        Node.eq m n = true ∧ m = n) := by
  have hI := nodes_inv_of_reachable_2362 g h
  constructor
  · intro i hi
    obtain ⟨u, -, h2, h3⟩ := node_spec_2362 g hI i hi
    exact ⟨_, h2, h3⟩
  · intro n hn
    obtain ⟨hg, i, hi, hu⟩ := (has_node_iff_2362 g hI n).1 hn
    have hlt : i < g.size_ := by
      rw [hI.size_eq]; exact (List.getElem?_eq_some_iff.1 hu).1
    obtain ⟨u, hu2, hnode, -⟩ := node_spec_2362 g hI i hlt
    rw [hu] at hu2
    simp only [Option.some.injEq] at hu2
    subst hu2
    have hmn : (⟨g.addr, n.uid_⟩ : Node) = n := by
      cases n
      simp only at hg
      simp [hg]
    refine ⟨i, _, hi, hlt, hnode, ?_, hmn⟩
    rw [hmn]
    simp [Node.eq]

theorem nodes_reachable_2362 : Reachable ex_nodes :=
  Reachable.add_node () 12 (Reachable.add_node () 11 (Reachable.add_node () 10
    (Reachable.empty 0) (by decide)) (by decide)) (by decide)

theorem one_edge_reachable_2362 : Reachable ex_one_edge :=
  Reachable.add_edge ⟨0, 0⟩ ⟨0, 1⟩ 7 (some ⟨0, 0, 1, 0⟩) nodes_reachable_2362 (by decide)
    (by decide) (by decide) (by decide)

theorem path_reachable_2362 : Reachable ex_path :=
  Reachable.add_edge ⟨0, 1⟩ ⟨0, 2⟩ 8 (some ⟨0, 1, 2, 1⟩) one_edge_reachable_2362 (by decide)
    (by decide) (by decide) (by decide)

theorem removed_reachable_2362 : Reachable ex_removed :=
  Reachable.remove_node ⟨0, 0⟩ 1 path_reachable_2362 (by decide)

theorem other_reachable_2362 : Reachable ex_other :=
  Reachable.add_edge ⟨1, 0⟩ ⟨1, 1⟩ 7 (some ⟨1, 0, 1, 0⟩)
    (Reachable.add_node () 11 (Reachable.add_node () 10 (Reachable.empty 1) (by decide))
      (by decide)) (by decide) (by decide) (by decide) (by decide)

theorem C27_node_index_bijection_witness :
    Reachable ex_removed ∧
    ((∀ i, i < num_nodes ex_removed →
      ∃ n, node ex_removed i = some (some n) ∧ Node.index ex_removed n = some i) ∧
    (∀ n, has_node ex_removed n = some true →
      ∃ i m, Node.index ex_removed n = some i ∧ i < num_nodes ex_removed ∧
        node ex_removed i = some (some m) ∧ Node.eq m n = true ∧ m = n)) :=
  ⟨removed_reachable_2362, C27_node_index_bijection ex_removed removed_reachable_2362⟩

/-- C25: in `hw3/Graph_2362.hpp` `add_edge(a, b, v)` on connected nodes does not return a
handle to the existing edge when another edge was added later: in the reachable state
with the edges n0 - n1 (value 7, `edge(0)`) and n1 - n2 (value 8, `edge(1)`),
`add_edge(n0, n1, 99)` returns a handle with `node1() == n0` and `node2() == n1` but with
the uid of the edge added last, so its `value()` is 8, not 7. -/
theorem C25_add_edge_existing_returns_last_uid :
    Reachable ex_path ∧ has_node ex_path ⟨0, 0⟩ = some true ∧
    has_node ex_path ⟨0, 1⟩ = some true ∧ has_edge ex_path ⟨0, 0⟩ ⟨0, 1⟩ = some true ∧
    edge ex_path 0 = some (some ⟨0, 0, 1, 0⟩) ∧ Edge.value ex_path ⟨0, 0, 1, 0⟩ = some 7 ∧
    ∃ e, add_edge ex_path ⟨0, 0⟩ ⟨0, 1⟩ 99 = some (some e, ex_path) ∧
      Edge.node1 e = ⟨0, 0⟩ ∧ Edge.node2 e = ⟨0, 1⟩ ∧ e.edge_uid_ = 1 ∧
      Edge.value ex_path e = some 8 ∧ Edge.value ex_path e ≠ some 7 :=
  ⟨path_reachable_2362, by decide, by decide, by decide, by decide, by decide,
    ⟨0, 0, 1, 1⟩, by decide, by decide, by decide, by decide, by decide, by decide⟩

/-- C28: in `hw3/Graph_2362.hpp` `Edge::operator<` does not obey trichotomy with
`Edge::operator==`. For the live edges `x` of one graph and `y` of another graph, both
`x < y` and `y < x` hold. In one graph, for `x == edge(0)` and the handle `y` that
`add_edge(n0, n1)` returns for the same edge, both `x == y` and `x < y` hold. -/
theorem C28_edge_lt_not_trichotomous :
    (edge ex_one_edge 0 = some (some ⟨0, 0, 1, 0⟩) ∧ edge ex_other 0 = some (some ⟨1, 0, 1, 0⟩) ∧
      Edge.eq ⟨0, 0, 1, 0⟩ ⟨1, 0, 1, 0⟩ = false ∧ Edge.lt ⟨0, 0, 1, 0⟩ ⟨1, 0, 1, 0⟩ = true ∧
      Edge.lt ⟨1, 0, 1, 0⟩ ⟨0, 0, 1, 0⟩ = true) ∧
    (edge ex_path 0 = some (some ⟨0, 0, 1, 0⟩) ∧
      add_edge ex_path ⟨0, 0⟩ ⟨0, 1⟩ 99 = some (some ⟨0, 0, 1, 1⟩, ex_path) ∧
      Edge.eq ⟨0, 0, 1, 0⟩ ⟨0, 0, 1, 1⟩ = true ∧ Edge.lt ⟨0, 0, 1, 0⟩ ⟨0, 0, 1, 1⟩ = true) := by
  decide

/-! ## `hw3/Graph_2362.hpp`: the edge storage -/

theorem erase_matching_of_no_match (a : Nat) :
    ∀ (l : List incident_edge), (∀ x, x ∈ l → x.id2 ≠ a) → erase_matching a l = l := by
  intro l
  induction l using erase_matching.induct a with
  | case1 => intro _; rfl
  | case2 x hx => intro h; exact absurd hx (h x (List.mem_singleton.2 rfl))
  | case3 x hx => intro _; unfold erase_matching; rw [if_neg hx]
  | case4 x y rest hx _ => intro h; exact absurd hx (h x (List.mem_cons_self _ _))
  | case5 x y rest hx ih =>
    intro h
    rw [erase_matching.eq_3, if_neg hx, ih (fun z hz => h z (List.mem_cons_of_mem _ hz))]

theorem filter_of_no_match (a : Nat) (l : List incident_edge)
    (h : ∀ x, x ∈ l → x.id2 ≠ a) : l.filter (fun x => !decide (x.id2 = a)) = l := by
  rw [List.filter_eq_self]
  intro x hx
  simp [h x hx]

theorem no_match_of_nodup_cons (x : incident_edge) (l : List incident_edge)
    (h : (neighbours (x :: l)).Nodup) : ∀ z, z ∈ l → z.id2 ≠ x.id2 := by
  intro z hz he
  unfold neighbours at h
  rw [List.map_cons, List.nodup_cons] at h
  exact h.1 (he ▸ List.mem_map_of_mem (fun x => x.id2) hz)

theorem nodup_tail (x : incident_edge) (l : List incident_edge)
    (h : (neighbours (x :: l)).Nodup) : (neighbours l).Nodup := by
  unfold neighbours at h ⊢
  rw [List.map_cons, List.nodup_cons] at h
  exact h.2

/-- When no neighbour is listed twice, the erase loop of `remove_edge` removes exactly
the entries that name `a`. -/
theorem erase_matching_eq_filter (a : Nat) :
    ∀ (l : List incident_edge), (neighbours l).Nodup →
      erase_matching a l = l.filter (fun x => !decide (x.id2 = a)) := by
  intro l
  induction l using erase_matching.induct a with
  | case1 => intro _; rfl
  | case2 x hx => intro _; unfold erase_matching; rw [if_pos hx]; simp [hx]
  | case3 x hx => intro _; unfold erase_matching; rw [if_neg hx]; simp [hx]
  | case4 x y rest hx _ =>
    intro h
    have hno : ∀ z, z ∈ y :: rest → z.id2 ≠ a := by
      intro z hz; rw [← hx]; exact no_match_of_nodup_cons x _ h z hz
    rw [erase_matching.eq_3, if_pos hx, erase_matching_of_no_match a rest
      (fun z hz => hno z (List.mem_cons_of_mem _ hz))]
    rw [List.filter_cons_of_neg (by simp [hx]), filter_of_no_match a _ hno]
  | case5 x y rest hx ih =>
    intro h
    rw [erase_matching.eq_3, if_neg hx, ih (nodup_tail x _ h)]
    exact (List.filter_cons_of_pos (by simp [hx])).symm

/-- When no neighbour is listed twice, erasing the entry at position `i` removes exactly
the entries that name the neighbour listed at position `i`. -/
theorem eraseIdx_eq_filter :
    ∀ (l : List incident_edge) (i : Nat) (e : incident_edge), (neighbours l).Nodup →
      l[i]? = some e → l.eraseIdx i = l.filter (fun x => !decide (x.id2 = e.id2)) := by
  intro l
  induction l with
  | nil => intro i e _ he; simp at he
  | cons x rest ih =>
    intro i e h he
    cases i with
    | zero =>
      simp only [List.getElem?_cons_zero, Option.some.injEq] at he
      subst he
      rw [List.eraseIdx_cons_zero, List.filter_cons_of_neg (by simp),
        filter_of_no_match _ _ (no_match_of_nodup_cons x rest h)]
    | succ i =>
      simp only [List.getElem?_cons_succ] at he
      have hne : x.id2 ≠ e.id2 := by
        intro hc
        exact no_match_of_nodup_cons x rest h e (List.getElem?_mem he) hc.symm
      rw [List.eraseIdx_cons_succ, ih i e (nodup_tail x _ h) he,
        List.filter_cons_of_pos (by simp [hne])]

theorem relabel_fields_total :
    ∀ (us fields : List Nat) (k : Nat), (∀ u, u ∈ us → u < fields.length) →
      ∃ f1, relabel_fields fields us k = some f1 := by
  intro us
  induction us with
  | nil => intro fields k _; exact ⟨fields, rfl⟩
  | cons u0 rest ih =>
    intro fields k h
    unfold relabel_fields
    rw [if_pos (h u0 (List.mem_cons_self _ _))]
    apply ih
    intro u hu
    rw [List.length_set]
    exact h u (List.mem_cons_of_mem _ hu)

theorem relabel_edges_total :
    ∀ (us : List Nat) (edges : List (internal_edge E)) (k : Nat),
      (∀ u, u ∈ us → u < edges.length) → ∃ e1, relabel_edges edges us k = some e1 := by
  intro us
  induction us with
  | nil => intro edges k _; exact ⟨edges, rfl⟩
  | cons u0 rest ih =>
    intro edges k h
    unfold relabel_edges
    have hlt := h u0 (List.mem_cons_self _ _)
    rw [List.getElem?_eq_getElem hlt]
    dsimp only
    apply ih
    intro u hu
    rw [List.length_set]
    exact h u (List.mem_cons_of_mem _ hu)

/-- Erasing position `k` of an index-to-uid list and relabelling the entries from
position `k` on keeps the list the inverse of the index fields. -/
theorem relabel_after_erase (i2u fields f1 : List Nat) (k : Nat)
    (hinv : ∀ (i u : Nat), i2u[i]? = some u → fields[u]? = some i)
    (hr : relabel_fields fields ((i2u.eraseIdx k).drop k) k = some f1) :
    f1.length = fields.length ∧
    (∀ (j u : Nat), (i2u.eraseIdx k)[j]? = some u → f1[u]? = some j) := by
  have hnd : i2u.Nodup := nodup_of_inverse i2u fields hinv
  have hnd2 : (i2u.eraseIdx k).Nodup := List.Nodup.sublist (List.eraseIdx_sublist _ _) hnd
  have hnd3 : ((i2u.eraseIdx k).drop k).Nodup :=
    List.Nodup.sublist (List.drop_sublist _ _) hnd2
  obtain ⟨h1, h2, h3⟩ := relabel_fields_spec _ _ _ _ hr hnd3
  refine ⟨h1, ?_⟩
  intro j u hj
  by_cases hjk : j < k
  · have hnot : u ∉ (i2u.eraseIdx k).drop k := by
      intro hmem
      obtain ⟨m, hm⟩ := List.getElem?_of_mem hmem
      rw [List.getElem?_drop] at hm
      have hjlt : j < (i2u.eraseIdx k).length := (List.getElem?_eq_some_iff.1 hj).1
      have hmlt : k + m < (i2u.eraseIdx k).length := (List.getElem?_eq_some_iff.1 hm).1
      have heq : (i2u.eraseIdx k)[j] = (i2u.eraseIdx k)[k + m] := by
        apply Option.some.inj
        rw [← List.getElem?_eq_getElem hjlt, ← List.getElem?_eq_getElem hmlt, hj, hm]
      have := (@List.Nodup.getElem_inj_iff _ _ hnd2 j hjlt (k + m) hmlt).1 heq
      omega
    rw [h3 u hnot]
    rw [List.getElem?_eraseIdx, if_pos hjk] at hj
    exact hinv j u hj
  · have hj2 : ((i2u.eraseIdx k).drop k)[j - k]? = some u := by
      rw [List.getElem?_drop]
      have : k + (j - k) = j := by omega
      rw [this]; exact hj
    rw [h2 _ _ hj2]
    congr 1
    omega

theorem mem_neighbours (l : List incident_edge) (w : Nat) :
    w ∈ neighbours l ↔ ∃ x, x ∈ l ∧ x.id2 = w := by
  unfold neighbours
  exact List.mem_map

theorem incident_lists_length (g : Graph P V E) :
    (incident_lists g).length = g.nodes_.length := by
  unfold incident_lists; rw [List.length_map]

theorem edge_fields_length (g : Graph P V E) :
    (edge_index_fields g).length = g.edges_.length := by
  unfold edge_index_fields; rw [List.length_map]

theorem edge_endpoints_length (g : Graph P V E) :
    (edge_endpoints g).length = g.edges_.length := by
  unfold edge_endpoints; rw [List.length_map]

theorem incident_lists_get (g : Graph P V E) (u : Nat) (l : List incident_edge)
    (h : (incident_lists g)[u]? = some l) :
    ∃ s, g.nodes_[u]? = some s ∧ s.inc_edges = l := by
  unfold incident_lists at h
  rw [List.getElem?_map] at h
  cases hs : g.nodes_[u]? with
  | none => rw [hs] at h; cases h
  | some s =>
    rw [hs] at h
    simp only [Option.map_some', Option.some.injEq] at h
    exact ⟨s, rfl, h⟩

theorem edge_fields_get (g : Graph P V E) (u k : Nat)
    (h : (edge_index_fields g)[u]? = some k) :
    ∃ s, g.edges_[u]? = some s ∧ s.uid = k := by
  unfold edge_index_fields at h
  rw [List.getElem?_map] at h
  cases hs : g.edges_[u]? with
  | none => rw [hs] at h; cases h
  | some s =>
    rw [hs] at h
    simp only [Option.map_some', Option.some.injEq] at h
    exact ⟨s, rfl, h⟩

/-- The entries of the incident lists after two of them were filtered. -/
theorem mem_removed_lists (L : List (List incident_edge)) (a b : Nat)
    (la lb : List incident_edge) (hne : a ≠ b) (hla : L[a]? = some la)
    (hlb : L[b]? = some lb) (u : Nat) (l1 : List incident_edge)
    (h : ((L.set a (la.filter (fun x => !decide (x.id2 = b)))).set b
      (lb.filter (fun x => !decide (x.id2 = a))))[u]? = some l1) :
    ∃ l, L[u]? = some l ∧ l1.Sublist l ∧
      ∀ x, x ∈ l1 ↔ (x ∈ l ∧ ¬(u = a ∧ x.id2 = b) ∧ ¬(u = b ∧ x.id2 = a)) := by
  have halt : a < L.length := (List.getElem?_eq_some_iff.1 hla).1
  have hblt : b < L.length := (List.getElem?_eq_some_iff.1 hlb).1
  by_cases hub : b = u
  · subst hub
    rw [List.getElem?_set_self (by rw [List.length_set]; exact hblt)] at h
    simp only [Option.some.injEq] at h
    subst h
    refine ⟨lb, hlb, List.filter_sublist _, ?_⟩
    intro x
    rw [List.mem_filter]
    simp only [Bool.not_eq_true', decide_eq_false_iff_not]
    constructor
    · rintro ⟨h1, h2⟩
      exact ⟨h1, fun hc => hne hc.1.symm, fun hc => h2 hc.2⟩
    · rintro ⟨h1, -, h3⟩
      exact ⟨h1, fun hc => h3 ⟨trivial, hc⟩⟩
  · rw [List.getElem?_set_ne hub] at h
    by_cases hua : a = u
    · subst hua
      rw [List.getElem?_set_self halt] at h
      simp only [Option.some.injEq] at h
      subst h
      refine ⟨la, hla, List.filter_sublist _, ?_⟩
      intro x
      rw [List.mem_filter]
      simp only [Bool.not_eq_true', decide_eq_false_iff_not]
      constructor
      · rintro ⟨h1, h2⟩
        exact ⟨h1, fun hc => h2 hc.2, fun hc => hne hc.1⟩
      · rintro ⟨h1, h2, -⟩
        exact ⟨h1, fun hc => h2 ⟨trivial, hc⟩⟩
    · rw [List.getElem?_set_ne hua] at h
      refine ⟨l1, h, List.Sublist.refl _, ?_⟩
      intro x
      constructor
      · intro h1
        exact ⟨h1, fun hc => hua hc.1.symm, fun hc => hub hc.1.symm⟩
      · intro h1; exact h1.1

theorem getElem?_eraseIdx_of_ne (l : List Nat) (k j : Nat) (u : Nat) (hj : l[j]? = some u)
    (hjk : j ≠ k) : (l.eraseIdx k)[if j < k then j else j - 1]? = some u := by
  rw [List.getElem?_eraseIdx]
  by_cases h : j < k
  · rw [if_pos h, if_pos h]; exact hj
  · rw [if_neg h]
    have h2 : ¬ (j - 1 < k) := by omega
    rw [if_neg h2]
    have : j - 1 + 1 = j := by omega
    rw [this]; exact hj

/-- The edge invariant after the storage of one edge between `a` and `b` was removed. -/
theorem edges_inv_removed (g g1 : Graph P V E) (h : EdgesInv g) (a b : Nat)
    (la lb : List incident_edge) (e : incident_edge) (k : Nat) (hne : a ≠ b)
    (hla : (incident_lists g)[a]? = some la) (hlb : (incident_lists g)[b]? = some lb)
    (he : e ∈ la) (heb : e.id2 = b) (hk : (edge_index_fields g)[e.edge_uid]? = some k)
    (hinc : incident_lists g1 =
      ((incident_lists g).set a (la.filter (fun x => !decide (x.id2 = b)))).set b
        (lb.filter (fun x => !decide (x.id2 = a))))
    (hi2u : g1.edge_i2u = g.edge_i2u.eraseIdx k)
    (hf : relabel_fields (edge_index_fields g) ((g.edge_i2u.eraseIdx k).drop k) k =
      some (edge_index_fields g1))
    (hends : edge_endpoints g1 = edge_endpoints g)
    (hnum : g1.num_edges_ + 1 = g.num_edges_) : EdgesInv g1 := by
  have hlenN : g1.nodes_.length = g.nodes_.length := by
    have := congrArg List.length hinc
    rw [List.length_set, List.length_set, incident_lists_length, incident_lists_length] at this
    exact this
  have hlenE : g1.edges_.length = g.edges_.length := by
    have := congrArg List.length hends
    rw [edge_endpoints_length, edge_endpoints_length] at this
    exact this
  obtain ⟨-, hea, k0, hk0, hk1, hk2⟩ := h.inc_at a la e hla he
  rw [hk] at hk0
  simp only [Option.some.injEq] at hk0
  subst hk0
  have hklt : k < g.edge_i2u.length := (List.getElem?_eq_some_iff.1 hk1).1
  obtain ⟨-, hf2⟩ := relabel_after_erase g.edge_i2u (edge_index_fields g)
    (edge_index_fields g1) k h.edge_at hf
  have hnumeq := h.num_eq
  have hi2ulen := h.i2u_len
  constructor
  · rw [hi2u, List.length_eraseIdx, if_pos hklt]; omega
  · rw [hlenE]; exact h.edges_bound
  · rw [hi2u, List.length_eraseIdx, if_pos hklt, hlenE]; omega
  · rw [hi2u]; exact hf2
  · intro u l1 x hl1 hx
    rw [hinc] at hl1
    obtain ⟨l, hl, -, hmem⟩ := mem_removed_lists _ a b la lb hne hla hlb u l1 hl1
    obtain ⟨hxl, hn1, hn2⟩ := (hmem x).1 hx
    obtain ⟨h1, h2, k1, hk3, hk4, hk5⟩ := h.inc_at u l x hl hxl
    refine ⟨by rw [hlenN]; exact h1, h2, ?_⟩
    have hkk : k1 ≠ k := by
      intro hc
      subst hc
      rw [hk1] at hk4
      simp only [Option.some.injEq] at hk4
      rw [← hk4] at hk5
      rw [heb] at hk2
      rcases hk2 with hk2 | hk2 <;> rcases hk5 with hk5 | hk5 <;>
        rw [hk2] at hk5 <;> simp only [Option.some.injEq, Prod.mk.injEq] at hk5
      · exact hn1 ⟨hk5.1.symm, hk5.2.symm⟩
      · exact hn2 ⟨hk5.2.symm, hk5.1.symm⟩
      · exact hn2 ⟨hk5.1.symm, hk5.2.symm⟩
      · exact hn1 ⟨hk5.2.symm, hk5.1.symm⟩
    have hget := getElem?_eraseIdx_of_ne g.edge_i2u k k1 _ hk4 hkk
    refine ⟨_, hf2 _ _ hget, by rw [hi2u]; exact hget, ?_⟩
    rw [hends]; exact hk5
  · intro u l1 hl1
    rw [hinc] at hl1
    obtain ⟨l, hl, hsub, -⟩ := mem_removed_lists _ a b la lb hne hla hlb u l1 hl1
    exact List.Nodup.sublist (List.Sublist.map _ hsub) (h.inc_nodup u l hl)
  · intro u v l1 m1 hl1 hm1
    rw [hinc] at hl1 hm1
    obtain ⟨l, hl, -, hmeml⟩ := mem_removed_lists _ a b la lb hne hla hlb u l1 hl1
    obtain ⟨m, hm, -, hmemm⟩ := mem_removed_lists _ a b la lb hne hla hlb v m1 hm1
    have hs := h.inc_symm u v l m hl hm
    rw [mem_neighbours, mem_neighbours] at hs ⊢
    constructor
    · rintro ⟨x, hx, hxv⟩
      obtain ⟨hxl, hn1, hn2⟩ := (hmeml x).1 hx
      obtain ⟨y, hy, hyu⟩ := hs.1 ⟨x, hxl, hxv⟩
      refine ⟨y, (hmemm y).2 ⟨hy, ?_, ?_⟩, hyu⟩
      · rintro ⟨h1, h2⟩; exact hn2 ⟨h2 ▸ hyu.symm, hxv.trans h1⟩
      · rintro ⟨h1, h2⟩; exact hn1 ⟨h2 ▸ hyu.symm, hxv.trans h1⟩
    · rintro ⟨y, hy, hyu⟩
      obtain ⟨hym, hn1, hn2⟩ := (hmemm y).1 hy
      obtain ⟨x, hx, hxv⟩ := hs.2 ⟨y, hym, hyu⟩
      refine ⟨x, (hmeml x).2 ⟨hx, ?_, ?_⟩, hxv⟩
      · rintro ⟨h1, h2⟩; exact hn2 ⟨h2 ▸ hxv.symm, hyu.trans h1⟩
      · rintro ⟨h1, h2⟩; exact hn1 ⟨h2 ▸ hxv.symm, hyu.trans h1⟩

/-- The effect of the body of `remove_edge` on the stored data, for an incident entry `e`
at position `i` of the list of `n1` that names `n2` and a live edge. -/
theorem remove_edge_at_spec (g : Graph P V E) (n1 n2 : Node) (i : Nat) (e : incident_edge)
    (la lb : List incident_edge) (k : Nat) (hne : n1.uid_ ≠ n2.uid_)
    (hla : (incident_lists g)[n1.uid_]? = some la)
    (hlb : (incident_lists g)[n2.uid_]? = some lb)
    (hk : (edge_index_fields g)[e.edge_uid]? = some k) (hklt : k < g.edge_i2u.length)
    (hbound : ∀ u, u ∈ g.edge_i2u → u < g.edges_.length) :
    ∃ g1, remove_edge_at g n1 n2 i e = some (1, g1) ∧ g1.addr = g.addr ∧
      incident_lists g1 =
        ((incident_lists g).set n1.uid_ (la.eraseIdx i)).set n2.uid_
          (erase_matching n1.uid_ lb) ∧
      g1.edge_i2u = g.edge_i2u.eraseIdx k ∧
      relabel_fields (edge_index_fields g) ((g.edge_i2u.eraseIdx k).drop k) k =
        some (edge_index_fields g1) ∧
      edge_endpoints g1 = edge_endpoints g ∧
      g1.num_edges_ = Graph2236.size_type_sub g.num_edges_ 1 ∧
      g1.edges_.map (fun t => t.edge_val) = g.edges_.map (fun t => t.edge_val) := by
  obtain ⟨s, hs, hsk⟩ := edge_fields_get g _ _ hk
  obtain ⟨s1, hs1, hs1l⟩ := incident_lists_get g _ _ hla
  obtain ⟨s2, hs2, hs2l⟩ := incident_lists_get g _ _ hlb
  have hbound2 : ∀ u, u ∈ (g.edge_i2u.eraseIdx k).drop k → u < g.edges_.length := by
    intro u hu
    exact hbound u ((List.eraseIdx_sublist _ _).subset ((List.drop_sublist _ _).subset hu))
  obtain ⟨e1, he1⟩ := relabel_edges_total _ g.edges_ k hbound2
  obtain ⟨r1, r2, r3⟩ := relabel_edges_spec _ _ _ _ he1
  have h2 : (g.nodes_.set n1.uid_ { s1 with inc_edges := s1.inc_edges.eraseIdx i })[n2.uid_]? =
      some s2 := by
    rw [List.getElem?_set_ne hne]; exact hs2
  unfold remove_edge_at
  rw [hs]
  dsimp only
  rw [hs1]
  dsimp only
  rw [h2]
  dsimp only
  rw [hsk, if_pos hklt, he1]
  refine ⟨_, rfl, rfl, ?_, rfl, r1, r2, rfl, r3⟩
  unfold incident_lists
  dsimp only
  rw [List.map_set, List.map_set, hs1l, hs2l]

/-- The method `remove_edge(n1, n2)` in a state that satisfies the edge invariant, for a
node handle `n1` whose uid is in range: the call returns, and either no incident entry
of `n1` names `n2` and nothing changes, or the stored data changes as listed. -/
theorem remove_edge_nodes_spec_2362 (g : Graph P V E) (h : EdgesInv g) (n1 n2 : Node) (c : Bool)
    (hc : has_edge g n1 n2 = some c) :
    (c = false ∧ remove_edge_nodes g n1 n2 = some (0, g)) ∨
    (c = true ∧ ∃ g1 la lb e k, remove_edge_nodes g n1 n2 = some (1, g1) ∧
      n1.uid_ ≠ n2.uid_ ∧ (incident_lists g)[n1.uid_]? = some la ∧
      (incident_lists g)[n2.uid_]? = some lb ∧ e ∈ la ∧ e.id2 = n2.uid_ ∧
      (edge_index_fields g)[e.edge_uid]? = some k ∧ g1.addr = g.addr ∧
      incident_lists g1 =
        ((incident_lists g).set n1.uid_
          (la.filter (fun x => !decide (x.id2 = n2.uid_)))).set n2.uid_
          (lb.filter (fun x => !decide (x.id2 = n1.uid_))) ∧
      g1.edge_i2u = g.edge_i2u.eraseIdx k ∧
      relabel_fields (edge_index_fields g) ((g.edge_i2u.eraseIdx k).drop k) k =
        some (edge_index_fields g1) ∧
      edge_endpoints g1 = edge_endpoints g ∧ g1.num_edges_ + 1 = g.num_edges_ ∧
      g1.edges_.map (fun t => t.edge_val) = g.edges_.map (fun t => t.edge_val)) := by
  have hc0 := hc
  unfold has_edge at hc
  cases hs1 : g.nodes_[n1.uid_]? with
  | none => rw [hs1] at hc; cases hc
  | some s1 =>
    rw [hs1] at hc
    simp only [Option.some.injEq] at hc
    cases c with
    | false =>
      left
      refine ⟨rfl, ?_⟩
      unfold remove_edge_nodes
      rw [hc0]
    | true =>
      right
      refine ⟨rfl, ?_⟩
      have hla : (incident_lists g)[n1.uid_]? = some s1.inc_edges := by
        unfold incident_lists
        rw [List.getElem?_map, hs1]; rfl
      cases hf : s1.inc_edges.findIdx? (fun x => decide (x.id2 = n2.uid_)) with
      | none =>
        rw [List.findIdx?_eq_none_iff] at hf
        rw [List.any_eq_true] at hc
        obtain ⟨x, hx, hpx⟩ := hc
        rw [hf x hx] at hpx
        cases hpx
      | some i =>
        obtain ⟨hi, hp, -⟩ := List.findIdx?_eq_some_iff_getElem.1 hf
        simp only [decide_eq_true_eq] at hp
        have hei : s1.inc_edges[i]? = some s1.inc_edges[i] := List.getElem?_eq_getElem hi
        have hmem : s1.inc_edges[i] ∈ s1.inc_edges := List.getElem_mem hi
        obtain ⟨hb1, hb2, k, hk1, hk2, -⟩ := h.inc_at _ _ _ hla hmem
        rw [hp] at hb1 hb2
        have hb3 : n2.uid_ < (incident_lists g).length := by
          rw [incident_lists_length]; exact hb1
        have hlb : (incident_lists g)[n2.uid_]? = some (incident_lists g)[n2.uid_] :=
          List.getElem?_eq_getElem hb3
        have hklt : k < g.edge_i2u.length := (List.getElem?_eq_some_iff.1 hk2).1
        have hbound : ∀ u, u ∈ g.edge_i2u → u < g.edges_.length := by
          intro u hu
          obtain ⟨j, hj⟩ := List.getElem?_of_mem hu
          have := (List.getElem?_eq_some_iff.1 (h.edge_at j u hj)).1
          rw [edge_fields_length] at this
          exact this
        obtain ⟨g1, e1, e2, e3, e4, e5, e6, e7, e8⟩ :=
          remove_edge_at_spec g n1 n2 i s1.inc_edges[i] _ _ k (Ne.symm hb2) hla hlb hk1 hklt
            hbound
        have hnum : g1.num_edges_ + 1 = g.num_edges_ := by
          have hn := h.num_eq
          have hl := h.i2u_len
          have hb := h.edges_bound
          rw [e7, Graph2236.size_type_sub_one _ (by omega) (by omega)]
          omega
        refine ⟨g1, _, _, _, k, ?_, Ne.symm hb2, hla, hlb, hmem, hp, hk1, e2, ?_, e4, e5, e6,
          hnum, e8⟩
        · unfold remove_edge_nodes
          rw [hc0]
          dsimp only
          rw [hs1]
          dsimp only
          rw [hf]
          dsimp only
          rw [hei]
          exact e1
        · rw [e3, eraseIdx_eq_filter _ i _ (h.inc_nodup _ _ hla) hei, hp,
            erase_matching_eq_filter _ _ (h.inc_nodup _ _ hlb)]

theorem edges_inv_remove_edge_nodes (g g1 : Graph P V E) (h : EdgesInv g) (n1 n2 : Node)
    (r : Nat) (hr : remove_edge_nodes g n1 n2 = some (r, g1)) : EdgesInv g1 := by
  cases hc : has_edge g n1 n2 with
  | none =>
    unfold remove_edge_nodes at hr
    rw [hc] at hr
    cases hr
  | some c =>
    rcases remove_edge_nodes_spec_2362 g h n1 n2 c hc with ⟨-, h2⟩ |
      ⟨-, g2, la, lb, e, k, h2, hne, hla, hlb, he, heb, hk, -, hinc, hi2u, hf, hends, hnum, -⟩
    · rw [h2] at hr
      simp only [Option.some.injEq, Prod.mk.injEq] at hr
      rw [← hr.2]; exact h
    · rw [h2] at hr
      simp only [Option.some.injEq, Prod.mk.injEq] at hr
      rw [← hr.2]
      exact edges_inv_removed g g2 h _ _ la lb e k hne hla hlb he heb hk hinc hi2u hf hends hnum

theorem edges_inv_remove_node_loop (n : Node) :
    ∀ (fuel : Nat) (g g1 : Graph P V E), EdgesInv g → remove_node_loop n fuel g = some g1 →
      EdgesInv g1 := by
  intro fuel
  induction fuel with
  | zero =>
    intro g g1 h hr
    unfold remove_node_loop at hr
    split at hr
    · cases hr
    · split at hr
      · cases hr
      · simp only [Option.some.injEq] at hr
        rw [← hr]; exact h
  | succ f ih =>
    intro g g1 h hr
    unfold remove_node_loop at hr
    split at hr
    · cases hr
    · split at hr
      · split at hr
        · cases hr
        · split at hr
          · cases hr
          · rename_i e _ _ r hre
            exact ih _ _ (edges_inv_remove_edge_nodes g r.2 h _ _ r.1 hre) hr
      · simp only [Option.some.injEq] at hr
        rw [← hr]; exact h

theorem edges_inv_empty (addr : Nat) : EdgesInv (Graph.empty addr : Graph P V E) := by
  constructor <;> simp [Graph.empty, Graph2236.size_type_mod, incident_lists,
    edge_index_fields, edge_endpoints]

/-- The edge invariant depends on the edge storage and the incident lists only. -/
theorem edges_inv_congr (g g1 : Graph P V E) (h : EdgesInv g)
    (h1 : g1.num_edges_ = g.num_edges_) (h2 : g1.edge_i2u = g.edge_i2u)
    (h3 : g1.edges_ = g.edges_) (h4 : incident_lists g1 = incident_lists g) :
    EdgesInv g1 := by
  have hlen : g1.nodes_.length = g.nodes_.length := by
    rw [← incident_lists_length, ← incident_lists_length, h4]
  have hf : edge_index_fields g1 = edge_index_fields g := by
    unfold edge_index_fields; rw [h3]
  have he : edge_endpoints g1 = edge_endpoints g := by
    unfold edge_endpoints; rw [h3]
  constructor
  · rw [h1, h2]; exact h.num_eq
  · rw [h3]; exact h.edges_bound
  · rw [h2, h3]; exact h.i2u_len
  · rw [h2, hf]; exact h.edge_at
  · rw [h4, hlen, hf, he, h2]; exact h.inc_at
  · rw [h4]; exact h.inc_nodup
  · rw [h4]; exact h.inc_symm

theorem edges_inv_add_node (g : Graph P V E) (h : EdgesInv g) (p : P) (v : V) :
    EdgesInv (add_node g p v).2 := by
  have hinc : incident_lists (add_node g p v).2 = incident_lists g ++ [[]] := by
    unfold incident_lists add_node
    dsimp only
    rw [List.map_append]
    rfl
  have hlen : (add_node g p v).2.nodes_.length = g.nodes_.length + 1 := by
    unfold add_node
    dsimp only
    rw [List.length_append]
    rfl
  have hget : ∀ (u : Nat) (l : List incident_edge),
      (incident_lists g ++ [[]])[u]? = some l →
      (incident_lists g)[u]? = some l ∨ (u = g.nodes_.length ∧ l = []) := by
    intro u l hl
    by_cases hu : u < (incident_lists g).length
    · rw [List.getElem?_append_left hu] at hl
      exact Or.inl hl
    · rw [List.getElem?_append_right (by omega)] at hl
      have hlt := (List.getElem?_eq_some_iff.1 hl).1
      simp only [List.length_singleton] at hlt
      have h0 : u - (incident_lists g).length = 0 := by omega
      rw [h0] at hl
      simp only [List.getElem?_cons_zero, Option.some.injEq] at hl
      rw [incident_lists_length] at hu h0
      exact Or.inr ⟨by omega, hl.symm⟩
  constructor
  · exact h.num_eq
  · exact h.edges_bound
  · exact h.i2u_len
  · exact h.edge_at
  · intro u l x hl hx
    rw [hinc] at hl
    rcases hget u l hl with hl | ⟨-, hl⟩
    · obtain ⟨h1, h2⟩ := h.inc_at u l x hl hx
      exact ⟨by rw [hlen]; omega, h2⟩
    · rw [hl] at hx; cases hx
  · intro u l hl
    rw [hinc] at hl
    rcases hget u l hl with hl | ⟨-, hl⟩
    · exact h.inc_nodup u l hl
    · rw [hl]; exact List.nodup_nil
  · intro u v l m hl hm
    rw [hinc] at hl hm
    rcases hget u l hl with hl | ⟨hu, hl⟩
    · rcases hget v m hm with hm | ⟨hv, hm⟩
      · exact h.inc_symm u v l m hl hm
      · rw [hm]
        constructor
        · intro hc
          rw [mem_neighbours] at hc
          obtain ⟨x, hx, hxv⟩ := hc
          have := (h.inc_at u l x hl hx).1
          omega
        · intro hc; simp [neighbours] at hc
    · rw [hl]
      constructor
      · intro hc; simp [neighbours] at hc
      · intro hc
        rw [mem_neighbours] at hc
        obtain ⟨x, hx, hxv⟩ := hc
        rcases hget v m hm with hm | ⟨hv, hm⟩
        · have := (h.inc_at v m x hm hx).1
          omega
        · rw [hm] at hx; cases hx

/-- The entries of the incident lists after an entry was appended to two of them. -/
theorem mem_added_lists (L : List (List incident_edge)) (a b : Nat)
    (la lb : List incident_edge) (xa xb : incident_edge)
    (hla : L[a]? = some la) (hlb : L[b]? = some lb) (u : Nat) (l1 : List incident_edge)
    (h : ((L.set a (la ++ [xa])).set b (lb ++ [xb]))[u]? = some l1) :
    ∃ l, L[u]? = some l ∧
      ((u = a ∧ l1 = l ++ [xa]) ∨ (u = b ∧ l1 = l ++ [xb]) ∨ (u ≠ a ∧ u ≠ b ∧ l1 = l)) := by
  have halt : a < L.length := (List.getElem?_eq_some_iff.1 hla).1
  have hblt : b < L.length := (List.getElem?_eq_some_iff.1 hlb).1
  by_cases hub : b = u
  · subst hub
    rw [List.getElem?_set_self (by rw [List.length_set]; exact hblt)] at h
    simp only [Option.some.injEq] at h
    exact ⟨lb, hlb, Or.inr (Or.inl ⟨rfl, h.symm⟩)⟩
  · rw [List.getElem?_set_ne hub] at h
    by_cases hua : a = u
    · subst hua
      rw [List.getElem?_set_self halt] at h
      simp only [Option.some.injEq] at h
      exact ⟨la, hla, Or.inl ⟨rfl, h.symm⟩⟩
    · rw [List.getElem?_set_ne hua] at h
      exact ⟨l1, h, Or.inr (Or.inr ⟨fun hc => hua hc.symm, fun hc => hub hc.symm, rfl⟩)⟩

theorem mem_neighbours_added (L : List (List incident_edge)) (a b : Nat)
    (la lb : List incident_edge) (ea eb : Nat) (hne : a ≠ b)
    (hla : L[a]? = some la) (hlb : L[b]? = some lb) (u : Nat) (l1 : List incident_edge)
    (h : ((L.set a (la ++ [⟨ea, b⟩])).set b (lb ++ [⟨eb, a⟩]))[u]? = some l1) :
    ∃ l, L[u]? = some l ∧
      ∀ w, w ∈ neighbours l1 ↔ (w ∈ neighbours l ∨ (u = a ∧ w = b) ∨ (u = b ∧ w = a)) := by
  obtain ⟨l, hl, hcase⟩ := mem_added_lists L a b la lb _ _ hla hlb u l1 h
  refine ⟨l, hl, ?_⟩
  intro w
  rcases hcase with ⟨hu, h1⟩ | ⟨hu, h1⟩ | ⟨hu1, hu2, h1⟩
  · subst h1
    unfold neighbours
    rw [List.map_append, List.mem_append]
    simp only [List.map_cons, List.map_nil, List.mem_singleton]
    constructor
    · rintro (hc | hc)
      · exact Or.inl hc
      · exact Or.inr (Or.inl ⟨hu, hc⟩)
    · rintro (hc | ⟨-, hc⟩ | ⟨hc1, -⟩)
      · exact Or.inl hc
      · exact Or.inr hc
      · exact absurd (hu.symm.trans hc1) hne
  · subst h1
    unfold neighbours
    rw [List.map_append, List.mem_append]
    simp only [List.map_cons, List.map_nil, List.mem_singleton]
    constructor
    · rintro (hc | hc)
      · exact Or.inl hc
      · exact Or.inr (Or.inr ⟨hu, hc⟩)
    · rintro (hc | ⟨hc1, -⟩ | ⟨-, hc⟩)
      · exact Or.inl hc
      · exact absurd (hc1.symm.trans hu) hne
      · exact Or.inr hc
  · subst h1
    constructor
    · intro hc; exact Or.inl hc
    · rintro (hc | ⟨hc1, -⟩ | ⟨hc1, -⟩)
      · exact hc
      · exact absurd hc1 hu1
      · exact absurd hc1 hu2

theorem has_edge_of_list (g : Graph P V E) (a b : Node) (l : List incident_edge)
    (hl : (incident_lists g)[a.uid_]? = some l) :
    has_edge g a b = some (l.any (fun x => decide (x.id2 = b.uid_))) := by
  obtain ⟨s, hs, hsl⟩ := incident_lists_get g _ _ hl
  unfold has_edge
  rw [hs]
  dsimp only
  rw [hsl]

theorem has_edge_list (g : Graph P V E) (a b : Node) (c : Bool)
    (hc : has_edge g a b = some c) :
    ∃ l, (incident_lists g)[a.uid_]? = some l ∧ (c = true ↔ b.uid_ ∈ neighbours l) := by
  unfold has_edge at hc
  cases hs : g.nodes_[a.uid_]? with
  | none => rw [hs] at hc; cases hc
  | some s =>
    rw [hs] at hc
    simp only [Option.some.injEq] at hc
    refine ⟨s.inc_edges, ?_, ?_⟩
    · unfold incident_lists
      rw [List.getElem?_map, hs]; rfl
    · rw [← hc, List.any_eq_true, mem_neighbours]
      simp only [decide_eq_true_eq]

theorem push_incident_spec (nodes n1 : List (internal_node P V)) (u : Nat)
    (x : incident_edge) (hr : push_incident nodes u x = some n1) :
    ∃ l, (nodes.map (fun s => s.inc_edges))[u]? = some l ∧
      n1.map (fun s => s.inc_edges) = (nodes.map (fun s => s.inc_edges)).set u (l ++ [x]) := by
  unfold push_incident at hr
  cases hs : nodes[u]? with
  | none => rw [hs] at hr; cases hr
  | some s =>
    rw [hs] at hr
    simp only [Option.some.injEq] at hr
    refine ⟨s.inc_edges, ?_, ?_⟩
    · rw [List.getElem?_map, hs]; rfl
    · rw [← hr, List.map_set]

/-- The effect of `add_edge(a, b, v)` on the stored data when `a` and `b` have distinct
uids and are not connected. -/
theorem add_edge_new_spec (g g1 : Graph P V E) (a b : Node) (v : E) (e : Option Edge)
    (hne : a.uid_ ≠ b.uid_) (hb : g.edges_.length + 1 < Graph2236.size_type_mod)
    (hnum : g.num_edges_ ≤ g.edges_.length)
    (hc : has_edge g a b = some false) (hr : add_edge g a b v = some (e, g1)) :
    ∃ la lb, (incident_lists g)[a.uid_]? = some la ∧ (incident_lists g)[b.uid_]? = some lb ∧
      e = some ⟨g.addr, a.uid_, b.uid_, g.edges_.length⟩ ∧ g1.addr = g.addr ∧
      incident_lists g1 =
        ((incident_lists g).set a.uid_ (la ++ [⟨g.edges_.length, b.uid_⟩])).set b.uid_
          (lb ++ [⟨g.edges_.length, a.uid_⟩]) ∧
      g1.edge_i2u = g.edge_i2u ++ [g.edges_.length] ∧
      g1.edges_ = g.edges_ ++ [⟨a.uid_, b.uid_, g.num_edges_, v⟩] ∧
      g1.num_edges_ = g.num_edges_ + 1 := by
  have hneq : Node.eq a b = false := by
    unfold Node.eq
    simp [hne]
  have hlast : Graph2236.size_type_sub
      (g.edges_ ++ [(⟨a.uid_, b.uid_, g.num_edges_, v⟩ : internal_edge E)]).length 1 =
        g.edges_.length := by
    rw [List.length_append, List.length_singleton,
      Graph2236.size_type_sub_one _ (by omega) hb]
    omega
  have hsucc : Graph2236.size_type_succ g.num_edges_ = g.num_edges_ + 1 :=
    Graph2236.size_type_succ_of_lt _ (by omega)
  unfold add_edge at hr
  rw [hneq, hc] at hr
  simp only [Bool.not_false, if_true] at hr
  rw [hlast, hsucc] at hr
  split at hr
  · cases hr
  · rename_i nodes1 h1
    split at hr
    · cases hr
    · rename_i nodes2 h2
      simp only [Option.some.injEq, Prod.mk.injEq] at hr
      obtain ⟨hr1, hr2⟩ := hr
      subst hr2
      obtain ⟨la, hla, e1⟩ := push_incident_spec _ _ _ _ h1
      obtain ⟨lb1, hlb1, e2⟩ := push_incident_spec _ _ _ _ h2
      rw [e1, List.getElem?_set_ne hne] at hlb1
      refine ⟨la, lb1, hla, hlb1, hr1.symm, rfl, ?_, rfl, rfl, rfl⟩
      show nodes2.map (fun s => s.inc_edges) = _
      rw [e2, e1]
      rfl

theorem getElem?_append_singleton {α : Type} (l : List α) (x y : α) (k : Nat)
    (h : (l ++ [x])[k]? = some y) : l[k]? = some y ∨ (k = l.length ∧ y = x) := by
  by_cases hk : k < l.length
  · rw [List.getElem?_append_left hk] at h
    exact Or.inl h
  · rw [List.getElem?_append_right (by omega)] at h
    have hlt := (List.getElem?_eq_some_iff.1 h).1
    simp only [List.length_singleton] at hlt
    have h0 : k - l.length = 0 := by omega
    rw [h0] at h
    simp only [List.getElem?_cons_zero, Option.some.injEq] at h
    exact Or.inr ⟨by omega, h.symm⟩

theorem getElem?_append_of_some {α : Type} (l : List α) (x y : α) (k : Nat)
    (h : l[k]? = some y) : (l ++ [x])[k]? = some y := by
  rw [List.getElem?_append_left (List.getElem?_eq_some_iff.1 h).1]
  exact h

theorem getElem?_append_length {α : Type} (l : List α) (x : α) :
    (l ++ [x])[l.length]? = some x := by
  rw [List.getElem?_append_right (Nat.le_refl _)]
  simp

/-- The edge invariant after the storage of a new edge between `a` and `b`. -/
theorem edges_inv_added (g g1 : Graph P V E) (h : EdgesInv g) (a b : Nat) (v : E)
    (la lb : List incident_edge) (hne : a ≠ b)
    (hb : g.edges_.length + 1 < Graph2236.size_type_mod)
    (hla : (incident_lists g)[a]? = some la) (hlb : (incident_lists g)[b]? = some lb)
    (hnot : b ∉ neighbours la)
    (hinc : incident_lists g1 =
      ((incident_lists g).set a (la ++ [⟨g.edges_.length, b⟩])).set b
        (lb ++ [⟨g.edges_.length, a⟩]))
    (hi2u : g1.edge_i2u = g.edge_i2u ++ [g.edges_.length])
    (hedges : g1.edges_ = g.edges_ ++ [⟨a, b, g.num_edges_, v⟩])
    (hnum : g1.num_edges_ = g.num_edges_ + 1) : EdgesInv g1 := by
  have hlenN : g1.nodes_.length = g.nodes_.length := by
    have := congrArg List.length hinc
    rw [List.length_set, List.length_set, incident_lists_length, incident_lists_length] at this
    exact this
  have hf : edge_index_fields g1 = edge_index_fields g ++ [g.num_edges_] := by
    unfold edge_index_fields
    rw [hedges, List.map_append]; rfl
  have hends : edge_endpoints g1 = edge_endpoints g ++ [(a, b)] := by
    unfold edge_endpoints
    rw [hedges, List.map_append]; rfl
  have halt : a < g.nodes_.length := by
    rw [← incident_lists_length]; exact (List.getElem?_eq_some_iff.1 hla).1
  have hblt : b < g.nodes_.length := by
    rw [← incident_lists_length]; exact (List.getElem?_eq_some_iff.1 hlb).1
  have hnot2 : a ∉ neighbours lb := fun hc => hnot ((h.inc_symm a b la lb hla hlb).2 hc)
  have hfnew : (edge_index_fields g1)[g.edges_.length]? = some g.num_edges_ := by
    rw [hf, ← edge_fields_length]; exact getElem?_append_length _ _
  have hinew : g1.edge_i2u[g.num_edges_]? = some g.edges_.length := by
    rw [hi2u, h.num_eq]; exact getElem?_append_length _ _
  have henew : (edge_endpoints g1)[g.edges_.length]? = some (a, b) := by
    rw [hends, ← edge_endpoints_length]; exact getElem?_append_length _ _
  have hnumeq := h.num_eq
  have hi2ulen := h.i2u_len
  constructor
  · rw [hnum, hi2u, List.length_append, List.length_singleton]; omega
  · rw [hedges, List.length_append, List.length_singleton]; exact hb
  · rw [hi2u, hedges, List.length_append, List.length_append]
    simp only [List.length_singleton]; omega
  · intro k u hk
    rw [hi2u] at hk
    rcases getElem?_append_singleton _ _ _ _ hk with hk | ⟨hk1, hk2⟩
    · rw [hf]; exact getElem?_append_of_some _ _ _ _ (h.edge_at k u hk)
    · rw [hk2, hk1, ← hnumeq]; exact hfnew
  · intro u l1 x hl1 hx
    rw [hinc] at hl1
    obtain ⟨l, hl, hcase⟩ := mem_added_lists _ a b la lb _ _ hla hlb u l1 hl1
    have hold : x ∈ l → x.id2 < g1.nodes_.length ∧ x.id2 ≠ u ∧
        ∃ k, (edge_index_fields g1)[x.edge_uid]? = some k ∧
          g1.edge_i2u[k]? = some x.edge_uid ∧
          ((edge_endpoints g1)[x.edge_uid]? = some (u, x.id2) ∨
           (edge_endpoints g1)[x.edge_uid]? = some (x.id2, u)) := by
      intro hxl
      obtain ⟨h1, h2, k, h3, h4, h5⟩ := h.inc_at u l x hl hxl
      refine ⟨by rw [hlenN]; exact h1, h2, k, ?_, ?_, ?_⟩
      · rw [hf]; exact getElem?_append_of_some _ _ _ _ h3
      · rw [hi2u]; exact getElem?_append_of_some _ _ _ _ h4
      · rw [hends]
        rcases h5 with h5 | h5
        · exact Or.inl (getElem?_append_of_some _ _ _ _ h5)
        · exact Or.inr (getElem?_append_of_some _ _ _ _ h5)
    rcases hcase with ⟨hu, h1⟩ | ⟨hu, h1⟩ | ⟨-, -, h1⟩
    · subst h1
      rcases List.mem_append.1 hx with hx | hx
      · exact hold hx
      · rw [List.mem_singleton] at hx
        subst hx
        subst hu
        exact ⟨by rw [hlenN]; exact hblt, Ne.symm hne, _, hfnew, hinew, Or.inl henew⟩
    · subst h1
      rcases List.mem_append.1 hx with hx | hx
      · exact hold hx
      · rw [List.mem_singleton] at hx
        subst hx
        subst hu
        exact ⟨by rw [hlenN]; exact halt, hne, _, hfnew, hinew, Or.inr henew⟩
    · subst h1
      exact hold hx
  · intro u l1 hl1
    rw [hinc] at hl1
    obtain ⟨l, hl, hcase⟩ := mem_added_lists _ a b la lb _ _ hla hlb u l1 hl1
    have hnd := h.inc_nodup u l hl
    rcases hcase with ⟨hu, h1⟩ | ⟨hu, h1⟩ | ⟨-, -, h1⟩
    · subst h1
      subst hu
      rw [hla] at hl
      simp only [Option.some.injEq] at hl
      subst hl
      unfold neighbours at hnd hnot ⊢
      rw [List.map_append, List.nodup_append]
      refine ⟨hnd, List.nodup_singleton _, ?_⟩
      intro w hw1 hw2
      simp only [List.map_cons, List.map_nil, List.mem_singleton] at hw2
      exact hnot (hw2 ▸ hw1)
    · subst h1
      subst hu
      rw [hlb] at hl
      simp only [Option.some.injEq] at hl
      subst hl
      unfold neighbours at hnd hnot2 ⊢
      rw [List.map_append, List.nodup_append]
      refine ⟨hnd, List.nodup_singleton _, ?_⟩
      intro w hw1 hw2
      simp only [List.map_cons, List.map_nil, List.mem_singleton] at hw2
      exact hnot2 (hw2 ▸ hw1)
    · subst h1
      exact hnd
  · intro u w l1 m1 hl1 hm1
    rw [hinc] at hl1 hm1
    obtain ⟨l, hl, hmeml⟩ := mem_neighbours_added _ a b la lb _ _ hne hla hlb u l1 hl1
    obtain ⟨m, hm, hmemm⟩ := mem_neighbours_added _ a b la lb _ _ hne hla hlb w m1 hm1
    have hs := h.inc_symm u w l m hl hm
    rw [hmeml, hmemm, hs]
    constructor
    · rintro (hc | ⟨h1, h2⟩ | ⟨h1, h2⟩)
      · exact Or.inl hc
      · exact Or.inr (Or.inr ⟨h2, h1⟩)
      · exact Or.inr (Or.inl ⟨h2, h1⟩)
    · rintro (hc | ⟨h1, h2⟩ | ⟨h1, h2⟩)
      · exact Or.inl hc
      · exact Or.inr (Or.inr ⟨h2, h1⟩)
      · exact Or.inr (Or.inl ⟨h2, h1⟩)

theorem edges_inv_add_edge (g g1 : Graph P V E) (h : EdgesInv g) (a b : Node) (v : E)
    (e : Option Edge) (hab : a.graph_ = b.graph_)
    (hb : g.edges_.length + 1 < Graph2236.size_type_mod)
    (hr : add_edge g a b v = some (e, g1)) : EdgesInv g1 := by
  cases hq : Node.eq a b with
  | true =>
    unfold add_edge at hr
    rw [hq] at hr
    simp only [Bool.not_true, Bool.false_eq_true, if_false, Option.some.injEq,
      Prod.mk.injEq] at hr
    rw [← hr.2]; exact h
  | false =>
    have hne : a.uid_ ≠ b.uid_ := by
      intro hc
      unfold Node.eq at hq
      simp [hab, hc] at hq
    cases hc : has_edge g a b with
    | none =>
      unfold add_edge at hr
      rw [hq, hc] at hr
      simp at hr
    | some c =>
      cases c with
      | true =>
        unfold add_edge at hr
        rw [hq, hc] at hr
        simp only [Bool.not_false, if_true, Option.some.injEq, Prod.mk.injEq] at hr
        rw [← hr.2]; exact h
      | false =>
        have hnum : g.num_edges_ ≤ g.edges_.length := by
          rw [h.num_eq]; exact h.i2u_len
        obtain ⟨la, lb, hla, hlb, -, -, hinc, hi2u, hedges, hn⟩ :=
          add_edge_new_spec g g1 a b v e hne hb hnum hc hr
        obtain ⟨la2, hla2, hiff⟩ := has_edge_list g a b false hc
        rw [hla] at hla2
        simp only [Option.some.injEq] at hla2
        subst hla2
        have hnot : b.uid_ ∉ neighbours la := fun hm => by
          have := hiff.2 hm
          cases this
        exact edges_inv_added g g1 h _ _ v la lb hne hb hla hlb hnot hinc hi2u hedges hn

theorem edges_inv_remove_node (g g1 : Graph P V E) (hN : NodesInv g) (h : EdgesInv g)
    (n : Node) (r : Nat) (hr : remove_node g n = some (r, g1)) : EdgesInv g1 := by
  rcases remove_node_unfold_2362 g g1 n r hr with ⟨-, -, h3⟩ | ⟨-, d, g0, -, h0, h3⟩
  · rw [h3]; exact h
  · have hN0 := nodes_inv_of_same_index g g0 (remove_node_loop_same_index n d g g0 h0) hN
    have hE0 := edges_inv_remove_node_loop n d g g0 h h0
    obtain ⟨i, -, -, -, -, -, -, f1, f2, f3, f4, -⟩ :=
      remove_node_storage_spec_2362 g0 g1 hN0 n r h3
    exact edges_inv_congr g0 g1 hE0 f3 f2 f1 f4

theorem has_node_bounds (g : Graph P V E) (h : NodesInv g) (n : Node)
    (hn : has_node g n = some true) : n.graph_ = g.addr ∧ n.uid_ < g.nodes_.length := by
  obtain ⟨hg, i, hi, -⟩ := (has_node_iff_2362 g h n).1 hn
  refine ⟨hg, ?_⟩
  unfold Node.index at hi
  cases hs : g.nodes_[n.uid_]? with
  | none => rw [hs] at hi; cases hi
  | some s => exact (List.getElem?_eq_some_iff.1 hs).1

theorem edges_inv_of_reachable (g : Graph P V E) (h : Reachable g) : EdgesInv g := by
  induction h with
  | empty addr => exact edges_inv_empty addr
  | add_node p v _ _ ih => exact edges_inv_add_node _ ih p v
  | add_edge a b v e hg hb ha hb2 hr ih =>
    have hN := nodes_inv_of_reachable_2362 _ hg
    obtain ⟨ha1, -⟩ := has_node_bounds _ hN a ha
    obtain ⟨hb1, -⟩ := has_node_bounds _ hN b hb2
    exact edges_inv_add_edge _ _ ih a b v e (ha1.trans hb1.symm) hb hr
  | remove_node n r hg hr ih =>
    exact edges_inv_remove_node _ _ (nodes_inv_of_reachable_2362 _ hg) ih n r hr
  | remove_edge e r _ hr ih => exact edges_inv_remove_edge_nodes _ _ ih _ _ r hr
  | remove_edge_nodes a b r _ hr ih => exact edges_inv_remove_edge_nodes _ _ ih a b r hr

theorem edge_of_views (g : Graph P V E) (i uid n1 n2 : Nat) (hi : i < g.num_edges_)
    (hu : g.edge_i2u[i]? = some uid) (he : (edge_endpoints g)[uid]? = some (n1, n2)) :
    edge g i = some (some ⟨g.addr, n1, n2, uid⟩) := by
  unfold edge_endpoints at he
  rw [List.getElem?_map] at he
  cases hs : g.edges_[uid]? with
  | none => rw [hs] at he; cases he
  | some s =>
    rw [hs] at he
    simp only [Option.map_some', Option.some.injEq, Prod.mk.injEq] at he
    unfold edge
    rw [if_pos hi, hu]
    dsimp only
    rw [hs]
    dsimp only
    rw [he.1, he.2]

theorem edge_endpoints_total (g : Graph P V E) (h : EdgesInv g) (i : Nat)
    (hi : i < g.num_edges_) :
    ∃ uid n1 n2, g.edge_i2u[i]? = some uid ∧ (edge_endpoints g)[uid]? = some (n1, n2) := by
  have hlt : i < g.edge_i2u.length := by rw [← h.num_eq]; exact hi
  have hu := List.getElem?_eq_getElem hlt
  have hf := h.edge_at i _ hu
  have hlt2 := (List.getElem?_eq_some_iff.1 hf).1
  rw [edge_fields_length, ← edge_endpoints_length] at hlt2
  exact ⟨_, _, _, hu, List.getElem?_eq_getElem hlt2⟩

theorem filter_any_false (l : List incident_edge) (b : Nat) :
    (l.filter (fun x => !decide (x.id2 = b))).any (fun x => decide (x.id2 = b)) = false := by
  rw [Bool.eq_false_iff]
  intro hc
  rw [List.any_eq_true] at hc
  obtain ⟨x, hx, hp⟩ := hc
  rw [List.mem_filter] at hx
  simp only [decide_eq_true_eq] at hp
  simp [hp] at hx

/-- C26: in `hw3/Graph_2362.hpp`, for every reachable graph and valid nodes `a`, `b` of
it, `remove_edge(a, b)` returns: the result is 1 if `has_edge(a, b)` held before and 0
otherwise; afterwards `has_edge(a, b)` and `has_edge(b, a)` are false and `num_edges()`
is the old value minus the result; when nothing was removed the graph is unchanged, and
otherwise the removed edge is `edge(k)` for an index `k`, it connects `a` and `b`, and
`edge(i)` afterwards is the old `edge(i)` for `i < k` and the old `edge(i + 1)` for
`i >= k`: the other edges in their previous relative order. -/
theorem C26_remove_edge_effect (g : Graph P V E) (h : Reachable g) (a b : Node)
    (ha : has_node g a = some true) (hb : has_node g b = some true) :
    ∃ c r g1, has_edge g a b = some c ∧ remove_edge_nodes g a b = some (r, g1) ∧
      r = (if c = true then 1 else 0) ∧
      has_edge g1 a b = some false ∧ has_edge g1 b a = some false ∧
      num_edges g1 + r = num_edges g ∧
      (c = false → g1 = g) ∧
      (c = true → ∃ k ek, k < num_edges g ∧ edge g k = some (some ek) ∧
        ((Edge.node1 ek = a ∧ Edge.node2 ek = b) ∨
         (Edge.node1 ek = b ∧ Edge.node2 ek = a)) ∧
        ∀ i, i < num_edges g1 → ∃ ei, edge g1 i = some (some ei) ∧
          edge g (if i < k then i else i + 1) = some (some ei)) := by
  have hN := nodes_inv_of_reachable_2362 g h
  have hE := edges_inv_of_reachable g h
  obtain ⟨hag, halt⟩ := has_node_bounds g hN a ha
  obtain ⟨hbg, hblt⟩ := has_node_bounds g hN b hb
  have halt1 : a.uid_ < (incident_lists g).length := by
    rw [incident_lists_length]; exact halt
  have hblt1 : b.uid_ < (incident_lists g).length := by
    rw [incident_lists_length]; exact hblt
  have hla0 : (incident_lists g)[a.uid_]? = some (incident_lists g)[a.uid_] :=
    List.getElem?_eq_getElem halt1
  have hlb0 : (incident_lists g)[b.uid_]? = some (incident_lists g)[b.uid_] :=
    List.getElem?_eq_getElem hblt1
  have hc := has_edge_of_list g a b _ hla0
  rcases remove_edge_nodes_spec_2362 g hE a b _ hc with ⟨hcf, h2⟩ |
    ⟨hct, g1, la, lb, e, k, h2, hne, hla, hlb, he, heb, hk, haddr, hinc, hi2u, hf, hends,
      hnum, -⟩
  · refine ⟨_, 0, g, hc, h2, by rw [hcf]; rfl, ?_, ?_, rfl, fun _ => rfl, ?_⟩
    · rw [hc, hcf]
    · have hcb := has_edge_of_list g b a _ hlb0
      rw [hcb]
      congr 1
      rw [Bool.eq_false_iff]
      intro hx
      obtain ⟨l, hl, hiff⟩ := has_edge_list g b a _ hcb
      have hmem := hiff.1 hx
      rw [hlb0] at hl
      simp only [Option.some.injEq] at hl
      rw [← hl] at hmem
      have hmem2 := (hE.inc_symm a.uid_ b.uid_ _ _ hla0 hlb0).2 hmem
      obtain ⟨l2, hl2, hiff2⟩ := has_edge_list g a b _ hc
      rw [hla0] at hl2
      simp only [Option.some.injEq] at hl2
      rw [← hl2] at hiff2
      have := hiff2.2 hmem2
      rw [hcf] at this
      cases this
    · intro hx
      rw [hcf] at hx
      cases hx
  · have hE1 := edges_inv_removed g g1 hE _ _ la lb e k hne hla hlb he heb hk hinc hi2u hf
      hends hnum
    obtain ⟨-, -, k0, hk0, hk1, hk2⟩ := hE.inc_at _ la e hla he
    rw [hk] at hk0
    simp only [Option.some.injEq] at hk0
    subst hk0
    have hklt : k < g.edge_i2u.length := (List.getElem?_eq_some_iff.1 hk1).1
    have hnumeq := hE.num_eq
    have hla1 : (incident_lists g1)[a.uid_]? =
        some (la.filter (fun x => !decide (x.id2 = b.uid_))) := by
      rw [hinc, List.getElem?_set_ne (Ne.symm hne), List.getElem?_set_self halt1]
    have hlb1 : (incident_lists g1)[b.uid_]? =
        some (lb.filter (fun x => !decide (x.id2 = a.uid_))) := by
      rw [hinc, List.getElem?_set_self (by rw [List.length_set]; exact hblt1)]
    refine ⟨_, 1, g1, hc, h2, by rw [hct]; rfl, ?_, ?_, hnum, ?_, ?_⟩
    · rw [has_edge_of_list g1 a b _ hla1, filter_any_false]
    · rw [has_edge_of_list g1 b a _ hlb1, filter_any_false]
    · intro hx
      rw [hct] at hx
      cases hx
    · intro _
      have hkn : k < g.num_edges_ := by rw [hnumeq]; exact hklt
      rw [heb] at hk2
      rcases hk2 with hk2 | hk2
      · refine ⟨k, _, hkn, edge_of_views g k _ _ _ hkn hk1 hk2, ?_, ?_⟩
        · left
          unfold Edge.node1 Edge.node2
          cases a; cases b
          simp only at hag hbg
          simp [hag, hbg]
        · intro i hi
          have hi1 : i < g1.num_edges_ := hi
          obtain ⟨uid, n1, n2, hu, hen⟩ := edge_endpoints_total g1 hE1 i hi1
          refine ⟨_, edge_of_views g1 i uid n1 n2 hi1 hu hen, ?_⟩
          rw [haddr]
          rw [hends] at hen
          rw [hi2u, List.getElem?_eraseIdx] at hu
          by_cases hik : i < k
          · rw [if_pos hik] at hu ⊢
            exact edge_of_views g i uid n1 n2 (by omega) hu hen
          · rw [if_neg hik] at hu ⊢
            exact edge_of_views g (i + 1) uid n1 n2 (by omega) hu hen
      · refine ⟨k, _, hkn, edge_of_views g k _ _ _ hkn hk1 hk2, ?_, ?_⟩
        · right
          unfold Edge.node1 Edge.node2
          cases a; cases b
          simp only at hag hbg
          simp [hag, hbg]
        · intro i hi
          have hi1 : i < g1.num_edges_ := hi
          obtain ⟨uid, n1, n2, hu, hen⟩ := edge_endpoints_total g1 hE1 i hi1
          refine ⟨_, edge_of_views g1 i uid n1 n2 hi1 hu hen, ?_⟩
          rw [haddr]
          rw [hends] at hen
          rw [hi2u, List.getElem?_eraseIdx] at hu
          by_cases hik : i < k
          · rw [if_pos hik] at hu ⊢
            exact edge_of_views g i uid n1 n2 (by omega) hu hen
          · rw [if_neg hik] at hu ⊢
            exact edge_of_views g (i + 1) uid n1 n2 (by omega) hu hen

theorem C26_remove_edge_effect_witness :
    Reachable ex_path ∧ has_node ex_path ⟨0, 0⟩ = some true ∧
    has_node ex_path ⟨0, 1⟩ = some true ∧
    ∃ c r g1, has_edge ex_path ⟨0, 0⟩ ⟨0, 1⟩ = some c ∧
      remove_edge_nodes ex_path ⟨0, 0⟩ ⟨0, 1⟩ = some (r, g1) ∧
      r = (if c = true then 1 else 0) ∧
      has_edge g1 ⟨0, 0⟩ ⟨0, 1⟩ = some false ∧ has_edge g1 ⟨0, 1⟩ ⟨0, 0⟩ = some false ∧
      num_edges g1 + r = num_edges ex_path ∧
      (c = false → g1 = ex_path) ∧
      (c = true → ∃ k ek, k < num_edges ex_path ∧ edge ex_path k = some (some ek) ∧
        ((Edge.node1 ek = ⟨0, 0⟩ ∧ Edge.node2 ek = ⟨0, 1⟩) ∨
         (Edge.node1 ek = ⟨0, 1⟩ ∧ Edge.node2 ek = ⟨0, 0⟩)) ∧
        ∀ i, i < num_edges g1 → ∃ ei, edge g1 i = some (some ei) ∧
          edge ex_path (if i < k then i else i + 1) = some (some ei)) :=
  ⟨path_reachable_2362, by decide, by decide,
    C26_remove_edge_effect ex_path path_reachable_2362 ⟨0, 0⟩ ⟨0, 1⟩ (by decide) (by decide)⟩

end Graph2362

namespace Graph2236

variable {P V E : Type}

/-! ## Node removal and the other nodes; the adjacency map and the edge storage -/

end Graph2236

namespace Graph1193

/-! ## `hw1/Graph_1193.hpp`: equality of edge handles -/

theorem node_reachable_1193 : Reachable ex_node :=
  @Reachable.add_node _ _ (Graph.empty 0) ex_node () 10 ⟨0, 0⟩ (Reachable.empty 0) (by decide)
    (by decide)

theorem nodes_reachable_1193 : Reachable ex_nodes :=
  @Reachable.add_node _ _ ex_node ex_nodes () 11 ⟨0, 1⟩ node_reachable_1193 (by decide)
    (by decide)

theorem edge_reachable_1193 : Reachable ex_edge :=
  @Reachable.add_edge _ _ ex_nodes ex_edge ⟨0, 0⟩ ⟨0, 1⟩ ⟨0, 0, 1, 0⟩ nodes_reachable_1193
    (by decide) (by decide)

/-- C31: in `hw1/Graph_1193.hpp` `Edge::operator==` is sensitive to the order of the
endpoints. After two `add_node` calls and `e = add_edge(n0, n1)`, the edge `edge(0)`
equals `e` and has the indices `(0, 1)`, while the edge obtained by dereferencing
`n1.edge_begin()` is the same edge (index 0) with the indices `(1, 0)`, and it compares
unequal to `e` and to `edge(0)` in both directions. -/
theorem C31_incident_edge_not_equal :
    Reachable ex_edge ∧ has_node ex_edge ⟨0, 0⟩ = true ∧ has_node ex_edge ⟨0, 1⟩ = true ∧
    add_edge ex_nodes ⟨0, 0⟩ ⟨0, 1⟩ = some (⟨0, 0, 1, 0⟩, ex_edge) ∧
    edge ex_edge 0 = some ⟨0, 0, 1, 0⟩ ∧
    (Node.edge_begin ex_edge ⟨0, 1⟩).2 = ex_edge ∧
    IncidentIterator.deref ex_edge (Node.edge_begin ex_edge ⟨0, 1⟩).1 = some ⟨0, 1, 0, 0⟩ ∧
    Edge.node1 ex_edge ⟨0, 1, 0, 0⟩ = some ⟨0, 1⟩ ∧
    Edge.node2 ex_edge ⟨0, 1, 0, 0⟩ = some ⟨0, 0⟩ ∧
    Edge.eq ⟨0, 1, 0, 0⟩ ⟨0, 0, 1, 0⟩ = false ∧ Edge.eq ⟨0, 0, 1, 0⟩ ⟨0, 1, 0, 0⟩ = false :=
  ⟨edge_reachable_1193, by decide, by decide, by decide, by decide, by decide, by decide,
    by decide, by decide, by decide, by decide⟩

end Graph1193

namespace Graph2543

/-! ## `hw0/Graph_2543.hpp`: `clear` -/

theorem nodes_reachable_2543 : Reachable ex_nodes :=
  Reachable.add_node () (Reachable.add_node () (Reachable.empty 0))

theorem edge_reachable_2543 : Reachable ex_edge :=
  @Reachable.add_edge _ ex_nodes ex_edge ⟨0, 0⟩ ⟨1, 0⟩ ⟨⟨0, 0⟩, ⟨1, 0⟩, 0⟩ nodes_reachable_2543
    (by decide)

/-- C32: in `hw0/Graph_2543.hpp` `clear()` has an empty body and leaves every graph as it
is: in the reachable state with two nodes and one edge, `num_nodes()` is 2 and
`num_edges()` is 1 after `clear()`, not 0. -/
theorem C32_clear_does_nothing :
    Reachable ex_edge ∧ num_nodes ex_edge = 2 ∧ num_edges ex_edge = 1 ∧
    num_nodes (clear ex_edge) = 2 ∧ num_edges (clear ex_edge) = 1 ∧
    ∀ (P : Type) (g : Graph P), clear g = g :=
  ⟨edge_reachable_2543, by decide, by decide, by decide, by decide, fun _ _ => rfl⟩

end Graph2543

namespace Graph2362

variable {P V E : Type}

/-! ## `hw3/Graph_2362.hpp`: `add_edge` on one node, and the loop of `remove_node` -/

/-- C39: a self-loop request is rejected without mutation. For every graph and node
handle `a`, `add_edge(a, a, v)` returns the invalid edge and leaves the graph as it is:
`num_edges()`, the degree of every node, every `edge(i)` and the result of `has_edge` for
every pair of nodes are unchanged. -/
theorem C39_add_edge_self_loop_rejected (g : Graph P V E) (a : Node) (v : E) :
    ∃ g1, add_edge g a a v = some (none, g1) ∧ g1 = g ∧ num_edges g1 = num_edges g ∧
      (∀ n, Node.degree g1 n = Node.degree g n) ∧ (∀ i, edge g1 i = edge g i) ∧
      (∀ x y, has_edge g1 x y = has_edge g x y) := by
  refine ⟨g, ?_, rfl, rfl, fun _ => rfl, fun _ => rfl, fun _ _ => rfl⟩
  unfold add_edge
  have h : Node.eq a a = true := by simp [Node.eq]
  rw [h]
  rfl

theorem length_le_of_nodup_bounded (l : List Nat) (n : Nat) (hnd : l.Nodup)
    (hb : ∀ x, x ∈ l → x < n) : l.length ≤ n := by
  have hsub : l ⊆ List.range n := fun x hx => List.mem_range.2 (hb x hx)
  have := (List.subperm_of_subset hnd hsub).length_le
  rw [List.length_range] at this
  exact this

/-- An incident list holds at most one entry per node uid. -/
theorem incident_length_le (g : Graph P V E) (hE : EdgesInv g) (u : Nat)
    (l : List incident_edge) (hl : (incident_lists g)[u]? = some l) :
    l.length ≤ g.nodes_.length := by
  have h1 := length_le_of_nodup_bounded (neighbours l) g.nodes_.length (hE.inc_nodup u l hl)
    (by
      intro x hx
      obtain ⟨y, hy, hyx⟩ := (mem_neighbours l x).1 hx
      rw [← hyx]
      exact (hE.inc_at u l y hl hy).1)
  unfold neighbours at h1
  rw [List.length_map] at h1
  exact h1

theorem degree_eq_length (g : Graph P V E) (hN : NodesInv g) (hE : EdgesInv g) (n : Node)
    (l : List incident_edge) (hl : (incident_lists g)[n.uid_]? = some l) :
    Node.degree g n = some l.length := by
  obtain ⟨s, hs, hsl⟩ := incident_lists_get g _ _ hl
  unfold Node.degree
  rw [hs]
  simp only [Option.map_some', Option.some.injEq]
  rw [hsl]
  apply Graph2236.to_size_type_of_lt
  have := incident_length_le g hE _ l hl
  have := hN.nodes_bound
  omega

theorem nodes_inv_of_edge_removed (g g1 : Graph P V E) (hN : NodesInv g) (a b : Node) (r : Nat)
    (hr : remove_edge_nodes g a b = some (r, g1)) : NodesInv g1 :=
  nodes_inv_of_same_index g g1 (remove_edge_nodes_same_index g g1 a b r hr) hN

/-- One execution of the body of the loop of `remove_node` when the incident list of `n`
is `x :: rest`: the call returns and the incident list of `n` is `rest` afterwards. -/
theorem remove_node_loop_body_spec (g : Graph P V E) (hE : EdgesInv g) (n : Node)
    (x : incident_edge) (rest : List incident_edge)
    (hl : (incident_lists g)[n.uid_]? = some (x :: rest)) :
    ∃ g1, remove_node_loop_body n g = some g1 ∧
      IncidentIterator.deref g n 0 = some ⟨n.graph_, n.uid_, x.id2, x.edge_uid⟩ ∧
      remove_edge g ⟨n.graph_, n.uid_, x.id2, x.edge_uid⟩ = some (1, g1) ∧
      (incident_lists g1)[n.uid_]? = some rest ∧ EdgesInv g1 ∧ SameNodeIndex g g1 ∧
      g1.num_edges_ + 1 = g.num_edges_ := by
  obtain ⟨s, hs, hsl⟩ := incident_lists_get g _ _ hl
  have hderef : IncidentIterator.deref g n 0 = some ⟨n.graph_, n.uid_, x.id2, x.edge_uid⟩ := by
    unfold IncidentIterator.deref
    rw [hs]
    dsimp only
    rw [hsl, List.getElem?_cons_zero]
  have hc : has_edge g ⟨n.graph_, n.uid_⟩ ⟨n.graph_, x.id2⟩ = some true := by
    rw [has_edge_of_list g ⟨n.graph_, n.uid_⟩ ⟨n.graph_, x.id2⟩ _ hl]
    simp
  rcases remove_edge_nodes_spec_2362 g hE ⟨n.graph_, n.uid_⟩ ⟨n.graph_, x.id2⟩ true hc with
    ⟨hcf, -⟩ | ⟨-, g1, la, lb, e, k, h2, hne, hla, hlb, he, heb, hk, haddr, hinc, hi2u, hf,
      hends, hnum, hval⟩
  · cases hcf
  · have hE1 := edges_inv_removed g g1 hE _ _ la lb e k hne hla hlb he heb hk hinc hi2u hf
      hends hnum
    have hsame := remove_edge_nodes_same_index g g1 _ _ 1 h2
    have hre : remove_edge g ⟨n.graph_, n.uid_, x.id2, x.edge_uid⟩ = some (1, g1) := h2
    dsimp only at hla hlb hne hinc
    rw [hl] at hla
    simp only [Option.some.injEq] at hla
    subst hla
    have hlt : n.uid_ < (incident_lists g).length := (List.getElem?_eq_some_iff.1 hl).1
    have hrest : (x :: rest).filter (fun y => !decide (y.id2 = x.id2)) = rest := by
      rw [List.filter_cons_of_neg (by simp)]
      exact filter_of_no_match _ _ (no_match_of_nodup_cons x rest (hE.inc_nodup _ _ hl))
    refine ⟨g1, ?_, hderef, hre, ?_, hE1, hsame, hnum⟩
    · unfold remove_node_loop_body
      rw [hderef]
      dsimp only
      rw [hre]
    · rw [hinc, List.getElem?_set_ne (Ne.symm hne), List.getElem?_set_self hlt, hrest]

/-- The loop of `remove_node` seen as iterations of its body: when the incident list of
`n` has `d` entries, the body can be executed `d` times, and after `k ≤ d` executions
the incident list of `n` has `d - k` entries. -/
theorem remove_node_loop_iterate_spec (n : Node) :
    ∀ (l : List incident_edge) (g : Graph P V E), NodesInv g → EdgesInv g →
      (incident_lists g)[n.uid_]? = some l →
      ∀ k, k ≤ l.length → ∃ gk, remove_node_loop_iterate n k g = some gk ∧
        (incident_lists gk)[n.uid_]? = some (l.drop k) ∧ NodesInv gk ∧ EdgesInv gk ∧
        SameNodeIndex g gk ∧ gk.num_edges_ + k = g.num_edges_ := by
  intro l
  induction l with
  | nil =>
    intro g hN hE hl k hk
    have hk0 : k = 0 := by simpa using hk
    subst hk0
    exact ⟨g, rfl, hl, hN, hE, same_node_index_refl g, rfl⟩
  | cons x rest ih =>
    intro g hN hE hl k hk
    cases k with
    | zero => exact ⟨g, rfl, hl, hN, hE, same_node_index_refl g, rfl⟩
    | succ k =>
      obtain ⟨g1, hb, -, -, hl1, hE1, hs1, hn1⟩ := remove_node_loop_body_spec g hE n x rest hl
      have hN1 := nodes_inv_of_same_index g g1 hs1 hN
      obtain ⟨gk, h1, h2, h3, h4, h5, h6⟩ := ih g1 hN1 hE1 hl1 k (by simpa using hk)
      refine ⟨gk, ?_, h2, h3, h4, same_node_index_trans _ _ _ hs1 h5, by omega⟩
      unfold remove_node_loop_iterate
      rw [hb]
      exact h1

/-- The loop of `remove_node` with enough fuel returns the graph after as many
executions of its body as the incident list of `n` has entries. -/
theorem remove_node_loop_eq_iterate (n : Node) :
    ∀ (l : List incident_edge) (g : Graph P V E), NodesInv g → EdgesInv g →
      (incident_lists g)[n.uid_]? = some l →
      ∀ fuel, l.length ≤ fuel →
        remove_node_loop n fuel g = remove_node_loop_iterate n l.length g := by
  intro l
  induction l with
  | nil =>
    intro g hN hE hl fuel _
    have hd := degree_eq_length g hN hE n [] hl
    cases fuel <;> unfold remove_node_loop <;> rw [hd] <;> rfl
  | cons x rest ih =>
    intro g hN hE hl fuel hf
    have hd := degree_eq_length g hN hE n _ hl
    obtain ⟨g1, hb, hderef, hre, hl1, hE1, hs1, -⟩ := remove_node_loop_body_spec g hE n x rest hl
    have hN1 := nodes_inv_of_same_index g g1 hs1 hN
    cases fuel with
    | zero => simp at hf
    | succ fuel =>
      unfold remove_node_loop
      rw [hd]
      dsimp only
      rw [if_pos (by simp), hderef]
      dsimp only
      rw [hre]
      dsimp only
      rw [ih g1 hN1 hE1 hl1 fuel (by simpa using hf)]
      show _ = remove_node_loop_iterate n (rest.length + 1) g
      conv_rhs => unfold remove_node_loop_iterate
      rw [hb]

/-- With less fuel than the incident list of `n` has entries the loop of `remove_node`
does not reach its exit. -/
theorem remove_node_loop_short (n : Node) :
    ∀ (l : List incident_edge) (g : Graph P V E), NodesInv g → EdgesInv g →
      (incident_lists g)[n.uid_]? = some l →
      ∀ fuel, fuel < l.length → remove_node_loop n fuel g = none := by
  intro l
  induction l with
  | nil => intro g _ _ _ fuel hf; simp at hf
  | cons x rest ih =>
    intro g hN hE hl fuel hf
    have hd := degree_eq_length g hN hE n _ hl
    obtain ⟨g1, -, hderef, hre, hl1, hE1, hs1, -⟩ := remove_node_loop_body_spec g hE n x rest hl
    have hN1 := nodes_inv_of_same_index g g1 hs1 hN
    cases fuel with
    | zero =>
      unfold remove_node_loop
      rw [hd]
      dsimp only
      rw [if_pos (by simp)]
    | succ fuel =>
      unfold remove_node_loop
      rw [hd]
      dsimp only
      rw [if_pos (by simp), hderef]
      dsimp only
      rw [hre]
      dsimp only
      exact ih g1 hN1 hE1 hl1 fuel (by simpa using hf)

theorem live_incident_list (g : Graph P V E) (hN : NodesInv g) (n : Node)
    (hn : has_node g n = some true) :
    ∃ l, (incident_lists g)[n.uid_]? = some l := by
  obtain ⟨-, hlt⟩ := has_node_bounds g hN n hn
  have hlt1 : n.uid_ < (incident_lists g).length := by
    rw [incident_lists_length]; exact hlt
  exact ⟨_, List.getElem?_eq_getElem hlt1⟩

/-- C40: for every reachable graph and valid node `n` of it, with `d = n.degree()`: the
body of the edge-removal loop of `remove_node(n)` (remove the first incident edge) can be
executed `d` times; after `k ≤ d` executions `n.degree()` is `d - k`, so the loop
condition `n.degree() > 0` holds before each of the first `d` executions and fails after
the `d`-th; and the loop returns the graph after exactly `d` executions. -/
theorem C40_remove_node_loop_terminates (g : Graph P V E) (h : Reachable g) (n : Node)
    (hn : has_node g n = some true) :
    ∃ d gd, Node.degree g n = some d ∧
      (∀ k, k ≤ d → ∃ gk, remove_node_loop_iterate n k g = some gk ∧
        Node.degree gk n = some (d - k)) ∧
      remove_node_loop_iterate n d g = some gd ∧ Node.degree gd n = some 0 ∧
      (∀ fuel, d ≤ fuel → remove_node_loop n fuel g = some gd) ∧
      (∀ fuel, fuel < d → remove_node_loop n fuel g = none) := by
  have hN := nodes_inv_of_reachable_2362 g h
  have hE := edges_inv_of_reachable g h
  obtain ⟨l, hl⟩ := live_incident_list g hN n hn
  have hd := degree_eq_length g hN hE n l hl
  have hiter := remove_node_loop_iterate_spec n l g hN hE hl
  obtain ⟨gd, hgd, hld, hNd, hEd, -, -⟩ := hiter l.length (Nat.le_refl _)
  refine ⟨l.length, gd, hd, ?_, hgd, ?_, ?_, ?_⟩
  · intro k hk
    obtain ⟨gk, h1, h2, h3, h4, -, -⟩ := hiter k hk
    refine ⟨gk, h1, ?_⟩
    rw [degree_eq_length gk h3 h4 n _ h2, List.length_drop]
  · rw [degree_eq_length gd hNd hEd n _ hld, List.length_drop, Nat.sub_self]
  · intro fuel hf
    rw [remove_node_loop_eq_iterate n l g hN hE hl fuel hf, hgd]
  · intro fuel hf
    exact remove_node_loop_short n l g hN hE hl fuel hf

theorem C40_remove_node_loop_terminates_witness :
    (Reachable ex_path ∧ has_node ex_path ⟨0, 1⟩ = some true) ∧
    ∃ d gd, Node.degree ex_path ⟨0, 1⟩ = some d ∧
      (∀ k, k ≤ d → ∃ gk, remove_node_loop_iterate ⟨0, 1⟩ k ex_path = some gk ∧
        Node.degree gk ⟨0, 1⟩ = some (d - k)) ∧
      remove_node_loop_iterate ⟨0, 1⟩ d ex_path = some gd ∧ Node.degree gd ⟨0, 1⟩ = some 0 ∧
      (∀ fuel, d ≤ fuel → remove_node_loop ⟨0, 1⟩ fuel ex_path = some gd) ∧
      (∀ fuel, fuel < d → remove_node_loop ⟨0, 1⟩ fuel ex_path = none) :=
  ⟨⟨path_reachable_2362, by decide⟩,
    C40_remove_node_loop_terminates ex_path path_reachable_2362 ⟨0, 1⟩ (by decide)⟩

/-! ## `hw3/Graph_2362.hpp`: `remove_node` and the order of the other nodes -/

theorem relabel_nodes_total :
    ∀ (us : List Nat) (nodes : List (internal_node P V)) (k : Nat),
      (∀ u, u ∈ us → u < nodes.length) → ∃ n1, relabel_nodes nodes us k = some n1 := by
  intro us
  induction us with
  | nil => intro nodes k _; exact ⟨nodes, rfl⟩
  | cons u0 rest ih =>
    intro nodes k h
    unfold relabel_nodes
    have hlt := h u0 (List.mem_cons_self _ _)
    rw [List.getElem?_eq_getElem hlt]
    dsimp only
    apply ih
    intro u hu
    rw [List.length_set]
    exact h u (List.mem_cons_of_mem _ hu)

theorem remove_node_storage_total (g : Graph P V E) (hN : NodesInv g) (n : Node) (i : Nat)
    (hi : Node.index g n = some i) (hlt : i < g.node_i2u.length) :
    ∃ g1, remove_node_storage g n = some (1, g1) := by
  have hb : ∀ u, u ∈ (g.node_i2u.eraseIdx i).drop i → u < g.nodes_.length := by
    intro u hu
    have hmem : u ∈ g.node_i2u :=
      (List.eraseIdx_sublist _ _).subset ((List.drop_sublist _ _).subset hu)
    obtain ⟨j, hj⟩ := List.getElem?_of_mem hmem
    have := (List.getElem?_eq_some_iff.1 (hN.node_at j u hj)).1
    unfold node_index_fields at this
    rw [List.length_map] at this
    exact this
  obtain ⟨n1, hn1⟩ := relabel_nodes_total _ g.nodes_ i hb
  unfold remove_node_storage
  rw [hi]
  dsimp only
  rw [if_pos hlt, hn1]
  exact ⟨_, rfl⟩

theorem has_node_of_same_index (g g1 : Graph P V E) (hs : SameNodeIndex g g1) (hN : NodesInv g)
    (n : Node) (hn : has_node g n = some true) : has_node g1 n = some true := by
  have hN1 := nodes_inv_of_same_index g g1 hs hN
  obtain ⟨hg, i, hi, hu⟩ := (has_node_iff_2362 g hN n).1 hn
  rw [has_node_iff_2362 g1 hN1 n]
  refine ⟨hg.trans hs.addr.symm, i, ?_, ?_⟩
  · rw [node_index_eq, hs.fields, ← node_index_eq]; exact hi
  · rw [hs.i2u]; exact hu

/-- For a valid node `n` of a graph that satisfies the invariants `remove_node(n)`
returns 1, and the index-to-uid vector loses the position of `n`. -/
theorem remove_node_spec_2362 (g : Graph P V E) (hN : NodesInv g) (hE : EdgesInv g) (n : Node)
    (hn : has_node g n = some true) :
    ∃ g1 i, remove_node g n = some (1, g1) ∧ Node.index g n = some i ∧
      g.node_i2u[i]? = some n.uid_ ∧ g1.addr = g.addr ∧
      g1.node_i2u = g.node_i2u.eraseIdx i ∧ g1.size_ + 1 = g.size_ ∧ NodesInv g1 ∧
      EdgesInv g1 := by
  obtain ⟨l, hl⟩ := live_incident_list g hN n hn
  have hd := degree_eq_length g hN hE n l hl
  obtain ⟨g0, h0, -, hN0, hE0, hs0, -⟩ :=
    remove_node_loop_iterate_spec n l g hN hE hl l.length (Nat.le_refl _)
  have hloop : remove_node_loop n l.length g = some g0 := by
    rw [remove_node_loop_eq_iterate n l g hN hE hl _ (Nat.le_refl _), h0]
  obtain ⟨hg, i, hi, hu⟩ := (has_node_iff_2362 g hN n).1 hn
  have hi0 : Node.index g0 n = some i := by
    rw [node_index_eq, hs0.fields, ← node_index_eq]; exact hi
  have hlt : i < g0.node_i2u.length := by
    rw [hs0.i2u]; exact (List.getElem?_eq_some_iff.1 hu).1
  obtain ⟨g1, h1⟩ := remove_node_storage_total g0 hN0 n i hi0 hlt
  obtain ⟨i2, f0, -, -, f1, f2, f3, f4, f5, f6, f7, -⟩ :=
    remove_node_storage_spec_2362 g0 g1 hN0 n 1 h1
  rw [hi0] at f0
  simp only [Option.some.injEq] at f0
  subst f0
  refine ⟨g1, i, ?_, hi, hu, f1.trans hs0.addr, by rw [f2, hs0.i2u], by rw [f3, hs0.size],
    nodes_inv_remove_node_storage_2362 g0 g1 hN0 n 1 h1, edges_inv_congr g0 g1 hE0 f6 f5 f4 f7⟩
  unfold remove_node
  rw [hn]
  dsimp only
  rw [hd]
  dsimp only
  rw [hloop]
  exact h1

/-- C37: node removal preserves the relative order of the remaining nodes. For every
reachable graph and valid node `n` of it, with index `i`: `remove_node(n)` returns 1, and
every other valid node `m`, with index `j` before the call, is still valid and has the
index `j` when `j < i` and the index `j - 1` when `j > i`. -/
theorem C37_remove_node_keeps_order (g : Graph P V E) (h : Reachable g) (n : Node)
    (hn : has_node g n = some true) :
    ∃ g1 i, Node.index g n = some i ∧ remove_node g n = some (1, g1) ∧
      num_nodes g1 + 1 = num_nodes g ∧
      ∀ m j, has_node g m = some true → m ≠ n → Node.index g m = some j →
        j ≠ i ∧ has_node g1 m = some true ∧
        Node.index g1 m = some (if j < i then j else j - 1) := by
  have hN := nodes_inv_of_reachable_2362 g h
  have hE := edges_inv_of_reachable g h
  obtain ⟨g1, i, hr, hi, hu, haddr, hi2u, hsize, hN1, -⟩ := remove_node_spec_2362 g hN hE n hn
  have hng := ((has_node_iff_2362 g hN n).1 hn).1
  refine ⟨g1, i, hi, hr, hsize, ?_⟩
  intro m j hm hne hj
  obtain ⟨hmg, j2, hj2, hmu⟩ := (has_node_iff_2362 g hN m).1 hm
  rw [hj] at hj2
  simp only [Option.some.injEq] at hj2
  subst hj2
  have hji : j ≠ i := by
    intro hc
    rw [hc, hu] at hmu
    simp only [Option.some.injEq] at hmu
    apply hne
    cases m; cases n
    simp only at hmu hmg hng
    simp [hmu, hmg, hng]
  have hget := getElem?_eraseIdx_of_ne g.node_i2u i j _ hmu hji
  rw [← hi2u] at hget
  have hidx : Node.index g1 m = some (if j < i then j else j - 1) := by
    rw [node_index_eq]; exact hN1.node_at _ _ hget
  refine ⟨hji, ?_, hidx⟩
  rw [has_node_iff_2362 g1 hN1 m]
  exact ⟨hmg.trans haddr.symm, _, hidx, hget⟩

theorem C37_remove_node_keeps_order_witness :
    (Reachable ex_path ∧ has_node ex_path ⟨0, 0⟩ = some true) ∧
    ∃ g1 i, Node.index ex_path ⟨0, 0⟩ = some i ∧ remove_node ex_path ⟨0, 0⟩ = some (1, g1) ∧
      num_nodes g1 + 1 = num_nodes ex_path ∧
      ∀ m j, has_node ex_path m = some true → m ≠ ⟨0, 0⟩ → Node.index ex_path m = some j →
        j ≠ i ∧ has_node g1 m = some true ∧
        Node.index g1 m = some (if j < i then j else j - 1) :=
  ⟨⟨path_reachable_2362, by decide⟩,
    C37_remove_node_keeps_order ex_path path_reachable_2362 ⟨0, 0⟩ (by decide)⟩

end Graph2362

namespace Graph2460

variable {P V E : Type}

/-! ## `hw3/Graph_2460.hpp`: the adjacency lists -/

theorem erase_first_sublist (k : Nat) : ∀ (l : List (Nat × Nat)), (erase_first l k).Sublist l := by
  intro l
  induction l with
  | nil => exact List.Sublist.refl _
  | cons p rest ih =>
    unfold erase_first
    by_cases h : p.1 = k
    · rw [if_pos h]; exact List.sublist_cons_self _ _
    · rw [if_neg h]; exact List.Sublist.cons₂ _ ih

theorem mem_erase_first (k : Nat) :
    ∀ (l : List (Nat × Nat)), (l.map Prod.fst).Nodup →
      ∀ (v e : Nat), (v, e) ∈ erase_first l k ↔ ((v, e) ∈ l ∧ v ≠ k) := by
  intro l
  induction l with
  | nil => intro _ v e; simp [erase_first]
  | cons p rest ih =>
    intro hnd v e
    rw [List.map_cons, List.nodup_cons] at hnd
    unfold erase_first
    by_cases h : p.1 = k
    · rw [if_pos h]
      constructor
      · intro hm
        refine ⟨List.mem_cons_of_mem _ hm, ?_⟩
        intro hc
        apply hnd.1
        rw [h, ← hc]
        exact List.mem_map_of_mem Prod.fst hm
      · rintro ⟨hm, hne⟩
        rcases List.mem_cons.1 hm with hm | hm
        · rw [← hm] at h; exact absurd h hne
        · exact hm
    · rw [if_neg h, List.mem_cons, List.mem_cons, ih hnd.2]
      constructor
      · rintro (hm | hm)
        · refine ⟨Or.inl hm, ?_⟩
          intro hc; rw [← hm] at h; exact h hc
        · exact ⟨Or.inr hm.1, hm.2⟩
      · rintro ⟨hm | hm, hne⟩
        · exact Or.inl hm
        · exact Or.inr ⟨hm, hne⟩

theorem keys_update_first (k e : Nat) :
    ∀ (l : List (Nat × Nat)), (update_first l k e).map Prod.fst = l.map Prod.fst := by
  intro l
  induction l with
  | nil => rfl
  | cons p rest ih =>
    unfold update_first
    by_cases h : p.1 = k
    · rw [if_pos h]; rfl
    · rw [if_neg h, List.map_cons, List.map_cons, ih]

theorem mem_update_first (k e : Nat) :
    ∀ (l : List (Nat × Nat)), (l.map Prod.fst).Nodup →
      ∀ (v e1 : Nat), (v, e1) ∈ update_first l k e ↔
        (((v, e1) ∈ l ∧ v ≠ k) ∨ (v = k ∧ e1 = e ∧ k ∈ l.map Prod.fst)) := by
  intro l
  induction l with
  | nil => intro _ v e1; simp [update_first]
  | cons p rest ih =>
    intro hnd v e1
    rw [List.map_cons, List.nodup_cons] at hnd
    unfold update_first
    by_cases h : p.1 = k
    · rw [if_pos h, List.mem_cons]
      constructor
      · rintro (hm | hm)
        · simp only [Prod.mk.injEq] at hm
          exact Or.inr ⟨hm.1.trans h, hm.2, by rw [List.map_cons, ← h]; exact List.mem_cons_self _ _⟩
        · refine Or.inl ⟨List.mem_cons_of_mem _ hm, ?_⟩
          intro hc
          apply hnd.1
          rw [h, ← hc]
          exact List.mem_map_of_mem Prod.fst hm
      · rintro (⟨hm, hne⟩ | ⟨h1, h2, -⟩)
        · rcases List.mem_cons.1 hm with hm | hm
          · rw [← hm] at h; exact absurd h hne
          · exact Or.inr hm
        · left; rw [h1, h2, h]
    · rw [if_neg h, List.mem_cons, ih hnd.2, List.mem_cons, List.map_cons, List.mem_cons]
      constructor
      · rintro (hm | ⟨hm, hne⟩ | ⟨h1, h2, h3⟩)
        · refine Or.inl ⟨Or.inl hm, ?_⟩
          intro hc; rw [← hm] at h; exact h hc
        · exact Or.inl ⟨Or.inr hm, hne⟩
        · exact Or.inr ⟨h1, h2, Or.inr h3⟩
      · rintro (⟨hm | hm, hne⟩ | ⟨h1, h2, h3 | h3⟩)
        · exact Or.inl hm
        · exact Or.inr (Or.inl ⟨hm, hne⟩)
        · exact absurd h3.symm h
        · exact Or.inr (Or.inr ⟨h1, h2, h3⟩)

theorem adj_mem_key (adj : List (List (Nat × Nat))) (u k : Nat) (l : List (Nat × Nat))
    (hl : adj[u]? = some l) : k ∈ l.map Prod.fst ↔ ∃ e, adj_mem adj u k e := by
  constructor
  · intro hk
    obtain ⟨p, hp, hpk⟩ := List.mem_map.1 hk
    refine ⟨p.2, l, hl, ?_⟩
    rw [← hpk]; exact hp
  · rintro ⟨e, l2, hl2, hm⟩
    rw [hl] at hl2
    simp only [Option.some.injEq] at hl2
    subst hl2
    exact List.mem_map.2 ⟨(k, e), hm, rfl⟩

/-- With one entry per neighbour the adjacency lists hold at most one edge index for a
pair of nodes. -/
theorem adj_mem_unique (adj : List (List (Nat × Nat))) (hnd : keys_nodup adj) (u v k1 k2 : Nat)
    (h1 : adj_mem adj u v k1) (h2 : adj_mem adj u v k2) : k1 = k2 := by
  obtain ⟨l, hl, hm1⟩ := h1
  obtain ⟨l2, hl2, hm2⟩ := h2
  rw [hl] at hl2
  simp only [Option.some.injEq] at hl2
  subst hl2
  have hnd1 := hnd u l hl
  by_contra hne
  have hinj := List.inj_on_of_nodup_map hnd1 hm1 hm2 rfl
  simp only [Prod.mk.injEq, true_and] at hinj
  exact hne hinj

/-- The effect of one erase loop on the adjacency lists. -/
theorem adjacency_erase_spec (adj adj1 : List (List (Nat × Nat))) (n k : Nat)
    (hnd : keys_nodup adj) (h : adjacency_erase adj n k = some adj1) :
    adj1.length = adj.length ∧ keys_nodup adj1 ∧
    (∀ u, u ≠ n → adj1[u]? = adj[u]?) ∧
    (∀ u v e, adj_mem adj1 u v e ↔ (adj_mem adj u v e ∧ ¬(u = n ∧ v = k))) := by
  unfold adjacency_erase at h
  cases hl : adj[n]? with
  | none => rw [hl] at h; cases h
  | some l =>
    rw [hl] at h
    simp only [Option.some.injEq] at h
    subst h
    have hlt : n < adj.length := (List.getElem?_eq_some_iff.1 hl).1
    refine ⟨List.length_set _ _ _, ?_, fun u hu => List.getElem?_set_ne (Ne.symm hu), ?_⟩
    · intro u l1 hl1
      by_cases hu : n = u
      · subst hu
        rw [List.getElem?_set_self hlt] at hl1
        simp only [Option.some.injEq] at hl1
        subst hl1
        exact List.Nodup.sublist (List.Sublist.map _ (erase_first_sublist k l)) (hnd n l hl)
      · rw [List.getElem?_set_ne hu] at hl1
        exact hnd u l1 hl1
    · intro u v e
      unfold adj_mem
      by_cases hu : n = u
      · subst hu
        rw [List.getElem?_set_self hlt, hl]
        constructor
        · rintro ⟨l1, h1, hm⟩
          simp only [Option.some.injEq] at h1
          subst h1
          obtain ⟨h2, h3⟩ := (mem_erase_first k l (hnd n l hl) v e).1 hm
          exact ⟨⟨l, rfl, h2⟩, fun hc => h3 hc.2⟩
        · rintro ⟨⟨l1, h1, hm⟩, hne⟩
          simp only [Option.some.injEq] at h1
          subst h1
          exact ⟨_, rfl, (mem_erase_first k l (hnd n l hl) v e).2 ⟨hm, fun hc => hne ⟨rfl, hc⟩⟩⟩
      · rw [List.getElem?_set_ne hu]
        constructor
        · intro hm
          exact ⟨hm, fun hc => hu hc.1.symm⟩
        · intro hm; exact hm.1

/-- The effect of one update loop on the adjacency lists. -/
theorem adjacency_update_spec (adj adj1 : List (List (Nat × Nat))) (n k e : Nat)
    (hnd : keys_nodup adj) (h : adjacency_update adj n k e = some adj1) :
    adj1.length = adj.length ∧ keys_nodup adj1 ∧
    (∀ u, u ≠ n → adj1[u]? = adj[u]?) ∧
    (∀ u v e1, adj_mem adj1 u v e1 ↔
      ((adj_mem adj u v e1 ∧ ¬(u = n ∧ v = k)) ∨
       (u = n ∧ v = k ∧ e1 = e ∧ ∃ e0, adj_mem adj n k e0))) := by
  unfold adjacency_update at h
  cases hl : adj[n]? with
  | none => rw [hl] at h; cases h
  | some l =>
    rw [hl] at h
    simp only [Option.some.injEq] at h
    subst h
    have hlt : n < adj.length := (List.getElem?_eq_some_iff.1 hl).1
    refine ⟨List.length_set _ _ _, ?_, fun u hu => List.getElem?_set_ne (Ne.symm hu), ?_⟩
    · intro u l1 hl1
      by_cases hu : n = u
      · subst hu
        rw [List.getElem?_set_self hlt] at hl1
        simp only [Option.some.injEq] at hl1
        subst hl1
        rw [keys_update_first]
        exact hnd n l hl
      · rw [List.getElem?_set_ne hu] at hl1
        exact hnd u l1 hl1
    · intro u v e1
      by_cases hu : n = u
      · subst hu
        have hkey := adj_mem_key adj n k l hl
        unfold adj_mem
        rw [List.getElem?_set_self hlt, hl]
        constructor
        · rintro ⟨l1, h1, hm⟩
          simp only [Option.some.injEq] at h1
          subst h1
          rcases (mem_update_first k e l (hnd n l hl) v e1).1 hm with ⟨h2, h3⟩ | ⟨h2, h3, h4⟩
          · exact Or.inl ⟨⟨l, rfl, h2⟩, fun hc => h3 hc.2⟩
          · obtain ⟨e0, l2, hl2, hm2⟩ := hkey.1 h4
            rw [hl] at hl2
            exact Or.inr ⟨rfl, h2, h3, e0, l2, hl2, hm2⟩
        · rintro (⟨⟨l1, h1, hm⟩, hne⟩ | ⟨-, h2, h3, e0, l2, hl2, hm2⟩)
          · simp only [Option.some.injEq] at h1
            subst h1
            exact ⟨_, rfl, (mem_update_first k e l (hnd n l hl) v e1).2
              (Or.inl ⟨hm, fun hc => hne ⟨rfl, hc⟩⟩)⟩
          · simp only [Option.some.injEq] at hl2
            subst hl2
            refine ⟨_, rfl, (mem_update_first k e l (hnd n l hl) v e1).2 (Or.inr ⟨h2, h3, ?_⟩)⟩
            exact List.mem_map.2 ⟨(k, e0), hm2, rfl⟩
      · unfold adj_mem
        rw [List.getElem?_set_ne hu]
        constructor
        · intro hm
          exact Or.inl ⟨hm, fun hc => hu hc.1.symm⟩
        · rintro (hm | hm)
          · exact hm.1
          · exact absurd hm.1.symm hu

/-- The effect of one `push_back` on the adjacency lists. -/
theorem adjacency_push_spec (adj adj1 : List (List (Nat × Nat))) (a b e : Nat)
    (h : adjacency_push adj a b e = some adj1) :
    adj1.length = adj.length ∧
    (∃ l, adj[a]? = some l ∧ adj1[a]? = some (l ++ [(b, e)])) ∧
    (∀ u, u ≠ a → adj1[u]? = adj[u]?) ∧
    (∀ u v e1, adj_mem adj1 u v e1 ↔ (adj_mem adj u v e1 ∨ (u = a ∧ v = b ∧ e1 = e))) ∧
    (keys_nodup adj → (¬ ∃ e0, adj_mem adj a b e0) → keys_nodup adj1) := by
  unfold adjacency_push at h
  cases hl : adj[a]? with
  | none => rw [hl] at h; cases h
  | some l =>
    rw [hl] at h
    simp only [Option.some.injEq] at h
    subst h
    have hlt : a < adj.length := (List.getElem?_eq_some_iff.1 hl).1
    refine ⟨List.length_set _ _ _, ⟨l, rfl, List.getElem?_set_self hlt⟩,
      fun u hu => List.getElem?_set_ne (Ne.symm hu), ?_, ?_⟩
    · intro u v e1
      unfold adj_mem
      by_cases hu : a = u
      · subst hu
        rw [List.getElem?_set_self hlt, hl]
        constructor
        · rintro ⟨l1, h1, hm⟩
          simp only [Option.some.injEq] at h1
          subst h1
          rcases List.mem_append.1 hm with hm | hm
          · exact Or.inl ⟨l, rfl, hm⟩
          · simp only [List.mem_singleton, Prod.mk.injEq] at hm
            exact Or.inr ⟨rfl, hm.1, hm.2⟩
        · rintro (⟨l1, h1, hm⟩ | ⟨-, h2, h3⟩)
          · simp only [Option.some.injEq] at h1
            subst h1
            exact ⟨_, rfl, List.mem_append.2 (Or.inl hm)⟩
          · exact ⟨_, rfl, List.mem_append.2 (Or.inr (by simp [h2, h3]))⟩
      · rw [List.getElem?_set_ne hu]
        constructor
        · intro hm; exact Or.inl hm
        · rintro (hm | hm)
          · exact hm
          · exact absurd hm.1.symm hu
    · intro hnd hfresh u l1 hl1
      by_cases hu : a = u
      · subst hu
        rw [List.getElem?_set_self hlt] at hl1
        simp only [Option.some.injEq] at hl1
        subst hl1
        rw [List.map_append, List.nodup_append]
        refine ⟨hnd a l hl, List.nodup_singleton _, ?_⟩
        intro x hx1 hx2
        simp only [List.map_cons, List.map_nil, List.mem_singleton] at hx2
        subst hx2
        exact hfresh ((adj_mem_key adj a _ l hl).1 hx1)
      · rw [List.getElem?_set_ne hu] at hl1
        exact hnd u l1 hl1

theorem adjacency_erase_total (adj : List (List (Nat × Nat))) (n k : Nat) (h : n < adj.length) :
    ∃ adj1, adjacency_erase adj n k = some adj1 := by
  unfold adjacency_erase
  rw [List.getElem?_eq_getElem h]
  exact ⟨_, rfl⟩

theorem adjacency_update_total (adj : List (List (Nat × Nat))) (n k e : Nat)
    (h : n < adj.length) : ∃ adj1, adjacency_update adj n k e = some adj1 := by
  unfold adjacency_update
  rw [List.getElem?_eq_getElem h]
  exact ⟨_, rfl⟩

theorem adjacency_push_total (adj : List (List (Nat × Nat))) (a b e : Nat) (h : a < adj.length) :
    ∃ adj1, adjacency_push adj a b e = some adj1 := by
  unfold adjacency_push
  rw [List.getElem?_eq_getElem h]
  exact ⟨_, rfl⟩

theorem adj_mem_lt (adj : List (List (Nat × Nat))) (u v k : Nat) (h : adj_mem adj u v k) :
    u < adj.length := by
  obtain ⟨l, hl, -⟩ := h
  exact (List.getElem?_eq_some_iff.1 hl).1

/-! ## `hw3/Graph_2460.hpp`: the invariant under `add_node` and `add_edge` -/

theorem joins_symm_2460 (s : internal_edge E) (u v : Nat) (h : joins s u v) : joins s v u := by
  rcases h with h | h
  · exact Or.inr h
  · exact Or.inl h

theorem joins_cases (s : internal_edge E) (u v x y : Nat) (h1 : joins s u v)
    (h2 : joins s x y) : (x = u ∧ y = v) ∨ (x = v ∧ y = u) := by
  rcases h1 with ⟨a1, a2⟩ | ⟨a1, a2⟩ <;> rcases h2 with ⟨b1, b2⟩ | ⟨b1, b2⟩
  · exact Or.inl ⟨b1.symm.trans a1, b2.symm.trans a2⟩
  · exact Or.inr ⟨b2.symm.trans a2, b1.symm.trans a1⟩
  · exact Or.inr ⟨b1.symm.trans a1, b2.symm.trans a2⟩
  · exact Or.inl ⟨b2.symm.trans a2, b1.symm.trans a1⟩

theorem adj_symm (g : Graph P V E) (h : Inv g) (u v k : Nat)
    (hm : adj_mem g.adjacency_ u v k) : adj_mem g.adjacency_ v u k := by
  obtain ⟨s, hs, hj⟩ := h.adj_at u v k hm
  obtain ⟨-, h1, h2⟩ := h.edge_at k s hs
  rcases hj with ⟨a1, a2⟩ | ⟨a1, a2⟩
  · rw [a1, a2] at h2; exact h2
  · rw [a1, a2] at h1; exact h1

theorem adj_ne (g : Graph P V E) (h : Inv g) (u v k : Nat)
    (hm : adj_mem g.adjacency_ u v k) : u ≠ v := by
  obtain ⟨s, hs, hj⟩ := h.adj_at u v k hm
  obtain ⟨hne, -, -⟩ := h.edge_at k s hs
  rcases hj with ⟨a1, a2⟩ | ⟨a1, a2⟩
  · rw [← a1, ← a2]; exact hne
  · rw [← a1, ← a2]; exact Ne.symm hne

theorem has_edge_spec (g : Graph P V E) (a b : Node) (c : Bool)
    (hc : has_edge g a b = some c) :
    (c = true ↔ ∃ k, adj_mem g.adjacency_ a.index_ b.index_ k) := by
  unfold has_edge at hc
  cases hl : g.adjacency_[a.index_]? with
  | none => rw [hl] at hc; cases hc
  | some l =>
    rw [hl] at hc
    simp only [Option.some.injEq] at hc
    rw [← hc, List.any_eq_true]
    constructor
    · rintro ⟨p, hp, hpk⟩
      simp only [decide_eq_true_eq] at hpk
      refine ⟨p.2, l, hl, ?_⟩
      rw [← hpk]; exact hp
    · rintro ⟨k, l2, hl2, hm⟩
      rw [hl] at hl2
      simp only [Option.some.injEq] at hl2
      subst hl2
      exact ⟨_, hm, by simp⟩

theorem has_edge_total (g : Graph P V E) (a b : Node) (h : a.index_ < g.adjacency_.length) :
    ∃ c, has_edge g a b = some c := by
  unfold has_edge
  rw [List.getElem?_eq_getElem h]
  exact ⟨_, rfl⟩

theorem inv_empty_2460 (addr : Nat) : Inv (Graph.empty addr : Graph P V E) := by
  constructor
  · rfl
  · simp [Graph.empty, Graph2236.size_type_mod]
  · simp [Graph.empty, Graph2236.size_type_mod]
  · intro k s hs; simp [Graph.empty] at hs
  · rintro u v k ⟨l, hl, -⟩; simp [Graph.empty] at hl
  · intro u l hl; simp [Graph.empty] at hl

theorem adj_mem_append_nil (adj : List (List (Nat × Nat))) (u v k : Nat) :
    adj_mem (adj ++ [[]]) u v k ↔ adj_mem adj u v k := by
  unfold adj_mem
  constructor
  · rintro ⟨l, hl, hm⟩
    by_cases hu : u < adj.length
    · rw [List.getElem?_append_left hu] at hl
      exact ⟨l, hl, hm⟩
    · rw [List.getElem?_append_right (by omega)] at hl
      have hlt := (List.getElem?_eq_some_iff.1 hl).1
      simp only [List.length_singleton] at hlt
      have h0 : u - adj.length = 0 := by omega
      rw [h0] at hl
      simp only [List.getElem?_cons_zero, Option.some.injEq] at hl
      rw [← hl] at hm
      cases hm
  · rintro ⟨l, hl, hm⟩
    refine ⟨l, ?_, hm⟩
    rw [List.getElem?_append_left (List.getElem?_eq_some_iff.1 hl).1]
    exact hl

theorem inv_add_node_2460 (g : Graph P V E) (h : Inv g) (p : P) (v : V)
    (hb : g.nodes_.length + 1 < Graph2236.size_type_mod) : Inv (add_node g p v).2 := by
  have hadj : (add_node g p v).2.adjacency_ = g.adjacency_ ++ [[]] := rfl
  have hnodes : (add_node g p v).2.nodes_ = g.nodes_ ++ [⟨p, v⟩] := rfl
  have hedges : (add_node g p v).2.edges_ = g.edges_ := rfl
  constructor
  · rw [hadj, hnodes, List.length_append, List.length_append, h.adj_len]; rfl
  · rw [hnodes, List.length_append]; exact hb
  · rw [hedges]; exact h.edges_bound
  · intro k s hs
    rw [hedges] at hs
    rw [hadj, adj_mem_append_nil, adj_mem_append_nil]
    exact h.edge_at k s hs
  · intro u w k hm
    rw [hadj, adj_mem_append_nil] at hm
    rw [hedges]
    exact h.adj_at u w k hm
  · intro u l hl
    rw [hadj] at hl
    by_cases hu : u < g.adjacency_.length
    · rw [List.getElem?_append_left hu] at hl
      exact h.nodup u l hl
    · rw [List.getElem?_append_right (by omega)] at hl
      have hlt := (List.getElem?_eq_some_iff.1 hl).1
      simp only [List.length_singleton] at hlt
      have h0 : u - g.adjacency_.length = 0 := by omega
      rw [h0] at hl
      simp only [List.getElem?_cons_zero, Option.some.injEq] at hl
      rw [← hl]
      exact List.nodup_nil

/-- The effect of the new-edge branch of `add_edge(a, b, v)`. -/
theorem add_edge_new_2460 (g g1 : Graph P V E) (h : Inv g) (a b : Node) (v : E) (e : Edge)
    (hc : has_edge g a b = some false) (hr : add_edge g a b v = some (e, g1)) :
    e = ⟨g.addr, g.edges_.length, a.index_, b.index_⟩ ∧ g1.addr = g.addr ∧
    g1.nodes_ = g.nodes_ ∧ g1.edges_ = g.edges_ ++ [⟨a.index_, b.index_, v⟩] ∧
    g1.adjacency_.length = g.adjacency_.length ∧
    (∀ u w k, adj_mem g1.adjacency_ u w k ↔
      (adj_mem g.adjacency_ u w k ∨ (u = a.index_ ∧ w = b.index_ ∧ k = g.edges_.length) ∨
       (u = b.index_ ∧ w = a.index_ ∧ k = g.edges_.length))) ∧
    (a.index_ ≠ b.index_ → keys_nodup g1.adjacency_) := by
  have hnum : num_edges g = g.edges_.length :=
    Graph2236.to_size_type_of_lt _ h.edges_bound
  unfold add_edge at hr
  dsimp only at hr
  rw [hc] at hr
  dsimp only at hr
  rw [hnum] at hr
  split at hr
  · cases hr
  · rename_i adj1 h1
    split at hr
    · cases hr
    · rename_i adj2 h2
      simp only [Option.some.injEq, Prod.mk.injEq] at hr
      obtain ⟨hr1, hr2⟩ := hr
      subst hr2
      obtain ⟨p1, -, p3, p4, p5⟩ := adjacency_push_spec _ _ _ _ _ h1
      obtain ⟨q1, -, q3, q4, q5⟩ := adjacency_push_spec _ _ _ _ _ h2
      have hnot : ¬ ∃ e0, adj_mem g.adjacency_ a.index_ b.index_ e0 := by
        intro hx
        have := (has_edge_spec g a b false hc).2 hx
        cases this
      refine ⟨hr1.symm, rfl, rfl, rfl, q1.trans p1, ?_, ?_⟩
      · intro u w k
        show adj_mem adj2 u w k ↔ _
        rw [q4, p4]
        constructor
        · rintro ((hm | hm) | hm)
          · exact Or.inl hm
          · exact Or.inr (Or.inl hm)
          · exact Or.inr (Or.inr hm)
        · rintro (hm | hm | hm)
          · exact Or.inl (Or.inl hm)
          · exact Or.inl (Or.inr hm)
          · exact Or.inr hm
      · intro hne
        show keys_nodup adj2
        apply q5 (p5 h.nodup hnot)
        rintro ⟨e0, hx⟩
        rw [p4] at hx
        rcases hx with hx | hx
        · exact hnot ⟨e0, adj_symm g h _ _ _ hx⟩
        · exact hne hx.1.symm

theorem add_edge_unfold_2460 (g g1 : Graph P V E) (a b : Node) (v : E) (e : Edge)
    (hr : add_edge g a b v = some (e, g1)) :
    (has_edge g a b = some true ∧ g1 = g ∧ e.graph_ = g.addr ∧ e.n1idx_ = a.index_ ∧
      e.n2idx_ = b.index_ ∧
      find_existing a.index_ b.index_ g.edges_ 0 none = some e.eidx_) ∨
    has_edge g a b = some false := by
  cases hc : has_edge g a b with
  | none =>
    unfold add_edge at hr
    dsimp only at hr
    rw [hc] at hr
    cases hr
  | some c =>
    cases c with
    | false => exact Or.inr rfl
    | true =>
      left
      unfold add_edge at hr
      dsimp only at hr
      rw [hc] at hr
      dsimp only at hr
      split at hr
      · cases hr
      · rename_i i hi
        simp only [Option.some.injEq, Prod.mk.injEq] at hr
        obtain ⟨hr1, hr2⟩ := hr
        subst hr1
        exact ⟨rfl, hr2.symm, rfl, rfl, rfl, hi⟩

theorem getElem?_append_one {α : Type} (l : List α) (x y : α) (k : Nat)
    (h : (l ++ [x])[k]? = some y) : l[k]? = some y ∨ (k = l.length ∧ y = x) := by
  by_cases hk : k < l.length
  · rw [List.getElem?_append_left hk] at h
    exact Or.inl h
  · rw [List.getElem?_append_right (by omega)] at h
    have hlt := (List.getElem?_eq_some_iff.1 h).1
    simp only [List.length_singleton] at hlt
    have h0 : k - l.length = 0 := by omega
    rw [h0] at h
    simp only [List.getElem?_cons_zero, Option.some.injEq] at h
    exact Or.inr ⟨by omega, h.symm⟩

theorem inv_add_edge_2460 (g g1 : Graph P V E) (h : Inv g) (a b : Node) (v : E) (e : Edge)
    (hne : a.index_ ≠ b.index_) (hb : g.edges_.length + 1 < Graph2236.size_type_mod)
    (hr : add_edge g a b v = some (e, g1)) : Inv g1 := by
  rcases add_edge_unfold_2460 g g1 a b v e hr with ⟨-, h2, -⟩ | hc
  · rw [h2]; exact h
  · obtain ⟨-, -, f3, f4, f5, f6, f7⟩ := add_edge_new_2460 g g1 h a b v e hc hr
    have hnew : g1.edges_[g.edges_.length]? = some ⟨a.index_, b.index_, v⟩ := by
      rw [f4, List.getElem?_append_right (Nat.le_refl _)]
      simp
    constructor
    · rw [f5, f3]; exact h.adj_len
    · rw [f3]; exact h.nodes_bound
    · rw [f4, List.length_append]; exact hb
    · intro k s hs
      rw [f4] at hs
      rcases getElem?_append_one _ _ _ _ hs with hs | ⟨hk, hs⟩
      · obtain ⟨h1, h2, h3⟩ := h.edge_at k s hs
        exact ⟨h1, (f6 _ _ _).2 (Or.inl h2), (f6 _ _ _).2 (Or.inl h3)⟩
      · subst hs; subst hk
        exact ⟨hne, (f6 _ _ _).2 (Or.inr (Or.inl ⟨rfl, rfl, rfl⟩)),
          (f6 _ _ _).2 (Or.inr (Or.inr ⟨rfl, rfl, rfl⟩))⟩
    · intro u w k hm
      rcases (f6 u w k).1 hm with hm | ⟨h1, h2, h3⟩ | ⟨h1, h2, h3⟩
      · obtain ⟨s, hs, hj⟩ := h.adj_at u w k hm
        refine ⟨s, ?_, hj⟩
        rw [f4, List.getElem?_append_left (List.getElem?_eq_some_iff.1 hs).1]
        exact hs
      · subst h1; subst h2; subst h3
        exact ⟨_, hnew, Or.inl ⟨rfl, rfl⟩⟩
      · subst h1; subst h2; subst h3
        exact ⟨_, hnew, Or.inr ⟨rfl, rfl⟩⟩
    · exact f7 hne

/-! ## `hw3/Graph_2460.hpp`: `remove_edge` -/

theorem getElem?_set_dropLast_any {α : Type} (v : List α) (i j : Nat) (x : α) :
    ((v.set i x).dropLast)[j]? =
      if j < v.length - 1 then (if j = i then some x else v[j]?) else none := by
  rw [List.getElem?_dropLast, List.length_set]
  by_cases hj : j < v.length - 1
  · rw [if_pos hj, if_pos hj]
    by_cases hji : j = i
    · rw [if_pos hji, hji, List.getElem?_set_self (by omega)]
    · rw [if_neg hji, List.getElem?_set_ne (fun hc => hji hc.symm)]
  · rw [if_neg hj, if_neg hj]

theorem fresh_adj (g : Graph P V E) (h : Inv g) (e : Edge) (hf : Edge.fresh g e) :
    adj_mem g.adjacency_ e.n1idx_ e.n2idx_ e.eidx_ ∧
    adj_mem g.adjacency_ e.n2idx_ e.n1idx_ e.eidx_ ∧ e.n1idx_ ≠ e.n2idx_ := by
  obtain ⟨-, s, hs, hj⟩ := hf
  obtain ⟨h1, h2, h3⟩ := h.edge_at _ s hs
  rcases hj with ⟨a1, a2⟩ | ⟨a1, a2⟩
  · rw [a1, a2] at h1 h2 h3; exact ⟨h2, h3, h1⟩
  · rw [a1, a2] at h1 h2 h3; exact ⟨h3, h2, Ne.symm h1⟩

/-- The read `edges_[eidx]` after the `pop_back` of `remove_edge` is out of range when
`eidx` was the last index. -/
theorem remove_edge_move_last_none (g : Graph P V E) (eidx : Nat)
    (hl : eidx + 1 = g.edges_.length) : remove_edge_move_last g eidx = none := by
  unfold remove_edge_move_last
  split
  · rename_i x l hx hlast
    dsimp only
    have : ((g.edges_.set eidx l).dropLast)[eidx]? = none := by
      rw [getElem?_set_dropLast_any, if_neg (by omega)]
    rw [this]
  · rfl

/-- The second half of `remove_edge` for an index that is not the last one. -/
theorem remove_edge_move_last_spec (g : Graph P V E) (eidx : Nat) (l : internal_edge E)
    (hlt : eidx + 1 < g.edges_.length) (hl : g.edges_[g.edges_.length - 1]? = some l)
    (h1 : l.idx1 < g.adjacency_.length) (h2 : l.idx2 < g.adjacency_.length) :
    ∃ g1 adj1 adj2, adjacency_update g.adjacency_ l.idx1 l.idx2 eidx = some adj1 ∧
      adjacency_update adj1 l.idx2 l.idx1 eidx = some adj2 ∧
      remove_edge_move_last g eidx = some (1, g1) ∧ g1.addr = g.addr ∧
      g1.nodes_ = g.nodes_ ∧ g1.edges_ = (g.edges_.set eidx l).dropLast ∧
      g1.adjacency_ = adj2 := by
  obtain ⟨adj1, ha1⟩ := adjacency_update_total g.adjacency_ l.idx1 l.idx2 eidx h1
  have hlen1 : adj1.length = g.adjacency_.length := by
    unfold adjacency_update at ha1
    rw [List.getElem?_eq_getElem h1] at ha1
    simp only [Option.some.injEq] at ha1
    rw [← ha1, List.length_set]
  obtain ⟨adj2, ha2⟩ := adjacency_update_total adj1 l.idx2 l.idx1 eidx (by rw [hlen1]; exact h2)
  have hlast : g.edges_.getLast? = some l := by
    rw [List.getLast?_eq_getElem?]; exact hl
  have he : g.edges_[eidx]? = some g.edges_[eidx] := List.getElem?_eq_getElem (by omega)
  have hm : ((g.edges_.set eidx l).dropLast)[eidx]? = some l := by
    rw [getElem?_set_dropLast_any, if_pos (by omega), if_pos rfl]
  refine ⟨{ g with edges_ := (g.edges_.set eidx l).dropLast, adjacency_ := adj2 }, adj1, adj2,
    ha1, ha2, ?_, rfl, rfl, rfl, rfl⟩
  unfold remove_edge_move_last
  rw [he, hlast]
  dsimp only
  rw [hm]
  dsimp only
  rw [ha1]
  dsimp only
  rw [ha2]

/-- The adjacency entries after the two erase loops and the two update loops of
`remove_edge`, for the removed pair `(n1, n2)` and the moved pair `(l1, l2)`. -/
theorem remove_edge_adj_char (adj adj1 adj2 adj3 adj4 : List (List (Nat × Nat)))
    (n1 n2 l1 l2 e kl : Nat) (hnd : keys_nodup adj)
    (hl : l1 ≠ l2) (hd1 : ¬(l1 = n1 ∧ l2 = n2)) (hd2 : ¬(l1 = n2 ∧ l2 = n1))
    (m1 : adj_mem adj l1 l2 kl) (m2 : adj_mem adj l2 l1 kl)
    (h1 : adjacency_erase adj n1 n2 = some adj1) (h2 : adjacency_erase adj1 n2 n1 = some adj2)
    (h3 : adjacency_update adj2 l1 l2 e = some adj3)
    (h4 : adjacency_update adj3 l2 l1 e = some adj4) :
    adj4.length = adj.length ∧ keys_nodup adj4 ∧
    ∀ u v k, adj_mem adj4 u v k ↔
      ((adj_mem adj u v k ∧ ¬(u = n1 ∧ v = n2) ∧ ¬(u = n2 ∧ v = n1) ∧ ¬(u = l1 ∧ v = l2) ∧
          ¬(u = l2 ∧ v = l1)) ∨
        (u = l1 ∧ v = l2 ∧ k = e) ∨ (u = l2 ∧ v = l1 ∧ k = e)) := by
  obtain ⟨a1, a2, -, a4⟩ := adjacency_erase_spec adj adj1 n1 n2 hnd h1
  obtain ⟨b1, b2, -, b4⟩ := adjacency_erase_spec adj1 adj2 n2 n1 a2 h2
  obtain ⟨c1, c2, -, c4⟩ := adjacency_update_spec adj2 adj3 l1 l2 e b2 h3
  obtain ⟨d1, d2, -, d4⟩ := adjacency_update_spec adj3 adj4 l2 l1 e c2 h4
  have hx : ∃ e0, adj_mem adj2 l1 l2 e0 :=
    ⟨kl, (b4 _ _ _).2 ⟨(a4 _ _ _).2 ⟨m1, hd1⟩, hd2⟩⟩
  have hy : ∃ e0, adj_mem adj3 l2 l1 e0 := by
    refine ⟨kl, (c4 _ _ _).2 (Or.inl ⟨(b4 _ _ _).2 ⟨(a4 _ _ _).2 ⟨m2, ?_⟩, ?_⟩, ?_⟩)⟩
    · exact fun hc => hd2 ⟨hc.2, hc.1⟩
    · exact fun hc => hd1 ⟨hc.2, hc.1⟩
    · exact fun hc => hl hc.1.symm
  refine ⟨by rw [d1, c1, b1, a1], d2, ?_⟩
  intro u v k
  rw [d4, c4, b4, a4]
  constructor
  · rintro (⟨⟨⟨⟨hm, q1⟩, q2⟩, q3⟩ | ⟨r1, r2, r3, -⟩, q4⟩ | ⟨r1, r2, r3, -⟩)
    · exact Or.inl ⟨hm, q1, q2, q3, q4⟩
    · exact Or.inr (Or.inl ⟨r1, r2, r3⟩)
    · exact Or.inr (Or.inr ⟨r1, r2, r3⟩)
  · rintro (⟨hm, q1, q2, q3, q4⟩ | ⟨r1, r2, r3⟩ | ⟨r1, r2, r3⟩)
    · exact Or.inl ⟨Or.inl ⟨⟨⟨hm, q1⟩, q2⟩, q3⟩, q4⟩
    · exact Or.inl ⟨Or.inr ⟨r1, r2, r3, hx⟩, fun hc => hl (r1.symm.trans hc.1)⟩
    · exact Or.inr ⟨r1, r2, r3, hy⟩

/-- The invariant after the edge at index `eidx`, between `n1` and `n2`, was replaced by
the edge `l` stored last and the adjacency entries were changed accordingly. -/
theorem inv_edge_removed (g g1 : Graph P V E) (h : Inv g) (n1 n2 eidx : Nat)
    (s0 l : internal_edge E) (hs0 : g.edges_[eidx]? = some s0) (hj0 : joins s0 n1 n2)
    (hlt : eidx + 1 < g.edges_.length) (hl : g.edges_[g.edges_.length - 1]? = some l)
    (hnodes : g1.nodes_ = g.nodes_) (hedges : g1.edges_ = (g.edges_.set eidx l).dropLast)
    (hlen : g1.adjacency_.length = g.adjacency_.length) (hnd : keys_nodup g1.adjacency_)
    (hchar : ∀ u v k, adj_mem g1.adjacency_ u v k ↔
      ((adj_mem g.adjacency_ u v k ∧ ¬(u = n1 ∧ v = n2) ∧ ¬(u = n2 ∧ v = n1) ∧
          ¬(u = l.idx1 ∧ v = l.idx2) ∧ ¬(u = l.idx2 ∧ v = l.idx1)) ∨
        (u = l.idx1 ∧ v = l.idx2 ∧ k = eidx) ∨ (u = l.idx2 ∧ v = l.idx1 ∧ k = eidx))) :
    Inv g1 := by
  obtain ⟨-, e1, e2⟩ := h.edge_at _ s0 hs0
  have m1 : adj_mem g.adjacency_ n1 n2 eidx := by
    rcases hj0 with ⟨a1, a2⟩ | ⟨a1, a2⟩
    · rw [a1, a2] at e1; exact e1
    · rw [a1, a2] at e2; exact e2
  have m2 : adj_mem g.adjacency_ n2 n1 eidx := by
    rcases hj0 with ⟨a1, a2⟩ | ⟨a1, a2⟩
    · rw [a1, a2] at e2; exact e2
    · rw [a1, a2] at e1; exact e1
  obtain ⟨hlne, p1, p2⟩ := h.edge_at _ l hl
  have hbound := h.edges_bound
  have hmoved : g1.edges_[eidx]? = some l := by
    rw [hedges, getElem?_set_dropLast_any, if_pos (by omega), if_pos rfl]
  have hkeep : ∀ (k : Nat) (s : internal_edge E), k ≠ eidx → k ≠ g.edges_.length - 1 →
      g.edges_[k]? = some s → g1.edges_[k]? = some s := by
    intro k s hk1 hk2 hs
    have hklt : k < g.edges_.length := (List.getElem?_eq_some_iff.1 hs).1
    rw [hedges, getElem?_set_dropLast_any, if_pos (by omega), if_neg hk1]
    exact hs
  have hout : ∀ (a b k : Nat), adj_mem g.adjacency_ a b k → k ≠ eidx →
      k ≠ g.edges_.length - 1 →
      ¬(a = n1 ∧ b = n2) ∧ ¬(a = n2 ∧ b = n1) ∧ ¬(a = l.idx1 ∧ b = l.idx2) ∧
        ¬(a = l.idx2 ∧ b = l.idx1) := by
    intro a b k hm hk1 hk2
    refine ⟨?_, ?_, ?_, ?_⟩
    · rintro ⟨c1, c2⟩
      rw [c1, c2] at hm
      exact hk1 (adj_mem_unique _ h.nodup _ _ _ _ hm m1)
    · rintro ⟨c1, c2⟩
      rw [c1, c2] at hm
      exact hk1 (adj_mem_unique _ h.nodup _ _ _ _ hm m2)
    · rintro ⟨c1, c2⟩
      rw [c1, c2] at hm
      exact hk2 (adj_mem_unique _ h.nodup _ _ _ _ hm p1)
    · rintro ⟨c1, c2⟩
      rw [c1, c2] at hm
      exact hk2 (adj_mem_unique _ h.nodup _ _ _ _ hm p2)
  constructor
  · rw [hlen, hnodes]; exact h.adj_len
  · rw [hnodes]; exact h.nodes_bound
  · rw [hedges, List.length_dropLast, List.length_set]
    omega
  · intro k s hs
    rw [hedges, getElem?_set_dropLast_any] at hs
    by_cases hk : k < g.edges_.length - 1
    · rw [if_pos hk] at hs
      by_cases hke : k = eidx
      · rw [if_pos hke] at hs
        simp only [Option.some.injEq] at hs
        subst hs
        rw [hke]
        exact ⟨hlne, (hchar _ _ _).2 (Or.inr (Or.inl ⟨rfl, rfl, rfl⟩)),
          (hchar _ _ _).2 (Or.inr (Or.inr ⟨rfl, rfl, rfl⟩))⟩
      · rw [if_neg hke] at hs
        obtain ⟨q1, q2, q3⟩ := h.edge_at k s hs
        have hk2 : k ≠ g.edges_.length - 1 := by omega
        exact ⟨q1, (hchar _ _ _).2 (Or.inl ⟨q2, hout _ _ _ q2 hke hk2⟩),
          (hchar _ _ _).2 (Or.inl ⟨q3, hout _ _ _ q3 hke hk2⟩)⟩
    · rw [if_neg hk] at hs; cases hs
  · intro u v k hm
    rcases (hchar u v k).1 hm with ⟨hm0, q1, q2, q3, q4⟩ | ⟨r1, r2, r3⟩ | ⟨r1, r2, r3⟩
    · obtain ⟨s, hs, hj⟩ := h.adj_at u v k hm0
      have hke : k ≠ eidx := by
        intro hc
        rw [hc, hs0] at hs
        simp only [Option.some.injEq] at hs
        subst hs
        rcases joins_cases _ _ _ _ _ hj0 hj with c | c
        · exact q1 c
        · exact q2 c
      have hkl : k ≠ g.edges_.length - 1 := by
        intro hc
        rw [hc, hl] at hs
        simp only [Option.some.injEq] at hs
        subst hs
        rcases hj with c | c
        · exact q3 ⟨c.1.symm, c.2.symm⟩
        · exact q4 ⟨c.2.symm, c.1.symm⟩
      exact ⟨s, hkeep k s hke hkl hs, hj⟩
    · rw [r1, r2, r3]
      exact ⟨l, hmoved, Or.inl ⟨rfl, rfl⟩⟩
    · rw [r1, r2, r3]
      exact ⟨l, hmoved, Or.inr ⟨rfl, rfl⟩⟩
  · exact hnd

/-- The method `remove_edge(e)` on a freshly obtained handle in a state that satisfies
the invariant: the call has no result when `e` is stored at the last index, and otherwise
it returns 1 and leaves a state that satisfies the invariant, with the same nodes and one
edge less. -/
theorem remove_edge_spec_2460 (g : Graph P V E) (h : Inv g) (e : Edge) (hf : Edge.fresh g e) :
    (e.eidx_ + 1 = g.edges_.length ∧ remove_edge g e = none) ∨
    (e.eidx_ + 1 < g.edges_.length ∧ ∃ g1, remove_edge g e = some (1, g1) ∧ Inv g1 ∧
      g1.addr = g.addr ∧ g1.nodes_ = g.nodes_ ∧ g1.edges_.length + 1 = g.edges_.length) := by
  obtain ⟨m1, m2, -⟩ := fresh_adj g h e hf
  obtain ⟨-, s0, hs0, hj0⟩ := hf
  have hn1 := adj_mem_lt _ _ _ _ m1
  have hn2 := adj_mem_lt _ _ _ _ m2
  have helt : e.eidx_ < g.edges_.length := (List.getElem?_eq_some_iff.1 hs0).1
  have hc : has_edge g (Edge.node1 e) (Edge.node2 e) = some true := by
    obtain ⟨c, hc⟩ := has_edge_total g (Edge.node1 e) (Edge.node2 e) hn1
    have := (has_edge_spec g _ _ c hc).2 ⟨_, m1⟩
    rw [hc, this]
  obtain ⟨adj1, ha1⟩ := adjacency_erase_total g.adjacency_ e.n1idx_ e.n2idx_ hn1
  obtain ⟨a1, a2, -, -⟩ := adjacency_erase_spec _ _ _ _ h.nodup ha1
  obtain ⟨adj2, ha2⟩ := adjacency_erase_total adj1 e.n2idx_ e.n1idx_ (by rw [a1]; exact hn2)
  obtain ⟨b1, -, -, -⟩ := adjacency_erase_spec _ _ _ _ a2 ha2
  obtain ⟨g0, hg0⟩ : ∃ g0 : Graph P V E, g0 = { g with adjacency_ := adj2 } := ⟨_, rfl⟩
  have g0_addr : g0.addr = g.addr := by rw [hg0]
  have g0_nodes : g0.nodes_ = g.nodes_ := by rw [hg0]
  have g0_edges : g0.edges_ = g.edges_ := by rw [hg0]
  have g0_adj : g0.adjacency_ = adj2 := by rw [hg0]
  have hunf : remove_edge g e = remove_edge_move_last g0 e.eidx_ := by
    rw [hg0]
    unfold remove_edge
    dsimp only
    rw [hc]
    dsimp only
    have ha1' : adjacency_erase g.adjacency_ (Edge.node1 e).index_ (Edge.node2 e).index_ =
        some adj1 := ha1
    rw [ha1']
    dsimp only
    have ha2' : adjacency_erase adj1 (Edge.node2 e).index_ (Edge.node1 e).index_ =
        some adj2 := ha2
    rw [ha2']
  by_cases hlast : e.eidx_ + 1 = g.edges_.length
  · left
    refine ⟨hlast, ?_⟩
    rw [hunf]
    exact remove_edge_move_last_none _ _ (by rw [g0_edges]; exact hlast)
  · right
    have hlt : e.eidx_ + 1 < g.edges_.length := by omega
    refine ⟨hlt, ?_⟩
    have hL : g.edges_.length - 1 < g.edges_.length := by omega
    obtain ⟨l, hl⟩ : ∃ l, g.edges_[g.edges_.length - 1]? = some l :=
      ⟨_, List.getElem?_eq_getElem hL⟩
    obtain ⟨hlne, n1, n2⟩ := h.edge_at _ l hl
    have hl1 := adj_mem_lt _ _ _ _ n1
    have hl2 := adj_mem_lt _ _ _ _ n2
    obtain ⟨g1, adj3, adj4, ha3, ha4, hres, f1, f2, f3, f4⟩ :=
      remove_edge_move_last_spec g0 e.eidx_ l (by rw [g0_edges]; exact hlt)
        (by rw [g0_edges]; exact hl) (by rw [g0_adj, b1, a1]; exact hl1)
        (by rw [g0_adj, b1, a1]; exact hl2)
    rw [g0_adj] at ha3
    rw [g0_edges] at f3
    have hd1 : ¬(l.idx1 = e.n1idx_ ∧ l.idx2 = e.n2idx_) := by
      rintro ⟨c1, c2⟩
      rw [c1, c2] at n1
      have := adj_mem_unique _ h.nodup _ _ _ _ m1 n1
      omega
    have hd2 : ¬(l.idx1 = e.n2idx_ ∧ l.idx2 = e.n1idx_) := by
      rintro ⟨c1, c2⟩
      rw [c1, c2] at n1
      have := adj_mem_unique _ h.nodup _ _ _ _ m2 n1
      omega
    obtain ⟨k1, k2, k3⟩ := remove_edge_adj_char g.adjacency_ adj1 adj2 adj3 adj4 e.n1idx_
      e.n2idx_ l.idx1 l.idx2 e.eidx_ (g.edges_.length - 1) h.nodup hlne hd1 hd2 n1 n2
      ha1 ha2 ha3 ha4
    rw [← f4] at k1 k2 k3
    refine ⟨g1, hunf.trans hres, ?_, f1.trans g0_addr, f2.trans g0_nodes, ?_⟩
    · exact inv_edge_removed g g1 h e.n1idx_ e.n2idx_ e.eidx_ s0 l hs0 hj0 hlt hl
        (f2.trans g0_nodes) f3 k1 k2 k3
    · rw [f3, List.length_dropLast, List.length_set]
      omega

/-! ## `hw3/Graph_2460.hpp`: the edge loop of `remove_node` -/

/-- An adjacency list holds at most one entry per node. -/
theorem adj_list_length_le (g : Graph P V E) (h : Inv g) (u : Nat) (l : List (Nat × Nat))
    (hl : g.adjacency_[u]? = some l) : l.length ≤ g.nodes_.length := by
  have h1 := Graph2362.length_le_of_nodup_bounded (l.map Prod.fst) g.adjacency_.length
    (h.nodup u l hl)
    (by
      intro x hx
      obtain ⟨e, hm⟩ := (adj_mem_key _ u x l hl).1 hx
      exact adj_mem_lt _ _ _ _ (adj_symm g h _ _ _ hm))
  rw [List.length_map, h.adj_len] at h1
  exact h1

/-- The method `Node::degree` returns the length of the adjacency list of the node. -/
theorem degree_eq_length_2460 (g : Graph P V E) (h : Inv g) (n : Node) (l : List (Nat × Nat))
    (hl : g.adjacency_[n.index_]? = some l) : Node.degree g n = some l.length := by
  unfold Node.degree
  rw [hl]
  have hle := adj_list_length_le g h _ l hl
  have hb := h.nodes_bound
  simp only [Option.map_some', Option.some.injEq]
  exact Graph2236.to_size_type_of_lt _ (by omega)

/-- A node of degree 0 has an empty adjacency list. -/
theorem degree_zero_list (g : Graph P V E) (h : Inv g) (n : Node)
    (hd : Node.degree g n = some 0) : g.adjacency_[n.index_]? = some [] := by
  cases hl : g.adjacency_[n.index_]? with
  | none =>
    unfold Node.degree at hd
    rw [hl] at hd; cases hd
  | some l =>
    rw [degree_eq_length_2460 g h n l hl] at hd
    simp only [Option.some.injEq] at hd
    rw [List.length_eq_zero.1 hd]

/-- The edge handle read from an incident iterator is a fresh handle. -/
theorem deref_fresh (g : Graph P V E) (h : Inv g) (index curr : Nat) (e : Edge)
    (he : IncidentIterator.deref g index curr = some e) : Edge.fresh g e := by
  unfold IncidentIterator.deref at he
  split at he
  · cases he
  · rename_i l hl
    split at he
    · cases he
    · rename_i p hp
      simp only [Option.some.injEq] at he
      subst he
      have hm : adj_mem g.adjacency_ index p.1 p.2 :=
        ⟨l, hl, List.mem_iff_getElem?.2 ⟨_, hp⟩⟩
      obtain ⟨s, hs, hj⟩ := h.adj_at _ _ _ hm
      exact ⟨rfl, s, hs, hj⟩

/-! ## `hw3/Graph_2460.hpp`: the relabelling loop of `remove_node` -/

/-- The relabelling loop of `remove_node` starts in a state that satisfies its loop
invariant when the removed node has no entry left and is not the last node. -/
theorem relabel_inv_init (g g1 : Graph P V E) (h : Inv g) (nidx pre_idx : Nat)
    (entries : List (Nat × Nat))
    (hadj : g1.adjacency_ = g.adjacency_) (hedges : g1.edges_ = g.edges_)
    (hlen : g.adjacency_.length = pre_idx + 1) (hlt : nidx < pre_idx)
    (hn : g.adjacency_[nidx]? = some []) (hp : g.adjacency_[pre_idx]? = some entries) :
    RelabelInv g1 nidx pre_idx [] entries := by
  constructor
  · rw [hadj]; exact hlen
  · exact hlt
  · rw [hadj, List.nil_append]; exact hp
  · rw [hadj]; exact hn
  · intro v k hm
    rw [List.nil_append] at hm
    have hm1 : adj_mem g.adjacency_ pre_idx v k := ⟨entries, hp, hm⟩
    refine ⟨Ne.symm (adj_ne g h _ _ _ hm1), ?_⟩
    intro hc
    obtain ⟨l, hl, hml⟩ := adj_symm g h _ _ _ hm1
    rw [hc, hn] at hl
    simp only [Option.some.injEq] at hl
    rw [← hl] at hml
    cases hml
  · rw [hadj, hedges]; exact h.edge_at
  · rw [hadj, hedges]
    intro u v k hm _
    exact h.adj_at u v k hm
  · rw [hedges]
    intro k s v hs hj
    obtain ⟨-, e1, e2⟩ := h.edge_at k s hs
    have hm : adj_mem g.adjacency_ pre_idx v k := by
      rcases hj with ⟨a1, a2⟩ | ⟨a1, a2⟩
      · rw [a1, a2] at e1; exact e1
      · rw [a1, a2] at e2; exact e2
    obtain ⟨l, hl, hml⟩ := hm
    rw [hp] at hl
    simp only [Option.some.injEq] at hl
    rw [hl]; exact hml
  · rw [hadj]; exact h.nodup

/-- The adjacency entries after the erase loop and the two `push_back` calls of one
iteration of the relabelling loop. -/
theorem relabel_adj_char (adj adj1 adj2 adj3 : List (List (Nat × Nat)))
    (nidx pre_idx n2 e : Nat) (done : List (Nat × Nat))
    (hnd : keys_nodup adj) (hne1 : n2 ≠ pre_idx) (hne2 : n2 ≠ nidx) (hne3 : nidx ≠ pre_idx)
    (hnidx : adj[nidx]? = some done)
    (hno1 : ¬ ∃ e0, adj_mem adj nidx n2 e0) (hno2 : ¬ ∃ e0, adj_mem adj n2 nidx e0)
    (h1 : adjacency_erase adj n2 pre_idx = some adj1)
    (h2 : adjacency_push adj1 nidx n2 e = some adj2)
    (h3 : adjacency_push adj2 n2 nidx e = some adj3) :
    adj3.length = adj.length ∧ keys_nodup adj3 ∧ adj3[pre_idx]? = adj[pre_idx]? ∧
    adj3[nidx]? = some (done ++ [(n2, e)]) ∧
    ∀ u v k, adj_mem adj3 u v k ↔
      ((adj_mem adj u v k ∧ ¬(u = n2 ∧ v = pre_idx)) ∨ (u = nidx ∧ v = n2 ∧ k = e) ∨
        (u = n2 ∧ v = nidx ∧ k = e)) := by
  obtain ⟨a1, a2, a3, a4⟩ := adjacency_erase_spec _ _ _ _ hnd h1
  obtain ⟨b1, ⟨l, bl, bl2⟩, b3, b4, b5⟩ := adjacency_push_spec _ _ _ _ _ h2
  obtain ⟨c1, -, c3, c4, c5⟩ := adjacency_push_spec _ _ _ _ _ h3
  refine ⟨c1.trans (b1.trans a1), ?_, ?_, ?_, ?_⟩
  · apply c5
    · apply b5 a2
      rintro ⟨e0, hm⟩
      exact hno1 ⟨e0, ((a4 _ _ _).1 hm).1⟩
    · rintro ⟨e0, hm⟩
      rcases (b4 _ _ _).1 hm with hm1 | ⟨x, -, -⟩
      · exact hno2 ⟨e0, ((a4 _ _ _).1 hm1).1⟩
      · exact hne2 x
  · rw [c3 pre_idx (Ne.symm hne1), b3 pre_idx (Ne.symm hne3), a3 pre_idx (Ne.symm hne1)]
  · rw [c3 nidx (Ne.symm hne2), bl2]
    rw [a3 nidx (Ne.symm hne2), hnidx] at bl
    simp only [Option.some.injEq] at bl
    rw [bl]
  · intro u v k
    rw [c4, b4, a4]
    exact or_assoc

/-- One iteration of the relabelling loop keeps the loop invariant: the entry handled
moves from the entries to come to the entries handled. -/
theorem relabel_inv_step (g g1 : Graph P V E) (nidx pre_idx : Nat)
    (done rest : List (Nat × Nat)) (n2 e : Nat) (s s1 : internal_edge E)
    (h : RelabelInv g nidx pre_idx done ((n2, e) :: rest))
    (hs : g.edges_[e]? = some s) (hj : joins s pre_idx n2) (hj1 : joins s1 nidx n2)
    (hedges : g1.edges_ = g.edges_.set e s1)
    (hlen : g1.adjacency_.length = g.adjacency_.length)
    (hnd : keys_nodup g1.adjacency_)
    (hpre : g1.adjacency_[pre_idx]? = g.adjacency_[pre_idx]?)
    (hnidx : g1.adjacency_[nidx]? = some (done ++ [(n2, e)]))
    (hchar : ∀ u v k, adj_mem g1.adjacency_ u v k ↔
      ((adj_mem g.adjacency_ u v k ∧ ¬(u = n2 ∧ v = pre_idx)) ∨
        (u = nidx ∧ v = n2 ∧ k = e) ∨ (u = n2 ∧ v = nidx ∧ k = e))) :
    RelabelInv g1 nidx pre_idx (done ++ [(n2, e)]) rest := by
  obtain ⟨hk1, hk2⟩ := h.keys_ok n2 e (List.mem_append_right _ (List.mem_cons_self _ _))
  have hnodup := h.nodup pre_idx _ h.pre_list
  rw [List.map_append, List.map_cons] at hnodup
  obtain ⟨-, hnd2, hdisj⟩ := List.nodup_append.1 hnodup
  have hnotrest : ∀ k, (n2, k) ∉ rest := by
    intro k hm
    exact (List.nodup_cons.1 hnd2).1 (List.mem_map.2 ⟨(n2, k), hm, rfl⟩)
  have helt : e < g.edges_.length := (List.getElem?_eq_some_iff.1 hs).1
  obtain ⟨-, e1, e2⟩ := h.edge_at e s hs
  have m_rev : adj_mem g.adjacency_ n2 pre_idx e := by
    rcases hj with ⟨a1, a2⟩ | ⟨a1, a2⟩
    · rw [a1, a2] at e2; exact e2
    · rw [a1, a2] at e1; exact e1
  have hmem : ∀ (v k : Nat), (v, k) ∈ (done ++ [(n2, e)]) ++ rest →
      (v, k) ∈ done ++ (n2, e) :: rest := by
    intro v k hm
    rw [List.append_assoc] at hm
    exact hm
  constructor
  · rw [hlen]; exact h.adj_len
  · exact h.nidx_lt
  · rw [hpre, h.pre_list, List.append_assoc]
    rfl
  · exact hnidx
  · intro v k hm
    exact h.keys_ok v k (hmem v k hm)
  · intro k s2 hs2
    rw [hedges] at hs2
    by_cases hk : k = e
    · rw [hk, List.getElem?_set_self helt] at hs2
      simp only [Option.some.injEq] at hs2
      subst hs2
      rw [hk]
      rcases hj1 with ⟨a1, a2⟩ | ⟨a1, a2⟩
      · rw [a1, a2]
        exact ⟨Ne.symm hk2, (hchar _ _ _).2 (Or.inr (Or.inl ⟨rfl, rfl, rfl⟩)),
          (hchar _ _ _).2 (Or.inr (Or.inr ⟨rfl, rfl, rfl⟩))⟩
      · rw [a1, a2]
        exact ⟨hk2, (hchar _ _ _).2 (Or.inr (Or.inr ⟨rfl, rfl, rfl⟩)),
          (hchar _ _ _).2 (Or.inr (Or.inl ⟨rfl, rfl, rfl⟩))⟩
    · rw [List.getElem?_set_ne (Ne.symm hk)] at hs2
      obtain ⟨q1, q2, q3⟩ := h.edge_at k s2 hs2
      refine ⟨q1, (hchar _ _ _).2 (Or.inl ⟨q2, ?_⟩), (hchar _ _ _).2 (Or.inl ⟨q3, ?_⟩)⟩
      · rintro ⟨c1, c2⟩
        rw [c1, c2] at q2
        exact hk (adj_mem_unique _ h.nodup _ _ _ _ q2 m_rev)
      · rintro ⟨c1, c2⟩
        rw [c1, c2] at q3
        exact hk (adj_mem_unique _ h.nodup _ _ _ _ q3 m_rev)
  · intro u v k hm hu
    rcases (hchar u v k).1 hm with ⟨hm0, hno⟩ | ⟨r1, r2, r3⟩ | ⟨r1, r2, r3⟩
    · obtain ⟨s2, hs2, hj2⟩ := h.adj_at u v k hm0 (fun hup => List.mem_cons_of_mem _ (hu hup))
      have hk : k ≠ e := by
        intro hc
        rw [hc, hs] at hs2
        simp only [Option.some.injEq] at hs2
        subst hs2
        rcases joins_cases _ _ _ _ _ hj hj2 with c | c
        · have := hu c.1
          rw [c.2, hc] at this
          exact hnotrest e this
        · exact hno c
      refine ⟨s2, ?_, hj2⟩
      rw [hedges, List.getElem?_set_ne (Ne.symm hk)]
      exact hs2
    · refine ⟨s1, ?_, ?_⟩
      · rw [hedges, r3, List.getElem?_set_self helt]
      · rw [r1, r2]; exact hj1
    · refine ⟨s1, ?_, ?_⟩
      · rw [hedges, r3, List.getElem?_set_self helt]
      · rw [r1, r2]; exact joins_symm_2460 _ _ _ hj1
  · intro k s2 v hs2 hj2
    rw [hedges] at hs2
    by_cases hk : k = e
    · rw [hk, List.getElem?_set_self helt] at hs2
      simp only [Option.some.injEq] at hs2
      subst hs2
      have hlt := h.nidx_lt
      rcases joins_cases _ _ _ _ _ hj1 hj2 with c | c
      · omega
      · exact absurd c.1.symm hk1
    · rw [List.getElem?_set_ne (Ne.symm hk)] at hs2
      rcases List.mem_cons.1 (h.pre_at k s2 v hs2 hj2) with hc | hc
      · simp only [Prod.mk.injEq] at hc
        exact absurd hc.2 hk
      · exact hc
  · exact hnd

/-! ## `hw3/Graph_2460.hpp`: `remove_node` and the reachable states -/

/-- One iteration of the relabelling loop of `remove_node` succeeds in a state that
satisfies the loop invariant and leaves a state that satisfies it for the next entry. -/
theorem relabel_step_spec (g : Graph P V E) (nidx pre_idx : Nat) (done rest : List (Nat × Nat))
    (n2 e : Nat) (h : RelabelInv g nidx pre_idx done ((n2, e) :: rest)) :
    ∃ g1, relabel_step g nidx pre_idx n2 e = some g1 ∧
      RelabelInv g1 nidx pre_idx (done ++ [(n2, e)]) rest ∧ g1.addr = g.addr ∧
      g1.nodes_ = g.nodes_ ∧ g1.edges_.length = g.edges_.length := by
  obtain ⟨hk1, hk2⟩ := h.keys_ok n2 e (List.mem_append_right _ (List.mem_cons_self _ _))
  have hlt := h.nidx_lt
  have m_pre : adj_mem g.adjacency_ pre_idx n2 e :=
    ⟨_, h.pre_list, List.mem_append_right _ (List.mem_cons_self _ _)⟩
  obtain ⟨s, hs, hj⟩ := h.adj_at _ _ _ m_pre (fun _ => List.mem_cons_self _ _)
  obtain ⟨-, e1, e2⟩ := h.edge_at e s hs
  have m_rev : adj_mem g.adjacency_ n2 pre_idx e := by
    rcases hj with ⟨a1, a2⟩ | ⟨a1, a2⟩
    · rw [a1, a2] at e2; exact e2
    · rw [a1, a2] at e1; exact e1
  have hn2lt := adj_mem_lt _ _ _ _ m_rev
  obtain ⟨s1, hs1⟩ : ∃ s1 : internal_edge E, s1 =
      (if s.idx1 = pre_idx then { s with idx1 := nidx } else { s with idx2 := nidx }) :=
    ⟨_, rfl⟩
  have hj1 : joins s1 nidx n2 := by
    rcases hj with ⟨a1, a2⟩ | ⟨a1, a2⟩
    · rw [if_pos a1] at hs1
      rw [hs1]; exact Or.inl ⟨rfl, a2⟩
    · have hne : s.idx1 ≠ pre_idx := by rw [a1]; exact hk1
      rw [if_neg hne] at hs1
      rw [hs1]; exact Or.inr ⟨a1, rfl⟩
  obtain ⟨adj1, ha1⟩ := adjacency_erase_total g.adjacency_ n2 pre_idx hn2lt
  obtain ⟨a1len, -, -, -⟩ := adjacency_erase_spec _ _ _ _ h.nodup ha1
  have hal := h.adj_len
  obtain ⟨adj2, ha2⟩ := adjacency_push_total adj1 nidx n2 e (by rw [a1len, hal]; omega)
  obtain ⟨b1len, -⟩ := adjacency_push_spec _ _ _ _ _ ha2
  obtain ⟨adj3, ha3⟩ := adjacency_push_total adj2 n2 nidx e (by rw [b1len, a1len]; exact hn2lt)
  have hnodup := h.nodup pre_idx _ h.pre_list
  rw [List.map_append, List.map_cons] at hnodup
  obtain ⟨-, -, hdisj⟩ := List.nodup_append.1 hnodup
  have hno1 : ¬ ∃ e0, adj_mem g.adjacency_ nidx n2 e0 := by
    rintro ⟨e0, l, hl, hm⟩
    rw [h.nidx_list] at hl
    simp only [Option.some.injEq] at hl
    subst hl
    exact hdisj (List.mem_map.2 ⟨(n2, e0), hm, rfl⟩) (List.mem_cons_self _ _)
  have hno2 : ¬ ∃ e0, adj_mem g.adjacency_ n2 nidx e0 := by
    rintro ⟨e0, hm⟩
    obtain ⟨s2, hs2, hj2⟩ := h.adj_at _ _ _ hm (fun hc => absurd hc hk1)
    obtain ⟨-, q1, q2⟩ := h.edge_at e0 s2 hs2
    apply hno1
    refine ⟨e0, ?_⟩
    rcases hj2 with ⟨a1, a2⟩ | ⟨a1, a2⟩
    · rw [a1, a2] at q2; exact q2
    · rw [a1, a2] at q1; exact q1
  obtain ⟨c1, c2, c3, c4, c5⟩ := relabel_adj_char _ _ _ _ nidx pre_idx n2 e done h.nodup
    hk1 hk2 (by omega) h.nidx_list hno1 hno2 ha1 ha2 ha3
  obtain ⟨g1, hg1⟩ : ∃ g1 : Graph P V E, g1 =
      { g with edges_ := g.edges_.set e s1, adjacency_ := adj3 } := ⟨_, rfl⟩
  have f_addr : g1.addr = g.addr := by rw [hg1]
  have f_nodes : g1.nodes_ = g.nodes_ := by rw [hg1]
  have f_edges : g1.edges_ = g.edges_.set e s1 := by rw [hg1]
  have f_adj : g1.adjacency_ = adj3 := by rw [hg1]
  refine ⟨g1, ?_, ?_, f_addr, f_nodes, by rw [f_edges, List.length_set]⟩
  · unfold relabel_step
    have hcond : ¬(n2 = pre_idx ∨ nidx = pre_idx) := by omega
    rw [if_neg hcond, hs]
    dsimp only
    rw [← hs1, ha1]
    dsimp only
    rw [ha2]
    dsimp only
    rw [ha3, hg1]
  · rw [← f_adj] at c1 c2 c3 c4 c5
    exact relabel_inv_step g g1 nidx pre_idx done rest n2 e s s1 h hs hj hj1 f_edges
      c1 c2 c3 c4 c5

/-- The relabelling loop of `remove_node` succeeds from a state that satisfies its loop
invariant and ends in a state in which all entries are handled. -/
theorem relabel_loop_spec (nidx pre_idx : Nat) : ∀ (rest done : List (Nat × Nat))
    (g : Graph P V E), RelabelInv g nidx pre_idx done rest →
    ∃ g1, relabel_loop nidx pre_idx rest g = some g1 ∧
      RelabelInv g1 nidx pre_idx (done ++ rest) [] ∧ g1.addr = g.addr ∧
      g1.nodes_ = g.nodes_ ∧ g1.edges_.length = g.edges_.length := by
  intro rest
  induction rest with
  | nil =>
    intro done g h
    refine ⟨g, rfl, ?_, rfl, rfl, rfl⟩
    rw [List.append_nil]; exact h
  | cons p rest ih =>
    intro done g h
    obtain ⟨n2, e⟩ := p
    obtain ⟨g1, h1, h2, h3, h4, h5⟩ := relabel_step_spec g nidx pre_idx done rest n2 e h
    obtain ⟨g2, k1, k2, k3, k4, k5⟩ := ih (done ++ [(n2, e)]) g1 h2
    refine ⟨g2, ?_, ?_, k3.trans h3, k4.trans h4, k5.trans h5⟩
    · unfold relabel_loop
      dsimp only
      rw [h1]
      exact k1
    · rw [List.append_assoc] at k2
      exact k2

/-- Erasing the last adjacency list of a state in which no stored edge ends at the last
index leaves a state that satisfies the invariant. -/
theorem inv_of_last_erased (g g1 : Graph P V E) (pre_idx : Nat)
    (hlen : g.adjacency_.length = pre_idx + 1)
    (hedge : ∀ (k : Nat) (s : internal_edge E), g.edges_[k]? = some s →
      s.idx1 ≠ s.idx2 ∧ adj_mem g.adjacency_ s.idx1 s.idx2 k ∧
        adj_mem g.adjacency_ s.idx2 s.idx1 k)
    (hadjat : ∀ (u v k : Nat), adj_mem g.adjacency_ u v k → u ≠ pre_idx →
      ∃ s, g.edges_[k]? = some s ∧ joins s u v)
    (hpre : ∀ (k : Nat) (s : internal_edge E) (v : Nat), g.edges_[k]? = some s →
      ¬ joins s pre_idx v)
    (hnd : keys_nodup g.adjacency_)
    (hnodes : g1.nodes_.length = pre_idx) (hb : pre_idx < Graph2236.size_type_mod)
    (hedges : g1.edges_ = g.edges_) (hbe : g.edges_.length < Graph2236.size_type_mod)
    (hadj : g1.adjacency_ = g.adjacency_.eraseIdx pre_idx) : Inv g1 := by
  have hget : ∀ (u : Nat) (l : List (Nat × Nat)), g1.adjacency_[u]? = some l →
      g.adjacency_[u]? = some l ∧ u < pre_idx := by
    intro u l hl
    rw [hadj, List.getElem?_eraseIdx] at hl
    by_cases hu : u < pre_idx
    · rw [if_pos hu] at hl
      exact ⟨hl, hu⟩
    · rw [if_neg hu] at hl
      have := (List.getElem?_eq_some_iff.1 hl).1
      omega
  have hput : ∀ (u v k : Nat), adj_mem g.adjacency_ u v k → u ≠ pre_idx →
      adj_mem g1.adjacency_ u v k := by
    rintro u v k ⟨l, hl, hm⟩ hu
    have := (List.getElem?_eq_some_iff.1 hl).1
    refine ⟨l, ?_, hm⟩
    rw [hadj, List.getElem?_eraseIdx, if_pos (by omega)]
    exact hl
  constructor
  · rw [hadj, List.length_eraseIdx, if_pos (by omega), hlen, hnodes]
    omega
  · rw [hnodes]; exact hb
  · rw [hedges]; exact hbe
  · intro k s hs
    rw [hedges] at hs
    obtain ⟨q1, q2, q3⟩ := hedge k s hs
    have h1 : s.idx1 ≠ pre_idx := fun hc => hpre k s s.idx2 hs (Or.inl ⟨hc, rfl⟩)
    have h2 : s.idx2 ≠ pre_idx := fun hc => hpre k s s.idx1 hs (Or.inr ⟨rfl, hc⟩)
    exact ⟨q1, hput _ _ _ q2 h1, hput _ _ _ q3 h2⟩
  · rintro u v k ⟨l, hl, hm⟩
    obtain ⟨hl2, hu⟩ := hget u l hl
    rw [hedges]
    exact hadjat u v k ⟨l, hl2, hm⟩ (by omega)
  · intro u l hl
    exact hnd u l (hget u l hl).1

/-- The statements of `remove_node` that follow the edge loop, for nodes stored at
`nidx` and last and a last adjacency list `entries`. -/
theorem remove_node_storage_unfold (g : Graph P V E) (nidx : Nat) (x l : internal_node P V)
    (entries : List (Nat × Nat)) (h1 : g.nodes_[nidx]? = some x)
    (h2 : g.nodes_.getLast? = some l)
    (h3 : g.adjacency_[Graph2236.size_type_sub (size g) 1]? = some entries) :
    remove_node_storage g nidx =
      match relabel_loop nidx (Graph2236.size_type_sub (size g) 1) entries
          { g with nodes_ := (g.nodes_.set nidx l).dropLast } with
      | none => none
      | some g2 =>
        some (1, { g2 with
          adjacency_ := g2.adjacency_.eraseIdx (Graph2236.size_type_sub (size g) 1) }) := by
  unfold remove_node_storage
  rw [h1, h2]
  simp only [h3]

/-- The statements of `remove_node` that follow the edge loop keep the invariant when
the adjacency list of the removed node is empty. -/
theorem inv_remove_node_storage (g g1 : Graph P V E) (h : Inv g) (nidx : Nat)
    (hn : g.adjacency_[nidx]? = some []) (r : Nat)
    (hr : remove_node_storage g nidx = some (r, g1)) :
    Inv g1 ∧ g1.addr = g.addr ∧ g1.nodes_.length + 1 = g.nodes_.length := by
  have hal := h.adj_len
  have hnb := h.nodes_bound
  have hnlt : nidx < g.nodes_.length := by
    rw [← hal]; exact (List.getElem?_eq_some_iff.1 hn).1
  have hsize : size g = g.nodes_.length := Graph2236.to_size_type_of_lt _ hnb
  have hpre : Graph2236.size_type_sub (size g) 1 = g.nodes_.length - 1 := by
    rw [hsize]; exact Graph2236.size_type_sub_one _ (by omega) hnb
  obtain ⟨pre_idx, hpi⟩ : ∃ pre_idx, pre_idx = g.nodes_.length - 1 := ⟨_, rfl⟩
  rw [← hpi] at hpre
  have hplt : pre_idx < g.adjacency_.length := by omega
  obtain ⟨l, hl⟩ : ∃ l, g.nodes_.getLast? = some l := by
    rw [List.getLast?_eq_getElem?]
    exact ⟨_, List.getElem?_eq_getElem (by omega)⟩
  have hunf := remove_node_storage_unfold g nidx _ l _ (List.getElem?_eq_getElem hnlt) hl
    (by rw [hpre]; exact List.getElem?_eq_getElem hplt)
  rw [hpre] at hunf
  obtain ⟨entries, hent⟩ : ∃ entries, g.adjacency_[pre_idx]? = some entries :=
    ⟨_, List.getElem?_eq_getElem hplt⟩
  have hent2 : g.adjacency_[pre_idx] = entries := by
    rw [List.getElem?_eq_getElem hplt] at hent
    simpa using hent
  rw [hent2] at hunf
  obtain ⟨g0, hg0⟩ : ∃ g0 : Graph P V E, g0 =
      { g with nodes_ := (g.nodes_.set nidx l).dropLast } := ⟨_, rfl⟩
  rw [← hg0] at hunf
  have g0_addr : g0.addr = g.addr := by rw [hg0]
  have g0_nodes : g0.nodes_ = (g.nodes_.set nidx l).dropLast := by rw [hg0]
  have g0_edges : g0.edges_ = g.edges_ := by rw [hg0]
  have g0_adj : g0.adjacency_ = g.adjacency_ := by rw [hg0]
  have g0_len : g0.nodes_.length = pre_idx := by
    rw [g0_nodes, List.length_dropLast, List.length_set, hpi]
  rw [hunf] at hr
  have hfin : ∀ (g2 : Graph P V E), g2.addr = g0.addr → g2.nodes_ = g0.nodes_ →
      g2.edges_.length = g0.edges_.length →
      (∀ (k : Nat) (s : internal_edge E), g2.edges_[k]? = some s →
        s.idx1 ≠ s.idx2 ∧ adj_mem g2.adjacency_ s.idx1 s.idx2 k ∧
          adj_mem g2.adjacency_ s.idx2 s.idx1 k) →
      (∀ (u v k : Nat), adj_mem g2.adjacency_ u v k → u ≠ pre_idx →
        ∃ s, g2.edges_[k]? = some s ∧ joins s u v) →
      (∀ (k : Nat) (s : internal_edge E) (v : Nat), g2.edges_[k]? = some s →
        ¬ joins s pre_idx v) →
      keys_nodup g2.adjacency_ → g2.adjacency_.length = pre_idx + 1 →
      some (1, ({ g2 with adjacency_ := g2.adjacency_.eraseIdx pre_idx } : Graph P V E)) =
        some (r, g1) →
      Inv g1 ∧ g1.addr = g.addr ∧ g1.nodes_.length + 1 = g.nodes_.length := by
    intro g2 k1 k2 k3 k4 k5 k6 k7 k8 hres
    obtain ⟨g3, hg3⟩ : ∃ g3 : Graph P V E, g3 =
        { g2 with adjacency_ := g2.adjacency_.eraseIdx pre_idx } := ⟨_, rfl⟩
    rw [← hg3] at hres
    have g3_addr : g3.addr = g2.addr := by rw [hg3]
    have g3_nodes : g3.nodes_ = g2.nodes_ := by rw [hg3]
    have g3_edges : g3.edges_ = g2.edges_ := by rw [hg3]
    have g3_adj : g3.adjacency_ = g2.adjacency_.eraseIdx pre_idx := by rw [hg3]
    simp only [Option.some.injEq, Prod.mk.injEq] at hres
    obtain ⟨-, hres⟩ := hres
    subst hres
    refine ⟨?_, g3_addr.trans (k1.trans g0_addr), ?_⟩
    · exact inv_of_last_erased g2 g3 pre_idx k8 k4 k5 k6 k7
        (by rw [g3_nodes, k2]; exact g0_len) (by omega) g3_edges
        (by rw [k3, g0_edges]; exact h.edges_bound) g3_adj
    · rw [g3_nodes, k2, g0_len]
      omega
  by_cases hcase : nidx = pre_idx
  · have hnil : entries = [] := by
      rw [← hcase, hn] at hent
      simp only [Option.some.injEq] at hent
      exact hent.symm
    rw [hnil] at hr hent
    have hloop : relabel_loop nidx pre_idx [] g0 = some g0 := rfl
    rw [hloop] at hr
    dsimp only at hr
    have hnone : ∀ (v k : Nat), ¬ adj_mem g.adjacency_ pre_idx v k := by
      rintro v k ⟨l2, hl2, hm⟩
      rw [hent] at hl2
      simp only [Option.some.injEq] at hl2
      rw [← hl2] at hm
      cases hm
    apply hfin g0 rfl rfl rfl
    · rw [g0_edges, g0_adj]; exact h.edge_at
    · rw [g0_edges, g0_adj]
      intro u v k hm _
      exact h.adj_at u v k hm
    · rw [g0_edges]
      intro k s v hs hj
      obtain ⟨-, e1, e2⟩ := h.edge_at k s hs
      rcases hj with ⟨a1, a2⟩ | ⟨a1, a2⟩
      · rw [a1, a2] at e1; exact hnone _ _ e1
      · rw [a1, a2] at e2; exact hnone _ _ e2
    · rw [g0_adj]; exact h.nodup
    · rw [g0_adj]; omega
    · exact hr
  · have hlt : nidx < pre_idx := by omega
    have hinit := relabel_inv_init g g0 h nidx pre_idx entries g0_adj g0_edges (by omega) hlt
      hn hent
    obtain ⟨g2, k1, k2, k3, k4, k5⟩ := relabel_loop_spec nidx pre_idx entries [] g0 hinit
    rw [k1] at hr
    dsimp only at hr
    apply hfin g2 k3 k4 k5 k2.edge_at
    · intro u v k hm hu
      exact k2.adj_at u v k hm (fun hc => absurd hc hu)
    · intro k s v hs hj
      have := k2.pre_at k s v hs hj
      cases this
    · exact k2.nodup
    · exact k2.adj_len
    · exact hr

/-! ## `hw3/Graph_2460.hpp`: `remove_edge` as compiled -/

/-- Wherever the second half of `remove_edge` with a checked read has a result, the
compiled one has the same result. -/
theorem remove_edge_move_last_compiled_of_checked (g : Graph P V E) (eidx : Nat)
    (r : Nat × Graph P V E) (h : remove_edge_move_last g eidx = some r) :
    remove_edge_move_last_compiled g eidx = some r := by
  unfold remove_edge_move_last at h
  unfold remove_edge_move_last_compiled
  split
  · rename_i x l hx hlast
    rw [hx, hlast] at h
    dsimp only at h ⊢
    cases hm : ((g.edges_.set eidx l).dropLast)[eidx]? with
    | none => rw [hm] at h; cases h
    | some s =>
      rw [hm] at h
      exact h
  · rename_i hno
    split at h
    · rename_i x l hx hlast
      exact absurd hlast (hno x l hx)
    · cases h

/-- Wherever `remove_edge` with a checked read has a result, the compiled one has the same
result. -/
theorem remove_edge_compiled_of_checked (g : Graph P V E) (e : Edge) (r : Nat × Graph P V E)
    (h : remove_edge g e = some r) : remove_edge_compiled g e = some r := by
  unfold remove_edge at h
  unfold remove_edge_compiled
  dsimp only at h ⊢
  split
  · rename_i hc
    rw [hc] at h; cases h
  · rename_i hc
    rw [hc] at h; exact h
  · rename_i hc
    rw [hc] at h
    dsimp only at h
    split
    · rename_i h1
      rw [h1] at h; cases h
    · rename_i adj1 h1
      rw [h1] at h
      dsimp only at h
      split
      · rename_i h2
        rw [h2] at h; cases h
      · rename_i adj2 h2
        rw [h2] at h
        exact remove_edge_move_last_compiled_of_checked _ _ _ h

/-- The second half of `remove_edge` as compiled, for every index in range. -/
theorem remove_edge_move_last_compiled_spec (g : Graph P V E) (eidx : Nat)
    (l : internal_edge E) (hlt : eidx < g.edges_.length)
    (hl : g.edges_[g.edges_.length - 1]? = some l)
    (h1 : l.idx1 < g.adjacency_.length) (h2 : l.idx2 < g.adjacency_.length) :
    ∃ g1 adj1 adj2, adjacency_update g.adjacency_ l.idx1 l.idx2 eidx = some adj1 ∧
      adjacency_update adj1 l.idx2 l.idx1 eidx = some adj2 ∧
      remove_edge_move_last_compiled g eidx = some (1, g1) ∧ g1.addr = g.addr ∧
      g1.nodes_ = g.nodes_ ∧ g1.edges_ = (g.edges_.set eidx l).dropLast ∧
      g1.adjacency_ = adj2 := by
  obtain ⟨adj1, ha1⟩ := adjacency_update_total g.adjacency_ l.idx1 l.idx2 eidx h1
  have hlen1 : adj1.length = g.adjacency_.length := by
    unfold adjacency_update at ha1
    rw [List.getElem?_eq_getElem h1] at ha1
    simp only [Option.some.injEq] at ha1
    rw [← ha1, List.length_set]
  obtain ⟨adj2, ha2⟩ := adjacency_update_total adj1 l.idx2 l.idx1 eidx (by rw [hlen1]; exact h2)
  have hlast : g.edges_.getLast? = some l := by
    rw [List.getLast?_eq_getElem?]; exact hl
  have he : g.edges_[eidx]? = some g.edges_[eidx] := List.getElem?_eq_getElem hlt
  have hm : ((g.edges_.set eidx l).dropLast)[eidx]? = some l ∨
      ((g.edges_.set eidx l).dropLast)[eidx]? = none := by
    rw [getElem?_set_dropLast_any]
    by_cases hc : eidx < g.edges_.length - 1
    · rw [if_pos hc, if_pos rfl]
      exact Or.inl rfl
    · rw [if_neg hc]
      exact Or.inr rfl
  refine ⟨{ g with edges_ := (g.edges_.set eidx l).dropLast, adjacency_ := adj2 }, adj1, adj2,
    ha1, ha2, ?_, rfl, rfl, rfl, rfl⟩
  unfold remove_edge_move_last_compiled
  rw [he, hlast]
  dsimp only
  rcases hm with hm | hm
  · rw [hm]
    dsimp only
    rw [ha1]
    dsimp only
    rw [ha2]
  · rw [hm]
    dsimp only
    rw [ha1]
    dsimp only
    rw [ha2]

/-- The adjacency entries after the two erase loops and the two update loops of
`remove_edge` when the edge read after the `pop_back` is the removed edge itself: the
update loops find no entry. -/
theorem remove_last_edge_adj_char (adj adj1 adj2 adj3 adj4 : List (List (Nat × Nat)))
    (n1 n2 l1 l2 e : Nat) (hnd : keys_nodup adj)
    (hl : (l1 = n1 ∧ l2 = n2) ∨ (l1 = n2 ∧ l2 = n1))
    (h1 : adjacency_erase adj n1 n2 = some adj1) (h2 : adjacency_erase adj1 n2 n1 = some adj2)
    (h3 : adjacency_update adj2 l1 l2 e = some adj3)
    (h4 : adjacency_update adj3 l2 l1 e = some adj4) :
    adj4.length = adj.length ∧ keys_nodup adj4 ∧
    ∀ u v k, adj_mem adj4 u v k ↔
      (adj_mem adj u v k ∧ ¬(u = n1 ∧ v = n2) ∧ ¬(u = n2 ∧ v = n1)) := by
  obtain ⟨a1, a2, -, a4⟩ := adjacency_erase_spec adj adj1 n1 n2 hnd h1
  obtain ⟨b1, b2, -, b4⟩ := adjacency_erase_spec adj1 adj2 n2 n1 a2 h2
  obtain ⟨c1, c2, -, c4⟩ := adjacency_update_spec adj2 adj3 l1 l2 e b2 h3
  obtain ⟨d1, d2, -, d4⟩ := adjacency_update_spec adj3 adj4 l2 l1 e c2 h4
  have h2char : ∀ u v k, adj_mem adj2 u v k ↔
      (adj_mem adj u v k ∧ ¬(u = n1 ∧ v = n2) ∧ ¬(u = n2 ∧ v = n1)) := by
    intro u v k
    rw [b4, a4, and_assoc]
  have hno1 : ∀ k, ¬ adj_mem adj2 l1 l2 k := by
    intro k hm
    obtain ⟨-, q1, q2⟩ := (h2char _ _ _).1 hm
    rcases hl with c | c
    · exact q1 c
    · exact q2 c
  have hno2 : ∀ k, ¬ adj_mem adj2 l2 l1 k := by
    intro k hm
    obtain ⟨-, q1, q2⟩ := (h2char _ _ _).1 hm
    rcases hl with c | c
    · exact q2 ⟨c.2, c.1⟩
    · exact q1 ⟨c.2, c.1⟩
  have h3char : ∀ u v k, adj_mem adj3 u v k ↔ adj_mem adj2 u v k := by
    intro u v k
    rw [c4]
    constructor
    · rintro (⟨hm, -⟩ | ⟨-, -, -, e0, hm⟩)
      · exact hm
      · exact absurd hm (hno1 e0)
    · intro hm
      refine Or.inl ⟨hm, ?_⟩
      rintro ⟨c1, c2⟩
      rw [c1, c2] at hm
      exact hno1 k hm
  have h4char : ∀ u v k, adj_mem adj4 u v k ↔ adj_mem adj3 u v k := by
    intro u v k
    rw [d4]
    constructor
    · rintro (⟨hm, -⟩ | ⟨-, -, -, e0, hm⟩)
      · exact hm
      · exact absurd ((h3char _ _ _).1 hm) (hno2 e0)
    · intro hm
      refine Or.inl ⟨hm, ?_⟩
      rintro ⟨c1, c2⟩
      rw [c1, c2] at hm
      exact hno2 k ((h3char _ _ _).1 hm)
  refine ⟨d1.trans (c1.trans (b1.trans a1)), d2, ?_⟩
  intro u v k
  rw [h4char, h3char, h2char]

/-- The invariant after the edge stored last, at index `eidx` between `n1` and `n2`, was
popped and its two adjacency entries were erased. -/
theorem inv_last_edge_removed (g g1 : Graph P V E) (h : Inv g) (n1 n2 eidx : Nat)
    (s0 l : internal_edge E) (hs0 : g.edges_[eidx]? = some s0) (hj0 : joins s0 n1 n2)
    (hlast : eidx + 1 = g.edges_.length)
    (hnodes : g1.nodes_ = g.nodes_) (hedges : g1.edges_ = (g.edges_.set eidx l).dropLast)
    (hlen : g1.adjacency_.length = g.adjacency_.length) (hnd : keys_nodup g1.adjacency_)
    (hchar : ∀ u v k, adj_mem g1.adjacency_ u v k ↔
      (adj_mem g.adjacency_ u v k ∧ ¬(u = n1 ∧ v = n2) ∧ ¬(u = n2 ∧ v = n1))) :
    Inv g1 := by
  obtain ⟨-, e1, e2⟩ := h.edge_at _ s0 hs0
  have m1 : adj_mem g.adjacency_ n1 n2 eidx := by
    rcases hj0 with ⟨a1, a2⟩ | ⟨a1, a2⟩
    · rw [a1, a2] at e1; exact e1
    · rw [a1, a2] at e2; exact e2
  have m2 : adj_mem g.adjacency_ n2 n1 eidx := by
    rcases hj0 with ⟨a1, a2⟩ | ⟨a1, a2⟩
    · rw [a1, a2] at e2; exact e2
    · rw [a1, a2] at e1; exact e1
  have hbound := h.edges_bound
  have hget : ∀ (k : Nat) (s : internal_edge E), g1.edges_[k]? = some s →
      g.edges_[k]? = some s ∧ k ≠ eidx := by
    intro k s hs
    rw [hedges, getElem?_set_dropLast_any] at hs
    by_cases hk : k < g.edges_.length - 1
    · rw [if_pos hk, if_neg (by omega)] at hs
      exact ⟨hs, by omega⟩
    · rw [if_neg hk] at hs; cases hs
  have hput : ∀ (k : Nat) (s : internal_edge E), g.edges_[k]? = some s → k ≠ eidx →
      g1.edges_[k]? = some s := by
    intro k s hs hk
    have hklt : k < g.edges_.length := (List.getElem?_eq_some_iff.1 hs).1
    rw [hedges, getElem?_set_dropLast_any, if_pos (by omega), if_neg hk]
    exact hs
  constructor
  · rw [hlen, hnodes]; exact h.adj_len
  · rw [hnodes]; exact h.nodes_bound
  · rw [hedges, List.length_dropLast, List.length_set]
    omega
  · intro k s hs
    obtain ⟨hs1, hk⟩ := hget k s hs
    obtain ⟨q1, q2, q3⟩ := h.edge_at k s hs1
    refine ⟨q1, (hchar _ _ _).2 ⟨q2, ?_, ?_⟩, (hchar _ _ _).2 ⟨q3, ?_, ?_⟩⟩
    · rintro ⟨c1, c2⟩
      rw [c1, c2] at q2
      exact hk (adj_mem_unique _ h.nodup _ _ _ _ q2 m1)
    · rintro ⟨c1, c2⟩
      rw [c1, c2] at q2
      exact hk (adj_mem_unique _ h.nodup _ _ _ _ q2 m2)
    · rintro ⟨c1, c2⟩
      rw [c1, c2] at q3
      exact hk (adj_mem_unique _ h.nodup _ _ _ _ q3 m1)
    · rintro ⟨c1, c2⟩
      rw [c1, c2] at q3
      exact hk (adj_mem_unique _ h.nodup _ _ _ _ q3 m2)
  · intro u v k hm
    obtain ⟨hm0, q1, q2⟩ := (hchar u v k).1 hm
    obtain ⟨s, hs, hj⟩ := h.adj_at u v k hm0
    have hke : k ≠ eidx := by
      intro hc
      rw [hc, hs0] at hs
      simp only [Option.some.injEq] at hs
      subst hs
      rcases joins_cases _ _ _ _ _ hj0 hj with c | c
      · exact q1 c
      · exact q2 c
    exact ⟨s, hput k s hs hke, hj⟩
  · exact hnd

/-- The method `remove_edge(e)` as compiled, on a freshly obtained handle in a state that
satisfies the invariant: the call returns 1 and leaves a state that satisfies the
invariant, with the same nodes and one edge less, in which the two end nodes of `e` are
no longer adjacent and every other pair of nodes is adjacent as before. -/
theorem remove_edge_compiled_spec (g : Graph P V E) (h : Inv g) (e : Edge)
    (hf : Edge.fresh g e) :
    ∃ g1, remove_edge_compiled g e = some (1, g1) ∧ Inv g1 ∧
      g1.addr = g.addr ∧ g1.nodes_ = g.nodes_ ∧ g1.edges_.length + 1 = g.edges_.length ∧
      ∀ u v, (∃ k, adj_mem g1.adjacency_ u v k) ↔
        ((∃ k, adj_mem g.adjacency_ u v k) ∧ ¬(u = e.n1idx_ ∧ v = e.n2idx_) ∧
          ¬(u = e.n2idx_ ∧ v = e.n1idx_)) := by
  obtain ⟨m1, m2, -⟩ := fresh_adj g h e hf
  obtain ⟨-, s0, hs0, hj0⟩ := hf
  have hn1 := adj_mem_lt _ _ _ _ m1
  have hn2 := adj_mem_lt _ _ _ _ m2
  have helt : e.eidx_ < g.edges_.length := (List.getElem?_eq_some_iff.1 hs0).1
  have hc : has_edge g (Edge.node1 e) (Edge.node2 e) = some true := by
    obtain ⟨c, hc⟩ := has_edge_total g (Edge.node1 e) (Edge.node2 e) hn1
    have := (has_edge_spec g _ _ c hc).2 ⟨_, m1⟩
    rw [hc, this]
  obtain ⟨adj1, ha1⟩ := adjacency_erase_total g.adjacency_ e.n1idx_ e.n2idx_ hn1
  obtain ⟨a1, a2, -, -⟩ := adjacency_erase_spec _ _ _ _ h.nodup ha1
  obtain ⟨adj2, ha2⟩ := adjacency_erase_total adj1 e.n2idx_ e.n1idx_ (by rw [a1]; exact hn2)
  obtain ⟨b1, -, -, -⟩ := adjacency_erase_spec _ _ _ _ a2 ha2
  obtain ⟨g0, hg0⟩ : ∃ g0 : Graph P V E, g0 = { g with adjacency_ := adj2 } := ⟨_, rfl⟩
  have g0_addr : g0.addr = g.addr := by rw [hg0]
  have g0_nodes : g0.nodes_ = g.nodes_ := by rw [hg0]
  have g0_edges : g0.edges_ = g.edges_ := by rw [hg0]
  have g0_adj : g0.adjacency_ = adj2 := by rw [hg0]
  have hunf : remove_edge_compiled g e = remove_edge_move_last_compiled g0 e.eidx_ := by
    rw [hg0]
    unfold remove_edge_compiled
    dsimp only
    rw [hc]
    dsimp only
    have ha1' : adjacency_erase g.adjacency_ (Edge.node1 e).index_ (Edge.node2 e).index_ =
        some adj1 := ha1
    rw [ha1']
    dsimp only
    have ha2' : adjacency_erase adj1 (Edge.node2 e).index_ (Edge.node1 e).index_ =
        some adj2 := ha2
    rw [ha2']
  have hL : g.edges_.length - 1 < g.edges_.length := by omega
  obtain ⟨l, hl⟩ : ∃ l, g.edges_[g.edges_.length - 1]? = some l :=
    ⟨_, List.getElem?_eq_getElem hL⟩
  obtain ⟨hlne, n1, n2⟩ := h.edge_at _ l hl
  have hl1 := adj_mem_lt _ _ _ _ n1
  have hl2 := adj_mem_lt _ _ _ _ n2
  obtain ⟨g1, adj3, adj4, ha3, ha4, hres, f1, f2, f3, f4⟩ :=
    remove_edge_move_last_compiled_spec g0 e.eidx_ l (by rw [g0_edges]; exact helt)
      (by rw [g0_edges]; exact hl) (by rw [g0_adj, b1, a1]; exact hl1)
      (by rw [g0_adj, b1, a1]; exact hl2)
  rw [g0_adj] at ha3
  rw [g0_edges] at f3
  have hlen1 : g1.edges_.length + 1 = g.edges_.length := by
    rw [f3, List.length_dropLast, List.length_set]
    omega
  by_cases hlast : e.eidx_ + 1 = g.edges_.length
  · have hls : l = s0 := by
      have : g.edges_.length - 1 = e.eidx_ := by omega
      rw [this, hs0] at hl
      simp only [Option.some.injEq] at hl
      exact hl.symm
    have hl12 : (l.idx1 = e.n1idx_ ∧ l.idx2 = e.n2idx_) ∨
        (l.idx1 = e.n2idx_ ∧ l.idx2 = e.n1idx_) := by
      rw [hls]; exact hj0
    obtain ⟨k1, k2, k3⟩ := remove_last_edge_adj_char g.adjacency_ adj1 adj2 adj3 adj4
      e.n1idx_ e.n2idx_ l.idx1 l.idx2 e.eidx_ h.nodup hl12 ha1 ha2 ha3 ha4
    rw [← f4] at k1 k2 k3
    refine ⟨g1, hunf.trans hres, ?_, f1.trans g0_addr, f2.trans g0_nodes, hlen1, ?_⟩
    · exact inv_last_edge_removed g g1 h e.n1idx_ e.n2idx_ e.eidx_ s0 l hs0 hj0 hlast
        (f2.trans g0_nodes) f3 k1 k2 k3
    · intro u v
      constructor
      · rintro ⟨k, hm⟩
        obtain ⟨q0, q1, q2⟩ := (k3 u v k).1 hm
        exact ⟨⟨k, q0⟩, q1, q2⟩
      · rintro ⟨⟨k, hm⟩, q1, q2⟩
        exact ⟨k, (k3 u v k).2 ⟨hm, q1, q2⟩⟩
  · have hlt : e.eidx_ + 1 < g.edges_.length := by omega
    have hd1 : ¬(l.idx1 = e.n1idx_ ∧ l.idx2 = e.n2idx_) := by
      rintro ⟨c1, c2⟩
      rw [c1, c2] at n1
      have := adj_mem_unique _ h.nodup _ _ _ _ m1 n1
      omega
    have hd2 : ¬(l.idx1 = e.n2idx_ ∧ l.idx2 = e.n1idx_) := by
      rintro ⟨c1, c2⟩
      rw [c1, c2] at n1
      have := adj_mem_unique _ h.nodup _ _ _ _ m2 n1
      omega
    obtain ⟨k1, k2, k3⟩ := remove_edge_adj_char g.adjacency_ adj1 adj2 adj3 adj4 e.n1idx_
      e.n2idx_ l.idx1 l.idx2 e.eidx_ (g.edges_.length - 1) h.nodup hlne hd1 hd2 n1 n2
      ha1 ha2 ha3 ha4
    rw [← f4] at k1 k2 k3
    refine ⟨g1, hunf.trans hres, ?_, f1.trans g0_addr, f2.trans g0_nodes, hlen1, ?_⟩
    · exact inv_edge_removed g g1 h e.n1idx_ e.n2idx_ e.eidx_ s0 l hs0 hj0 hlt hl
        (f2.trans g0_nodes) f3 k1 k2 k3
    · intro u v
      constructor
      · rintro ⟨k, hm⟩
        rcases (k3 u v k).1 hm with ⟨q0, q1, q2, -, -⟩ | ⟨r1, r2, -⟩ | ⟨r1, r2, -⟩
        · exact ⟨⟨k, q0⟩, q1, q2⟩
        · rw [r1, r2]
          exact ⟨⟨_, n1⟩, hd1, hd2⟩
        · rw [r1, r2]
          exact ⟨⟨_, n2⟩, fun c => hd2 ⟨c.2, c.1⟩, fun c => hd1 ⟨c.2, c.1⟩⟩
      · rintro ⟨⟨k, hm⟩, q1, q2⟩
        by_cases c1 : u = l.idx1 ∧ v = l.idx2
        · exact ⟨e.eidx_, (k3 u v _).2 (Or.inr (Or.inl ⟨c1.1, c1.2, rfl⟩))⟩
        · by_cases c2 : u = l.idx2 ∧ v = l.idx1
          · exact ⟨e.eidx_, (k3 u v _).2 (Or.inr (Or.inr ⟨c2.1, c2.2, rfl⟩))⟩
          · exact ⟨k, (k3 u v k).2 (Or.inl ⟨hm, q1, q2, c1, c2⟩)⟩

/-! ## `hw3/Graph_2460.hpp`: the edge loop of `remove_node` as compiled -/

/-- A list without repetition that holds the members of another such list except one of
them is one shorter. -/
theorem length_of_removed (l1 l : List Nat) (x : Nat) (hnd1 : l1.Nodup) (hnd : l.Nodup)
    (hx : x ∈ l) (h : ∀ v, v ∈ l1 ↔ (v ∈ l ∧ v ≠ x)) : l1.length + 1 = l.length := by
  have hp : l1.Perm (l.erase x) := by
    refine (List.perm_ext_iff_of_nodup hnd1 (hnd.erase x)).2 ?_
    intro v
    rw [h, hnd.mem_erase_iff]
    exact And.comm
  have h1 := hp.length_eq
  have h2 := List.length_erase_of_mem hx
  have h3 := List.length_pos_of_mem hx
  omega

/-- A node without adjacency entries is adjacent to no node. -/
theorem no_pair_of_empty (g : Graph P V E) (h : Inv g) (n : Nat)
    (hl : g.adjacency_[n]? = some []) (u v : Nat) :
    (∃ k, adj_mem g.adjacency_ u v k) ↔
      ((∃ k, adj_mem g.adjacency_ u v k) ∧ u ≠ n ∧ v ≠ n) := by
  have hnone : ∀ w k, ¬ adj_mem g.adjacency_ n w k := by
    rintro w k ⟨l2, hl2, hm⟩
    rw [hl] at hl2
    simp only [Option.some.injEq] at hl2
    rw [← hl2] at hm
    cases hm
  constructor
  · rintro ⟨k, hm⟩
    refine ⟨⟨k, hm⟩, ?_, ?_⟩
    · intro hc
      rw [hc] at hm
      exact hnone _ _ hm
    · intro hc
      rw [hc] at hm
      exact hnone _ _ (adj_symm g h _ _ _ hm)
  · rintro ⟨hm, -, -⟩
    exact hm

/-- The edge loop of `remove_node` as compiled ends within as many iterations as the node
has adjacency entries: it keeps the invariant, the address and the nodes, removes one
edge per entry, leaves the adjacency list of the node empty, and every pair of other
nodes is adjacent as before. -/
theorem remove_node_loop_compiled_spec (n : Node) :
    ∀ (fuel : Nat) (g : Graph P V E) (l : List (Nat × Nat)), Inv g →
    g.adjacency_[n.index_]? = some l → l.length ≤ fuel →
    ∃ g1, remove_node_loop_compiled n fuel g = some g1 ∧ Inv g1 ∧ g1.addr = g.addr ∧
      g1.nodes_ = g.nodes_ ∧ g1.edges_.length + l.length = g.edges_.length ∧
      g1.adjacency_[n.index_]? = some [] ∧
      ∀ u v, (∃ k, adj_mem g1.adjacency_ u v k) ↔
        ((∃ k, adj_mem g.adjacency_ u v k) ∧ u ≠ n.index_ ∧ v ≠ n.index_) := by
  intro fuel
  induction fuel with
  | zero =>
    intro g l h hl hlen
    have hnil : l = [] := List.length_eq_zero.1 (by omega)
    subst hnil
    have hd := degree_eq_length_2460 g h n [] hl
    refine ⟨g, ?_, h, rfl, rfl, rfl, hl, no_pair_of_empty g h _ hl⟩
    unfold remove_node_loop_compiled
    rw [hd]
    rfl
  | succ fuel ih =>
    intro g l h hl hlen
    have hd := degree_eq_length_2460 g h n l hl
    cases l with
    | nil =>
      refine ⟨g, ?_, h, rfl, rfl, rfl, hl, no_pair_of_empty g h _ hl⟩
      unfold remove_node_loop_compiled
      rw [hd]
      rfl
    | cons p rest =>
      have hderef : IncidentIterator.deref g n.index_ 0 =
          some ⟨g.addr, p.2, n.index_, p.1⟩ := by
        unfold IncidentIterator.deref
        rw [hl]
        dsimp only
        rw [List.getElem?_cons_zero]
      have hf := deref_fresh g h _ _ _ hderef
      obtain ⟨m1, -, hne⟩ := fresh_adj g h _ hf
      simp only at m1 hne
      obtain ⟨g2, hre, hI2, f1, f2, f3, f4⟩ := remove_edge_compiled_spec g h _ hf
      simp only at f4
      have hn2 : n.index_ < g2.adjacency_.length := by
        rw [hI2.adj_len, f2, ← h.adj_len]
        exact (List.getElem?_eq_some_iff.1 hl).1
      obtain ⟨l2, hl2⟩ : ∃ l2, g2.adjacency_[n.index_]? = some l2 :=
        ⟨_, List.getElem?_eq_getElem hn2⟩
      have hkeys : ∀ v, v ∈ l2.map Prod.fst ↔ (v ∈ (p :: rest).map Prod.fst ∧ v ≠ p.1) := by
        intro v
        rw [adj_mem_key _ _ v l2 hl2, adj_mem_key _ _ v _ hl, f4]
        constructor
        · rintro ⟨q0, q1, -⟩
          exact ⟨q0, fun hc => q1 ⟨rfl, hc⟩⟩
        · rintro ⟨q0, q1⟩
          exact ⟨q0, fun hc => q1 hc.2, fun hc => hne hc.1⟩
      have hlen2 := length_of_removed _ _ p.1 (hI2.nodup _ l2 hl2) (h.nodup _ _ hl)
        (List.mem_map.2 ⟨p, List.mem_cons_self _ _, rfl⟩) hkeys
      rw [List.length_map, List.length_map] at hlen2
      simp only [List.length_cons] at hlen hlen2 hd
      obtain ⟨g1, k1, k2, k3, k4, k5, k6, k7⟩ := ih g2 l2 hI2 hl2 (by omega)
      refine ⟨g1, ?_, k2, k3.trans f1, k4.trans f2, ?_, k6, ?_⟩
      · unfold remove_node_loop_compiled
        rw [hd]
        dsimp only
        rw [if_neg (by omega), hderef]
        dsimp only
        rw [hre]
        exact k1
      · simp only [List.length_cons]
        omega
      · intro u v
        rw [k7, f4]
        constructor
        · rintro ⟨⟨q0, -, -⟩, q1, q2⟩
          exact ⟨q0, q1, q2⟩
        · rintro ⟨q0, q1, q2⟩
          exact ⟨⟨q0, fun hc => q1 hc.1, fun hc => q2 hc.2⟩, q1, q2⟩

/-! ## `hw3/Graph_2460.hpp`: `remove_node` as compiled -/

/-- The statements of `remove_node` that follow the edge loop return 1 when the adjacency
list of the removed node is empty: the node stored last is copied to `nidx`, the node
vector is popped, the number of edges is unchanged, and when `nidx` was not the last
index the adjacency list at `nidx` is the one that was at the last index. -/
theorem remove_node_storage_returns (g : Graph P V E) (h : Inv g) (nidx : Nat)
    (hn : g.adjacency_[nidx]? = some []) :
    ∃ g1 last, g.nodes_.getLast? = some last ∧ remove_node_storage g nidx = some (1, g1) ∧
      g1.nodes_ = (g.nodes_.set nidx last).dropLast ∧
      g1.edges_.length = g.edges_.length ∧
      (nidx + 1 < g.nodes_.length →
        g1.adjacency_[nidx]? = g.adjacency_[g.nodes_.length - 1]?) := by
  have hal := h.adj_len
  have hnb := h.nodes_bound
  have hnlt : nidx < g.nodes_.length := by
    rw [← hal]; exact (List.getElem?_eq_some_iff.1 hn).1
  have hsize : size g = g.nodes_.length := Graph2236.to_size_type_of_lt _ hnb
  have hpre : Graph2236.size_type_sub (size g) 1 = g.nodes_.length - 1 := by
    rw [hsize]; exact Graph2236.size_type_sub_one _ (by omega) hnb
  obtain ⟨pre_idx, hpi⟩ : ∃ pre_idx, pre_idx = g.nodes_.length - 1 := ⟨_, rfl⟩
  rw [← hpi] at hpre ⊢
  have hplt : pre_idx < g.adjacency_.length := by omega
  obtain ⟨l, hl⟩ : ∃ l, g.nodes_.getLast? = some l := by
    rw [List.getLast?_eq_getElem?]
    exact ⟨_, List.getElem?_eq_getElem (by omega)⟩
  have hunf := remove_node_storage_unfold g nidx _ l _ (List.getElem?_eq_getElem hnlt) hl
    (by rw [hpre]; exact List.getElem?_eq_getElem hplt)
  rw [hpre] at hunf
  obtain ⟨entries, hent⟩ : ∃ entries, g.adjacency_[pre_idx]? = some entries :=
    ⟨_, List.getElem?_eq_getElem hplt⟩
  have hent2 : g.adjacency_[pre_idx] = entries := by
    rw [List.getElem?_eq_getElem hplt] at hent
    simpa using hent
  rw [hent2] at hunf
  obtain ⟨g0, hg0⟩ : ∃ g0 : Graph P V E, g0 =
      { g with nodes_ := (g.nodes_.set nidx l).dropLast } := ⟨_, rfl⟩
  rw [← hg0] at hunf
  have g0_nodes : g0.nodes_ = (g.nodes_.set nidx l).dropLast := by rw [hg0]
  have g0_edges : g0.edges_ = g.edges_ := by rw [hg0]
  have g0_adj : g0.adjacency_ = g.adjacency_ := by rw [hg0]
  have hfin : ∀ (g2 : Graph P V E), relabel_loop nidx pre_idx entries g0 = some g2 →
      g2.nodes_ = g0.nodes_ → g2.edges_.length = g0.edges_.length →
      (nidx < pre_idx → g2.adjacency_[nidx]? = some entries) →
      ∃ g1 last, g.nodes_.getLast? = some last ∧ remove_node_storage g nidx = some (1, g1) ∧
        g1.nodes_ = (g.nodes_.set nidx last).dropLast ∧
        g1.edges_.length = g.edges_.length ∧
        (nidx + 1 < g.nodes_.length → g1.adjacency_[nidx]? = g.adjacency_[pre_idx]?) := by
    intro g2 hloop k2 k3 k4
    obtain ⟨g3, hg3⟩ : ∃ g3 : Graph P V E, g3 =
        { g2 with adjacency_ := g2.adjacency_.eraseIdx pre_idx } := ⟨_, rfl⟩
    have g3_nodes : g3.nodes_ = g2.nodes_ := by rw [hg3]
    have g3_edges : g3.edges_ = g2.edges_ := by rw [hg3]
    have g3_adj : g3.adjacency_ = g2.adjacency_.eraseIdx pre_idx := by rw [hg3]
    refine ⟨g3, l, hl, ?_, by rw [g3_nodes, k2, g0_nodes], by rw [g3_edges, k3, g0_edges], ?_⟩
    · rw [hunf, hloop, hg3]
    · intro hlt
      have hlt2 : nidx < pre_idx := by omega
      rw [g3_adj, List.getElem?_eraseIdx, if_pos hlt2, k4 hlt2, hent]
  by_cases hcase : nidx = pre_idx
  · have hnil : entries = [] := by
      rw [← hcase, hn] at hent
      simp only [Option.some.injEq] at hent
      exact hent.symm
    have hloop : relabel_loop nidx pre_idx entries g0 = some g0 := by
      rw [hnil]; rfl
    exact hfin g0 hloop rfl rfl (fun hc => by omega)
  · have hlt : nidx < pre_idx := by omega
    have hinit := relabel_inv_init g g0 h nidx pre_idx entries g0_adj g0_edges (by omega) hlt
      hn hent
    obtain ⟨g2, k1, k2, -, k4, k5⟩ := relabel_loop_spec nidx pre_idx entries [] g0 hinit
    refine hfin g2 k1 k4 k5 (fun _ => ?_)
    have := k2.nidx_list
    rw [List.nil_append] at this
    exact this

/-- The method `remove_node(n)` as compiled, on a freshly obtained handle in a state that
satisfies the invariant: the call returns 1 and leaves a state that satisfies the
invariant; the node stored last is copied to the index of `n` and the node vector is
popped, one edge is removed per adjacency entry of `n`, and when `n` was not stored last
the node now at its index is adjacent to the nodes that the last node was adjacent
to. -/
theorem remove_node_compiled_spec (g : Graph P V E) (h : Inv g) (n : Node)
    (hf : Node.fresh g n) :
    ∃ g1 l last, g.adjacency_[n.index_]? = some l ∧ g.nodes_.getLast? = some last ∧
      remove_node_compiled g n = some (1, g1) ∧ Inv g1 ∧ g1.addr = g.addr ∧
      g1.nodes_ = (g.nodes_.set n.index_ last).dropLast ∧
      g1.edges_.length + l.length = g.edges_.length ∧
      (n.index_ + 1 < g.nodes_.length → ∀ v, v ≠ n.index_ →
        ((∃ k, adj_mem g1.adjacency_ n.index_ v k) ↔
          (∃ k, adj_mem g.adjacency_ (g.nodes_.length - 1) v k))) := by
  obtain ⟨hg, hlt⟩ := hf
  obtain ⟨l, hl⟩ : ∃ l, g.adjacency_[n.index_]? = some l :=
    ⟨_, List.getElem?_eq_getElem (by rw [h.adj_len]; exact hlt)⟩
  have hd := degree_eq_length_2460 g h n l hl
  obtain ⟨g2, k1, k2, k3, k4, k5, k6, k7⟩ :=
    remove_node_loop_compiled_spec n l.length g l h hl (Nat.le_refl _)
  obtain ⟨g1, last, s1, s2, s3, s4, s5⟩ := remove_node_storage_returns g2 k2 n.index_ k6
  obtain ⟨i1, i2, -⟩ := inv_remove_node_storage g2 g1 k2 n.index_ k6 1 s2
  rw [k4] at s1 s3 s5
  refine ⟨g1, l, last, hl, s1, ?_, i1, i2.trans k3, s3, by rw [s4]; exact k5, ?_⟩
  · unfold remove_node_compiled
    have hh : has_node g n = true := by
      unfold has_node
      rw [if_pos hg]
    rw [hh]
    simp only [Bool.not_true, Bool.false_eq_true, if_false]
    rw [hd]
    dsimp only
    rw [k1]
    exact s2
  · intro hnl v hv
    have hadj := s5 hnl
    have hiff : ∀ k, adj_mem g1.adjacency_ n.index_ v k ↔
        adj_mem g2.adjacency_ (g.nodes_.length - 1) v k := by
      intro k
      unfold adj_mem
      rw [hadj]
    constructor
    · rintro ⟨k, hm⟩
      exact ((k7 _ _).1 ⟨k, (hiff k).1 hm⟩).1
    · intro hm
      obtain ⟨k, hk⟩ := (k7 _ _).2 ⟨hm, by omega, hv⟩
      exact ⟨k, (hiff k).2 hk⟩

/-- Wherever `remove_edge(n1, n2)` with a checked read has a result, the compiled one has
the same result. -/
theorem remove_edge_nodes_compiled_of_checked (g : Graph P V E) (a b : Node)
    (r : Nat × Graph P V E) (h : remove_edge_nodes g a b = some r) :
    remove_edge_nodes_compiled g a b = some r := by
  unfold remove_edge_nodes at h
  unfold remove_edge_nodes_compiled
  cases hl : g.adjacency_[a.index_]? with
  | none => rw [hl] at h; cases h
  | some l =>
    rw [hl] at h
    dsimp only at h ⊢
    cases hp : l.find? (fun p => decide (p.1 = b.index_)) with
    | none => rw [hp] at h; exact h
    | some p =>
      rw [hp] at h
      exact remove_edge_compiled_of_checked _ _ _ h

/-- Wherever the edge loop of `remove_node` with a checked read has a result, the compiled
one has the same result. -/
theorem remove_node_loop_compiled_of_checked (n : Node) :
    ∀ (fuel : Nat) (g g1 : Graph P V E), remove_node_loop n fuel g = some g1 →
    remove_node_loop_compiled n fuel g = some g1 := by
  intro fuel
  induction fuel with
  | zero =>
    intro g g1 h
    unfold remove_node_loop at h
    unfold remove_node_loop_compiled
    exact h
  | succ fuel ih =>
    intro g g1 h
    unfold remove_node_loop at h
    unfold remove_node_loop_compiled
    cases hd : Node.degree g n with
    | none => rw [hd] at h; cases h
    | some d =>
      rw [hd] at h
      dsimp only at h ⊢
      by_cases hd0 : d = 0
      · rw [if_pos hd0] at h ⊢
        exact h
      · rw [if_neg hd0] at h ⊢
        cases he : IncidentIterator.deref g n.index_ 0 with
        | none => rw [he] at h; cases h
        | some e =>
          rw [he] at h
          dsimp only at h ⊢
          cases hre : remove_edge g e with
          | none => rw [hre] at h; cases h
          | some r =>
            rw [hre] at h
            dsimp only at h
            rw [remove_edge_compiled_of_checked g e r hre]
            exact ih _ _ h

/-- Wherever `remove_node` with a checked read has a result, the compiled one has the
same result. -/
theorem remove_node_compiled_of_checked (g : Graph P V E) (n : Node) (r : Nat × Graph P V E)
    (h : remove_node g n = some r) : remove_node_compiled g n = some r := by
  unfold remove_node at h
  unfold remove_node_compiled
  dsimp only at h ⊢
  by_cases hh : has_node g n = true
  · rw [hh] at h ⊢
    simp only [Bool.not_true, Bool.false_eq_true, if_false] at h ⊢
    cases hd : Node.degree g n with
    | none => rw [hd] at h; cases h
    | some d =>
      rw [hd] at h
      dsimp only at h ⊢
      cases hloop : remove_node_loop n d g with
      | none => rw [hloop] at h; cases h
      | some g2 =>
        rw [hloop] at h
        dsimp only at h
        rw [remove_node_loop_compiled_of_checked n d g g2 hloop]
        exact h
  · have hf : has_node g n = false := by
      cases hb : has_node g n
      · rfl
      · exact absurd hb hh
    rw [hf] at h ⊢
    exact h

/-! ## `hw3/Graph_2460.hpp`: the reachable states -/

/-- The method `remove_edge(const Edge&)` as compiled keeps the invariant. -/
theorem inv_remove_edge_compiled (g g1 : Graph P V E) (h : Inv g) (e : Edge)
    (hf : Edge.fresh g e) (r : Nat) (hr : remove_edge_compiled g e = some (r, g1)) :
    Inv g1 ∧ r = 1 := by
  obtain ⟨g2, h2, h3, -⟩ := remove_edge_compiled_spec g h e hf
  rw [h2] at hr
  simp only [Option.some.injEq, Prod.mk.injEq] at hr
  obtain ⟨hr1, hr2⟩ := hr
  subst hr2
  exact ⟨h3, hr1.symm⟩

/-- The method `remove_edge(const Node&, const Node&)` as compiled keeps the invariant. -/
theorem inv_remove_edge_nodes_compiled (g g1 : Graph P V E) (h : Inv g) (a b : Node) (r : Nat)
    (hr : remove_edge_nodes_compiled g a b = some (r, g1)) : Inv g1 := by
  unfold remove_edge_nodes_compiled at hr
  split at hr
  · cases hr
  · rename_i l hl
    split at hr
    · simp only [Option.some.injEq, Prod.mk.injEq] at hr
      rw [← hr.2]
      exact h
    · rename_i p hp
      have hmem := List.mem_of_find?_eq_some hp
      have hpk := List.find?_some hp
      simp only [decide_eq_true_eq] at hpk
      have hm : adj_mem g.adjacency_ a.index_ b.index_ p.2 := by
        refine ⟨l, hl, ?_⟩
        rw [← hpk]; exact hmem
      obtain ⟨s, hs, hj⟩ := h.adj_at _ _ _ hm
      have hf : Edge.fresh g ⟨g.addr, p.2, a.index_, b.index_⟩ := ⟨rfl, s, hs, hj⟩
      exact (inv_remove_edge_compiled g g1 h _ hf r hr).1

/-- The method `remove_node` as compiled keeps the invariant. -/
theorem inv_remove_node_compiled (g g1 : Graph P V E) (h : Inv g) (n : Node)
    (hf : Node.fresh g n) (r : Nat) (hr : remove_node_compiled g n = some (r, g1)) :
    Inv g1 ∧ r = 1 := by
  obtain ⟨g2, l, last, -, -, h2, h3, -⟩ := remove_node_compiled_spec g h n hf
  rw [h2] at hr
  simp only [Option.some.injEq, Prod.mk.injEq] at hr
  obtain ⟨hr1, hr2⟩ := hr
  subst hr2
  exact ⟨h3, hr1.symm⟩

/-- Every state reachable with freshly obtained handles satisfies the invariant. -/
theorem inv_of_reachable_2460 (g : Graph P V E) (h : Reachable g) : Inv g := by
  induction h with
  | empty addr => exact inv_empty_2460 addr
  | add_node p v _ hb ih => exact inv_add_node_2460 _ ih p v hb
  | add_edge a b v e _ hb ha hbf hne hr ih =>
    refine inv_add_edge_2460 _ _ ih a b v e ?_ hb hr
    intro hc
    apply hne
    obtain ⟨a1, a2⟩ := a
    obtain ⟨b1, b2⟩ := b
    have h1 : a1 = b1 := ha.1.trans hbf.1.symm
    simp only at hc
    rw [h1, hc]
  | remove_edge e r _ hf hr ih => exact (inv_remove_edge_compiled _ _ ih e hf r hr).1
  | remove_edge_nodes a b r _ _ _ hr ih => exact inv_remove_edge_nodes_compiled _ _ ih a b r hr
  | remove_node n r _ hf hr ih => exact (inv_remove_node_compiled _ _ ih n hf r hr).1

/-! ## `hw3/Graph_2460.hpp`: the adjacency lists and the edge storage -/

theorem nodes_reachable_2460 : Reachable ex_nodes :=
  Reachable.add_node () 13 (Reachable.add_node () 12 (Reachable.add_node () 11
    (Reachable.add_node () 10 (Reachable.empty 0) (by decide)) (by decide)) (by decide))
    (by decide)

theorem one_edge_reachable_2460 : Reachable ex_one_edge :=
  @Reachable.add_edge _ _ _ (add_node (add_node (Graph.empty 0) () 10).2 () 11).2 ex_one_edge
    ⟨0, 0⟩ ⟨0, 1⟩ 5 ⟨0, 0, 0, 1⟩
    (Reachable.add_node () 11 (Reachable.add_node () 10 (Reachable.empty 0) (by decide))
      (by decide))
    (by decide) ⟨rfl, by decide⟩ ⟨rfl, by decide⟩ (by decide) (by decide)

theorem first_edge_reachable_2460 :
    Reachable (state_after ex_nodes (add_edge ex_nodes ⟨0, 0⟩ ⟨0, 1⟩ 5)) :=
  @Reachable.add_edge _ _ _ ex_nodes (state_after ex_nodes (add_edge ex_nodes ⟨0, 0⟩ ⟨0, 1⟩ 5))
    ⟨0, 0⟩ ⟨0, 1⟩ 5 ⟨0, 0, 0, 1⟩ nodes_reachable_2460 (by decide) ⟨rfl, by decide⟩
    ⟨rfl, by decide⟩ (by decide) (by decide)

theorem two_edges_reachable_2460 : Reachable ex_two_edges :=
  @Reachable.add_edge _ _ _ (state_after ex_nodes (add_edge ex_nodes ⟨0, 0⟩ ⟨0, 1⟩ 5))
    ex_two_edges ⟨0, 2⟩ ⟨0, 3⟩ 6 ⟨0, 1, 2, 3⟩ first_edge_reachable_2460
    (by decide) ⟨rfl, by decide⟩ ⟨rfl, by decide⟩ (by decide) (by decide)

theorem removed_reachable_2460 : Reachable ex_removed :=
  @Reachable.remove_node _ _ _ ex_two_edges ex_removed ⟨0, 0⟩ 1 two_edges_reachable_2460
    ⟨rfl, by decide⟩ (by decide)

theorem chain_reachable_2460 : Reachable ex_chain :=
  @Reachable.add_edge _ _ _
    (state_after (state_after ex_nodes (add_edge ex_nodes ⟨0, 0⟩ ⟨0, 1⟩ 5))
      (add_edge (state_after ex_nodes (add_edge ex_nodes ⟨0, 0⟩ ⟨0, 1⟩ 5)) ⟨0, 1⟩ ⟨0, 2⟩ 6))
    ex_chain ⟨0, 2⟩ ⟨0, 3⟩ 7 ⟨0, 2, 2, 3⟩
    (@Reachable.add_edge _ _ _ (state_after ex_nodes (add_edge ex_nodes ⟨0, 0⟩ ⟨0, 1⟩ 5))
      (state_after (state_after ex_nodes (add_edge ex_nodes ⟨0, 0⟩ ⟨0, 1⟩ 5))
        (add_edge (state_after ex_nodes (add_edge ex_nodes ⟨0, 0⟩ ⟨0, 1⟩ 5)) ⟨0, 1⟩ ⟨0, 2⟩ 6))
      ⟨0, 1⟩ ⟨0, 2⟩ 6 ⟨0, 1, 1, 2⟩ first_edge_reachable_2460 (by decide) ⟨rfl, by decide⟩
      ⟨rfl, by decide⟩ (by decide) (by decide))
    (by decide) ⟨rfl, by decide⟩ ⟨rfl, by decide⟩ (by decide) (by decide)

theorem edge_removed_reachable_2460 : Reachable ex_edge_removed :=
  @Reachable.remove_edge _ _ _ ex_one_edge ex_edge_removed ⟨0, 0, 0, 1⟩ 1
    one_edge_reachable_2460 ⟨rfl, ⟨0, 1, 5⟩, by decide, by decide⟩ (by decide)

/-- The three-node scenario as compiled: with the edges n0 - n1 and n1 - n2,
`remove_node(n1)` returns 1 and leaves two nodes and no edge; the second `remove_edge` of
its loop removes the edge stored last. -/
theorem remove_middle_node_of_path :
    remove_node_compiled ex_path ⟨0, 1⟩ = some (1, ex_middle_removed) ∧
    num_nodes ex_path = 3 ∧ num_edges ex_path = 2 ∧
    num_nodes ex_middle_removed = 2 ∧ num_edges ex_middle_removed = 0 ∧
    remove_node ex_path ⟨0, 1⟩ = none :=
  ⟨by decide, by decide, by decide, by decide, by decide, by decide⟩

/-- C38: in `hw3/Graph_2460.hpp` `remove_edge(e)` on the edge stored at the last index
reads `edges_` out of bounds. In the reachable state with two nodes and the edge
`e = edge(0)` between them, `e` is stored at the last index `num_edges() - 1 == 0`; the
call erases the two adjacency entries, executes `edges_[0] = edges_.back()` and
`edges_.pop_back()`, which leaves `edges_` empty, and then reads `edges_[0]`: the access
is at `edges_.size()`, and the call has no result. -/
theorem C38_remove_last_edge_out_of_bounds :
    Reachable ex_one_edge ∧ num_edges ex_one_edge = 1 ∧
    edge ex_one_edge (num_edges ex_one_edge - 1) = some ⟨0, 0, 0, 1⟩ ∧
    has_edge ex_one_edge ⟨0, 0⟩ ⟨0, 1⟩ = some true ∧
    ex_one_edge.edges_ = [⟨0, 1, 5⟩] ∧
    ((ex_one_edge.edges_.set 0 ⟨0, 1, 5⟩).dropLast).length = 0 ∧
    ((ex_one_edge.edges_.set 0 ⟨0, 1, 5⟩).dropLast)[0]? = none ∧
    remove_edge ex_one_edge ⟨0, 0, 0, 1⟩ = none :=
  ⟨one_edge_reachable_2460, by decide, by decide, by decide, by decide, by decide, by decide,
    by decide⟩

/-- C24: in `hw3/Graph_2460.hpp`, for every reachable graph and live node `n` (a handle of
the graph with `n.index() < num_nodes()`), with `d = n.degree()`: `remove_node(n)`, run
as compiled, returns 1, `num_nodes()` goes down by 1 and `num_edges()` by `d`; and when
`n` was not stored at the last index, the node at the index of `n` afterwards has the
position and the value that the node at the last index had before, and it is adjacent
to a node of any other index exactly when that node was. -/
theorem C24_remove_node_moves_last_node (g : Graph P V E) (h : Reachable g) (n : Node)
    (hn : Node.fresh g n) :
    ∃ g1 d, Node.degree g n = some d ∧ remove_node_compiled g n = some (1, g1) ∧
      num_nodes g1 + 1 = num_nodes g ∧ num_edges g1 + d = num_edges g ∧
      (Node.index n + 1 < num_nodes g →
        (∃ p, Node.position g (node g (num_nodes g - 1)) = some p ∧
          Node.position g1 (node g1 (Node.index n)) = some p) ∧
        (∃ x, Node.value g (node g (num_nodes g - 1)) = some x ∧
          Node.value g1 (node g1 (Node.index n)) = some x) ∧
        ∀ v, v ≠ Node.index n →
          ∃ c, has_edge g (node g (num_nodes g - 1)) (node g v) = some c ∧
            has_edge g1 (node g1 (Node.index n)) (node g1 v) = some c) := by
  have hI := inv_of_reachable_2460 g h
  obtain ⟨g1, l, last, hl, hlast, hr, hI1, haddr, hnodes, hedges, hadj⟩ :=
    remove_node_compiled_spec g hI n hn
  have hlt := hn.2
  have hnn : num_nodes g = g.nodes_.length := Graph2236.to_size_type_of_lt _ hI.nodes_bound
  have hnn1 : num_nodes g1 = g1.nodes_.length :=
    Graph2236.to_size_type_of_lt _ hI1.nodes_bound
  have hne : num_edges g = g.edges_.length := Graph2236.to_size_type_of_lt _ hI.edges_bound
  have hne1 : num_edges g1 = g1.edges_.length :=
    Graph2236.to_size_type_of_lt _ hI1.edges_bound
  have hlen1 : g1.nodes_.length + 1 = g.nodes_.length := by
    rw [hnodes, List.length_dropLast, List.length_set]
    omega
  refine ⟨g1, l.length, degree_eq_length_2460 g hI n l hl, hr, by omega, by omega, ?_⟩
  intro hnl
  rw [hnn] at hnl ⊢
  have hidx : Node.index n = n.index_ := rfl
  rw [hidx] at hnl ⊢
  have hold : g.nodes_[g.nodes_.length - 1]? = some last := by
    rw [← List.getLast?_eq_getElem?]; exact hlast
  have hnew : g1.nodes_[n.index_]? = some last := by
    rw [hnodes, getElem?_set_dropLast_any, if_pos (by omega), if_pos rfl]
  refine ⟨⟨last.position, ?_, ?_⟩, ⟨last.value, ?_, ?_⟩, ?_⟩
  · unfold Node.position node
    dsimp only
    rw [hold]; rfl
  · unfold Node.position node
    dsimp only
    rw [hnew]; rfl
  · unfold Node.value node
    dsimp only
    rw [hold]; rfl
  · unfold Node.value node
    dsimp only
    rw [hnew]; rfl
  · intro v hv
    obtain ⟨c, hc⟩ := has_edge_total g (node g (g.nodes_.length - 1)) (node g v)
      (by rw [hI.adj_len]; exact Nat.sub_lt (by omega) (by omega))
    obtain ⟨c1, hc1⟩ := has_edge_total g1 (node g1 n.index_) (node g1 v)
      (by rw [hI1.adj_len]; unfold node; dsimp only; omega)
    have e := has_edge_spec g _ _ c hc
    have e1 := has_edge_spec g1 _ _ c1 hc1
    have hiff := hadj hnl v hv
    have hcc : c1 = c := by
      rw [Bool.eq_iff_iff, e1, e]
      exact hiff
    rw [hcc] at hc1
    exact ⟨c, hc, hc1⟩

theorem C24_remove_node_moves_last_node_witness :
    (Reachable ex_chain ∧ Node.fresh ex_chain ⟨0, 1⟩) ∧
    ∃ g1 d, Node.degree ex_chain ⟨0, 1⟩ = some d ∧
      remove_node_compiled ex_chain ⟨0, 1⟩ = some (1, g1) ∧
      num_nodes g1 + 1 = num_nodes ex_chain ∧ num_edges g1 + d = num_edges ex_chain ∧
      (Node.index ⟨0, 1⟩ + 1 < num_nodes ex_chain →
        (∃ p, Node.position ex_chain (node ex_chain (num_nodes ex_chain - 1)) = some p ∧
          Node.position g1 (node g1 (Node.index ⟨0, 1⟩)) = some p) ∧
        (∃ x, Node.value ex_chain (node ex_chain (num_nodes ex_chain - 1)) = some x ∧
          Node.value g1 (node g1 (Node.index ⟨0, 1⟩)) = some x) ∧
        ∀ v, v ≠ Node.index ⟨0, 1⟩ →
          ∃ c, has_edge ex_chain (node ex_chain (num_nodes ex_chain - 1)) (node ex_chain v) =
              some c ∧
            has_edge g1 (node g1 (Node.index ⟨0, 1⟩)) (node g1 v) = some c) :=
  ⟨⟨chain_reachable_2460, ⟨rfl, by decide⟩⟩,
    C24_remove_node_moves_last_node ex_chain chain_reachable_2460 ⟨0, 1⟩ ⟨rfl, by decide⟩⟩

end Graph2460
